import Mathlib

/-!
# Dual-contour meshing pass of `interface/src/MetavoxelSystem.cpp`

A shallow embedding of `VoxelAugmentVisitor::visit` and the helpers it uses.

* `QRgb` words, grid bytes and indices are natural numbers; a `QRgb` is reduced
  modulo `2^32` where the source shifts it.
* `char` is the signed 8-bit type of the x86 ABIs the interface is built for; a
  `char` value is an integer in `-128..127`.
* `float` is modelled by exact arithmetic in a linearly ordered field `K` with a
  floor function; the library calls that leave the field (`glm::atan`, `glm::sin`,
  `glm::cos`, `sqrt`) and the declarations that live outside the translated files
  (`VoxelHermiteData::EDGE_COUNT`, `unpackNormal`) are the fields of `Externals`.
* Undefined behaviour of the source (integer division by zero, a write past the end of
  `normals`, a read of the uninitialised `lastIndex`) is an explicit `Fault`.
-/

namespace MetavoxelSystem

/-! ## Vectors -/

/-- Three floats, as in `glm::vec3`. -/
structure Vec3 (K : Type) where
  x : K
  y : K
  z : K
deriving DecidableEq

namespace Vec3

variable {K : Type} [LinearOrderedField K]

/-- The zero vector, which is what the default constructor of `glm::vec3` gives. -/
def zero : Vec3 K := ⟨0, 0, 0⟩

/-- Componentwise sum. -/
def add (a b : Vec3 K) : Vec3 K := ⟨a.x + b.x, a.y + b.y, a.z + b.z⟩

/-- Componentwise difference. -/
def sub (a b : Vec3 K) : Vec3 K := ⟨a.x - b.x, a.y - b.y, a.z - b.z⟩

/-- Negation. -/
def neg (a : Vec3 K) : Vec3 K := ⟨-a.x, -a.y, -a.z⟩

/-- Vector times scalar. -/
def scale (a : Vec3 K) (s : K) : Vec3 K := ⟨a.x * s, a.y * s, a.z * s⟩

/-- Vector divided by scalar. -/
def divide (a : Vec3 K) (s : K) : Vec3 K := ⟨a.x / s, a.y / s, a.z / s⟩

/-- Inner product, as in `glm::dot`. -/
def dot (a b : Vec3 K) : K := a.x * b.x + a.y * b.y + a.z * b.z

/-- Vector product, as in `glm::cross`. -/
def cross (a b : Vec3 K) : Vec3 K :=
  ⟨a.y * b.z - b.y * a.z, a.z * b.x - b.z * a.x, a.x * b.y - b.x * a.y⟩

/-- Componentwise clamp, as in `glm::clamp (v, lo, hi)`. -/
def clamp (a : Vec3 K) (lo hi : K) : Vec3 K :=
  ⟨min (max a.x lo) hi, min (max a.y lo) hi, min (max a.z lo) hi⟩

/-- The point lies in the closed unit cube. -/
def InUnitCube (a : Vec3 K) : Prop :=
  (0 ≤ a.x ∧ a.x ≤ 1) ∧ (0 ≤ a.y ∧ a.y ≤ 1) ∧ (0 ≤ a.z ∧ a.z ≤ 1)

instance (a : Vec3 K) : Decidable (InUnitCube a) := by
  unfold InUnitCube
  infer_instance

end Vec3

/-! ## Constants and `QRgb` words -/

/-- Line 192: `static const int EIGHT_BIT_MAXIMUM = 255`. -/
def EIGHT_BIT_MAXIMUM : Nat := 255

/-- Line 193: `EIGHT_BIT_MAXIMUM_RECIPROCAL = 1.0f / EIGHT_BIT_MAXIMUM`. -/
def EIGHT_BIT_MAXIMUM_RECIPROCAL {K : Type} [LinearOrderedField K] : K := 1 / (EIGHT_BIT_MAXIMUM : K)

/-- Line 1304. -/
def MAX_NORMALS_PER_VERTEX : Nat := 4

/-- Line 1629. -/
def MAX_MATERIALS_PER_VERTEX : Nat := 4

/-- Line 1383. -/
def EDGES_PER_CUBE : Nat := 12

/-- Line 1388. -/
def ALPHA_OFFSET : Nat := 24

/-- The expression `value >> ALPHA_OFFSET` on a 32-bit `QRgb`. -/
def alphaOf (value : Nat) : Nat := (value % 2 ^ 32) / 2 ^ ALPHA_OFFSET

/-- Qt: `qAlpha (rgb)` is `rgb >> 24`. -/
def qAlpha (rgb : Nat) : Nat := (rgb % 2 ^ 32) / 2 ^ 24

/-- Qt: `qRed (rgb)` is `(rgb >> 16) & 0xff`. -/
def qRed (rgb : Nat) : Nat := (rgb / 2 ^ 16) % 256

/-- Qt: `qGreen (rgb)` is `(rgb >> 8) & 0xff`. -/
def qGreen (rgb : Nat) : Nat := (rgb / 2 ^ 8) % 256

/-- Qt: `qBlue (rgb)` is `rgb & 0xff`. -/
def qBlue (rgb : Nat) : Nat := rgb % 256

/-- Qt: `qRgb (r, g, b)` is `0xff000000 | (r & 0xff) << 16 | (g & 0xff) << 8 | (b & 0xff)`;
it builds the `VoxelCoord` keys of the corner multimap. -/
def qRgb (r g b : Nat) : Nat := 0xff000000 + (r % 256) * 2 ^ 16 + (g % 256) * 2 ^ 8 + b % 256

/-- A byte of the material grid read through `const char*`: the signed value. -/
def toChar (byte : Nat) : Int :=
  if byte % 256 < 128 then ((byte % 256 : Nat) : Int) else ((byte % 256 : Nat) : Int) - 256

/-- Conversion of a `char` to `quint8`: the value modulo 256. -/
def toQuint8 (c : Int) : Nat := (c % 256).toNat

/-- Conversion of a float to an integer type: truncation toward zero. -/
def truncate {K : Type} [LinearOrderedField K] [FloorRing K] (v : K) : Int :=
  if 0 ≤ v then Int.floor v else Int.ceil v

/-! ## Inputs -/

/-- The three grids of one leaf: `color->getContents ()` and `color->getSize ()`,
`hermite->getContents ()` and `hermite->getSize ()`, and the contents of `material`
when that pointer is not null. -/
structure Block where
  size : Nat
  colorContents : List Nat
  hermiteSize : Nat
  hermiteContents : List Nat
  materialContents : Option (List Nat)

/-- The fields `minimum` and `size` of `MetavoxelInfo`. -/
structure MetavoxelInfo (K : Type) where
  minimum : Vec3 K
  size : K

/-- What `visit` takes from outside the translated files, and `round`, the rounding of
the result of an operation to a `float`: the identity when the arithmetic is exact, the
rounding of IEEE 754 binary32 in `binary32Externals`. It is applied to the operations of
lines 1386-1387 and 1749, which place the vertex of a cell in the world. -/
structure Externals (K : Type) where
  EDGE_COUNT : Nat
  unpackNormal : Nat → Vec3 K
  atan : K → K → K
  sin : K → K
  cos : K → K
  sqrt : K → K
  pi : K
  displayHermite : Bool
  round : K → K

namespace Block

/-- Line 1358. -/
def area (b : Block) : Nat := b.size * b.size

/-- Line 1363. -/
def offset3 (b : Block) : Nat := b.size + 1

/-- Line 1364. -/
def offset5 (b : Block) : Nat := b.area + 1

/-- Line 1365. -/
def offset6 (b : Block) : Nat := b.area + b.size

/-- Line 1366. -/
def offset7 (b : Block) : Nat := b.area + b.size + 1

/-- Line 1377. -/
def expanded (b : Block) : Nat := b.size + 1

/-- Line 1370. -/
def hermiteStride (b : Block) (EDGE_COUNT : Nat) : Nat := b.hermiteSize * EDGE_COUNT

/-- Line 1371. -/
def hermiteArea (b : Block) (EDGE_COUNT : Nat) : Nat := b.hermiteStride EDGE_COUNT * b.hermiteSize

/-- The read `colorX[offset]`, with `colorX` an index into the colour contents. -/
def colorAt (b : Block) (colorX offset : Nat) : Nat := b.colorContents.getD (colorX + offset) 0

/-- The read `hermiteBase[offset]`. -/
def hermiteAt (b : Block) (hermiteBase offset : Nat) : Nat :=
  b.hermiteContents.getD (hermiteBase + offset) 0

/-- The expression `materialBase ? materialBase[offset] : 0`, a `char`. -/
def materialAt (b : Block) (materialBase offset : Nat) : Int :=
  match b.materialContents with
  | some contents => toChar (contents.getD (materialBase + offset) 0)
  | none => 0

end Block

/-- Lines 1403-1405: `bool middleX = (x != 0 && x != size)`. -/
def middle (coord size : Nat) : Bool := coord != 0 && coord != size

/-- Line 1449: `qMax (x - 1, 0)`; the subtraction on naturals stops at zero. -/
def clamped (coord : Nat) : Nat := max (coord - 1) 0

/-! ## Grid sampler (lines 1396-1446) -/

/-- The locals `alpha0` .. `alpha7`, `alphaTotal` and `possibleTotal` as they stand at
line 1441. -/
structure Alphas where
  alpha0 : Nat
  alpha1 : Nat
  alpha2 : Nat
  alpha3 : Nat
  alpha4 : Nat
  alpha5 : Nat
  alpha6 : Nat
  alpha7 : Nat
  alphaTotal : Nat
  possibleTotal : Nat

/-- Lines 1396-1440. Each `alphaN` keeps the value it is initialised with unless the
branch that reads its corner runs. -/
def sampleAlphas (b : Block) (colorX x y z : Nat) : Alphas :=
  let middleX := middle x b.size
  let middleY := middle y b.size
  let middleZ := middle z b.size
  let alpha0 := alphaOf (b.colorAt colorX 0)
  let alpha4 := if middleZ then alphaOf (b.colorAt colorX b.area) else alpha0
  let alpha2 := if middleY then alphaOf (b.colorAt colorX b.size) else alpha0
  let alpha6 := if middleY && middleZ then alphaOf (b.colorAt colorX b.offset6) else alpha4
  let alpha1 := if middleX then alphaOf (b.colorAt colorX 1) else alpha0
  let alpha3 := if middleX && middleY then alphaOf (b.colorAt colorX b.offset3) else alpha2
  let alpha7 := if middleX && middleY && middleZ then alphaOf (b.colorAt colorX b.offset7)
    else alpha6
  let alpha5 := if middleX && middleZ then alphaOf (b.colorAt colorX b.offset5) else alpha4
  { alpha0 := alpha0, alpha1 := alpha1, alpha2 := alpha2, alpha3 := alpha3,
    alpha4 := alpha4, alpha5 := alpha5, alpha6 := alpha6, alpha7 := alpha7,
    alphaTotal := alpha0
      + (if middleZ then alpha4 else 0)
      + (if middleY then alpha2 + (if middleZ then alpha6 else 0) else 0)
      + (if middleX then alpha1
          + (if middleY then alpha3 + (if middleZ then alpha7 else 0) else 0)
          + (if middleZ then alpha5 else 0) else 0),
    possibleTotal := EIGHT_BIT_MAXIMUM
      + (if middleZ then EIGHT_BIT_MAXIMUM else 0)
      + (if middleY then EIGHT_BIT_MAXIMUM + (if middleZ then EIGHT_BIT_MAXIMUM else 0) else 0)
      + (if middleX then EIGHT_BIT_MAXIMUM
          + (if middleY then EIGHT_BIT_MAXIMUM + (if middleZ then EIGHT_BIT_MAXIMUM else 0)
              else 0)
          + (if middleZ then EIGHT_BIT_MAXIMUM else 0) else 0) }

/-- Line 1441: the cell is skipped. -/
def Alphas.uniform (a : Alphas) : Bool := a.alphaTotal == 0 || a.alphaTotal == a.possibleTotal

/-! ## Edge crossing extractor (lines 1447-1622) -/

/-- The class `EdgeCrossing` of lines 1296-1302. The field `hermite` is not in the source
class: it keeps the local `QRgb hermite` of the branch that filled the crossing, from
which `normal` and `point` are computed. -/
structure EdgeCrossing (K : Type) where
  point : Vec3 K
  normal : Vec3 K
  color : Nat
  material : Int
  hermite : Nat

/-- Lines 1450-1451: the index of `hermiteBase` in the Hermite contents. -/
def hermiteBase (EDGE_COUNT : Nat) (b : Block) (x y z : Nat) : Nat :=
  clamped z * b.hermiteArea EDGE_COUNT + clamped y * b.hermiteStride EDGE_COUNT
    + clamped x * EDGE_COUNT

/-- Lines 1452-1453: the index of `materialBase` in the material contents. -/
def materialBase (b : Block) (x y z : Nat) : Nat :=
  clamped z * b.area + clamped y * b.size + clamped x

section Extract

variable {K : Type} [LinearOrderedField K]

/-- The body shared by the twelve branches of lines 1455-1622, e.g. lines 1457-1467:
`hermite = hermiteBase[hermiteOffset]`, the normal is unpacked from it, colour and material
are read at `emptyOffset` when `alphaLow == 0` and at `solidOffset` otherwise, and the
point is `place (qAlpha (hermite) * EIGHT_BIT_MAXIMUM_RECIPROCAL)`. -/
def recordCrossing (E : Externals K) (b : Block) (colorX x y z : Nat) (hermiteOffset : Nat)
    (alphaLow emptyOffset solidOffset : Nat) (place : K → Vec3 K) : EdgeCrossing K :=
  let hermite := b.hermiteAt (hermiteBase E.EDGE_COUNT b x y z) hermiteOffset
  { hermite := hermite
    normal := E.unpackNormal hermite
    color := if alphaLow = 0 then b.colorAt colorX emptyOffset else b.colorAt colorX solidOffset
    material := if alphaLow = 0 then b.materialAt (materialBase b x y z) emptyOffset
      else b.materialAt (materialBase b x y z) solidOffset
    point := place ((qAlpha hermite : K) * EIGHT_BIT_MAXIMUM_RECIPROCAL) }

/-- Lines 1454-1622: the crossings of cell `(x, y, z)` in the order in which the source
stores them in `crossings`; `crossingCount` is the length of the list. -/
def extractCrossings (E : Externals K) (b : Block) (colorX x y z : Nat) :
    List (EdgeCrossing K) :=
  let a := sampleAlphas b colorX x y z
  let middleX := middle x b.size
  let middleY := middle y b.size
  let middleZ := middle z b.size
  let EDGE_COUNT := E.EDGE_COUNT
  let hermiteStride := b.hermiteStride EDGE_COUNT
  let hermiteArea := b.hermiteArea EDGE_COUNT
  let crossing := fun (differ : Bool) (hermiteOffset alphaLow emptyOffset solidOffset : Nat)
      (place : K → Vec3 K) =>
    if differ then
      [recordCrossing E b colorX x y z hermiteOffset alphaLow emptyOffset solidOffset place]
    else []
  (if middleX then
    crossing (a.alpha0 != a.alpha1) 0 a.alpha0 1 0 (fun t => ⟨t, 0, 0⟩)
    ++ (if middleY then
      crossing (a.alpha1 != a.alpha3) (EDGE_COUNT + 1) a.alpha1 b.offset3 1
        (fun t => ⟨1, t, 0⟩)
      ++ crossing (a.alpha2 != a.alpha3) hermiteStride a.alpha2 b.offset3 b.size
        (fun t => ⟨t, 1, 0⟩)
      ++ (if middleZ then
        crossing (a.alpha3 != a.alpha7) (hermiteStride + EDGE_COUNT + 2) a.alpha3 b.offset7
          b.offset3 (fun t => ⟨1, 1, t⟩)
        ++ crossing (a.alpha5 != a.alpha7) (hermiteArea + EDGE_COUNT + 1) a.alpha5 b.offset7
          b.offset5 (fun t => ⟨1, t, 1⟩)
        ++ crossing (a.alpha6 != a.alpha7) (hermiteArea + hermiteStride) a.alpha6 b.offset7
          b.offset6 (fun t => ⟨t, 1, 1⟩)
      else [])
    else [])
    ++ (if middleZ then
      crossing (a.alpha1 != a.alpha5) (EDGE_COUNT + 2) a.alpha1 b.offset5 1
        (fun t => ⟨1, 0, t⟩)
      ++ crossing (a.alpha4 != a.alpha5) hermiteArea a.alpha4 b.offset5 b.area
        (fun t => ⟨t, 0, 1⟩)
    else [])
  else [])
  ++ (if middleY then
    crossing (a.alpha0 != a.alpha2) 1 a.alpha0 b.size 0 (fun t => ⟨0, t, 0⟩)
    ++ (if middleZ then
      crossing (a.alpha2 != a.alpha6) (hermiteStride + 2) a.alpha2 b.offset6 b.size
        (fun t => ⟨0, 1, t⟩)
      ++ crossing (a.alpha4 != a.alpha6) (hermiteArea + 1) a.alpha4 b.offset6 b.area
        (fun t => ⟨0, t, 1⟩)
    else [])
  else [])
  ++ (if middleZ && a.alpha0 != a.alpha4 then
    [recordCrossing E b colorX x y z 2 a.alpha0 b.area 0 (fun t => ⟨0, 0, t⟩)]
  else [])

end Extract

/-! ### The twelve cell edges, as the specification names them -/

/-- A cell edge: the corner offset `(dx, dy, dz)` of its lower endpoint and its axis
(`0` for x, `1` for y, `2` for z). -/
structure CellEdge where
  dx : Nat
  dy : Nat
  dz : Nat
  axis : Nat
deriving DecidableEq

/-- The twelve edges of a cell, listed in the order in which lines 1455-1622 test them. -/
def cellEdges : List CellEdge :=
  [⟨0, 0, 0, 0⟩, ⟨1, 0, 0, 1⟩, ⟨0, 1, 0, 0⟩, ⟨1, 1, 0, 2⟩, ⟨1, 0, 1, 1⟩, ⟨0, 1, 1, 0⟩,
   ⟨1, 0, 0, 2⟩, ⟨0, 0, 1, 0⟩, ⟨0, 0, 0, 1⟩, ⟨0, 1, 0, 2⟩, ⟨0, 0, 1, 1⟩, ⟨0, 0, 0, 2⟩]

namespace CellEdge

/-- Corner offset of the upper endpoint along x. -/
def ux (e : CellEdge) : Nat := if e.axis = 0 then e.dx + 1 else e.dx

/-- Corner offset of the upper endpoint along y. -/
def uy (e : CellEdge) : Nat := if e.axis = 1 then e.dy + 1 else e.dy

/-- Corner offset of the upper endpoint along z. -/
def uz (e : CellEdge) : Nat := if e.axis = 2 then e.dz + 1 else e.dz

end CellEdge

/-- Grid offset of the corner `(dx, dy, dz)` from the cell's base sample: one of
`0, 1, size, size+1, area, area+1, area+size, area+size+1`. -/
def cornerOffset (b : Block) (dx dy dz : Nat) : Nat := dz * b.area + dy * b.size + dx

/-- The corner `(dx, dy, dz)` of cell `(x, y, z)` is sampled: an offset of one is taken
only on an axis on which the cell is a middle cell. -/
def cornerSampled (b : Block) (x y z dx dy dz : Nat) : Bool :=
  (dx == 0 || middle x b.size) && (dy == 0 || middle y b.size) && (dz == 0 || middle z b.size)

/-- Alpha of the colour sample at corner `(dx, dy, dz)`. -/
def cornerAlpha (b : Block) (colorX dx dy dz : Nat) : Nat :=
  alphaOf (b.colorAt colorX (cornerOffset b dx dy dz))

/-- Both endpoints of the edge are sampled and their alphas differ. -/
def edgeCrosses (b : Block) (colorX x y z : Nat) (e : CellEdge) : Bool :=
  cornerSampled b x y z e.ux e.uy e.uz
    && cornerAlpha b colorX e.dx e.dy e.dz != cornerAlpha b colorX e.ux e.uy e.uz

/-- The edges of cell `(x, y, z)` that carry a crossing. -/
def crossedEdges (b : Block) (colorX x y z : Nat) : List CellEdge :=
  cellEdges.filter (edgeCrosses b colorX x y z)

/-- The Hermite slot the specification assigns to an edge:
`hermiteBase + dz*hermiteArea + dy*hermiteStride + dx*EDGE_COUNT + a`. -/
def specHermiteIndex (EDGE_COUNT : Nat) (b : Block) (x y z : Nat) (e : CellEdge) : Nat :=
  (max (z - 1) 0 * b.hermiteArea EDGE_COUNT + max (y - 1) 0 * b.hermiteStride EDGE_COUNT
      + max (x - 1) 0 * EDGE_COUNT)
    + e.dz * b.hermiteArea EDGE_COUNT + e.dy * b.hermiteStride EDGE_COUNT
    + e.dx * EDGE_COUNT + e.axis

/-! ## Vertex solver: accumulation loop (lines 1625-1678) -/

section Accumulate

variable {K : Type} [LinearOrderedField K]

/-- GLM: `glm::radians (degrees)`. -/
def radians (E : Externals K) (degrees : K) : K := degrees * (E.pi / 180)

/-- Line 1628: `glm::cos (glm::radians (45.0f))`. -/
def CREASE_COS_NORMAL (E : Externals K) : K := E.cos (radians E 45)

/-- GLM: `glm::length`. -/
def length (E : Externals K) (v : Vec3 K) : K := E.sqrt (Vec3.dot v v)

/-- Lines 1333-1336. -/
def safeNormalize (E : Externals K) (vector : Vec3 K) : Vec3 K :=
  if length E vector > 0 then vector.divide (length E vector) else vector

/-- Lines 1638-1647 for one crossing normal: the first cluster whose normal makes a dot
product above `CREASE_COS_NORMAL` with it absorbs it; when the search reaches `normalCount`
the normal is stored as a new cluster. The list is `normals[0 .. normalCount)`; the source
array has `MAX_NORMALS_PER_VERTEX` elements and the store is not guarded. -/
def clusterNormal (E : Externals K) : List (Vec3 K) → Vec3 K → List (Vec3 K)
  | [], normal => [normal]
  | first :: rest, normal =>
    if Vec3.dot first normal > CREASE_COS_NORMAL E then
      safeNormalize E (first.add normal) :: rest
    else first :: clusterNormal E rest normal

/-- The clusters after the loop of lines 1634-1677. -/
def clusterNormals (E : Externals K) (crossings : List (EdgeCrossing K)) : List (Vec3 K) :=
  crossings.foldl (fun normals crossing => clusterNormal E normals crossing.normal) []

/-- The arrays `materials` and `materialWeights` (slot `j` holds `materials[j]` and
`materialWeights[j]`) and `totalWeight`. -/
structure MaterialTable (K : Type) where
  slots : List (Nat × K)
  totalWeight : K

/-- Lines 1630-1632: four empty slots. -/
def MaterialTable.empty : MaterialTable K :=
  { slots := List.replicate MAX_MATERIALS_PER_VERTEX (0, 0), totalWeight := 0 }

/-- The search of lines 1663-1675 from slot `j` on, for a `char` material; `none` when the
loop ends without a `break`. The comparison `materials[j] == crossing.material` is made
on the two values promoted to `int`. -/
def assignSlot (material : Int) : List (Nat × K) → Option (List (Nat × K))
  | [] => none
  | (m, w) :: rest =>
    if (m : Int) = material then some ((m, w + 1) :: rest)
    else if m = 0 then some ((toQuint8 material, 1) :: rest)
    else (assignSlot material rest).map (fun found => (m, w) :: found)

/-- Lines 1662-1676 for one crossing. -/
def assignMaterial (t : MaterialTable K) (material : Int) : MaterialTable K :=
  if material ≠ 0 then
    match assignSlot material t.slots with
    | some slots => { slots := slots, totalWeight := t.totalWeight + 1 }
    | none => t
  else t

/-- The material table after the loop of lines 1634-1677. -/
def collectMaterials (crossings : List (EdgeCrossing K)) : MaterialTable K :=
  crossings.foldl (fun t crossing => assignMaterial t crossing.material) MaterialTable.empty

/-- Lines 1746-1748 and 1753-1754: the weights are multiplied by
`EIGHT_BIT_MAXIMUM / totalWeight` when `totalWeight > 0` and converted to `quint8`. -/
def finalWeights [FloorRing K] (t : MaterialTable K) : List Nat :=
  t.slots.map (fun slot =>
    toQuint8 (truncate
      (if t.totalWeight > 0 then slot.2 * ((EIGHT_BIT_MAXIMUM : K) / t.totalWeight)
       else slot.2)))

/-- Line 1752. -/
def finalMaterials (t : MaterialTable K) : List Nat := t.slots.map (fun slot => slot.1)

/-- Lines 1636 and 1678: the sum of the crossing points, divided by `crossingCount`. -/
def meanPoint (crossings : List (EdgeCrossing K)) : Vec3 K :=
  (crossings.foldl (fun center crossing => center.add crossing.point) Vec3.zero).divide
    (crossings.length : K)

/-- Lines 1649-1651: the sums `red`, `green`, `blue`. -/
def colorSums (crossings : List (EdgeCrossing K)) : Nat × Nat × Nat :=
  crossings.foldl (fun sums crossing =>
    (sums.1 + qRed crossing.color, sums.2.1 + qGreen crossing.color,
      sums.2.2 + qBlue crossing.color)) (0, 0, 0)

end Accumulate

/-! ## Vertex solver: QR, Jacobi sweeps and pseudo-inverse (lines 1680-1744) -/

section Solve

variable {K : Type} [LinearOrderedField K]

/-- A `glm::mat4` or `glm::mat3`: `m c r` is the source's `m[c][r]`, column `c` and row `r`. -/
abbrev Mat (K : Type) := Nat → Nat → K

/-- A `glm::vec4`: `v k` is the source's `v[k]`. -/
abbrev Vec4 (K : Type) := Nat → K

/-- Assignment to `m[c][r]`. -/
def Mat.set (m : Mat K) (c r : Nat) (v : K) : Mat K :=
  fun c2 r2 => if c2 = c ∧ r2 = r then v else m c2 r2

/-- Assignment to `v[k]`. -/
def Vec4.set (v : Vec4 K) (k : Nat) (value : K) : Vec4 K :=
  fun k2 => if k2 = k then value else v k2

/-- Lines 1693-1697: the body of the loop over `k`. -/
def givensInner (sina cosa : K) (j : Nat) (state : Mat K × Vec4 K) (k : Nat) :
    Mat K × Vec4 K :=
  let r := state.1
  let bottom := state.2
  let tmp := bottom k
  (r.set k j (cosa * r k j - sina * tmp), bottom.set k (sina * r k j + cosa * tmp))

/-- Lines 1688-1698: the body of the loop over `j`. -/
def givensRotate (E : Externals K) (state : Mat K × Vec4 K) (j : Nat) : Mat K × Vec4 K :=
  let r := state.1
  let bottom := state.2
  let angle := E.atan (-(bottom j)) (r j j)
  let sina := E.sin angle
  let cosa := E.cos angle
  (List.range 4).foldl (givensInner sina cosa j) (r, bottom)

/-- Line 1686: `glm::vec4 (crossing.normal, glm::dot (crossing.normal, crossing.point - center))`. -/
def bottomRow (center : Vec3 K) (crossing : EdgeCrossing K) : Vec4 K :=
  fun k =>
    if k = 0 then crossing.normal.x
    else if k = 1 then crossing.normal.y
    else if k = 2 then crossing.normal.z
    else Vec3.dot crossing.normal (crossing.point.sub center)

/-- Lines 1684-1699: the body of the loop over the crossings; the second component is
the local `bottom`. -/
def givensAbsorb (E : Externals K) (center : Vec3 K) (state : Mat K × Vec4 K)
    (crossing : EdgeCrossing K) : Mat K × Vec4 K :=
  (List.range 4).foldl (givensRotate E) (state.1, bottomRow center crossing)

/-- Lines 1682-1699: `r` after the Givens loop, from `glm::mat4 r (0.0f)`. -/
def givensQR (E : Externals K) (center : Vec3 K) (crossings : List (EdgeCrossing K)) : Mat K :=
  (crossings.foldl (givensAbsorb E center) (fun _ _ => 0, fun _ => 0)).1

/-- GLM: `glm::transpose`. -/
def Mat.transpose (m : Mat K) : Mat K := fun c r => m r c

/-- GLM: product of two `glm::mat3`. -/
def Mat.mul3 (m n : Mat K) : Mat K :=
  fun c r => m 0 r * n c 0 + m 1 r * n c 1 + m 2 r * n c 2

/-- GLM: product of a `glm::mat3` and a `glm::vec3`. -/
def Mat.mulVec3 (m : Mat K) (v : Vec3 K) : Vec3 K :=
  ⟨m 0 0 * v.x + m 1 0 * v.y + m 2 0 * v.z,
   m 0 1 * v.x + m 1 1 * v.y + m 2 1 * v.z,
   m 0 2 * v.x + m 1 2 * v.y + m 2 2 * v.z⟩

/-- A `glm::quat`. -/
structure Quat (K : Type) where
  w : K
  x : K
  y : K
  z : K

/-- GLM: the default `glm::quat` is the identity rotation. -/
def Quat.identity : Quat K := ⟨1, 0, 0, 0⟩

/-- GLM: product of two quaternions. -/
def Quat.mul (p q : Quat K) : Quat K :=
  ⟨p.w * q.w - p.x * q.x - p.y * q.y - p.z * q.z,
   p.w * q.x + p.x * q.w + p.y * q.z - p.z * q.y,
   p.w * q.y + p.y * q.w + p.z * q.x - p.x * q.z,
   p.w * q.z + p.z * q.w + p.x * q.y - p.y * q.x⟩

/-- GLM: `glm::normalize` of a quaternion. -/
def Quat.normalize (E : Externals K) (q : Quat K) : Quat K :=
  let len := E.sqrt (q.w * q.w + q.x * q.x + q.y * q.y + q.z * q.z)
  if len ≤ 0 then ⟨1, 0, 0, 0⟩
  else ⟨q.w * (1 / len), q.x * (1 / len), q.y * (1 / len), q.z * (1 / len)⟩

/-- GLM: `glm::angleAxis (angle, axis)`, the angle in radians. -/
def angleAxis (E : Externals K) (angle : K) (axis : Vec3 K) : Quat K :=
  ⟨E.cos (angle * (1 / 2)), axis.x * E.sin (angle * (1 / 2)), axis.y * E.sin (angle * (1 / 2)),
   axis.z * E.sin (angle * (1 / 2))⟩

/-- GLM: `glm::mat3_cast`. -/
def mat3_cast (q : Quat K) : Mat K :=
  fun c r =>
    if c = 0 then
      (if r = 0 then 1 - 2 * (q.y * q.y + q.z * q.z)
       else if r = 1 then 2 * (q.x * q.y + q.w * q.z)
       else 2 * (q.x * q.z - q.w * q.y))
    else if c = 1 then
      (if r = 0 then 2 * (q.x * q.y - q.w * q.z)
       else if r = 1 then 1 - 2 * (q.x * q.x + q.z * q.z)
       else 2 * (q.y * q.z + q.w * q.x))
    else
      (if r = 0 then 2 * (q.x * q.z + q.w * q.y)
       else if r = 1 then 2 * (q.y * q.z - q.w * q.x)
       else 1 - 2 * (q.x * q.x + q.y * q.y))

/-- Line 1711. -/
def MAX_ITERATIONS : Nat := 20

/-- Line 1716. -/
def DESIRED_PRECISION : K := 1 / 100000

/-- Line 1733. -/
def MIN_SINGULAR_THRESHOLD : K := 1 / 10

/-- Lines 1712-1730 with `iterations` passes of the loop left: the result is `d` and
`combinedRotation` when the loop is left. -/
def jacobi (E : Externals K) (ata : Mat K) : Nat → Mat K × Quat K → Mat K × Quat K
  | 0, state => state
  | iterations + 1, (d, combinedRotation) =>
    let off0 := |d 1 0|
    let off1 := |d 2 0|
    let off2 := |d 2 1|
    let largestIndex : Nat :=
      if off0 > off1 then (if off0 > off2 then 0 else 2) else (if off1 > off2 then 1 else 2)
    let largest := if largestIndex = 0 then off0 else if largestIndex = 1 then off1 else off2
    if largest < DESIRED_PRECISION then (d, combinedRotation)
    else
      let largestJ := if largestIndex = 2 then 1 else 0
      let largestI := if largestIndex = 0 then 1 else 2
      let sjj := d largestJ largestJ
      let sii := d largestI largestI
      let angle := E.atan (2 * d largestJ largestI) (sjj - sii) / 2
      let rotation := angleAxis E angle
        (if largestIndex = 0 then ⟨0, 0, -1⟩
         else if largestIndex = 1 then ⟨0, 1, 0⟩ else ⟨-1, 0, 0⟩)
      let combined := Quat.normalize E (rotation.mul combinedRotation)
      let matrix := mat3_cast combined
      jacobi E ata iterations ((matrix.mul3 ata).mul3 matrix.transpose, combined)

/-- Lines 1734-1736. -/
def invertSingular (d : Mat K) : Mat K :=
  let d0 := d.set 0 0 (if d 0 0 < MIN_SINGULAR_THRESHOLD then 0 else 1 / d 0 0)
  let d1 := d0.set 1 1 (if d0 1 1 < MIN_SINGULAR_THRESHOLD then 0 else 1 / d0 1 1)
  d1.set 2 2 (if d1 2 2 < MIN_SINGULAR_THRESHOLD then 0 else 1 / d1 2 2)

/-- Lines 1678-1744: the cell-local position, `center` as it stands after line 1744. -/
def solvePosition (E : Externals K) (crossings : List (EdgeCrossing K)) : Vec3 K :=
  let center := meanPoint crossings
  let r := givensQR E center crossings
  let a : Mat K := r
  let b : Vec3 K := ⟨r 3 0, r 3 1, r 3 2⟩
  let atrans := a.transpose
  let ata := atrans.mul3 a
  let result := jacobi E ata MAX_ITERATIONS (ata, Quat.identity)
  let d := invertSingular result.1
  let u := mat3_cast result.2
  let ataplus := (u.transpose.mul3 d).mul3 u
  let solution := ((ataplus.mul3 atrans).mulVec3 b).add center
  solution.clamp 0 1

end Solve

/-! ## Vertex emission and quad stitching (lines 1746-1851) -/

/-- What the source leaves undefined. -/
inductive Fault where
  | divisionByZero
  | normalsOverflow
  | uninitialisedRead
  | indexOutOfRange
  | signedOverflow
deriving DecidableEq

/-- The struct `VoxelPoint`, whose fields are those of the aggregate of lines 1749-1754. -/
structure VoxelPoint (K : Type) where
  vertex : Vec3 K
  color : List Nat
  normal : List Int
  materials : List Nat
  materialWeights : List Nat

/-- The class `NormalIndex` of lines 1306-1311: `indices` has `MAX_NORMALS_PER_VERTEX`
entries. -/
structure NormalIndex where
  indices : List Nat
deriving DecidableEq

/-- The value-initialised element of a `QVector<NormalIndex>` built with a size. -/
def NormalIndex.zero : NormalIndex := ⟨List.replicate MAX_NORMALS_PER_VERTEX 0⟩

/-- The vertex array, the index array, the Hermite segments and the corner multimap (the
pairs in insertion order) together with the locals of `visit` that live across cells. -/
structure ScanState (K : Type) where
  vertices : List (VoxelPoint K)
  indices : List Nat
  hermiteSegments : List (Vec3 K)
  quadIndices : List (Nat × Nat)
  lineIndices : List NormalIndex
  lastLineIndices : List NormalIndex
  planeIndices : List NormalIndex
  lastPlaneIndices : List NormalIndex
  lastIndex : Option NormalIndex
  colorX : Nat
  colorY : Nat
  colorZ : Nat

section Emit

variable {K : Type} [LinearOrderedField K] [FloorRing K]

/-- The conversions `(char) (normal.x * 127.0f)` of lines 1081-1083 and 1751. -/
def packNormal (normal : Vec3 K) : List Int :=
  [truncate (normal.x * 127), truncate (normal.y * 127), truncate (normal.z * 127)]

/-- Lines 1080-1084. -/
def VoxelPoint.setNormal (point : VoxelPoint K) (normal : Vec3 K) : VoxelPoint K :=
  { point with normal := packNormal normal }

/-- The read `vertices.at (index)`. -/
def vertexAt (vertices : List (VoxelPoint K)) (index : Nat) : Except Fault (VoxelPoint K) :=
  match vertices.get? index with
  | some vertex => pure vertex
  | none => throw Fault.indexOutOfRange

/-- The products of lines 1317 and 1324. -/
def normalProduct (normal : Vec3 K) (vertex : VoxelPoint K) : K :=
  normal.x * ((vertex.normal.getD 0 0 : Int) : K) + normal.y * ((vertex.normal.getD 1 0 : Int) : K)
    + normal.z * ((vertex.normal.getD 2 0 : Int) : K)

/-- Lines 1318-1329: the loop from the entry at the head of `rest` on. -/
def closestLoop (normal : Vec3 K) (vertices : List (VoxelPoint K)) (firstIndex : Nat) :
    List Nat → K → Nat → Except Fault Nat
  | [], _, closestIndex => pure closestIndex
  | index :: rest, closest, closestIndex =>
    if index = firstIndex then pure closestIndex
    else do
      let vertex ← vertexAt vertices index
      let product := normalProduct normal vertex
      if product > closest then closestLoop normal vertices firstIndex rest product index
      else closestLoop normal vertices firstIndex rest closest closestIndex

/-- Lines 1313-1331: `NormalIndex::getClosestIndex`. -/
def NormalIndex.getClosestIndex (self : NormalIndex) (normal : Vec3 K)
    (vertices : List (VoxelPoint K)) : Except Fault Nat := do
  let firstIndex := self.indices.getD 0 0
  let firstVertex ← vertexAt vertices firstIndex
  closestLoop normal vertices firstIndex (self.indices.drop 1) (normalProduct normal firstVertex)
    firstIndex

/-- Lines 1749-1754: the vertex built for the cell, with the normal of `normals[0]`. Its
position is `info.minimum + (glm::vec3 (clampedX, clampedY, clampedZ) + center) * scale`,
with `highest = size - 1.0f` and `scale = info.size / highest` (lines 1386-1387); the
result of each of these operations is rounded to a `float` by `E.round`. -/
def cellPoint (E : Externals K) (b : Block) (info : MetavoxelInfo K) (x y z : Nat)
    (crossings : List (EdgeCrossing K)) (normals : List (Vec3 K)) : VoxelPoint K :=
  let highest : K := E.round ((b.size : K) - 1)
  let scale := E.round (info.size / highest)
  let center := solvePosition E crossings
  let sums := colorSums crossings
  let crossingCount := crossings.length
  let table := collectMaterials crossings
  { vertex :=
      ⟨E.round (info.minimum.x + E.round (E.round ((clamped x : K) + center.x) * scale)),
        E.round (info.minimum.y + E.round (E.round ((clamped y : K) + center.y) * scale)),
        E.round (info.minimum.z + E.round (E.round ((clamped z : K) + center.z) * scale))⟩
    color := [(sums.1 / crossingCount) % 256, (sums.2.1 / crossingCount) % 256,
      (sums.2.2 / crossingCount) % 256]
    normal := packNormal (normals.getD 0 Vec3.zero)
    materials := finalMaterials table
    materialWeights := finalWeights table }

/-- Lines 1756-1762: the vertices appended for the cell and its `NormalIndex`. -/
def emitVertices (vertices : List (VoxelPoint K)) (point : VoxelPoint K)
    (normals : List (Vec3 K)) : NormalIndex × List (VoxelPoint K) :=
  (List.range' 1 (normals.length - 1)).foldl
    (fun acc i =>
      (⟨acc.1.indices.set i acc.2.length⟩,
        acc.2 ++ [point.setNormal (normals.getD i Vec3.zero)]))
    (⟨List.replicate MAX_NORMALS_PER_VERTEX vertices.length⟩, vertices ++ [point])

/-- Lines 1653-1658: the two points appended to `hermiteSegments` for one crossing. -/
def hermiteSegment (b : Block) (info : MetavoxelInfo K) (x y z : Nat)
    (crossing : EdgeCrossing K) : List (Vec3 K) :=
  let highest : K := (b.size : K) - 1
  let scale := info.size / highest
  let start := info.minimum.add
    ((Vec3.add ⟨(clamped x : K), (clamped y : K), (clamped z : K)⟩ crossing.point).scale scale)
  [start, start.add (crossing.normal.scale scale)]

/-- One of the three stitching blocks, e.g. lines 1777-1790: the reference normal is
`glm::cross (vertices.at (first.indices[0]).vertex - own, vertices.at (third.indices[0]).vertex - own)`
with `own` the vertex at `index.indices[0]`; the corners appended are `third, second, first`
resolved against the negated normal when `alpha0 == 0` and `first, second, third` otherwise,
followed by the cell's own index. -/
def stitchQuad (vertices : List (VoxelPoint K)) (indices : List Nat) (alpha0 : Nat)
    (index first second third : NormalIndex) : Except Fault (List Nat) := do
  let own ← vertexAt vertices (index.indices.getD 0 0)
  let firstVertex ← vertexAt vertices (first.indices.getD 0 0)
  let thirdVertex ← vertexAt vertices (third.indices.getD 0 0)
  let normal := Vec3.cross (firstVertex.vertex.sub own.vertex) (thirdVertex.vertex.sub own.vertex)
  if alpha0 = 0 then do
    let c0 ← third.getClosestIndex normal.neg vertices
    let c1 ← second.getClosestIndex normal.neg vertices
    let c2 ← first.getClosestIndex normal.neg vertices
    let c3 ← index.getClosestIndex normal.neg vertices
    pure (indices ++ [c0, c1, c2, c3])
  else do
    let c0 ← first.getClosestIndex normal vertices
    let c1 ← second.getClosestIndex normal vertices
    let c2 ← third.getClosestIndex normal vertices
    let c3 ← index.getClosestIndex normal vertices
    pure (indices ++ [c0, c1, c2, c3])

/-- The read of the local `lastIndex`, which has no initialiser (line 1393). -/
def readLastIndex (lastIndex : Option NormalIndex) : Except Fault NormalIndex :=
  match lastIndex with
  | some index => pure index
  | none => throw Fault.uninitialisedRead

/-- Lines 1766-1844: the quads of cell `(x, y, z)`, whose `NormalIndex` is `index`. -/
def stitchCell (b : Block) (x y z : Nat) (a : Alphas) (index : NormalIndex)
    (s : ScanState K) : Except Fault (ScanState K) := do
  if x != 0 && y != 0 && z != 0 then
    let expanded := b.expanded
    let s1 ← (if a.alpha0 != a.alpha1 then do
        let start := s.indices.length
        let index1 := s.lastLineIndices.getD x NormalIndex.zero
        let index2 := s.lastPlaneIndices.getD ((y - 1) * expanded + x) NormalIndex.zero
        let index3 := s.lastPlaneIndices.getD (y * expanded + x) NormalIndex.zero
        let indices ← stitchQuad s.vertices s.indices a.alpha0 index index1 index2 index3
        pure { s with
          quadIndices := s.quadIndices ++ [(qRgb x y z, start), (qRgb x (y - 1) z, start),
            (qRgb x (y - 1) (z - 1), start), (qRgb x y (z - 1), start)]
          indices := indices }
      else pure s : Except Fault (ScanState K))
    let s2 ← (if a.alpha0 != a.alpha2 then do
        let start := s1.indices.length
        let index1 ← readLastIndex s1.lastIndex
        let index2 := s1.lastPlaneIndices.getD (y * expanded + x - 1) NormalIndex.zero
        let index3 := s1.lastPlaneIndices.getD (y * expanded + x) NormalIndex.zero
        let indices ← stitchQuad s1.vertices s1.indices a.alpha0 index index3 index2 index1
        pure { s1 with
          quadIndices := s1.quadIndices ++ [(qRgb x y z, start), (qRgb (x - 1) y z, start),
            (qRgb (x - 1) y (z - 1), start), (qRgb x y (z - 1), start)]
          indices := indices }
      else pure s1 : Except Fault (ScanState K))
    if a.alpha0 != a.alpha4 then do
      let start := s2.indices.length
      let index1 ← readLastIndex s2.lastIndex
      let index2 := s2.lastLineIndices.getD (x - 1) NormalIndex.zero
      let index3 := s2.lastLineIndices.getD x NormalIndex.zero
      let indices ← stitchQuad s2.vertices s2.indices a.alpha0 index index1 index2 index3
      pure { s2 with
        quadIndices := s2.quadIndices ++ [(qRgb x y z, start), (qRgb (x - 1) y z, start),
          (qRgb (x - 1) (y - 1) z, start), (qRgb x (y - 1) z, start)]
        indices := indices }
    else pure s2
  else pure s

/-- Lines 1849-1851 (and 1442-1444 on the skip path). -/
def advanceX (x : Nat) (s : ScanState K) : ScanState K :=
  if x != 0 then { s with colorX := s.colorX + 1 } else s

/-- Lines 1396-1851: the body of the loop over `x` for cell `(x, y, z)`. -/
def visitCell (E : Externals K) (b : Block) (info : MetavoxelInfo K) (x y z : Nat)
    (s : ScanState K) : Except Fault (ScanState K) := do
  let a := sampleAlphas b s.colorX x y z
  if a.uniform then
    pure (advanceX x s)
  else
    let crossings := extractCrossings E b s.colorX x y z
    let normals := clusterNormals E crossings
    if normals.length > MAX_NORMALS_PER_VERTEX then throw Fault.normalsOverflow
    if crossings.length = 0 then throw Fault.divisionByZero
    let segments :=
      if E.displayHermite then crossings.flatMap (hermiteSegment b info x y z) else []
    let point := cellPoint E b info x y z crossings normals
    let emitted := emitVertices s.vertices point normals
    let index := emitted.1
    let s1 := { s with vertices := emitted.2, hermiteSegments := s.hermiteSegments ++ segments }
    let s2 ← stitchCell b x y z a index s1
    pure (advanceX x { s2 with
      lastIndex := some index
      lineIndices := s2.lineIndices.set x index
      planeIndices := s2.planeIndices.set (y * b.expanded + x) index })

/-- Lines 1393-1857: the body of the loop over `y`. -/
def visitLine (E : Externals K) (b : Block) (info : MetavoxelInfo K) (z : Nat)
    (s : ScanState K) (y : Nat) : Except Fault (ScanState K) := do
  let s1 ← (List.range b.expanded).foldlM (fun st x => visitCell E b info x y z st)
    { s with lastIndex := none, colorX := s.colorY }
  let s2 := { s1 with lineIndices := s1.lastLineIndices, lastLineIndices := s1.lineIndices }
  pure (if y != 0 then { s2 with colorY := s2.colorY + b.size } else s2)

/-- Lines 1391-1863: the body of the loop over `z`. -/
def visitPlane (E : Externals K) (b : Block) (info : MetavoxelInfo K)
    (s : ScanState K) (z : Nat) : Except Fault (ScanState K) := do
  let s1 ← (List.range b.expanded).foldlM (visitLine E b info z) { s with colorY := s.colorZ }
  let s2 := { s1 with planeIndices := s1.lastPlaneIndices, lastPlaneIndices := s1.planeIndices }
  pure (if z != 0 then { s2 with colorZ := s2.colorZ + b.area } else s2)

/-- Lines 1348-1381: the state before the first cell. -/
def initialState (b : Block) : ScanState K :=
  { vertices := [], indices := [], hermiteSegments := [], quadIndices := []
    lineIndices := List.replicate b.expanded NormalIndex.zero
    lastLineIndices := List.replicate b.expanded NormalIndex.zero
    planeIndices := List.replicate (b.expanded * b.expanded) NormalIndex.zero
    lastPlaneIndices := List.replicate (b.expanded * b.expanded) NormalIndex.zero
    lastIndex := none, colorX := 0, colorY := 0, colorZ := 0 }

/-- Lines 1347-1866: the meshing pass over one block. -/
def visit (E : Externals K) (b : Block) (info : MetavoxelInfo K) : Except Fault (ScanState K) :=
  (List.range b.expanded).foldlM (visitPlane E b info) (initialState b)

end Emit

/-! ## The crossings of an edge, as the specification words them -/

section EdgeSpec

variable {K : Type} [LinearOrderedField K]

/-- Grid offset of the endpoint the specification calls solid: the upper endpoint when the
alpha of the lower endpoint is zero, the lower endpoint otherwise. -/
def solidOffset (b : Block) (colorX : Nat) (e : CellEdge) : Nat :=
  if cornerAlpha b colorX e.dx e.dy e.dz = 0 then cornerOffset b e.ux e.uy e.uz
  else cornerOffset b e.dx e.dy e.dz

/-- The point of a crossing at fraction `t` of the edge: `t` along the axis of the edge and
the offsets of the lower corner on the other two axes. -/
def specPoint (e : CellEdge) : K → Vec3 K := fun t =>
  ⟨if e.axis = 0 then t else (e.dx : K), if e.axis = 1 then t else (e.dy : K),
   if e.axis = 2 then t else (e.dz : K)⟩

/-- The crossing of an edge, built from the edge alone: Hermite word at the slot of
`specHermiteIndex`, colour and material at `solidOffset`, point from `specPoint`. -/
def specCrossing (E : Externals K) (b : Block) (colorX x y z : Nat) (e : CellEdge) :
    EdgeCrossing K :=
  let hermite := b.hermiteContents.getD (specHermiteIndex E.EDGE_COUNT b x y z e) 0
  { hermite := hermite
    normal := E.unpackNormal hermite
    color := b.colorAt colorX (solidOffset b colorX e)
    material := b.materialAt (materialBase b x y z) (solidOffset b colorX e)
    point := specPoint e ((qAlpha hermite : K) / 255) }

end EdgeSpec

/-! ## The material weights, as the specification words them -/

section WeightSpec

variable {K : Type} [LinearOrderedField K]

/-- The number of crossings that carry the material id `id` (an 8-bit value). -/
def carriers (crossings : List (EdgeCrossing K)) (id : Nat) : Nat :=
  (crossings.filter (fun crossing => toQuint8 crossing.material == id)).length

/-- The count `c_j` of each slot of a material table: the number of crossings that carry
the id in the slot, zero for an empty slot. -/
def slotCounts (crossings : List (EdgeCrossing K)) (materials : List Nat) : List Nat :=
  materials.map (fun id => if id = 0 then 0 else carriers crossings id)

/-- The weights `floor (255 * c_j / T)` with `T` the sum of the counts, all zero when no
crossing carries a material. -/
def specWeights (crossings : List (EdgeCrossing K)) (materials : List Nat) : List Nat :=
  (slotCounts crossings materials).map
    (fun c => if (slotCounts crossings materials).sum = 0 then 0
      else 255 * c / (slotCounts crossings materials).sum)

end WeightSpec

/-! ## The material table with its weights as natural numbers -/

/-- The search of `assignSlot` on slots whose weights are counted in natural numbers. -/
def assignSlotCount (material : Int) : List (Nat × Nat) → Option (List (Nat × Nat))
  | [] => none
  | (m, c) :: rest =>
    if (m : Int) = material then some ((m, c + 1) :: rest)
    else if m = 0 then some ((toQuint8 material, 1) :: rest)
    else (assignSlotCount material rest).map (fun found => (m, c) :: found)

/-- A material table whose weights and total are natural numbers. -/
structure CountTable where
  slots : List (Nat × Nat)
  total : Nat

/-- The counterpart of `assignMaterial`. -/
def assignCount (t : CountTable) (material : Int) : CountTable :=
  if material ≠ 0 then
    match assignSlotCount material t.slots with
    | some slots => { slots := slots, total := t.total + 1 }
    | none => t
  else t

/-- The counterpart of `collectMaterials`, on the materials of the crossings. -/
def collectCounts (materials : List Int) : CountTable :=
  materials.foldl assignCount { slots := List.replicate MAX_MATERIALS_PER_VERTEX (0, 0), total := 0 }

/-- The counterpart of `finalWeights`: `floor (255 * c / total)` as a `quint8`. -/
def countWeights (t : CountTable) : List Nat :=
  t.slots.map (fun slot => if 0 < t.total then (slot.2 * 255 / t.total) % 256 else slot.2 % 256)

/-- The table of `collectMaterials` that a `CountTable` stands for. -/
def CountTable.toTable {K : Type} [LinearOrderedField K] (t : CountTable) : MaterialTable K :=
  { slots := t.slots.map (fun slot => (slot.1, (slot.2 : K))), totalWeight := (t.total : K) }

/-- The value is one a `char` holds. -/
def IsChar (v : Int) : Prop := -128 ≤ v ∧ v ≤ 127

/-- A slot has the id zero exactly when its count is zero. -/
def SlotsMarked (slots : List (Nat × Nat)) : Prop :=
  ∀ slot ∈ slots, (slot.1 = 0 ↔ slot.2 = 0)

/-- The table has four slots, its total is the sum of the counts of its slots, and a slot
has the id zero exactly when its count is zero. -/
def CountTable.Balanced (t : CountTable) : Prop :=
  t.slots.length = MAX_MATERIALS_PER_VERTEX ∧ t.total = (t.slots.map Prod.snd).sum
    ∧ SlotsMarked t.slots

/-! ## Concrete inputs -/

/-- The fault of a run, when it has one. -/
def faultOf {α : Type} : Except Fault α → Option Fault
  | Except.error fault => some fault
  | Except.ok _ => none

/-- A rational square root by six Newton steps, standing in for `sqrt`. -/
def approxSqrt (v : ℚ) : ℚ :=
  if v ≤ 0 then 0 else (List.range 6).foldl (fun g _ => (g + v / g) / 2) (if v < 1 then 1 else v)

/-- Modelled from the spec: `unpackNormal` is declared outside the translated files; the
specification says it decodes the Hermite word into a normal, and lines 1081-1083 pack a
normal as the three signed bytes `(char) (component * 127.0f)`, so the decoder divides the
signed red, green and blue bytes by 127. -/
def unpackNormalBytes (value : Nat) : Vec3 ℚ :=
  ⟨(toChar (qRed value) : ℚ) / 127, (toChar (qGreen value) : ℚ) / 127,
    (toChar (qBlue value) : ℚ) / 127⟩

/-- An instance of the externals over the rationals, for running the model on concrete
blocks: three Hermite words for each sample, `unpackNormalBytes`, and rational
approximations in the place of the trigonometric calls and the square root. -/
def rationalExternals : Externals ℚ :=
  { EDGE_COUNT := 3
    unpackNormal := unpackNormalBytes
    atan := fun y x => if x = 0 ∧ y = 0 then 0 else (355 / 226) * y / (|x| + |y|)
    sin := fun a => a - a ^ 3 / 6 + a ^ 5 / 120
    cos := fun a => 1 - a ^ 2 / 2 + a ^ 4 / 24 - a ^ 6 / 720
    sqrt := approxSqrt
    pi := 355 / 113
    displayHermite := false
    round := fun value => value }

/-- A leaf at the origin with edge length one. -/
def unitInfo : MetavoxelInfo ℚ := { minimum := ⟨0, 0, 0⟩, size := 1 }

/-- A block of 2x2x2 samples that are all empty. -/
def emptyBlock : Block :=
  { size := 2, colorContents := List.replicate 8 0, hermiteSize := 2,
    hermiteContents := List.replicate 24 0, materialContents := none }

/-- A block of 2x2x2 samples that all have alpha 128. -/
def grayBlock : Block :=
  { size := 2, colorContents := List.replicate 8 0x80808080, hermiteSize := 2,
    hermiteContents := List.replicate 24 0, materialContents := none }

/-- A block of 2x2x2 samples of which the two at opposite corners, `(0,0,0)` and `(1,1,1)`,
are solid; the Hermite word of each of the six crossed edges has its normal along the
edge, pointing out of the solid sample, and the crossing at 128/255 of the edge. -/
def diagonalBlock : Block :=
  { size := 2
    colorContents := [0xffffffff, 0, 0, 0, 0, 0, 0, 0xffffffff]
    hermiteSize := 2
    hermiteContents :=
      [0x807f0000, 0x80007f00, 0x8000007f, 0, 0, 0,
       0, 0, 0, 0, 0, 0x80000081,
       0, 0, 0, 0, 0x80008100, 0,
       0x80810000, 0, 0, 0, 0, 0]
    materialContents := none }

/-- A block of 2x2x2 samples of which `(0,0,0)`, with material `first`, and `(1,1,0)`,
with material `second`, are solid. -/
def materialBlock (first second : Nat) : Block :=
  { size := 2
    colorContents := [0xffffffff, 0, 0, 0xffffffff, 0, 0, 0, 0]
    hermiteSize := 2
    hermiteContents := List.replicate 24 0x80000000
    materialContents := some [first, 0, 0, second, 0, 0, 0, 0] }

/-! ## The closest normal, as the specification words it -/

section ClosestSpec

variable {K : Type} [LinearOrderedField K]

/-- The dot product of `normal` with the packed normal of the vertex at `index` (zero when
there is no such vertex). -/
def productAt (normal : Vec3 K) (vertices : List (VoxelPoint K)) (index : Nat) : K :=
  match vertices.get? index with
  | some vertex => normalProduct normal vertex
  | none => 0

end ClosestSpec

/-! ## The quads of a cell, as the specification words them -/

/-- The coordinate of the cell along an axis. -/
def axisCoord (x y z axis : Nat) : Nat := if axis = 0 then x else if axis = 1 then y else z

/-- The grid offset of the neighbour of corner 0 along an axis: corner 1 for x, corner 2
for y, corner 4 for z. -/
def neighbourOffset (b : Block) (axis : Nat) : Nat :=
  if axis = 0 then 1 else if axis = 1 then b.size else b.area

/-- A quad is stitched along the axis: no coordinate of the cell is zero, the cell is not
on the upper block boundary along the axis, and the alphas of corner 0 and of its
neighbour along the axis differ. -/
def axisStitched (b : Block) (colorX x y z axis : Nat) : Bool :=
  x != 0 && y != 0 && z != 0 && axisCoord x y z axis != b.size
    && alphaOf (b.colorAt colorX 0) != alphaOf (b.colorAt colorX (neighbourOffset b axis))

/-- The axes along which the cell stitches a quad, in the order x, y, z. -/
def stitchedAxes (b : Block) (colorX x y z : Nat) : List Nat :=
  [0, 1, 2].filter (axisStitched b colorX x y z)

/-- The four multimap keys of a quad of cell `(x, y, z)` along an axis: the four lattice
cells that share the crossed edge. -/
def quadKeys (x y z axis : Nat) : List Nat :=
  if axis = 0 then [qRgb x y z, qRgb x (y - 1) z, qRgb x (y - 1) (z - 1), qRgb x y (z - 1)]
  else if axis = 1 then
    [qRgb x y z, qRgb (x - 1) y z, qRgb (x - 1) y (z - 1), qRgb x y (z - 1)]
  else [qRgb x y z, qRgb (x - 1) y z, qRgb (x - 1) (y - 1) z, qRgb x (y - 1) z]

/-- The multimap entries of the quads of a cell: the four keys of each quad with the
offset of the quad in the index array, the first quad at `start` and each further quad
four entries later. -/
def quadRegistrations (start x y z : Nat) : List Nat → List (Nat × Nat)
  | [] => []
  | axis :: rest =>
    (quadKeys x y z axis).map (fun key => (key, start)) ++ quadRegistrations (start + 4) x y z rest

/-- The axes along which lines 1766-1844 stitch a quad, read off the locals of the cell. -/
def Alphas.stitched (a : Alphas) (x y z : Nat) : List Nat :=
  if x != 0 && y != 0 && z != 0 then
    (if a.alpha0 != a.alpha1 then [0] else []) ++ (if a.alpha0 != a.alpha2 then [1] else [])
      ++ (if a.alpha0 != a.alpha4 then [2] else [])
  else []

/-! ## Runs of a part of the pass -/

section Runs

variable {K : Type} [LinearOrderedField K] [FloorRing K]

/-- The first `x` cells of line `y` of plane `z`, from the state `s` in which the loop
over `y` enters its body (lines 1393-1395 and the loop of line 1395). -/
def runCells (E : Externals K) (b : Block) (info : MetavoxelInfo K) (z y x : Nat)
    (s : ScanState K) : Except Fault (ScanState K) :=
  (List.range x).foldlM (fun st x => visitCell E b info x y z st)
    { s with lastIndex := none, colorX := s.colorY }

/-- The first `y` lines of plane `z`, from the state `s` in which the loop over `z` enters
its body (line 1391 and the loop of line 1392). -/
def runLines (E : Externals K) (b : Block) (info : MetavoxelInfo K) (z y : Nat)
    (s : ScanState K) : Except Fault (ScanState K) :=
  (List.range y).foldlM (visitLine E b info z) { s with colorY := s.colorZ }

/-- The first `z` planes of the pass. -/
def runPlanes (E : Externals K) (b : Block) (info : MetavoxelInfo K) (z : Nat) :
    Except Fault (ScanState K) :=
  (List.range z).foldlM (visitPlane E b info) (initialState b)

/-- The state in which the pass reaches cell `(x, y, z)`. -/
def stateBefore (E : Externals K) (b : Block) (info : MetavoxelInfo K) (x y z : Nat) :
    Except Fault (ScanState K) := do
  let plane ← runPlanes E b info z
  let line ← runLines E b info z y plane
  runCells E b info z y x line

end Runs

/-- The result of a run, when it has one. -/
def okOf {α : Type} : Except Fault α → Option α
  | Except.ok value => some value
  | Except.error _ => none

/-- The manufactured block of 2x2x2 samples in which the sample `corner` (bit 0 its x, bit
1 its y, bit 2 its z coordinate) is solid and the seven others are empty. Each of the three
edges at the solid sample has a Hermite word that puts the crossing at 128/255 of the edge
and has the normal along the edge, pointing out of the solid sample. -/
def singleSolidBlock (corner : Nat) : Block :=
  { size := 2
    colorContents := (List.range 8).map (fun sample => if sample = corner then 0xffffffff else 0)
    hermiteSize := 2
    hermiteContents := (List.range 24).map (fun slot =>
      if (slot / 3) / 2 ^ (slot % 3) % 2 = 0 ∧ slot / 3 = corner then
        0x80000000 + 0x7f * 2 ^ (16 - 8 * (slot % 3))
      else if (slot / 3) / 2 ^ (slot % 3) % 2 = 0 ∧ slot / 3 + 2 ^ (slot % 3) = corner then
        0x80000000 + 0x81 * 2 ^ (16 - 8 * (slot % 3))
      else 0)
    materialContents := none }

/-! ## Voxel buffer and ray query (lines 1086-1165) -/

/-- A `float` of the ray march: a value of `K`, or one of the special values of IEEE
arithmetic. Results are exact while their magnitude is at most `FLT_MAX`. -/
inductive Flt (K : Type) where
  | finite (value : K)
  | posInf
  | negInf
  | nan
deriving DecidableEq

namespace Flt

variable {K : Type} [LinearOrderedField K]

/-- The largest finite `float`, `(2^24 - 1) * 2^104`. -/
def FLT_MAX : K := (2 ^ 24 - 1) * 2 ^ 104

/-- The `float` of an exact result: beyond `FLT_MAX` the result overflows to an infinity. -/
def round (v : K) : Flt K :=
  if v > FLT_MAX then posInf else if v < -FLT_MAX then negInf else finite v

/-- IEEE addition. -/
def add : Flt K → Flt K → Flt K
  | finite a, finite b => round (a + b)
  | nan, _ => nan
  | _, nan => nan
  | posInf, negInf => nan
  | negInf, posInf => nan
  | posInf, _ => posInf
  | negInf, _ => negInf
  | _, posInf => posInf
  | _, negInf => negInf

/-- IEEE negation. -/
def neg : Flt K → Flt K
  | finite a => finite (-a)
  | posInf => negInf
  | negInf => posInf
  | nan => nan

/-- IEEE subtraction. -/
def sub (a b : Flt K) : Flt K := add a (neg b)

/-- The sign of a `float` that is not a NaN: `1`, `0` or `-1`. -/
def sign : Flt K → Int
  | finite a => if a > 0 then 1 else if a < 0 then -1 else 0
  | posInf => 1
  | negInf => -1
  | nan => 0

/-- The infinity of a sign, and NaN for the sign zero. -/
def infinity (s : Int) : Flt K := if s > 0 then posInf else if s < 0 then negInf else nan

/-- IEEE multiplication. -/
def mul : Flt K → Flt K → Flt K
  | finite a, finite b => round (a * b)
  | nan, _ => nan
  | _, nan => nan
  | a, b => infinity (sign a * sign b)

/-- IEEE division (a zero divisor is taken as `+0`). -/
def div : Flt K → Flt K → Flt K
  | finite a, finite b => if b = 0 then infinity (sign (finite a : Flt K)) else round (a / b)
  | finite _, posInf => finite 0
  | finite _, negInf => finite 0
  | posInf, finite b => if b < 0 then negInf else posInf
  | negInf, finite b => if b < 0 then posInf else negInf
  | posInf, posInf => nan
  | posInf, negInf => nan
  | negInf, posInf => nan
  | negInf, negInf => nan
  | nan, _ => nan
  | finite _, nan => nan
  | posInf, nan => nan
  | negInf, nan => nan

/-- IEEE `<`: false when an operand is a NaN. -/
def lt : Flt K → Flt K → Bool
  | finite a, finite b => decide (a < b)
  | finite _, posInf => true
  | finite _, negInf => false
  | posInf, finite _ => false
  | posInf, posInf => false
  | posInf, negInf => false
  | negInf, finite _ => true
  | negInf, posInf => true
  | negInf, negInf => false
  | nan, _ => false
  | finite _, nan => false
  | posInf, nan => false
  | negInf, nan => false

/-- IEEE `==`: false when an operand is a NaN. -/
def eq : Flt K → Flt K → Bool
  | finite a, finite b => decide (a = b)
  | posInf, posInf => true
  | negInf, negInf => true
  | _, _ => false

/-- Qt: `qMin (a, b)` is `(a < b) ? a : b`. -/
def qMin (a b : Flt K) : Flt K := if lt a b then a else b

/-- The conversion `(int) glm::floor (v)`; the conversion of a value that is not finite is
undefined and taken as zero. -/
def toInt [FloorRing K] : Flt K → Int
  | finite a => Int.floor a
  | _ => 0

end Flt

/-- The members of `VoxelBuffer` that the ray query reads. `quadIndices` lists the items
of the `QMultiHash` in the order in which its iterators visit them: Qt keeps the items of
one key next to each other and leaves the order of the keys to the hash. -/
structure VoxelBuffer (K : Type) where
  vertices : List (VoxelPoint K)
  indices : List Nat
  quadIndices : List (Nat × Nat)
  size : Nat

/-- The function `findRayTriangleIntersection (origin, direction, v0, v1, v2, distance)`,
which is declared outside the translated files: the distance it stores when it returns
true, `none` when it returns false. -/
abbrev TriangleTest (K : Type) :=
  Vec3 (Flt K) → Vec3 (Flt K) → Vec3 K → Vec3 K → Vec3 K → Option (Flt K)

/-- The locals `x`, `y`, `z` and `position` of the march. -/
structure MarchState (K : Type) where
  x : Int
  y : Int
  z : Int
  position : Vec3 (Flt K)
deriving DecidableEq

/-- What one pass of the `forever` loop does. -/
inductive MarchStep (K : Type) where
  | hit (distance : Flt K)
  | miss
  | fault (fault : Fault)
  | next (state : MarchState K)
deriving DecidableEq

section Ray

variable {K : Type} [LinearOrderedField K]

/-- Lines 1108-1109: the values that the iterator visits from `constFind (key)` to
`constEnd ()`, that is from the first item with the key to the last item of the hash. -/
def VoxelBuffer.visited (buffer : VoxelBuffer K) (key : Nat) : List Nat :=
  (buffer.quadIndices.dropWhile (fun item => item.1 != key)).map (fun item => item.2)

/-- The quads registered under a key: the values of the items with that key. -/
def VoxelBuffer.registered (buffer : VoxelBuffer K) (key : Nat) : List Nat :=
  (buffer.quadIndices.filter (fun item => item.1 == key)).map (fun item => item.2)

/-- The read `_vertices.at (indices[k]).vertex` of lines 1111-1114 for the quad at `start`. -/
def VoxelBuffer.corner (buffer : VoxelBuffer K) (start k : Nat) : Except Fault (Vec3 K) :=
  match buffer.indices.get? (start + k) with
  | none => throw Fault.indexOutOfRange
  | some index =>
    match buffer.vertices.get? index with
    | none => throw Fault.indexOutOfRange
    | some vertex => pure vertex.vertex

/-- The two triangles of lines 1111-1114 for the quad at `start`: the corners `0, 1, 2` and
`0, 2, 3`, as positions in the index array. -/
def quadTriangles (start : Nat) : List (Nat × Nat × Nat) :=
  [(start, start + 1, start + 2), (start, start + 2, start + 3)]

/-- Lines 1110-1116 for one item of the hash: the distance of the first of the two
triangles of the quad that the ray hits. The second test runs only when the first one
fails. -/
def testQuad (test : TriangleTest K) (buffer : VoxelBuffer K) (origin direction : Vec3 (Flt K))
    (start : Nat) : Except Fault (Option (Flt K)) := do
  let v0 ← buffer.corner start 0
  let v1 ← buffer.corner start 1
  let v2 ← buffer.corner start 2
  match test origin direction v0 v1 v2 with
  | some distance => pure (some distance)
  | none =>
    let v3 ← buffer.corner start 3
    pure (test origin direction v0 v2 v3)

/-- Lines 1108-1117: the loop over the items, on the values still to visit. -/
def testQuads (test : TriangleTest K) (buffer : VoxelBuffer K) (origin direction : Vec3 (Flt K)) :
    List Nat → Except Fault (Option (Flt K))
  | [] => pure none
  | start :: rest => do
    match ← testQuad test buffer origin direction start with
    | some distance => pure (some distance)
    | none => testQuads test buffer origin direction rest

/-- Lines 1118-1133 for one axis: the distance to the next cell boundary, `FLT_MAX` when
the direction has no component along the axis. -/
def axisDistance (cell : Int) (position direction : Flt K) : Flt K :=
  if Flt.lt (Flt.finite 0) direction then
    Flt.div (Flt.sub (Flt.add (Flt.finite (cell : K)) (Flt.finite 1)) position) direction
  else if Flt.lt direction (Flt.finite 0) then
    Flt.div (Flt.sub (Flt.finite (cell : K)) position) direction
  else Flt.finite Flt.FLT_MAX

/-- Lines 1135-1143 for one axis: `none` when the function returns false, the new cell
coordinate otherwise. -/
def axisMove (max cell : Int) (minimumDistance distance direction : Flt K) : Option Int :=
  if Flt.eq minimumDistance distance then
    if Flt.lt (Flt.finite 0) direction then
      (if cell = max then none else some (cell + 1))
    else (if cell = 0 then none else some (cell - 1))
  else some cell

/-- Lines 1118-1162: the move to the next cell, after the quads of the cell have been
tested without a hit. -/
def marchMove (size : Nat) (direction : Vec3 (Flt K)) (s : MarchState K) : MarchStep K :=
  let max : Int := (size : Int) - 2
  let xDistance := axisDistance s.x s.position.x direction.x
  let yDistance := axisDistance s.y s.position.y direction.y
  let zDistance := axisDistance s.z s.position.z direction.z
  let minimumDistance := Flt.qMin xDistance (Flt.qMin yDistance zDistance)
  match axisMove max s.x minimumDistance xDistance direction.x with
  | none => MarchStep.miss
  | some x =>
    match axisMove max s.y minimumDistance yDistance direction.y with
    | none => MarchStep.miss
    | some y =>
      match axisMove max s.z minimumDistance zDistance direction.z with
      | none => MarchStep.miss
      | some z =>
        MarchStep.next
          { x := x, y := y, z := z
            position :=
              ⟨Flt.add s.position.x (Flt.mul direction.x minimumDistance),
               Flt.add s.position.y (Flt.mul direction.y minimumDistance),
               Flt.add s.position.z (Flt.mul direction.z minimumDistance)⟩ }

/-- The key `qRgb (x + 1, y + 1, z + 1)` of line 1108. -/
def cellKey (s : MarchState K) : Nat :=
  qRgb (s.x + 1).toNat (s.y + 1).toNat (s.z + 1).toNat

/-- Lines 1108-1162: one pass of the `forever` loop. -/
def marchStep (test : TriangleTest K) (buffer : VoxelBuffer K) (origin direction : Vec3 (Flt K))
    (s : MarchState K) : MarchStep K :=
  match testQuads test buffer origin direction (buffer.visited (cellKey s)) with
  | Except.error fault => MarchStep.fault fault
  | Except.ok (some distance) => MarchStep.hit distance
  | Except.ok none => marchMove buffer.size direction s

/-- The `forever` loop of lines 1107-1163 run for at most `fuel` passes: `none` when the
function has not returned by then. -/
def march (test : TriangleTest K) (buffer : VoxelBuffer K) (origin direction : Vec3 (Flt K)) :
    Nat → MarchState K → Option (MarchStep K)
  | 0, _ => none
  | fuel + 1, s =>
    match marchStep test buffer origin direction s with
    | MarchStep.next state => march test buffer origin direction fuel state
    | result => some result

/-- Lines 1102-1106: the cell in which the march starts. -/
def marchStart [FloorRing K] (buffer : VoxelBuffer K) (entry : Vec3 (Flt K)) : MarchState K :=
  let highest : Flt K := Flt.sub (Flt.finite (buffer.size : K)) (Flt.finite 1)
  let position : Vec3 (Flt K) :=
    ⟨Flt.mul entry.x highest, Flt.mul entry.y highest, Flt.mul entry.z highest⟩
  let max : Int := (buffer.size : Int) - 2
  { x := min (Flt.toInt position.x) max, y := min (Flt.toInt position.y) max,
    z := min (Flt.toInt position.z) max, position := position }

/-- Lines 1100-1165: `VoxelBuffer::findFirstRayIntersection`, run for at most `fuel` passes
of its loop. -/
def VoxelBuffer.findFirstRayIntersection [FloorRing K] (buffer : VoxelBuffer K)
    (test : TriangleTest K) (entry origin direction : Vec3 (Flt K)) (fuel : Nat) :
    Option (MarchStep K) :=
  march test buffer origin direction fuel (marchStart buffer entry)

end Ray

/-! ## The facing of a quad, as the specification words it -/

section Facing

variable {K : Type} [LinearOrderedField K]

/-- The buffer built from the outputs of the pass (lines 1868-1869). -/
def ScanState.toBuffer (s : ScanState K) (size : Nat) : VoxelBuffer K :=
  { vertices := s.vertices, indices := s.indices, quadIndices := s.quadIndices, size := size }

/-- The normal of the quad at `start`, "computed as the cross product of its triangle
edges": `(c1 - c0) x (c2 - c0)`. -/
def VoxelBuffer.quadNormal (buffer : VoxelBuffer K) (start : Nat) : Option (Vec3 K) :=
  match okOf (buffer.corner start 0), okOf (buffer.corner start 1),
      okOf (buffer.corner start 2) with
  | some c0, some c1, some c2 => some (Vec3.cross (c1.sub c0) (c2.sub c0))
  | _, _, _ => none

/-- The normal of the quad at `start` points away from the point `solid`: its product
with the vector from `solid` to corner 0 of the quad is positive. -/
def VoxelBuffer.facesAwayFrom (buffer : VoxelBuffer K) (start : Nat) (solid : Vec3 K) : Bool :=
  match okOf (buffer.corner start 0), buffer.quadNormal start with
  | some c0, some normal => decide (0 < Vec3.dot normal (c0.sub solid))
  | _, _ => false

/-- The offsets of the quads in the multimap, each listed once. -/
def quadOffsets (s : ScanState K) : List Nat := (s.quadIndices.map (fun item => item.2)).dedup

end Facing

/-- The position of sample `corner` of a block of 2x2x2 samples in the leaf `unitInfo`. -/
def samplePosition (corner : Nat) : Vec3 ℚ :=
  ⟨((corner % 2 : Nat) : ℚ), ((corner / 2 % 2 : Nat) : ℚ), ((corner / 4 : Nat) : ℚ)⟩

/-! ## The pass, cell by cell, as the specification words it -/

section PassSpec

variable {K : Type} [LinearOrderedField K]

/-- The state in which the loop over `x` starts (lines 1393-1394): `lastIndex` is declared
without a value and `colorX` starts at `colorY`. -/
def lineStart (s : ScanState K) : ScanState K := { s with lastIndex := none, colorX := s.colorY }

/-- The state in which the loop over `y` starts (line 1392): `colorY` starts at `colorZ`. -/
def planeStart (s : ScanState K) : ScanState K := { s with colorY := s.colorZ }

/-- Lines 1853-1857: the state after the cells of line `y`. -/
def lineEnd (b : Block) (y : Nat) (s : ScanState K) : ScanState K :=
  if y != 0 then
    { s with lineIndices := s.lastLineIndices, lastLineIndices := s.lineIndices,
             colorY := s.colorY + b.size }
  else { s with lineIndices := s.lastLineIndices, lastLineIndices := s.lineIndices }

/-- Lines 1859-1863: the state after the lines of plane `z`. -/
def planeEnd (b : Block) (z : Nat) (s : ScanState K) : ScanState K :=
  if z != 0 then
    { s with planeIndices := s.lastPlaneIndices, lastPlaneIndices := s.planeIndices,
             colorZ := s.colorZ + b.area }
  else { s with planeIndices := s.lastPlaneIndices, lastPlaneIndices := s.planeIndices }

/-- The index in the colour contents at which the pointer `colorX` stands at cell
`(x, y, z)`: the pointers start at the contents and step by one sample, one row and one
layer after each cell, line and plane but the first (lines 1382-1394, 1849-1863). -/
def colorBase (b : Block) (x y z : Nat) : Nat :=
  clamped z * b.area + clamped y * b.size + clamped x

/-- The pass skips cell `(x, y, z)` at line 1441. -/
def cellSkipped (b : Block) (x y z : Nat) : Bool :=
  (sampleAlphas b (colorBase b x y z) x y z).uniform

/-- The crossings of cell `(x, y, z)` in the pass. -/
def cellCrossings (E : Externals K) (b : Block) (x y z : Nat) : List (EdgeCrossing K) :=
  extractCrossings E b (colorBase b x y z) x y z

/-- The normal clusters of cell `(x, y, z)` in the pass. -/
def cellNormals (E : Externals K) (b : Block) (x y z : Nat) : List (Vec3 K) :=
  clusterNormals E (cellCrossings E b x y z)

/-- The number of vertices that cell `(x, y, z)` emits: none when it is skipped, else one
and one more for each cluster after the first (lines 1756-1762). -/
def cellCount (E : Externals K) (b : Block) (x y z : Nat) : Nat :=
  if cellSkipped b x y z then 0 else 1 + ((cellNormals E b x y z).length - 1)

/-- The sum of `f 0, ..., f (n - 1)`. -/
def sumBelow (f : Nat → Nat) (n : Nat) : Nat := ((List.range n).map f).sum

/-- The number of vertices emitted before cell `(x, y, z)`: by the planes before `z`, by
the lines before `y` of plane `z` and by the cells before `x` of line `y`. -/
def vertexBase (E : Externals K) (b : Block) (x y z : Nat) : Nat :=
  sumBelow (fun plane => sumBelow (fun line => sumBelow (fun cell =>
      cellCount E b cell line plane) b.expanded) b.expanded) z
    + sumBelow (fun line => sumBelow (fun cell => cellCount E b cell line z) b.expanded) y
    + sumBelow (fun cell => cellCount E b cell y z) x

/-- The `NormalIndex` of cell `(x, y, z)`: entry `i` is the vertex of cluster `i`, and the
first vertex of the cell when the cell has no cluster `i` (lines 1758-1762). -/
def cellIndex (E : Externals K) (b : Block) (x y z : Nat) : NormalIndex :=
  ⟨(List.range MAX_NORMALS_PER_VERTEX).map (fun i =>
    vertexBase E b x y z + (if i < (cellNormals E b x y z).length then i else 0))⟩

/-- The vertex `index` is one of those that cell `(x, y, z)` emits. -/
def emittedBy (E : Externals K) (b : Block) (x y z index : Nat) : Prop :=
  vertexBase E b x y z ≤ index ∧ index < vertexBase E b x y z + cellCount E b x y z

/-- The three cells that share with cell `(x, y, z)` its edge along the axis, in the order
of the locals `index1`, `index2`, `index3` of lines 1773-1775, 1799-1801 and 1825-1827. -/
def edgeCells (x y z axis : Nat) : List (Nat × Nat × Nat) :=
  if axis = 0 then [(x, y - 1, z), (x, y - 1, z - 1), (x, y, z - 1)]
  else if axis = 1 then [(x - 1, y, z), (x - 1, y, z - 1), (x, y, z - 1)]
  else [(x - 1, y, z), (x - 1, y - 1, z), (x, y - 1, z)]

/-- The reads of the rolling caches of lines 1773-1775, 1799-1801 and 1825-1827. -/
def cacheReads (b : Block) (x y z axis : Nat) (s : ScanState K) : List (Option NormalIndex) :=
  if axis = 0 then
    [s.lastLineIndices.get? x, s.lastPlaneIndices.get? ((y - 1) * b.expanded + x),
      s.lastPlaneIndices.get? (y * b.expanded + x)]
  else if axis = 1 then
    [s.lastIndex, s.lastPlaneIndices.get? (y * b.expanded + x - 1),
      s.lastPlaneIndices.get? (y * b.expanded + x)]
  else [s.lastIndex, s.lastLineIndices.get? (x - 1), s.lastLineIndices.get? x]

end PassSpec

/-! ## The invariant of the pass -/

/-- The entries of a `NormalIndex` are four vertex indices below `count`. -/
def NormalIndex.Valid (self : NormalIndex) (count : Nat) : Prop :=
  self.indices.length = MAX_NORMALS_PER_VERTEX ∧ ∀ i ∈ self.indices, i < count

/-- The list `quad` holds four corners: the last is an entry of `own`, the second an entry
of `index2`, and the first and the third are an entry of `index1` and an entry of `index3`,
in one order or the other. -/
def QuadFrom (own index1 index2 index3 : NormalIndex) (quad : List Nat) : Prop :=
  ∃ c0 c1 c2 c3, quad = [c0, c1, c2, c3] ∧ c3 ∈ own.indices ∧ c1 ∈ index2.indices
    ∧ ((c0 ∈ index1.indices ∧ c2 ∈ index3.indices) ∨ (c0 ∈ index3.indices ∧ c2 ∈ index1.indices))

/-- Alpha of the colour sample `(sx, sy, sz)` of the grid. -/
def sampleAlpha (b : Block) (sx sy sz : Nat) : Nat :=
  alphaOf (b.colorContents.getD (sz * b.area + sy * b.size + sx) 0)

/-- The cell coordinate `coord` reads the samples of index `sample` along the axis: the
sample `coord - 1` (the sample 0 for the first cell) and, for a middle cell, the next one. -/
def covers (coord size sample : Nat) : Prop :=
  sample = clamped coord ∨ (middle coord size = true ∧ sample = clamped coord + 1)

/-- Cell `q` comes before cell `p` in the order of the three loops (`z` outermost, then
`y`, then `x`). -/
def scannedBefore (q p : Nat × Nat × Nat) : Prop :=
  q.2.2 < p.2.2 ∨ (q.2.2 = p.2.2 ∧ (q.2.1 < p.2.1 ∨ (q.2.1 = p.2.1 ∧ q.1 < p.1)))

/-- What holds of the scan state when the loop over `x` reaches cell `(x, y, z)`: the
vertices emitted so far are those of the cells before it, the colour pointers stand at the
cell, and each rolling cache holds, at the entry of a cell that was not skipped, the
`NormalIndex` of that cell: `lastIndex` for the previous cell of the line, `lineIndices`
for the cells of the line so far, `lastLineIndices` for the previous line, `planeIndices`
for the cells of the plane so far and `lastPlaneIndices` for the previous plane. -/
structure CellInv {K : Type} [LinearOrderedField K] (E : Externals K) (b : Block)
    (x y z : Nat) (s : ScanState K) : Prop where
  vertices : s.vertices.length = vertexBase E b x y z
  colorX : s.colorX = colorBase b x y z
  colorY : s.colorY = colorBase b 0 y z
  colorZ : s.colorZ = colorBase b 0 0 z
  lastIndex : ∀ x1, x = x1 + 1 → cellSkipped b x1 y z = false →
    s.lastIndex = some (cellIndex E b x1 y z)
  line : ∀ x1, x1 < x → cellSkipped b x1 y z = false →
    s.lineIndices.get? x1 = some (cellIndex E b x1 y z)
  lineLength : s.lineIndices.length = b.expanded
  lastLine : ∀ x1 y1, y = y1 + 1 → x1 < b.expanded → cellSkipped b x1 y1 z = false →
    s.lastLineIndices.get? x1 = some (cellIndex E b x1 y1 z)
  lastLineLength : s.lastLineIndices.length = b.expanded
  plane : ∀ x1 y1, x1 < b.expanded → (y1 < y ∨ (y1 = y ∧ x1 < x)) →
    cellSkipped b x1 y1 z = false →
    s.planeIndices.get? (y1 * b.expanded + x1) = some (cellIndex E b x1 y1 z)
  planeLength : s.planeIndices.length = b.expanded * b.expanded
  lastPlane : ∀ x1 y1 z1, z = z1 + 1 → x1 < b.expanded → y1 < b.expanded →
    cellSkipped b x1 y1 z1 = false →
    s.lastPlaneIndices.get? (y1 * b.expanded + x1) = some (cellIndex E b x1 y1 z1)
  lastPlaneLength : s.lastPlaneIndices.length = b.expanded * b.expanded
  indices : ∀ i ∈ s.indices, i < s.vertices.length

/-- The list `quad` holds the four corners of a quad of cell `(x, y, z)` along the axis,
each a vertex emitted by one of the four cells that share the crossed edge: the last
corner by the cell itself, the second by the cell diagonally across the edge, the first and
the third by the two other cells, in one order or the other. -/
def QuadAround {K : Type} [LinearOrderedField K] (E : Externals K) (b : Block)
    (x y z axis : Nat) (quad : List Nat) : Prop :=
  ∃ c0 c1 c2 c3 q1 q2 q3, edgeCells x y z axis = [q1, q2, q3] ∧ quad = [c0, c1, c2, c3]
    ∧ emittedBy E b x y z c3 ∧ emittedBy E b q2.1 q2.2.1 q2.2.2 c1
    ∧ ((emittedBy E b q1.1 q1.2.1 q1.2.2 c0 ∧ emittedBy E b q3.1 q3.2.1 q3.2.2 c2)
      ∨ (emittedBy E b q3.1 q3.2.1 q3.2.2 c0 ∧ emittedBy E b q1.1 q1.2.1 q1.2.2 c2))

/-- Every cell of the block that the pass does not skip has between one and four normal
clusters. -/
def ClustersBounded {K : Type} [LinearOrderedField K] (E : Externals K) (b : Block) : Prop :=
  ∀ x, x < b.expanded → ∀ y, y < b.expanded → ∀ z, z < b.expanded →
    cellSkipped b x y z = false →
      1 ≤ (cellNormals E b x y z).length
        ∧ (cellNormals E b x y z).length ≤ MAX_NORMALS_PER_VERTEX

/-! ## The display option and the Hermite segments -/

/-- The externals with the menu option `DisplayHermiteData` set to `flag` (line 1389). -/
def Externals.withDisplay {K : Type} (E : Externals K) (flag : Bool) : Externals K :=
  { E with displayHermite := flag }

/-- The scan state without its Hermite segments. -/
def ScanState.withoutSegments {K : Type} (s : ScanState K) : ScanState K :=
  { s with hermiteSegments := [] }

/-- The lists `f 0, ..., f (n - 1)` one after the other. -/
def flatBelow {α : Type} (f : Nat → List α) (n : Nat) : List α := (List.range n).flatMap f

section SegmentSpec

variable {K : Type} [LinearOrderedField K]

/-- The points that cell `(x, y, z)` appends to the Hermite segments when the display
option is on: two for each of its crossings (lines 1653-1658). -/
def cellSegments (E : Externals K) (b : Block) (info : MetavoxelInfo K) (x y z : Nat) :
    List (Vec3 K) :=
  if cellSkipped b x y z then []
  else (cellCrossings E b x y z).flatMap (hermiteSegment b info x y z)

/-- The points appended by the cells scanned before cell `(x, y, z)`. -/
def segmentsBefore (E : Externals K) (b : Block) (info : MetavoxelInfo K) (x y z : Nat) :
    List (Vec3 K) :=
  flatBelow (fun plane => flatBelow (fun line => flatBelow (fun cell =>
      cellSegments E b info cell line plane) b.expanded) b.expanded) z
    ++ flatBelow (fun line => flatBelow (fun cell =>
      cellSegments E b info cell line z) b.expanded) y
    ++ flatBelow (fun cell => cellSegments E b info cell y z) x

/-- The points appended by all the cells of the block. -/
def passSegments (E : Externals K) (b : Block) (info : MetavoxelInfo K) : List (Vec3 K) :=
  flatBelow (fun plane => flatBelow (fun line => flatBelow (fun cell =>
    cellSegments E b info cell line plane) b.expanded) b.expanded) b.expanded

/-- The number of crossings of the cells of the block that are not skipped. -/
def passCrossings (E : Externals K) (b : Block) : Nat :=
  sumBelow (fun plane => sumBelow (fun line => sumBelow (fun cell =>
    if cellSkipped b cell line plane then 0 else (cellCrossings E b cell line plane).length)
    b.expanded) b.expanded) b.expanded

/-- What holds of the colour pointers and of the Hermite segments when the loop over `x`
reaches cell `(x, y, z)`. -/
structure SegmentInv (E : Externals K) (b : Block) (info : MetavoxelInfo K) (x y z : Nat)
    (s : ScanState K) : Prop where
  colorX : s.colorX = colorBase b x y z
  colorY : s.colorY = colorBase b 0 y z
  colorZ : s.colorZ = colorBase b 0 0 z
  segments : s.hermiteSegments
    = if E.displayHermite then segmentsBefore E b info x y z else []

end SegmentSpec

/-! ## The cells on a face of the block -/

/-- The vertices that the pass appends for cell `(x, y, z)`: none when the cell is skipped,
else the vertex solved for the cell, once for each normal cluster (lines 1749-1762). -/
def cellVertices {K : Type} [LinearOrderedField K] [FloorRing K] (E : Externals K) (b : Block)
    (info : MetavoxelInfo K) (x y z : Nat) : List (VoxelPoint K) :=
  if cellSkipped b x y z then []
  else (emitVertices [] (cellPoint E b info x y z (cellCrossings E b x y z)
    (cellNormals E b x y z)) (cellNormals E b x y z)).2

/-- The index in the colour and material contents of the sample of layer `layer` along the
axis (`0` for x, `1` for y, `2` for z) that has the coordinates `i`, `j` on the two other
axes, taken in the order x, y, z. -/
def layerIndex (b : Block) (axis layer i j : Nat) : Nat :=
  if axis = 0 then j * b.area + i * b.size + layer
  else if axis = 1 then j * b.area + layer * b.size + i
  else layer * b.area + j * b.size + i

/-- The index in the Hermite contents of the word of edge `a` of that sample. -/
def layerSlot (EDGE_COUNT : Nat) (b : Block) (axis layer i j a : Nat) : Nat :=
  if axis = 0 then
    j * b.hermiteArea EDGE_COUNT + i * b.hermiteStride EDGE_COUNT + layer * EDGE_COUNT + a
  else if axis = 1 then
    j * b.hermiteArea EDGE_COUNT + layer * b.hermiteStride EDGE_COUNT + i * EDGE_COUNT + a
  else layer * b.hermiteArea EDGE_COUNT + j * b.hermiteStride EDGE_COUNT + i * EDGE_COUNT + a

/-- The last layer of `A` along the axis is the first layer of `B`, in the three grids. -/
def LayersAgree (EDGE_COUNT : Nat) (A B : Block) (axis : Nat) : Prop :=
  ∀ i, i < A.size → ∀ j, j < A.size →
    A.colorContents.getD (layerIndex A axis (A.size - 1) i j) 0
        = B.colorContents.getD (layerIndex B axis 0 i j) 0
      ∧ A.materialAt 0 (layerIndex A axis (A.size - 1) i j)
        = B.materialAt 0 (layerIndex B axis 0 i j)
      ∧ ∀ a, a < 3 →
        A.hermiteContents.getD (layerSlot EDGE_COUNT A axis (A.size - 1) i j a) 0
          = B.hermiteContents.getD (layerSlot EDGE_COUNT B axis 0 i j a) 0

/-- A block of 2x2x2 samples whose layer `z = 0` is solid and whose layer `z = 1` is empty,
with the crossing of each of the four edges along z at 128/255 and its normal along z. -/
def floorBlock : Block :=
  { size := 2
    colorContents := [0xffffffff, 0xffffffff, 0xffffffff, 0xffffffff, 0, 0, 0, 0]
    hermiteSize := 2
    hermiteContents := [0, 0, 0x8000007f, 0, 0, 0x8000007f, 0, 0, 0x8000007f, 0, 0, 0x8000007f,
      0, 0, 0, 0, 0, 0, 0, 0, 0, 0, 0, 0]
    materialContents := none }

/-! ## Throttle (lines 862-882) -/

/-- The largest `int`. -/
def INT_MAX : Int := 2 ^ 31 - 1

/-- The result of a signed operation on `int`: the value when it is representable; signed
overflow is undefined. -/
def checkedInt (value : Int) : Except Fault Int :=
  if -2 ^ 31 ≤ value ∧ value ≤ INT_MAX then Except.ok value else Except.error Fault.signedOverflow

/-- The result of a signed operation on `qint64`. -/
def checkedInt64 (value : Int) : Except Fault Int :=
  if -2 ^ 63 ≤ value ∧ value < 2 ^ 63 then Except.ok value else Except.error Fault.signedOverflow

/-- The members of `Throttle`: `_limit`, `_total`, and the list `_buckets` of pairs of an
expiry time and a byte count, the first bucket at the head. -/
structure Throttle where
  limit : Int
  total : Int
  buckets : List (Int × Int)
deriving DecidableEq

namespace Throttle

/-- Lines 862-865: the constructor. -/
def new : Throttle := { limit := INT_MAX, total := 0, buckets := [] }

/-- Line 878. -/
def BUCKET_DURATION : Int := 1000

/-- Lines 870-872: the loop that clears the expired buckets, on `_total` and `_buckets`. -/
def clearExpired (now : Int) : Int → List (Int × Int) → Except Fault (Int × List (Int × Int))
  | total, [] => Except.ok (total, [])
  | total, first :: rest =>
    if now ≥ first.1 then do
      let total ← checkedInt (total - first.2)
      clearExpired now total rest
    else Except.ok (total, first :: rest)

/-- Lines 867-882: `shouldThrottle`, with the reading of the clock on line 869 as the
argument `now`; the result is the value returned and the members after the call. -/
def shouldThrottle (self : Throttle) (now : Int) (bytes : Int) :
    Except Fault (Bool × Throttle) := do
  let cleared ← clearExpired now self.total self.buckets
  let sum ← checkedInt (cleared.1 + bytes)
  if sum > self.limit then
    Except.ok (true, { self with total := cleared.1, buckets := cleared.2 })
  else do
    let expiry ← checkedInt64 (now + BUCKET_DURATION)
    Except.ok (false, { self with total := sum, buckets := cleared.2 ++ [(expiry, bytes)] })

/-- The sum of the byte counts of a list of buckets. -/
def bytesHeld (buckets : List (Int × Int)) : Int := (buckets.map (fun bucket => bucket.2)).sum

end Throttle

/-! ## EntityMotionState (libraries/physics/src/EntityMotionState.cpp) -/

/-- The enumeration `MotionType`, declared in `ObjectMotionState.h`; the comment of lines
53-56 names its three values. -/
inductive MotionType where
  | MOTION_TYPE_STATIC
  | MOTION_TYPE_DYNAMIC
  | MOTION_TYPE_KINEMATIC
deriving DecidableEq

/-- What `sendUpdate` sets in the `EntityItemProperties` that it queues. -/
structure EntityItemProperties (K : Type) where
  position : Vec3 K
  rotation : Quat K
  velocity : Vec3 K
  gravity : Vec3 K
  angularVelocity : Vec3 K
  lastEdited : Nat

/-- What `EntityMotionState` reads and writes of its `EntityItem`, whose class is declared
outside the translated files: each getter reads a field and each setter writes it. -/
structure EntityItem (K : Type) where
  id : Nat
  collisionsWillMove : Bool
  properties : EntityItemProperties K
  lastSimulated : Nat
  lastEdited : Nat

/-- What `sendUpdate` reads of the `btRigidBody` behind `_body`. -/
structure RigidBody (K : Type) where
  worldOrigin : Vec3 K
  worldRotation : Quat K
  isActive : Bool
  linearVelocity : Vec3 K
  angularVelocity : Vec3 K
  gravity : Vec3 K

/-- The flag words of `EntityItem` and `ObjectMotionState` and the world offset, declared
outside the translated files. -/
structure PhysicsConstants (K : Type) where
  DIRTY_POSITION : Nat
  DIRTY_VELOCITY : Nat
  DIRTY_PHYSICS_FLAGS : Nat
  worldOffset : Vec3 K
  pi : K

/-- The members of `EntityMotionState`, those inherited from `ObjectMotionState` included.
The counter `_numNonMovingUpdates` is declared in `ObjectMotionState.h`, outside the
translated files; it is taken without an upper limit. -/
structure EntityMotionState (K : Type) where
  entity : EntityItem K
  body : RigidBody K
  outgoingPacketFlags : Nat
  sentFrame : Nat
  sentPosition : Vec3 K
  sentRotation : Quat K
  sentVelocity : Vec3 K
  sentAngularVelocity : Vec3 K
  sentAcceleration : Vec3 K
  sentMoving : Bool
  numNonMovingUpdates : Nat

/-- A message of the packet sender: the packet type is always `PacketTypeEntityAddOrEdit`. -/
structure EditMessage (K : Type) where
  id : Nat
  properties : EntityItemProperties K

namespace EntityMotionState

section Motion

variable {K : Type} [LinearOrderedField K]

/-- Lines 45-50: `computeMotionType`, with the entity after the call. -/
def computeMotionType (self : EntityMotionState K) : MotionType × EntityItem K :=
  (if self.entity.collisionsWillMove then MotionType.MOTION_TYPE_DYNAMIC
    else MotionType.MOTION_TYPE_STATIC, self.entity)

/-- GLM: `glm::length2`. -/
def length2 (v : Vec3 K) : K := Vec3.dot v v

/-- GLM: `glm::degrees` of a vector. -/
def degrees (C : PhysicsConstants K) (v : Vec3 K) : Vec3 K := v.scale (180 / C.pi)

/-- Line 126. -/
def MINIMUM_EXTRAPOLATION_SPEED_SQUARED : K := 4 / 1000000

/-- Line 131. -/
def MINIMUM_EXTRAPOLATION_SPIN_SQUARED : K := 4 / 1000

/-- Lines 111-118: the block of `DIRTY_POSITION`. -/
def sendPosition (C : PhysicsConstants K) (self : EntityMotionState K)
    (properties : EntityItemProperties K) : EntityMotionState K × EntityItemProperties K :=
  if self.outgoingPacketFlags &&& C.DIRTY_POSITION ≠ 0 then
    ({ self with sentPosition := self.body.worldOrigin, sentRotation := self.body.worldRotation },
      { properties with
        position := self.body.worldOrigin.add C.worldOffset
        rotation := self.body.worldRotation })
  else (self, properties)

/-- Lines 120-147: the block of `DIRTY_VELOCITY`. -/
def sendVelocity (C : PhysicsConstants K) (self : EntityMotionState K)
    (properties : EntityItemProperties K) : EntityMotionState K × EntityItemProperties K :=
  if self.outgoingPacketFlags &&& C.DIRTY_VELOCITY ≠ 0 then
    let zeroSpeed : Bool :=
      decide (length2 self.body.linearVelocity < MINIMUM_EXTRAPOLATION_SPEED_SQUARED)
    let zeroSpin : Bool :=
      decide (length2 self.body.angularVelocity < MINIMUM_EXTRAPOLATION_SPIN_SQUARED)
    let sentVelocity :=
      if self.body.isActive then (if zeroSpeed then Vec3.zero else self.body.linearVelocity)
      else Vec3.zero
    let sentAngularVelocity :=
      if self.body.isActive then (if zeroSpin then Vec3.zero else self.body.angularVelocity)
      else Vec3.zero
    let sentMoving := if self.body.isActive then !(zeroSpeed && zeroSpin) else false
    ({ self with
        sentVelocity := sentVelocity
        sentAngularVelocity := sentAngularVelocity
        sentMoving := sentMoving
        sentAcceleration := self.body.gravity },
      { properties with
        velocity := sentVelocity
        gravity := self.body.gravity
        angularVelocity := degrees C sentAngularVelocity })
  else (self, properties)

/-- Lines 149-163: the counter of the updates at rest, and the time of the last edit. -/
def sendLastEdited (self : EntityMotionState K) (properties : EntityItemProperties K) :
    EntityMotionState K × EntityItemProperties K :=
  let counted : EntityMotionState K :=
    if self.sentMoving then { self with numNonMovingUpdates := 0 }
    else { self with numNonMovingUpdates := self.numNonMovingUpdates + 1 }
  if counted.numNonMovingUpdates ≤ 1 then
    ({ counted with entity := { counted.entity with lastEdited := counted.entity.lastSimulated } },
      { properties with lastEdited := counted.entity.lastSimulated })
  else (counted, { properties with lastEdited := counted.entity.lastEdited })

/-- Lines 106-175: `sendUpdate` as compiled with `USE_BULLET_PHYSICS`; `queue` holds the
messages handed to the packet sender, the latest last. -/
def sendUpdate (C : PhysicsConstants K) (self : EntityMotionState K)
    (queue : List (EditMessage K)) (frame : Nat) : EntityMotionState K × List (EditMessage K) :=
  if self.outgoingPacketFlags ≠ 0 then
    let positioned := sendPosition C self self.entity.properties
    let moved := sendVelocity C positioned.1 positioned.2
    let edited := sendLastEdited moved.1 moved.2
    ({ edited.1 with outgoingPacketFlags := C.DIRTY_PHYSICS_FLAGS, sentFrame := frame },
      queue ++ [{ id := edited.1.entity.id, properties := edited.2 }])
  else (self, queue)

end Motion

end EntityMotionState

/-! ## The winding of a quad, as the specification words it -/

/-- The three other cells around the edge of cell `(x, y, z)` along the axis, in the order
in which their corners are appended when `alpha0` is not zero (lines 1786-1788, 1812-1814
and 1838-1840). -/
def forwardCells (x y z axis : Nat) : List (Nat × Nat × Nat) :=
  if axis = 0 then [(x, y - 1, z), (x, y - 1, z - 1), (x, y, z - 1)]
  else if axis = 1 then [(x, y, z - 1), (x - 1, y, z - 1), (x - 1, y, z)]
  else [(x - 1, y, z), (x - 1, y - 1, z), (x, y - 1, z)]

/-- The cells of the four corners of a quad in the order in which the corners are appended:
the three other cells, reversed when `alpha0` is zero, and then the cell itself. -/
def windingCells (x y z axis alpha0 : Nat) : List (Nat × Nat × Nat) :=
  (if alpha0 = 0 then (forwardCells x y z axis).reverse else forwardCells x y z axis)
    ++ [(x, y, z)]

section Winding

variable {K : Type} [LinearOrderedField K] [FloorRing K]

/-- The normal against which the corners of a quad are resolved: the cross product of the
edges from the first vertex of the cell to the first vertices of the first and the last of
the three other cells, negated when `alpha0` is zero. -/
def windingNormal (E : Externals K) (b : Block) (x y z axis alpha0 : Nat)
    (vertices : List (VoxelPoint K)) : Except Fault (Vec3 K) := do
  let firstCell := (forwardCells x y z axis).getD 0 (0, 0, 0)
  let thirdCell := (forwardCells x y z axis).getD 2 (0, 0, 0)
  let own ← vertexAt vertices (vertexBase E b x y z)
  let firstVertex ← vertexAt vertices (vertexBase E b firstCell.1 firstCell.2.1 firstCell.2.2)
  let thirdVertex ← vertexAt vertices (vertexBase E b thirdCell.1 thirdCell.2.1 thirdCell.2.2)
  let normal := Vec3.cross (firstVertex.vertex.sub own.vertex) (thirdVertex.vertex.sub own.vertex)
  pure (if alpha0 = 0 then normal.neg else normal)

/-- The four corners of a quad: for each cell of `windingCells`, that of its vertices whose
normal is closest to the reference normal. -/
def windingQuad (E : Externals K) (b : Block) (x y z axis alpha0 : Nat)
    (vertices : List (VoxelPoint K)) : Except Fault (List Nat) := do
  let normal ← windingNormal E b x y z axis alpha0 vertices
  (windingCells x y z axis alpha0).mapM (fun cell =>
    (cellIndex E b cell.1 cell.2.1 cell.2.2).getClosestIndex normal vertices)

end Winding

/-! ## The cells of the ray march -/

/-- The state in which the loop of lines 1107-1163 starts its pass number `n`, counted from
zero, when it started from the state `s`: `none` when the function has returned before that
pass. The key looked up in that pass is `cellKey` of the state. -/
def marchState {K : Type} [LinearOrderedField K] (test : TriangleTest K)
    (buffer : VoxelBuffer K) (origin direction : Vec3 (Flt K)) :
    Nat → MarchState K → Option (MarchState K)
  | 0, s => some s
  | n + 1, s =>
    match marchStep test buffer origin direction s with
    | MarchStep.next state => marchState test buffer origin direction n state
    | _ => none

/-- The step of the march along one axis, as lines 1135-1161 take it: none when the
distance of the axis is not the minimum, else one cell up when the direction component is
positive and one cell down otherwise. -/
def axisStep {K : Type} [LinearOrderedField K] (minimumDistance distance direction : Flt K) :
    Int :=
  if Flt.eq minimumDistance distance then (if Flt.lt (Flt.finite 0) direction then 1 else -1)
  else 0

/-! ## The Givens rotations in exact arithmetic -/

section GivensSpec

variable {K : Type} [LinearOrderedField K]

end GivensSpec

/-- The natural number whose square is `n`, and zero when there is none. -/
def exactRoot (n : Nat) : Nat := ((List.range (n + 1)).find? (fun k => k * k == n)).getD 0

/-- An instance of the externals over the rationals for the Givens loop: an angle is
measured by the tangent of its half, so that the sine and the cosine are exact for the
rotations with integer legs and an integer hypotenuse. -/
def halfAngleExternals : Externals ℚ :=
  { rationalExternals with
    atan := fun y x =>
      if (exactRoot (x * x + y * y).num.toNat : ℚ) + x = 0 then 0
      else y / ((exactRoot (x * x + y * y).num.toNat : ℚ) + x)
    sin := fun t => 2 * t / (1 + t * t)
    cos := fun t => (1 - t * t) / (1 + t * t) }

/-- The integer nearest to a rational, the even one of the two when it is half way. -/
def roundHalfEven (q : ℚ) : Int :=
  let low := Int.floor q
  if q - low < 1 / 2 then low
  else if 1 / 2 < q - low then low + 1
  else if low % 2 = 0 then low else low + 1

/-- The position of the leading bit of a positive natural number `n`, so that
`2 ^ leadingBit n n ≤ n < 2 ^ (leadingBit n n + 1)`; the first argument bounds the
recursion. -/
def leadingBit : Nat → Nat → Nat
  | 0, _ => 0
  | fuel + 1, n => if n < 2 then 0 else leadingBit fuel (n / 2) + 1

/-- The exponent `e` of the binade of a positive rational `q`: `2 ^ e ≤ q < 2 ^ (e + 1)`. -/
def binade (q : ℚ) : Int :=
  let guess : Int := (leadingBit q.num.natAbs q.num.natAbs : Int) - (leadingBit q.den q.den : Int)
  if (q.num.natAbs : Int) * 2 ^ (leadingBit q.den q.den)
      < (q.den : Int) * 2 ^ (leadingBit q.num.natAbs q.num.natAbs)
  then guess - 1 else guess

/-- The power of two with an integer exponent. -/
def twoPow (e : Int) : ℚ :=
  if 0 ≤ e then ((2 ^ e.toNat : Nat) : ℚ) else 1 / ((2 ^ (-e).toNat : Nat) : ℚ)

/-- The `float` nearest to a rational (IEEE 754 binary32, round to nearest, ties to even):
a multiple of `2 ^ (e - 23)` in the binade of exponent `e`, and of `2 ^ -149` below the
exponent -126. The overflow to infinity above `FLT_MAX` is not modelled. -/
def round32 (q : ℚ) : ℚ :=
  if q = 0 then 0
  else
    let step := twoPow (max (binade |q|) (-126) - 23)
    (roundHalfEven (q / step) : ℚ) * step

/-- The externals of `rationalExternals` with the rounding of binary32. -/
def binary32Externals : Externals ℚ := { rationalExternals with round := round32 }

/-- A block of 4x4x4 samples whose layer `z = 0` is solid and whose other layers are empty,
with the crossing of each of the sixteen edges along z that leave layer 0 at 128/255 and
its normal along z. -/
def deepFloorBlock : Block :=
  { size := 4
    colorContents := (List.range 64).map (fun sample => if sample < 16 then 0xffffffff else 0)
    hermiteSize := 4
    hermiteContents := (List.range 192).map (fun slot =>
      if slot < 48 ∧ slot % 3 = 2 then 0x8000007f else 0)
    materialContents := none }

/-- The `float` nearest to one tenth, `0.1f`. -/
def tenth : ℚ := 13421773 / 134217728

/-- A leaf at the origin with the edge length `0.1f`. -/
def tenthLeaf : MetavoxelInfo ℚ := { minimum := ⟨0, 0, 0⟩, size := tenth }

/-- The leaf next to `tenthLeaf` along x. -/
def tenthLeafNext : MetavoxelInfo ℚ := { minimum := ⟨tenth, 0, 0⟩, size := tenth }

/-- The vertices, the index array and the multimap of `t` extend those of `s`. -/
def ScanState.Grows {K : Type} (s t : ScanState K) : Prop :=
  s.vertices <+: t.vertices ∧ s.indices <+: t.indices ∧ s.quadIndices <+: t.quadIndices

/-! ## Theorems -/

section Theorems

variable {K : Type} [LinearOrderedField K]

theorem filter_cons_append {α : Type} (p : α → Bool) (e : α) (l : List α) :
    List.filter p (e :: l) = (if p e then [e] else []) ++ List.filter p l := by
  by_cases h : p e <;> simp [List.filter_cons, h]

theorem map_ite_singleton {α β : Type} (f : α → β) (c : Prop) [Decidable c] (a : α) :
    List.map f (if c then [a] else []) = if c then [f a] else [] := by
  by_cases h : c <;> simp [h]

theorem map_ite_nil_singleton {α β : Type} (f : α → β) (c : Prop) [Decidable c] (a : α) :
    List.map f (if c then [] else [a]) = if c then [] else [f a] := by
  by_cases h : c <;> simp [h]

theorem alphaOf_le (value : Nat) : alphaOf value ≤ 255 := by
  unfold alphaOf ALPHA_OFFSET
  omega

theorem qAlpha_le (rgb : Nat) : qAlpha rgb ≤ 255 := by
  unfold qAlpha
  omega

theorem specPoint_mk (dx dy dz axis : Nat) :
    (specPoint ⟨dx, dy, dz, axis⟩ : K → Vec3 K)
      = fun t => ⟨if axis = 0 then t else (dx : K), if axis = 1 then t else (dy : K),
          if axis = 2 then t else (dz : K)⟩ := rfl

/-- The branch body of the source and the crossing of the specification agree on each of
the twelve edges, given the arguments with which the branch for that edge calls it. -/
theorem recordCrossing_eq_spec (E : Externals K) (b : Block) (colorX x y z : Nat)
    (e : CellEdge) :
    recordCrossing E b colorX x y z
        (e.dz * b.hermiteArea E.EDGE_COUNT + e.dy * b.hermiteStride E.EDGE_COUNT
          + e.dx * E.EDGE_COUNT + e.axis)
        (cornerAlpha b colorX e.dx e.dy e.dz) (cornerOffset b e.ux e.uy e.uz)
        (cornerOffset b e.dx e.dy e.dz) (specPoint e)
      = specCrossing E b colorX x y z e := by
  have hindex : hermiteBase E.EDGE_COUNT b x y z
      + (e.dz * b.hermiteArea E.EDGE_COUNT + e.dy * b.hermiteStride E.EDGE_COUNT
          + e.dx * E.EDGE_COUNT + e.axis) = specHermiteIndex E.EDGE_COUNT b x y z e := by
    unfold hermiteBase specHermiteIndex clamped
    omega
  unfold recordCrossing specCrossing solidOffset Block.hermiteAt
  rw [hindex]
  by_cases h0 : cornerAlpha b colorX e.dx e.dy e.dz = 0 <;>
    simp [h0, EIGHT_BIT_MAXIMUM_RECIPROCAL, EIGHT_BIT_MAXIMUM, div_eq_mul_inv]

set_option maxHeartbeats 1000000 in
/-- The extractor of lines 1454-1622 records exactly the crossings of the sampled, crossed
edges, in the order of `cellEdges`. -/
theorem extractCrossings_eq_spec (E : Externals K) (b : Block) (colorX x y z : Nat) :
    extractCrossings E b colorX x y z
      = (crossedEdges b colorX x y z).map (specCrossing E b colorX x y z) := by
  have key := fun e => (recordCrossing_eq_spec E b colorX x y z e).symm
  unfold extractCrossings crossedEdges cellEdges
  simp only [filter_cons_append, List.filter_nil, List.map_append, map_ite_singleton,
    List.map_nil, key]
  cases hx : middle x b.size <;> cases hy : middle y b.size <;> cases hz : middle z b.size <;>
    simp [edgeCrosses, cornerSampled, cornerAlpha, sampleAlphas, hx, hy, hz,
      CellEdge.ux, CellEdge.uy, CellEdge.uz, cornerOffset, Block.offset3, Block.offset5,
      Block.offset6, Block.offset7, specPoint_mk]

/-- The sampler skips a cell whose sampled corners all have alpha 0 or all have alpha 255. -/
theorem uniform_of_corners (b : Block) (colorX x y z : Nat)
    (h : (∀ dx dy dz, dx ≤ 1 → dy ≤ 1 → dz ≤ 1 → cornerSampled b x y z dx dy dz = true →
            cornerAlpha b colorX dx dy dz = 0)
        ∨ (∀ dx dy dz, dx ≤ 1 → dy ≤ 1 → dz ≤ 1 → cornerSampled b x y z dx dy dz = true →
            cornerAlpha b colorX dx dy dz = 255)) :
    (sampleAlphas b colorX x y z).uniform = true := by
  have one : (1 : Nat) ≤ 1 := le_refl 1
  have zero : (0 : Nat) ≤ 1 := Nat.zero_le 1
  rcases h with h | h
  all_goals
    have h0 := h 0 0 0 zero zero zero
    have h1 := h 1 0 0 one zero zero
    have h2 := h 0 1 0 zero one zero
    have h3 := h 1 1 0 one one zero
    have h4 := h 0 0 1 zero zero one
    have h5 := h 1 0 1 one zero one
    have h6 := h 0 1 1 zero one one
    have h7 := h 1 1 1 one one one
    cases hx : middle x b.size <;> cases hy : middle y b.size <;> cases hz : middle z b.size <;>
      simp [cornerSampled, cornerAlpha, cornerOffset, hx, hy, hz] at h0 h1 h2 h3 h4 h5 h6 h7 <;>
      simp [Alphas.uniform, sampleAlphas, hx, hy, hz, Block.offset3, Block.offset5,
        Block.offset6, Block.offset7, EIGHT_BIT_MAXIMUM, *]

/-- C1. A cell whose sampled in-range corners all have alpha 0, or all have alpha 255, is
left by `visitCell` without any change to the vertex array, the index array, the corner
multimap, the Hermite segments or the rolling line and plane caches: the only effect is the
advance of the colour pointer (when `x` is not zero). -/
theorem uniform_cell_contributes_nothing [FloorRing K] (E : Externals K) (b : Block)
    (info : MetavoxelInfo K) (x y z : Nat) (s : ScanState K)
    (h : (∀ dx dy dz, dx ≤ 1 → dy ≤ 1 → dz ≤ 1 → cornerSampled b x y z dx dy dz = true →
            cornerAlpha b s.colorX dx dy dz = 0)
        ∨ (∀ dx dy dz, dx ≤ 1 → dy ≤ 1 → dz ≤ 1 → cornerSampled b x y z dx dy dz = true →
            cornerAlpha b s.colorX dx dy dz = 255)) :
    visitCell E b info x y z s
      = Except.ok { s with colorX := if x = 0 then s.colorX else s.colorX + 1 } := by
  have hu := uniform_of_corners b s.colorX x y z h
  unfold visitCell
  simp only [hu, if_true]
  unfold advanceX
  by_cases hx : x = 0 <;> simp [hx] <;> rfl

/-- C2. For each of the twelve cell edges the Hermite word of its crossing is the entry of
the Hermite contents at `hermiteBase + dz*hermiteArea + dy*hermiteStride + dx*EDGE_COUNT + a`,
with `hermiteBase` built from `max (coord - 1, 0)`: the Hermite words of the recorded
crossings are, in order, the entries at these indices for the edges that are sampled and
crossed, and every normal is unpacked from the word of its own edge. -/
theorem hermite_slot_of_each_edge (E : Externals K) (b : Block) (colorX x y z : Nat) :
    (extractCrossings E b colorX x y z).map (fun c => c.hermite)
        = (crossedEdges b colorX x y z).map
            (fun e => b.hermiteContents.getD (specHermiteIndex E.EDGE_COUNT b x y z e) 0)
      ∧ (extractCrossings E b colorX x y z).map (fun c => c.normal)
        = (crossedEdges b colorX x y z).map
            (fun e => E.unpackNormal
              (b.hermiteContents.getD (specHermiteIndex E.EDGE_COUNT b x y z e) 0)) := by
  rw [extractCrossings_eq_spec]
  constructor <;> simp [List.map_map, Function.comp_def, specCrossing]

/-- C6. Colour and material of every recorded crossing are read at the grid offset of the
solid endpoint of its edge (the upper endpoint when the alpha of the lower endpoint is
zero, the lower endpoint otherwise), the colour from `colorX` and the material from
`materialBase` at that same offset; the alpha at that offset is not zero; the offset is one
of `0, 1, size, size+1, area, area+1, area+size, area+size+1`; and without a material grid
every material is zero. -/
theorem color_material_from_solid_corner (E : Externals K) (b : Block) (colorX x y z : Nat) :
    (extractCrossings E b colorX x y z).map (fun c => (c.color, c.material))
        = (crossedEdges b colorX x y z).map
            (fun e => (b.colorAt colorX (solidOffset b colorX e),
              b.materialAt (materialBase b x y z) (solidOffset b colorX e)))
      ∧ (crossedEdges b colorX x y z).all
          (fun e => alphaOf (b.colorAt colorX (solidOffset b colorX e)) != 0) = true
      ∧ cellEdges.all
          (fun e => decide (solidOffset b colorX e
            ∈ [0, 1, b.size, b.size + 1, b.area, b.area + 1, b.area + b.size,
                b.area + b.size + 1])) = true
      ∧ (extractCrossings E { b with materialContents := none } colorX x y z).all
          (fun c => c.material == 0) = true := by
  refine ⟨?_, ?_, ?_, ?_⟩
  · rw [extractCrossings_eq_spec]
    simp [List.map_map, Function.comp_def, specCrossing]
  · rw [List.all_eq_true]
    intro e he
    unfold crossedEdges at he
    rw [List.mem_filter] at he
    have hne := he.2
    unfold edgeCrosses at hne
    simp only [Bool.and_eq_true, bne_iff_ne, ne_eq] at hne
    unfold solidOffset
    unfold cornerAlpha at hne
    by_cases h0 : cornerAlpha b colorX e.dx e.dy e.dz = 0
    · simp only [h0, if_true, bne_iff_ne, ne_eq]
      unfold cornerAlpha at h0
      intro h1
      exact hne.2 (h0.trans h1.symm)
    · simp only [h0, if_false, bne_iff_ne, ne_eq]
      exact h0
  · unfold cellEdges solidOffset
    simp only [List.all_cons, List.all_nil, Bool.and_true, Bool.and_eq_true, decide_eq_true_eq]
    refine ⟨?_, ?_, ?_, ?_, ?_, ?_, ?_, ?_, ?_, ?_, ?_, ?_⟩ <;>
      split_ifs <;> simp [cornerOffset, CellEdge.ux, CellEdge.uy, CellEdge.uz]
  · rw [extractCrossings_eq_spec, List.all_eq_true]
    intro c hc
    rw [List.mem_map] at hc
    obtain ⟨e, _, rfl⟩ := hc
    simp [specCrossing, Block.materialAt]

/-- A point placed by `specPoint` at a fraction in `[0, 1]` of one of the twelve edges lies
in the unit cube. -/
theorem specPoint_inUnitCube (e : CellEdge) (hmem : e ∈ cellEdges) (t : K) (h0 : 0 ≤ t)
    (h1 : t ≤ 1) : (specPoint e t).InUnitCube := by
  unfold cellEdges at hmem
  simp only [List.mem_cons, List.mem_singleton, List.not_mem_nil, or_false] at hmem
  rcases hmem with h | h | h | h | h | h | h | h | h | h | h | h <;>
    subst h <;> simp [specPoint, Vec3.InUnitCube, h0, h1]

/-- C7. The point of every recorded crossing has the coordinate `qAlpha (hermite) / 255`
along the axis of its edge and the offsets (0 or 1) of the edge's lower corner on the two
other axes, so that it lies on its own edge; every crossing point lies in the unit cube. -/
theorem crossing_point_on_edge (E : Externals K) (b : Block) (colorX x y z : Nat) :
    (extractCrossings E b colorX x y z).map (fun c => c.point)
        = (crossedEdges b colorX x y z).map
            (fun e => specPoint e
              ((qAlpha (b.hermiteContents.getD (specHermiteIndex E.EDGE_COUNT b x y z e) 0) : K)
                / 255))
      ∧ (extractCrossings E b colorX x y z).all (fun c => decide c.point.InUnitCube) = true
      ∧ cellEdges.all (fun e => decide (e.dx ≤ 1 ∧ e.dy ≤ 1 ∧ e.dz ≤ 1 ∧ e.axis ≤ 2)) = true := by
  refine ⟨?_, ?_, by decide⟩
  · rw [extractCrossings_eq_spec]
    simp [List.map_map, Function.comp_def, specCrossing]
  · rw [extractCrossings_eq_spec, List.all_eq_true]
    intro c hc
    rw [List.mem_map] at hc
    obtain ⟨e, he, rfl⟩ := hc
    have hmem : e ∈ cellEdges := (List.mem_filter.mp he).1
    have hq := qAlpha_le (b.hermiteContents.getD (specHermiteIndex E.EDGE_COUNT b x y z e) 0)
    have hq0 : (0 : K) ≤ (qAlpha (b.hermiteContents.getD
        (specHermiteIndex E.EDGE_COUNT b x y z e) 0) : K) / 255 := by positivity
    have hq1 : (qAlpha (b.hermiteContents.getD
        (specHermiteIndex E.EDGE_COUNT b x y z e) 0) : K) / 255 ≤ 1 := by
      rw [div_le_one (by norm_num)]
      exact_mod_cast hq
    simp only [decide_eq_true_eq, specCrossing]
    exact specPoint_inUnitCube e hmem _ hq0 hq1

/-! ### The vertex solve of a single crossing -/

/-- A property that holds initially and is kept by every step of a left fold holds at
its end. -/
theorem foldl_invariant {α β : Type} (P : α → Prop) (f : α → β → α) (l : List β) (init : α)
    (h0 : P init) (hstep : ∀ s x, P s → P (f s x)) : P (l.foldl f init) := by
  induction l generalizing init with
  | nil => exact h0
  | cons x rest ih => exact ih (f init x) (hstep init x h0)

/-- The last column of `r` and the last entry of `bottom` stay zero under one rotation
step. -/
theorem givensInner_keeps_zero (sina cosa : K) (j k : Nat) (state : Mat K × Vec4 K)
    (h : state.2 3 = 0 ∧ ∀ i, state.1 3 i = 0) :
    (givensInner sina cosa j state k).2 3 = 0 ∧ ∀ i, (givensInner sina cosa j state k).1 3 i = 0 := by
  obtain ⟨hb, hr⟩ := h
  constructor
  · by_cases hk : 3 = k
    · subst hk
      simp [givensInner, Vec4.set, hb, hr]
    · simp [givensInner, Vec4.set, hk, hb]
  · intro i
    by_cases hk : 3 = k ∧ i = j
    · obtain ⟨h3, hi⟩ := hk
      subst h3
      subst hi
      simp [givensInner, Mat.set, hb, hr]
    · simp [givensInner, Mat.set, hk, hr]

/-- Absorbing a crossing whose residual is zero into an `r` with a zero last column
leaves the last column zero. -/
theorem givensAbsorb_keeps_zero (E : Externals K) (center : Vec3 K) (state : Mat K × Vec4 K)
    (crossing : EdgeCrossing K) (hr : ∀ i, state.1 3 i = 0)
    (hzero : Vec3.dot crossing.normal (crossing.point.sub center) = 0) :
    ∀ i, (givensAbsorb E center state crossing).1 3 i = 0 := by
  have hinv := foldl_invariant (fun st : Mat K × Vec4 K => st.2 3 = 0 ∧ ∀ i, st.1 3 i = 0)
    (givensRotate E) (List.range 4) (state.1, bottomRow center crossing)
    ⟨by simp [bottomRow, hzero], hr⟩
    (fun st j hst =>
      foldl_invariant (fun st2 : Mat K × Vec4 K => st2.2 3 = 0 ∧ ∀ i, st2.1 3 i = 0)
        (givensInner (E.sin (E.atan (-(st.2 j)) (st.1 j j)))
          (E.cos (E.atan (-(st.2 j)) (st.1 j j))) j) (List.range 4) (st.1, st.2) hst
        (fun st2 k hst2 => givensInner_keeps_zero _ _ j k st2 hst2))
  exact hinv.2

/-- The mean of a single point is the point. -/
theorem meanPoint_singleton (c : EdgeCrossing K) : meanPoint [c] = c.point := by
  simp [meanPoint, Vec3.add, Vec3.zero, Vec3.divide]

/-- Clamping to `[0, 1]` leaves a point of the unit cube where it is. -/
theorem clamp_of_inUnitCube (p : Vec3 K) (h : p.InUnitCube) : p.clamp 0 1 = p := by
  obtain ⟨⟨hx0, hx1⟩, ⟨hy0, hy1⟩, ⟨hz0, hz1⟩⟩ := h
  simp [Vec3.clamp, hx0, hx1, hy0, hy1, hz0, hz1]

/-- C5. For a cell with exactly one crossing, at a point of the unit cube and with any
normal, the cell-local position computed by lines 1678-1744 (mean, Givens rotations,
Jacobi sweeps, thresholded pseudo-inverse, clamp) is the crossing point itself, whatever
the trigonometric calls and the square root return. -/
theorem single_crossing_position (E : Externals K) (c : EdgeCrossing K)
    (h : c.point.InUnitCube) : solvePosition E [c] = c.point := by
  have hzero : Vec3.dot c.normal (c.point.sub c.point) = 0 := by
    simp [Vec3.dot, Vec3.sub]
  have hcol := givensAbsorb_keeps_zero E c.point ((fun _ _ => 0), (fun _ => 0)) c
    (fun _ => rfl) hzero
  unfold solvePosition
  simp only [meanPoint_singleton, givensQR, List.foldl_cons, List.foldl_nil, hcol]
  simp only [Mat.mulVec3, mul_zero, add_zero, Vec3.add, zero_add]
  exact clamp_of_inUnitCube c.point h

/-- C5, at the crossing `(1/2, 0, 0)` with normal `(1, 0, 0)`. -/
theorem single_crossing_position_witness :
    solvePosition rationalExternals
      [({ point := ⟨1 / 2, 0, 0⟩, normal := ⟨1, 0, 0⟩, color := 0, material := 0,
          hermite := 0 } : EdgeCrossing ℚ)] = ⟨1 / 2, 0, 0⟩ :=
  single_crossing_position rationalExternals _ (by norm_num [Vec3.InUnitCube])

/-- C1, at the interior cell `(1, 1, 1)` of the empty block. -/
theorem uniform_cell_contributes_nothing_witness :
    visitCell rationalExternals emptyBlock unitInfo 1 1 1 (initialState emptyBlock)
      = Except.ok { (initialState emptyBlock : ScanState ℚ) with
          colorX := if 1 = 0 then (initialState emptyBlock : ScanState ℚ).colorX
            else (initialState emptyBlock : ScanState ℚ).colorX + 1 } :=
  uniform_cell_contributes_nothing rationalExternals emptyBlock unitInfo 1 1 1
    (initialState emptyBlock)
    (Or.inl (by
      intro dx dy dz hx hy hz _
      interval_cases dx <;> interval_cases dy <;> interval_cases dz <;> decide))

/-! ### Normal clusters -/

/-- A normal that is within the crease angle of no cluster starts a cluster of its own. -/
theorem clusterNormal_of_separated (E : Externals K) (normals : List (Vec3 K)) (normal : Vec3 K)
    (h : ∀ m ∈ normals, ¬ Vec3.dot m normal > CREASE_COS_NORMAL E) :
    clusterNormal E normals normal = normals ++ [normal] := by
  induction normals with
  | nil => rfl
  | cons first rest ih =>
    have hfirst := h first (List.mem_cons_self first rest)
    have hrest := ih (fun m hm => h m (List.mem_cons_of_mem first hm))
    simp [clusterNormal, hfirst, hrest]

/-- Normals that are pairwise outside the crease angle all become clusters. -/
theorem foldl_clusterNormal_of_pairwise (E : Externals K) (normals : List (Vec3 K)) :
    ∀ start : List (Vec3 K),
      (∀ m ∈ start, ∀ n ∈ normals, ¬ Vec3.dot m n > CREASE_COS_NORMAL E) →
      normals.Pairwise (fun m n => ¬ Vec3.dot m n > CREASE_COS_NORMAL E) →
      normals.foldl (clusterNormal E) start = start ++ normals := by
  induction normals with
  | nil => intro start _ _; simp
  | cons n rest ih =>
    intro start hstart hpair
    rw [List.pairwise_cons] at hpair
    rw [List.foldl_cons,
      clusterNormal_of_separated E start n (fun m hm => hstart m hm n (List.mem_cons_self n rest))]
    rw [ih (start ++ [n]) ?_ hpair.2]
    · simp
    · intro m hm k hk
      rw [List.mem_append, List.mem_singleton] at hm
      rcases hm with hm | hm
      · exact hstart m hm k (List.mem_cons_of_mem n hk)
      · subst hm
        exact hpair.1 k hk

/-- The clusters depend on the crossings through their normals only. -/
theorem clusterNormals_eq_foldl (E : Externals K) (crossings : List (EdgeCrossing K)) :
    clusterNormals E crossings
      = (crossings.map (fun c => c.normal)).foldl (clusterNormal E) [] := by
  unfold clusterNormals
  rw [List.foldl_map]

/-- Every extracted normal is unpacked from the Hermite word kept in its crossing. -/
theorem extractCrossings_normals (E : Externals K) (b : Block) (colorX x y z : Nat) :
    (extractCrossings E b colorX x y z).map (fun c => c.normal)
      = ((extractCrossings E b colorX x y z).map (fun c => c.hermite)).map E.unpackNormal := by
  rw [extractCrossings_eq_spec]
  simp [List.map_map, Function.comp_def, specCrossing]

/-- The value of `CREASE_COS_NORMAL` in the rational instance, about 0.7071. -/
theorem crease_rational :
    CREASE_COS_NORMAL rationalExternals = 868312161499036891 / 1227985110530850816 := by
  norm_num [CREASE_COS_NORMAL, rationalExternals, radians]

/-- The six normals of cell `(1, 1, 1)` of the diagonal block. -/
theorem diagonalBlock_normals :
    (extractCrossings rationalExternals diagonalBlock 0 1 1 1).map (fun c => c.normal)
      = [⟨1, 0, 0⟩, ⟨0, 0, -1⟩, ⟨0, -1, 0⟩, ⟨-1, 0, 0⟩, ⟨0, 1, 0⟩, ⟨0, 0, 1⟩] := by
  have hwords : (extractCrossings rationalExternals diagonalBlock 0 1 1 1).map
      (fun c => c.hermite)
      = [0x807f0000, 0x80000081, 0x80008100, 0x80810000, 0x80007f00, 0x8000007f] := by
    decide
  rw [extractCrossings_normals, hwords]
  norm_num [rationalExternals, unpackNormalBytes, toChar, qRed, qGreen, qBlue]

/-- C3 (failing input). Cell `(1, 1, 1)` of the diagonal block has six crossings whose
normals are pairwise at right angles or opposite, so the clustering loop of lines 1634-1647
forms six clusters, two more than the `MAX_NORMALS_PER_VERTEX = 4` elements of `normals`:
the stores `normals[4]` and `normals[5]` are out of bounds. -/
theorem six_clusters_on_diagonal_block :
    (extractCrossings rationalExternals diagonalBlock 0 1 1 1).length = 6
      ∧ (clusterNormals rationalExternals
          (extractCrossings rationalExternals diagonalBlock 0 1 1 1)).length = 6
      ∧ MAX_NORMALS_PER_VERTEX = 4
      ∧ faultOf (visitCell rationalExternals diagonalBlock unitInfo 1 1 1
          (initialState diagonalBlock)) = some Fault.normalsOverflow := by
  have hcount : (extractCrossings rationalExternals diagonalBlock 0 1 1 1).length = 6 := by
    decide
  have hclusters : clusterNormals rationalExternals
      (extractCrossings rationalExternals diagonalBlock 0 1 1 1)
      = [⟨1, 0, 0⟩, ⟨0, 0, -1⟩, ⟨0, -1, 0⟩, ⟨-1, 0, 0⟩, ⟨0, 1, 0⟩, ⟨0, 0, 1⟩] := by
    rw [clusterNormals_eq_foldl, diagonalBlock_normals,
      foldl_clusterNormal_of_pairwise rationalExternals _ [] (by simp)]
    · simp
    · simp only [List.pairwise_cons, List.mem_cons, List.mem_singleton, crease_rational]
      norm_num [Vec3.dot]
  have huniform : (sampleAlphas diagonalBlock 0 1 1 1).uniform = false := by decide
  refine ⟨hcount, by rw [hclusters]; rfl, rfl, ?_⟩
  have hstate : (initialState diagonalBlock : ScanState ℚ).colorX = 0 := rfl
  unfold visitCell
  simp [hstate, huniform, hclusters, MAX_NORMALS_PER_VERTEX, faultOf]
  rfl

/-- One crossing changes the number of clusters by at most one and never empties them. -/
theorem clusterNormal_length (E : Externals K) (normals : List (Vec3 K)) (normal : Vec3 K) :
    (clusterNormal E normals normal).length ≤ normals.length + 1
      ∧ 1 ≤ (clusterNormal E normals normal).length
      ∧ normals.length ≤ (clusterNormal E normals normal).length := by
  induction normals with
  | nil => simp [clusterNormal]
  | cons first rest ih =>
    unfold clusterNormal
    split_ifs
    · simp
    · simp only [List.length_cons]
      omega

/-- The clustering loop forms at most one cluster for each crossing, and at least one
cluster when there is a crossing. -/
theorem clusterNormals_length (E : Externals K) (crossings : List (EdgeCrossing K)) :
    (clusterNormals E crossings).length ≤ crossings.length
      ∧ (crossings ≠ [] → 1 ≤ (clusterNormals E crossings).length) := by
  have hgen : ∀ (cs : List (EdgeCrossing K)) (start : List (Vec3 K)),
      (cs.foldl (fun normals crossing => clusterNormal E normals crossing.normal) start).length
          ≤ start.length + cs.length
        ∧ start.length
          ≤ (cs.foldl (fun normals crossing => clusterNormal E normals crossing.normal)
              start).length
        ∧ (cs ≠ [] → 1 ≤ (cs.foldl
            (fun normals crossing => clusterNormal E normals crossing.normal) start).length) := by
    intro cs
    induction cs with
    | nil => intro start; simp
    | cons c rest ih =>
      intro start
      have hstep := clusterNormal_length E start c.normal
      have hrest := ih (clusterNormal E start c.normal)
      simp only [List.foldl_cons, List.length_cons]
      refine ⟨by omega, by omega, fun _ => by omega⟩
  have h := hgen crossings []
  unfold clusterNormals
  exact ⟨by simpa using h.1, h.2.2⟩

/-! ### A non-skipped cell without crossings -/

/-- C4 (failing input). In the block whose samples all have alpha 128 the first cell,
`(0, 0, 0)`, is not skipped by the test of line 1441 and has no crossing; the source has no
guard, so line 1750 divides `red` by a `crossingCount` of zero, and the pass faults there. -/
theorem division_by_zero_on_gray_block :
    (sampleAlphas grayBlock 0 0 0 0).uniform = false
      ∧ (extractCrossings rationalExternals grayBlock 0 0 0 0).length = 0
      ∧ faultOf (visitCell rationalExternals grayBlock unitInfo 0 0 0 (initialState grayBlock))
          = some Fault.divisionByZero
      ∧ faultOf (visit rationalExternals grayBlock unitInfo) = some Fault.divisionByZero := by
  decide

/-! ### Material table -/

/-- The material table depends on the crossings through their materials only. -/
theorem collectMaterials_eq_foldl (crossings : List (EdgeCrossing K)) :
    collectMaterials crossings
      = (crossings.map (fun c => c.material)).foldl assignMaterial MaterialTable.empty := by
  unfold collectMaterials
  rw [List.foldl_map]

/-- Truncation of a value between a natural number and its successor. -/
theorem truncate_of_floor [FloorRing K] (v : K) (n : ℕ) (h0 : (n : K) ≤ v)
    (h1 : v < (n : K) + 1) : truncate v = (n : ℤ) := by
  have hv : (0 : K) ≤ v := le_trans (Nat.cast_nonneg n) h0
  unfold truncate
  rw [if_pos hv, Int.floor_eq_iff]
  constructor
  · exact_mod_cast h0
  · exact_mod_cast h1

/-- The material table of cell `(1, 1, 0)` of the block with materials 200 and 1. -/
theorem materialBlock_200_1_table :
    collectMaterials (extractCrossings rationalExternals (materialBlock 200 1) 0 1 1 0)
      = { slots := [(200, 1), (1, 2), (200, 1), (0, 0)], totalWeight := 4 } := by
  have hm : (extractCrossings rationalExternals (materialBlock 200 1) 0 1 1 0).map
      (fun c => c.material) = [-56, 1, 1, -56] := by decide
  rw [collectMaterials_eq_foldl, hm]
  simp [assignMaterial, assignSlot, MaterialTable.empty, toQuint8, MAX_MATERIALS_PER_VERTEX,
    List.replicate]
  norm_num

/-- The material table of cell `(1, 1, 0)` of the block with materials 1 and 2. -/
theorem materialBlock_1_2_table :
    collectMaterials (extractCrossings rationalExternals (materialBlock 1 2) 0 1 1 0)
      = { slots := [(1, 2), (2, 2), (0, 0), (0, 0)], totalWeight := 4 } := by
  have hm : (extractCrossings rationalExternals (materialBlock 1 2) 0 1 1 0).map
      (fun c => c.material) = [1, 2, 2, 1] := by decide
  rw [collectMaterials_eq_foldl, hm]
  simp [assignMaterial, assignSlot, MaterialTable.empty, toQuint8, MAX_MATERIALS_PER_VERTEX,
    List.replicate]
  norm_num

/-- C8 (failing input). In cell `(1, 1, 0)` of the block whose two solid samples have the
materials 200 and 1, two crossings carry material 200 and two carry material 1. The byte
200 is the `char` -56, which the comparison of line 1664 never finds equal to the
`quint8` 200 of a slot, so the second crossing of material 200 opens a second slot: the
vertex has the materials `[200, 1, 200, 0]` with the weights `[63, 127, 63, 0]`, where
`floor (255 * c_j / T)` over the crossings that carry the id of each slot is
`[85, 85, 85, 0]`. -/
theorem weights_not_proportional_for_material_200 :
    (extractCrossings rationalExternals (materialBlock 200 1) 0 1 1 0).map
        (fun c => toQuint8 c.material) = [200, 1, 1, 200]
      ∧ (cellPoint rationalExternals (materialBlock 200 1) unitInfo 1 1 0
          (extractCrossings rationalExternals (materialBlock 200 1) 0 1 1 0)
          (clusterNormals rationalExternals
            (extractCrossings rationalExternals (materialBlock 200 1) 0 1 1 0))).materials
        = [200, 1, 200, 0]
      ∧ (cellPoint rationalExternals (materialBlock 200 1) unitInfo 1 1 0
          (extractCrossings rationalExternals (materialBlock 200 1) 0 1 1 0)
          (clusterNormals rationalExternals
            (extractCrossings rationalExternals (materialBlock 200 1) 0 1 1 0))).materialWeights
        = [63, 127, 63, 0]
      ∧ specWeights (extractCrossings rationalExternals (materialBlock 200 1) 0 1 1 0)
          [200, 1, 200, 0] = [85, 85, 85, 0] := by
  have h63 : truncate (255 / 4 : ℚ) = 63 := truncate_of_floor _ 63 (by norm_num) (by norm_num)
  have h127 : truncate (2 * (255 / 4) : ℚ) = 127 :=
    truncate_of_floor _ 127 (by norm_num) (by norm_num)
  have h0 : truncate (0 : ℚ) = 0 := truncate_of_floor _ 0 (by norm_num) (by norm_num)
  refine ⟨by decide, ?_, ?_, by decide⟩
  · show finalMaterials (collectMaterials _) = _
    rw [materialBlock_200_1_table]
    rfl
  · show finalWeights (collectMaterials _) = _
    rw [materialBlock_200_1_table]
    simp [finalWeights, EIGHT_BIT_MAXIMUM, h63, h127, h0, toQuint8]

/-- C9 (counterexample). In cell `(1, 1, 0)` of the block whose two solid samples have the
materials 1 and 2, every crossing carries a material, two of them material 1 and two
material 2; the rescaled weights are `127.5` each, their conversion to `quint8` gives
`[127, 127, 0, 0]`, and the weights sum to 254, not to 255. -/
theorem weights_sum_254_for_two_materials :
    (extractCrossings rationalExternals (materialBlock 1 2) 0 1 1 0).map
        (fun c => c.material) = [1, 2, 2, 1]
      ∧ (cellPoint rationalExternals (materialBlock 1 2) unitInfo 1 1 0
          (extractCrossings rationalExternals (materialBlock 1 2) 0 1 1 0)
          (clusterNormals rationalExternals
            (extractCrossings rationalExternals (materialBlock 1 2) 0 1 1 0))).materialWeights
        = [127, 127, 0, 0]
      ∧ ((cellPoint rationalExternals (materialBlock 1 2) unitInfo 1 1 0
          (extractCrossings rationalExternals (materialBlock 1 2) 0 1 1 0)
          (clusterNormals rationalExternals
            (extractCrossings rationalExternals (materialBlock 1 2) 0 1 1 0))).materialWeights).sum
        ≠ 255 := by
  have h127 : truncate (2 * (255 / 4) : ℚ) = 127 :=
    truncate_of_floor _ 127 (by norm_num) (by norm_num)
  have h0 : truncate (0 : ℚ) = 0 := truncate_of_floor _ 0 (by norm_num) (by norm_num)
  have hweights : (cellPoint rationalExternals (materialBlock 1 2) unitInfo 1 1 0
      (extractCrossings rationalExternals (materialBlock 1 2) 0 1 1 0)
      (clusterNormals rationalExternals
        (extractCrossings rationalExternals (materialBlock 1 2) 0 1 1 0))).materialWeights
      = [127, 127, 0, 0] := by
    show finalWeights (collectMaterials _) = _
    rw [materialBlock_1_2_table]
    simp [finalWeights, EIGHT_BIT_MAXIMUM, h127, h0, toQuint8]
  refine ⟨by decide, hweights, ?_⟩
  rw [hweights]
  decide

/-- C10 (failing input). In cell `(1, 1, 0)` of the block whose two solid samples both have
material 200, all four crossings carry material 200, and the vertex has the material table
`[200, 200, 200, 200]`: the comparison of line 1664 is between the `quint8` 200 of the slot
and the `char` -56 of the crossing, never finds the material present, and every crossing
takes a new slot. -/
theorem material_200_fills_every_slot :
    (extractCrossings rationalExternals (materialBlock 200 200) 0 1 1 0).map
        (fun c => c.material) = [-56, -56, -56, -56]
      ∧ (cellPoint rationalExternals (materialBlock 200 200) unitInfo 1 1 0
          (extractCrossings rationalExternals (materialBlock 200 200) 0 1 1 0)
          (clusterNormals rationalExternals
            (extractCrossings rationalExternals (materialBlock 200 200) 0 1 1 0))).materials
        = [200, 200, 200, 200] := by
  refine ⟨by decide, ?_⟩
  show finalMaterials (collectMaterials _) = _
  decide

/-! ### The weights as natural numbers -/

theorem assignSlot_toTable (material : Int) (slots : List (Nat × Nat)) :
    assignSlot material (slots.map (fun slot => (slot.1, (slot.2 : K))))
      = (assignSlotCount material slots).map
          (fun found => found.map (fun slot => (slot.1, (slot.2 : K)))) := by
  induction slots with
  | nil => rfl
  | cons head rest ih =>
    obtain ⟨m, c⟩ := head
    simp only [List.map_cons, assignSlot, assignSlotCount]
    split_ifs
    · simp
    · simp
    · rw [ih]
      cases assignSlotCount material rest <;> simp

theorem assignMaterial_toTable (t : CountTable) (material : Int) :
    assignMaterial (t.toTable : MaterialTable K) material = (assignCount t material).toTable := by
  unfold assignMaterial assignCount
  split_ifs
  · simp only [CountTable.toTable, assignSlot_toTable]
    cases assignSlotCount material t.slots <;> simp
  · rfl

theorem collectMaterials_toTable (crossings : List (EdgeCrossing K)) :
    collectMaterials crossings
      = (collectCounts (crossings.map (fun c => c.material))).toTable := by
  rw [collectMaterials_eq_foldl]
  unfold collectCounts
  have hstart : (MaterialTable.empty : MaterialTable K)
      = ({ slots := List.replicate MAX_MATERIALS_PER_VERTEX (0, 0), total := 0 }
          : CountTable).toTable := by
    simp [MaterialTable.empty, CountTable.toTable, MAX_MATERIALS_PER_VERTEX, List.replicate]
  rw [hstart]
  generalize ({ slots := List.replicate MAX_MATERIALS_PER_VERTEX (0, 0), total := 0 }
    : CountTable) = start
  induction (crossings.map (fun c => c.material)) generalizing start with
  | nil => rfl
  | cons material rest ih =>
    simp only [List.foldl_cons, assignMaterial_toTable]
    exact ih (assignCount start material)

theorem truncate_natCast [FloorRing K] (c : Nat) : truncate (c : K) = (c : Int) := by
  unfold truncate
  rw [if_pos (Nat.cast_nonneg c), Int.floor_natCast]

theorem truncate_rescaled [FloorRing K] (c total : Nat) :
    truncate ((c : K) * ((EIGHT_BIT_MAXIMUM : K) / (total : K))) = ((c * 255 / total : Nat) : Int) := by
  have hform : (c : K) * ((EIGHT_BIT_MAXIMUM : K) / (total : K))
      = ((c * 255 : Nat) : K) / (total : K) := by
    simp only [EIGHT_BIT_MAXIMUM]
    push_cast
    ring
  have hnonneg : (0 : K) ≤ ((c * 255 : Nat) : K) / (total : K) := by positivity
  unfold truncate
  rw [hform, if_pos hnonneg, ← Int.natCast_floor_eq_floor hnonneg, Nat.floor_div_eq_div]

theorem finalWeights_toTable [FloorRing K] (t : CountTable) :
    finalWeights (t.toTable : MaterialTable K) = countWeights t := by
  unfold finalWeights countWeights CountTable.toTable
  simp only [List.map_map]
  apply List.map_congr_left
  intro slot _
  by_cases htotal : 0 < t.total
  · have hcast : (t.total : K) > 0 := by exact_mod_cast htotal
    simp only [Function.comp, hcast, htotal, if_true, truncate_rescaled, toQuint8]
    omega
  · have hcast : ¬ (t.total : K) > 0 := by
      intro h
      exact htotal (by exact_mod_cast h)
    simp only [Function.comp, hcast, htotal, if_false, truncate_natCast, toQuint8]
    omega

theorem toChar_isChar (byte : Nat) : IsChar (toChar byte) := by
  unfold IsChar toChar
  split_ifs <;> omega

theorem toQuint8_ne_zero (material : Int) (hchar : IsChar material) (hne : material ≠ 0) :
    toQuint8 material ≠ 0 := by
  unfold IsChar at hchar
  unfold toQuint8
  omega

theorem assignSlotCount_some (material : Int) (hchar : IsChar material) (hne : material ≠ 0) :
    ∀ (slots found : List (Nat × Nat)), SlotsMarked slots →
      assignSlotCount material slots = some found →
      found.length = slots.length ∧ (found.map Prod.snd).sum = (slots.map Prod.snd).sum + 1
        ∧ SlotsMarked found := by
  intro slots
  induction slots with
  | nil => intro found _ h; simp [assignSlotCount] at h
  | cons head rest ih =>
    obtain ⟨m, c⟩ := head
    intro found hmarked h
    have hhead := hmarked (m, c) (List.mem_cons_self _ _)
    have hrest : SlotsMarked rest := fun slot hs => hmarked slot (List.mem_cons_of_mem _ hs)
    unfold assignSlotCount at h
    split_ifs at h with heq hzero
    · simp only [Option.some.injEq] at h
      subst h
      refine ⟨by simp, by simp only [List.map_cons, List.sum_cons]; omega, ?_⟩
      intro slot hs
      rcases List.mem_cons.mp hs with hs | hs
      · subst hs
        have hm : m ≠ 0 := by
          intro h0
          apply hne
          rw [← heq, h0]
          rfl
        simp [hm]
      · exact hrest slot hs
    · simp only [Option.some.injEq] at h
      subst h
      have hc : c = 0 := hhead.mp hzero
      refine ⟨by simp, by simp only [List.map_cons, List.sum_cons]; omega, ?_⟩
      intro slot hs
      rcases List.mem_cons.mp hs with hs | hs
      · subst hs
        simp [toQuint8_ne_zero material hchar hne]
      · exact hrest slot hs
    · cases hfound : assignSlotCount material rest with
      | none => simp [hfound] at h
      | some tail =>
        simp only [hfound, Option.map_some', Option.some.injEq] at h
        subst h
        obtain ⟨hlen, hsum, hmark⟩ := ih tail hrest hfound
        refine ⟨by simp [hlen], by simp only [List.map_cons, List.sum_cons]; omega, ?_⟩
        intro slot hs
        rcases List.mem_cons.mp hs with hs | hs
        · subst hs
          exact hhead
        · exact hmark slot hs

theorem assignSlotCount_none (material : Int) :
    ∀ slots : List (Nat × Nat), assignSlotCount material slots = none →
      ∀ slot ∈ slots, slot.1 ≠ 0 := by
  intro slots
  induction slots with
  | nil => intro _ slot hs; simp at hs
  | cons head rest ih =>
    obtain ⟨m, c⟩ := head
    intro h slot hs
    unfold assignSlotCount at h
    split_ifs at h with heq hzero
    cases hfound : assignSlotCount material rest with
    | some tail => simp [hfound] at h
    | none =>
      rcases List.mem_cons.mp hs with hs | hs
      · subst hs
        exact hzero
      · exact ih hfound slot hs

theorem assignCount_balanced (t : CountTable) (material : Int) (hchar : IsChar material)
    (h : t.Balanced) :
    (assignCount t material).Balanced ∧ t.total ≤ (assignCount t material).total
      ∧ (material ≠ 0 → 0 < (assignCount t material).total) := by
  obtain ⟨hlen, htotal, hmarked⟩ := h
  by_cases hne : material ≠ 0
  · cases hfound : assignSlotCount material t.slots with
    | some found =>
      have hdef : assignCount t material = { slots := found, total := t.total + 1 } := by
        simp [assignCount, hne, hfound]
      obtain ⟨hl, hs, hm⟩ := assignSlotCount_some material hchar hne t.slots found hmarked hfound
      rw [hdef]
      exact ⟨⟨by simp only [hl, hlen], by simp only [hs, htotal], hm⟩, by simp, by simp⟩
    | none =>
      have hdef : assignCount t material = t := by
        simp [assignCount, hne, hfound]
      rw [hdef]
      refine ⟨⟨hlen, htotal, hmarked⟩, le_refl _, fun _ => ?_⟩
      have hall := assignSlotCount_none material t.slots hfound
      match hslots : t.slots with
      | [] => simp [hslots, MAX_MATERIALS_PER_VERTEX] at hlen
      | head :: rest =>
        have hmem : head ∈ t.slots := by rw [hslots]; exact List.mem_cons_self _ _
        have h1 := hall head hmem
        have h2 : head.2 ≠ 0 := fun h0 => h1 ((hmarked head hmem).mpr h0)
        rw [htotal, hslots, List.map_cons, List.sum_cons]
        omega
  · have hdef : assignCount t material = t := by
      simp [assignCount, hne]
    rw [hdef]
    exact ⟨⟨hlen, htotal, hmarked⟩, le_refl _, fun h => absurd h hne⟩

theorem collectCounts_balanced (materials : List Int) (hchar : ∀ m ∈ materials, IsChar m) :
    (collectCounts materials).Balanced
      ∧ ((∃ m ∈ materials, m ≠ 0) → 0 < (collectCounts materials).total) := by
  have hgen : ∀ (ms : List Int) (start : CountTable), (∀ m ∈ ms, IsChar m) → start.Balanced →
      (ms.foldl assignCount start).Balanced
        ∧ start.total ≤ (ms.foldl assignCount start).total
        ∧ ((∃ m ∈ ms, m ≠ 0) → 0 < (ms.foldl assignCount start).total) := by
    intro ms
    induction ms with
    | nil => intro start _ hb; exact ⟨hb, le_refl _, fun ⟨m, hm, _⟩ => by simp at hm⟩
    | cons m rest ih =>
      intro start hc hb
      obtain ⟨hb1, hle1, hpos1⟩ := assignCount_balanced start m
        (hc m (List.mem_cons_self _ _)) hb
      obtain ⟨hb2, hle2, hpos2⟩ := ih (assignCount start m)
        (fun k hk => hc k (List.mem_cons_of_mem _ hk)) hb1
      simp only [List.foldl_cons]
      refine ⟨hb2, le_trans hle1 hle2, ?_⟩
      rintro ⟨k, hk, hkne⟩
      rcases List.mem_cons.mp hk with hk | hk
      · subst hk
        exact lt_of_lt_of_le (hpos1 hkne) hle2
      · exact hpos2 ⟨k, hk, hkne⟩
  have hstart : ({ slots := List.replicate MAX_MATERIALS_PER_VERTEX (0, 0), total := 0 }
      : CountTable).Balanced := by
    refine ⟨by simp, by simp [MAX_MATERIALS_PER_VERTEX, List.replicate], ?_⟩
    intro slot hs
    rw [List.mem_replicate] at hs
    rw [hs.2]
  obtain ⟨hb, _, hpos⟩ := hgen materials _ hchar hstart
  exact ⟨hb, hpos⟩

/-- Four floors `floor (255 * c / total)` of counts that add up to `total` add up to at
most 255 and to at least 252. -/
theorem rescaled_sum_bounds (c1 c2 c3 c4 total : Nat) (hpos : 0 < total)
    (hsum : total = c1 + c2 + c3 + c4) :
    c1 * 255 / total + c2 * 255 / total + c3 * 255 / total + c4 * 255 / total ≤ 255
      ∧ 252 ≤ c1 * 255 / total + c2 * 255 / total + c3 * 255 / total + c4 * 255 / total := by
  have h1 := Nat.div_add_mod (c1 * 255) total
  have h2 := Nat.div_add_mod (c2 * 255) total
  have h3 := Nat.div_add_mod (c3 * 255) total
  have h4 := Nat.div_add_mod (c4 * 255) total
  have r1 := Nat.mod_lt (c1 * 255) hpos
  have r2 := Nat.mod_lt (c2 * 255) hpos
  have r3 := Nat.mod_lt (c3 * 255) hpos
  have r4 := Nat.mod_lt (c4 * 255) hpos
  have hdist : total * (c1 * 255 / total + c2 * 255 / total + c3 * 255 / total
      + c4 * 255 / total)
      = total * (c1 * 255 / total) + total * (c2 * 255 / total) + total * (c3 * 255 / total)
        + total * (c4 * 255 / total) := by ring
  constructor
  · apply Nat.le_of_mul_le_mul_left _ hpos
    rw [hdist]
    omega
  · have hlt : total * 255 < total * (c1 * 255 / total + c2 * 255 / total + c3 * 255 / total
        + c4 * 255 / total + 4) := by
      rw [Nat.mul_add, hdist]
      omega
    have := Nat.lt_of_mul_lt_mul_left hlt
    omega

theorem countWeights_sum_bounds (t : CountTable) (h : t.Balanced) :
    (countWeights t).sum ≤ 255 ∧ (0 < t.total → 252 ≤ (countWeights t).sum) := by
  obtain ⟨hlen, htotal, _⟩ := h
  obtain ⟨slots, total⟩ := t
  simp only [MAX_MATERIALS_PER_VERTEX] at hlen htotal
  match slots, hlen with
  | [s1, s2, s3, s4], _ =>
    simp only [List.map_cons, List.map_nil, List.sum_cons, List.sum_nil, Nat.add_zero]
      at htotal
    by_cases hpos : 0 < total
    · have hb := rescaled_sum_bounds s1.2 s2.2 s3.2 s4.2 total hpos (by omega)
      have hle : ∀ c, c ≤ total → c * 255 / total < 256 := by
        intro c hc
        have : c * 255 / total ≤ 255 := by
          apply Nat.div_le_of_le_mul
          nlinarith
        omega
      have m1 := Nat.mod_eq_of_lt (hle s1.2 (by omega))
      have m2 := Nat.mod_eq_of_lt (hle s2.2 (by omega))
      have m3 := Nat.mod_eq_of_lt (hle s3.2 (by omega))
      have m4 := Nat.mod_eq_of_lt (hle s4.2 (by omega))
      simp only [countWeights, hpos, if_true, List.map_cons, List.map_nil, List.sum_cons,
        List.sum_nil, m1, m2, m3, m4, Nat.add_zero, forall_const]
      omega
    · have hzero : total = 0 := by omega
      simp only [countWeights, hpos, if_false, List.map_cons, List.map_nil, List.sum_cons,
        List.sum_nil, Nat.add_zero]
      exact ⟨by omega, fun h => h.elim⟩

/-- The materials of the extracted crossings are `char` values. -/
theorem extractCrossings_isChar (E : Externals K) (b : Block) (colorX x y z : Nat) :
    ∀ m ∈ (extractCrossings E b colorX x y z).map (fun c => c.material), IsChar m := by
  rw [extractCrossings_eq_spec]
  intro m hm
  simp only [List.map_map, List.mem_map, Function.comp] at hm
  obtain ⟨e, _, rfl⟩ := hm
  simp only [specCrossing, Block.materialAt]
  cases b.materialContents with
  | none => simp [IsChar]
  | some contents => exact toChar_isChar _

/-- C9 (amended). The material weights of the vertex of every cell, after the rescaling of
lines 1746-1748 and the conversion to `quint8`, sum to at most 255; when at least one
crossing of the cell carries a non-zero material id they sum to at least 252. -/
theorem material_weights_sum_bounds [FloorRing K] (E : Externals K) (b : Block)
    (info : MetavoxelInfo K) (colorX x y z : Nat) (normals : List (Vec3 K)) :
    ((cellPoint E b info x y z (extractCrossings E b colorX x y z) normals).materialWeights).sum
        ≤ 255
      ∧ ((extractCrossings E b colorX x y z).any (fun c => c.material != 0) = true →
          252 ≤ ((cellPoint E b info x y z (extractCrossings E b colorX x y z)
            normals).materialWeights).sum) := by
  have hweights : (cellPoint E b info x y z (extractCrossings E b colorX x y z)
      normals).materialWeights
      = countWeights (collectCounts
          ((extractCrossings E b colorX x y z).map (fun c => c.material))) := by
    show finalWeights (collectMaterials _) = _
    rw [collectMaterials_toTable, finalWeights_toTable]
  obtain ⟨hb, hpos⟩ := collectCounts_balanced
    ((extractCrossings E b colorX x y z).map (fun c => c.material))
    (extractCrossings_isChar E b colorX x y z)
  obtain ⟨hle, hge⟩ := countWeights_sum_bounds _ hb
  rw [hweights]
  refine ⟨hle, fun hany => hge (hpos ?_)⟩
  rw [List.any_eq_true] at hany
  obtain ⟨c, hc, hne⟩ := hany
  exact ⟨c.material, List.mem_map_of_mem _ hc, by simpa using hne⟩

/-! ### The closest normal -/

theorem vertexAt_of_lt (vertices : List (VoxelPoint K)) (index : Nat)
    (h : index < vertices.length) :
    ∃ vertex, vertices.get? index = some vertex ∧ vertexAt vertices index = Except.ok vertex := by
  have hget := List.get?_eq_get h
  exact ⟨vertices.get ⟨index, h⟩, hget, by unfold vertexAt; rw [hget]; rfl⟩

/-- The loop of lines 1318-1329 returns the earliest of the entries with the largest
product, the running best included. -/
theorem closestLoop_spec (normal : Vec3 K) (vertices : List (VoxelPoint K)) (firstIndex : Nat) :
    ∀ (rest : List Nat) (closestIndex : Nat),
      (∀ i ∈ rest.takeWhile (fun index => index != firstIndex), i < vertices.length) →
      ∃ r, closestLoop normal vertices firstIndex rest (productAt normal vertices closestIndex)
            closestIndex = Except.ok r
        ∧ ((r = closestIndex
              ∧ ∀ i ∈ rest.takeWhile (fun index => index != firstIndex),
                  productAt normal vertices i ≤ productAt normal vertices closestIndex)
          ∨ ∃ pre post, rest.takeWhile (fun index => index != firstIndex) = pre ++ r :: post
              ∧ (∀ i ∈ pre, productAt normal vertices i < productAt normal vertices r)
              ∧ productAt normal vertices closestIndex < productAt normal vertices r
              ∧ ∀ i ∈ post, productAt normal vertices i ≤ productAt normal vertices r) := by
  intro rest
  induction rest with
  | nil => intro ci _; exact ⟨ci, rfl, Or.inl ⟨rfl, by simp⟩⟩
  | cons i rest ih =>
    intro ci hvalid
    by_cases hi : i = firstIndex
    · refine ⟨ci, by unfold closestLoop; rw [if_pos hi]; rfl, Or.inl ⟨rfl, by simp [hi]⟩⟩
    · have htake : (i :: rest).takeWhile (fun index => index != firstIndex)
          = i :: rest.takeWhile (fun index => index != firstIndex) := by
        have hne : (i != firstIndex) = true := by simp [hi]
        simp only [List.takeWhile, hne]
      rw [htake] at hvalid ⊢
      obtain ⟨vertex, hget, hat⟩ := vertexAt_of_lt vertices i (hvalid i (List.mem_cons_self _ _))
      have hprod : normalProduct normal vertex = productAt normal vertices i := by
        unfold productAt
        rw [hget]
      have hrest := fun j hj => hvalid j (List.mem_cons_of_mem _ hj)
      by_cases hgt : productAt normal vertices i > productAt normal vertices ci
      · obtain ⟨r, hr, hspec⟩ := ih i hrest
        refine ⟨r, ?_, Or.inr ?_⟩
        · unfold closestLoop
          simp only [hi, if_false, hat]
          show (if normalProduct normal vertex > productAt normal vertices ci then _ else _) = _
          rw [hprod, if_pos hgt]
          exact hr
        · rcases hspec with ⟨hri, hle⟩ | ⟨pre, post, hsplit, hpre, hlt, hpost⟩
          · subst hri
            exact ⟨[], rest.takeWhile (fun index => index != firstIndex), rfl, by simp, hgt, hle⟩
          · refine ⟨i :: pre, post, by simp [hsplit], ?_, lt_trans hgt hlt, hpost⟩
            intro j hj
            rcases List.mem_cons.mp hj with hj | hj
            · subst hj; exact hlt
            · exact hpre j hj
      · obtain ⟨r, hr, hspec⟩ := ih ci hrest
        refine ⟨r, ?_, ?_⟩
        · unfold closestLoop
          simp only [hi, if_false, hat]
          show (if normalProduct normal vertex > productAt normal vertices ci then _ else _) = _
          rw [hprod, if_neg hgt]
          exact hr
        · rcases hspec with ⟨hri, hle⟩ | ⟨pre, post, hsplit, hpre, hlt, hpost⟩
          · refine Or.inl ⟨hri, ?_⟩
            intro j hj
            rcases List.mem_cons.mp hj with hj | hj
            · subst hj; exact not_lt.mp hgt
            · exact hle j hj
          · refine Or.inr ⟨i :: pre, post, by simp [hsplit], ?_, hlt, hpost⟩
            intro j hj
            rcases List.mem_cons.mp hj with hj | hj
            · subst hj; exact lt_of_le_of_lt (not_lt.mp hgt) hlt
            · exact hpre j hj

theorem except_bind_eq_ok {α β : Type} (m : Except Fault α) (f : α → Except Fault β) (r : β)
    (h : (m >>= f) = Except.ok r) : ∃ a, m = Except.ok a ∧ f a = Except.ok r := by
  cases m with
  | error e => cases h
  | ok a => exact ⟨a, rfl, h⟩

/-- A stitched quad appends four entries to the index array: the corners `third, second,
first` resolved against the negated reference normal when `alpha0` is zero, the corners
`first, second, third` resolved against the reference normal otherwise, and last the
corner of the cell itself. -/
theorem stitchQuad_spec [FloorRing K] (vertices : List (VoxelPoint K)) (indices : List Nat)
    (alpha0 : Nat) (index first second third : NormalIndex) (r : List Nat)
    (h : stitchQuad vertices indices alpha0 index first second third = Except.ok r) :
    ∃ own firstVertex thirdVertex c0 c1 c2 c3,
      vertexAt vertices (index.indices.getD 0 0) = Except.ok own
      ∧ vertexAt vertices (first.indices.getD 0 0) = Except.ok firstVertex
      ∧ vertexAt vertices (third.indices.getD 0 0) = Except.ok thirdVertex
      ∧ r = indices ++ [c0, c1, c2, c3]
      ∧ (if alpha0 = 0 then third else first).getClosestIndex
          (if alpha0 = 0 then (Vec3.cross (firstVertex.vertex.sub own.vertex)
              (thirdVertex.vertex.sub own.vertex)).neg
            else Vec3.cross (firstVertex.vertex.sub own.vertex)
              (thirdVertex.vertex.sub own.vertex)) vertices = Except.ok c0
      ∧ second.getClosestIndex
          (if alpha0 = 0 then (Vec3.cross (firstVertex.vertex.sub own.vertex)
              (thirdVertex.vertex.sub own.vertex)).neg
            else Vec3.cross (firstVertex.vertex.sub own.vertex)
              (thirdVertex.vertex.sub own.vertex)) vertices = Except.ok c1
      ∧ (if alpha0 = 0 then first else third).getClosestIndex
          (if alpha0 = 0 then (Vec3.cross (firstVertex.vertex.sub own.vertex)
              (thirdVertex.vertex.sub own.vertex)).neg
            else Vec3.cross (firstVertex.vertex.sub own.vertex)
              (thirdVertex.vertex.sub own.vertex)) vertices = Except.ok c2
      ∧ index.getClosestIndex
          (if alpha0 = 0 then (Vec3.cross (firstVertex.vertex.sub own.vertex)
              (thirdVertex.vertex.sub own.vertex)).neg
            else Vec3.cross (firstVertex.vertex.sub own.vertex)
              (thirdVertex.vertex.sub own.vertex)) vertices = Except.ok c3 := by
  unfold stitchQuad at h
  obtain ⟨own, hown, h⟩ := except_bind_eq_ok _ _ _ h
  obtain ⟨fv, hfv, h⟩ := except_bind_eq_ok _ _ _ h
  obtain ⟨tv, htv, h⟩ := except_bind_eq_ok _ _ _ h
  by_cases h0 : alpha0 = 0
  · simp only [h0, if_true] at h ⊢
    obtain ⟨c0, hc0, h⟩ := except_bind_eq_ok _ _ _ h
    obtain ⟨c1, hc1, h⟩ := except_bind_eq_ok _ _ _ h
    obtain ⟨c2, hc2, h⟩ := except_bind_eq_ok _ _ _ h
    obtain ⟨c3, hc3, h⟩ := except_bind_eq_ok _ _ _ h
    refine ⟨own, fv, tv, c0, c1, c2, c3, hown, hfv, htv, ?_, hc0, hc1, hc2, hc3⟩
    cases h
    rfl
  · simp only [h0, if_false] at h ⊢
    obtain ⟨c0, hc0, h⟩ := except_bind_eq_ok _ _ _ h
    obtain ⟨c1, hc1, h⟩ := except_bind_eq_ok _ _ _ h
    obtain ⟨c2, hc2, h⟩ := except_bind_eq_ok _ _ _ h
    obtain ⟨c3, hc3, h⟩ := except_bind_eq_ok _ _ _ h
    refine ⟨own, fv, tv, c0, c1, c2, c3, hown, hfv, htv, ?_, hc0, hc1, hc2, hc3⟩
    cases h
    rfl

/-- The quads of lines 1766-1844 are those of the specification: along the axes on which
the cell is inside the block and the alphas of corner 0 and its neighbour differ. -/
theorem stitched_eq_spec (b : Block) (colorX x y z : Nat) :
    (sampleAlphas b colorX x y z).stitched x y z = stitchedAxes b colorX x y z := by
  unfold Alphas.stitched stitchedAxes
  by_cases hx : x = 0
  · simp [axisStitched, hx, filter_cons_append]
  by_cases hy : y = 0
  · simp [axisStitched, hy, filter_cons_append]
  by_cases hz : z = 0
  · simp [axisStitched, hz, filter_cons_append]
  have mx : middle x b.size = (x != b.size) := by simp [middle, hx]
  have my : middle y b.size = (y != b.size) := by simp [middle, hy]
  have mz : middle z b.size = (z != b.size) := by simp [middle, hz]
  have nx : (x != 0) = true := by simp [hx]
  have ny : (y != 0) = true := by simp [hy]
  have nz : (z != 0) = true := by simp [hz]
  simp only [axisStitched, filter_cons_append, sampleAlphas, mx, my, mz, nx, ny, nz, axisCoord,
    neighbourOffset, Bool.and_self, Bool.true_and, if_true, List.filter_nil, List.append_nil]
  by_cases hxs : x = b.size <;> by_cases hys : y = b.size <;> by_cases hzs : z = b.size <;>
    simp [hxs, hys, hzs]

/-- One stitching block of lines 1766-1844, on the part of the state it touches. -/
theorem stitch_block_spec [FloorRing K] (flag : Bool) (s : ScanState K) (keys : List Nat)
    (quad : Except Fault (List Nat)) (s1 : ScanState K)
    (hquad : ∀ r, quad = Except.ok r → r.length = s.indices.length + 4)
    (h : (if flag then do
            let indices ← quad
            pure { s with
              quadIndices := s.quadIndices ++ keys.map (fun key => (key, s.indices.length))
              indices := indices }
          else pure s : Except Fault (ScanState K)) = Except.ok s1) :
    s1.indices.length = s.indices.length + 4 * (if flag then 1 else 0)
      ∧ s1.quadIndices = s.quadIndices
          ++ (if flag then keys.map (fun key => (key, s.indices.length)) else [])
      ∧ s1.vertices = s.vertices ∧ s1.lastIndex = s.lastIndex
      ∧ s1.lineIndices = s.lineIndices ∧ s1.lastLineIndices = s.lastLineIndices
      ∧ s1.planeIndices = s.planeIndices ∧ s1.lastPlaneIndices = s.lastPlaneIndices
      ∧ s1.hermiteSegments = s.hermiteSegments
      ∧ s1.colorX = s.colorX ∧ s1.colorY = s.colorY ∧ s1.colorZ = s.colorZ := by
  cases flag with
  | false =>
    simp only [Bool.false_eq_true, if_false] at h ⊢
    cases h
    simp
  | true =>
    simp only [if_true] at h ⊢
    obtain ⟨r, hr, h⟩ := except_bind_eq_ok _ _ _ h
    cases h
    simp [hquad r hr]

/-- One stitching block that reads `lastIndex`, on the part of the state it touches. -/
theorem stitch_block_last_spec [FloorRing K] (flag : Bool) (s : ScanState K) (keys : List Nat)
    (quad : NormalIndex → Except Fault (List Nat)) (s1 : ScanState K)
    (hquad : ∀ index1 r, quad index1 = Except.ok r → r.length = s.indices.length + 4)
    (h : (if flag then do
            let index1 ← readLastIndex s.lastIndex
            let indices ← quad index1
            pure { s with
              quadIndices := s.quadIndices ++ keys.map (fun key => (key, s.indices.length))
              indices := indices }
          else pure s : Except Fault (ScanState K)) = Except.ok s1) :
    s1.indices.length = s.indices.length + 4 * (if flag then 1 else 0)
      ∧ s1.quadIndices = s.quadIndices
          ++ (if flag then keys.map (fun key => (key, s.indices.length)) else [])
      ∧ s1.vertices = s.vertices ∧ s1.lastIndex = s.lastIndex
      ∧ s1.lineIndices = s.lineIndices ∧ s1.lastLineIndices = s.lastLineIndices
      ∧ s1.planeIndices = s.planeIndices ∧ s1.lastPlaneIndices = s.lastPlaneIndices
      ∧ s1.hermiteSegments = s.hermiteSegments
      ∧ s1.colorX = s.colorX ∧ s1.colorY = s.colorY ∧ s1.colorZ = s.colorZ := by
  cases flag with
  | false =>
    simp only [Bool.false_eq_true, if_false] at h ⊢
    cases h
    simp
  | true =>
    simp only [if_true] at h ⊢
    obtain ⟨index1, _, h⟩ := except_bind_eq_ok _ _ _ h
    obtain ⟨r, hr, h⟩ := except_bind_eq_ok _ _ _ h
    cases h
    simp [hquad index1 r hr]

theorem stitchQuad_length [FloorRing K] (vertices : List (VoxelPoint K)) (indices : List Nat)
    (alpha0 : Nat) (index first second third : NormalIndex) (r : List Nat)
    (h : stitchQuad vertices indices alpha0 index first second third = Except.ok r) :
    r.length = indices.length + 4 := by
  obtain ⟨_, _, _, c0, c1, c2, c3, _, _, _, hr, _⟩ := stitchQuad_spec _ _ _ _ _ _ _ _ h
  rw [hr]
  simp

/-- Lines 1766-1844: the quads of a cell. Along each stitched axis, in the order x, y, z,
four entries are appended to the index array and the four keys of the quad are registered
in the multimap with the offset at which the quad starts; nothing else changes. -/
theorem stitchCell_spec [FloorRing K] (b : Block) (x y z : Nat) (a : Alphas)
    (index : NormalIndex) (s s1 : ScanState K)
    (h : stitchCell b x y z a index s = Except.ok s1) :
    s1.indices.length = s.indices.length + 4 * (a.stitched x y z).length
      ∧ s1.quadIndices
          = s.quadIndices ++ quadRegistrations s.indices.length x y z (a.stitched x y z)
      ∧ s1.vertices = s.vertices ∧ s1.lastIndex = s.lastIndex
      ∧ s1.lineIndices = s.lineIndices ∧ s1.lastLineIndices = s.lastLineIndices
      ∧ s1.planeIndices = s.planeIndices ∧ s1.lastPlaneIndices = s.lastPlaneIndices
      ∧ s1.hermiteSegments = s.hermiteSegments
      ∧ s1.colorX = s.colorX ∧ s1.colorY = s.colorY ∧ s1.colorZ = s.colorZ := by
  unfold stitchCell at h
  unfold Alphas.stitched
  by_cases hc : (x != 0 && y != 0 && z != 0) = true
  · simp only [hc, if_true] at h ⊢
    obtain ⟨t1, h1, h⟩ := except_bind_eq_ok _ _ _ h
    obtain ⟨t2, h2, h3⟩ := except_bind_eq_ok _ _ _ h
    have b1 := stitch_block_spec (a.alpha0 != a.alpha1) s (quadKeys x y z 0) _ t1
      (fun r hr => stitchQuad_length _ _ _ _ _ _ _ r hr) h1
    have b2 := stitch_block_last_spec (a.alpha0 != a.alpha2) t1 (quadKeys x y z 1) _ t2
      (fun index1 r hr => stitchQuad_length _ _ _ _ _ _ _ r hr) h2
    have b3 := stitch_block_last_spec (a.alpha0 != a.alpha4) t2 (quadKeys x y z 2) _ s1
      (fun index1 r hr => stitchQuad_length _ _ _ _ _ _ _ r hr) h3
    obtain ⟨i1, q1, v1, l1, a1, c1, d1, e1, f1, g1, k1, m1⟩ := b1
    obtain ⟨i2, q2, v2, l2, a2, c2, d2, e2, f2, g2, k2, m2⟩ := b2
    obtain ⟨i3, q3, v3, l3, a3, c3, d3, e3, f3, g3, k3, m3⟩ := b3
    refine ⟨?_, ?_, by rw [v3, v2, v1], by rw [l3, l2, l1], by rw [a3, a2, a1],
      by rw [c3, c2, c1], by rw [d3, d2, d1], by rw [e3, e2, e1], by rw [f3, f2, f1],
      by rw [g3, g2, g1], by rw [k3, k2, k1], by rw [m3, m2, m1]⟩
    · rw [i3, i2, i1]
      cases a.alpha0 != a.alpha1 <;> cases a.alpha0 != a.alpha2 <;>
        cases a.alpha0 != a.alpha4 <;> simp
    · rw [q3, q2, q1, i2, i1]
      cases a.alpha0 != a.alpha1 <;> cases a.alpha0 != a.alpha2 <;>
        cases a.alpha0 != a.alpha4 <;> simp [quadRegistrations]
  · simp only [hc, if_false] at h ⊢
    cases h
    simp [quadRegistrations]

/-- A cell that is skipped stitches no quad: its sampled alphas are all equal. -/
theorem stitched_of_uniform (b : Block) (colorX x y z : Nat)
    (h : (sampleAlphas b colorX x y z).uniform = true) :
    (sampleAlphas b colorX x y z).stitched x y z = [] := by
  have h0 := alphaOf_le (b.colorAt colorX 0)
  have h1 := alphaOf_le (b.colorAt colorX 1)
  have h2 := alphaOf_le (b.colorAt colorX b.size)
  have h3 := alphaOf_le (b.colorAt colorX b.offset3)
  have h4 := alphaOf_le (b.colorAt colorX b.area)
  have h5 := alphaOf_le (b.colorAt colorX b.offset5)
  have h6 := alphaOf_le (b.colorAt colorX b.offset6)
  have h7 := alphaOf_le (b.colorAt colorX b.offset7)
  unfold Alphas.uniform at h
  unfold Alphas.stitched
  cases hx : middle x b.size <;> cases hy : middle y b.size <;> cases hz : middle z b.size <;>
    simp only [sampleAlphas, hx, hy, hz, Bool.false_eq_true, if_false, if_true, Bool.and_self,
      Bool.and_false, Bool.false_and, EIGHT_BIT_MAXIMUM, Bool.or_eq_true, beq_iff_eq,
      Nat.add_zero] at h ⊢ <;>
    (have e1 : alphaOf (b.colorAt colorX 0) = alphaOf (b.colorAt colorX 1)
        ∨ middle x b.size = false := by rw [hx]; first | exact Or.inr rfl | (left; omega)
     have e2 : alphaOf (b.colorAt colorX 0) = alphaOf (b.colorAt colorX b.size)
        ∨ middle y b.size = false := by rw [hy]; first | exact Or.inr rfl | (left; omega)
     have e4 : alphaOf (b.colorAt colorX 0) = alphaOf (b.colorAt colorX b.area)
        ∨ middle z b.size = false := by rw [hz]; first | exact Or.inr rfl | (left; omega)
     rw [hx] at e1; rw [hy] at e2; rw [hz] at e4
     simp_all)

/-- The result of `visitCell` on a cell that is not skipped and does not fault. -/
theorem visitCell_nonuniform [FloorRing K] (E : Externals K) (b : Block)
    (info : MetavoxelInfo K) (x y z : Nat) (s s1 : ScanState K)
    (hu : (sampleAlphas b s.colorX x y z).uniform = false)
    (h : visitCell E b info x y z s = Except.ok s1) :
    (clusterNormals E (extractCrossings E b s.colorX x y z)).length ≤ MAX_NORMALS_PER_VERTEX
      ∧ (extractCrossings E b s.colorX x y z).length ≠ 0
      ∧ ∃ s2, stitchCell b x y z (sampleAlphas b s.colorX x y z)
            (emitVertices s.vertices
              (cellPoint E b info x y z (extractCrossings E b s.colorX x y z)
                (clusterNormals E (extractCrossings E b s.colorX x y z)))
              (clusterNormals E (extractCrossings E b s.colorX x y z))).1
            { s with
              vertices := (emitVertices s.vertices
                (cellPoint E b info x y z (extractCrossings E b s.colorX x y z)
                  (clusterNormals E (extractCrossings E b s.colorX x y z)))
                (clusterNormals E (extractCrossings E b s.colorX x y z))).2
              hermiteSegments := s.hermiteSegments
                ++ (if E.displayHermite then
                      (extractCrossings E b s.colorX x y z).flatMap (hermiteSegment b info x y z)
                    else []) } = Except.ok s2
        ∧ s1 = advanceX x { s2 with
            lastIndex := some (emitVertices s.vertices
              (cellPoint E b info x y z (extractCrossings E b s.colorX x y z)
                (clusterNormals E (extractCrossings E b s.colorX x y z)))
              (clusterNormals E (extractCrossings E b s.colorX x y z))).1
            lineIndices := s2.lineIndices.set x (emitVertices s.vertices
              (cellPoint E b info x y z (extractCrossings E b s.colorX x y z)
                (clusterNormals E (extractCrossings E b s.colorX x y z)))
              (clusterNormals E (extractCrossings E b s.colorX x y z))).1
            planeIndices := s2.planeIndices.set (y * b.expanded + x) (emitVertices s.vertices
              (cellPoint E b info x y z (extractCrossings E b s.colorX x y z)
                (clusterNormals E (extractCrossings E b s.colorX x y z)))
              (clusterNormals E (extractCrossings E b s.colorX x y z))).1 } := by
  unfold visitCell at h
  simp only [hu, Bool.false_eq_true, if_false] at h
  by_cases hn : (clusterNormals E (extractCrossings E b s.colorX x y z)).length
      > MAX_NORMALS_PER_VERTEX
  · simp only [hn, if_true] at h
    cases h
  by_cases hc : (extractCrossings E b s.colorX x y z).length = 0
  · simp only [hn, hc, if_true, if_false] at h
    cases h
  simp only [hn, hc, if_false] at h
  obtain ⟨_, _, h⟩ := except_bind_eq_ok _ _ _ h
  obtain ⟨_, _, h⟩ := except_bind_eq_ok _ _ _ h
  obtain ⟨s2, hs2, h⟩ := except_bind_eq_ok _ _ _ h
  refine ⟨not_lt.mp hn, hc, s2, hs2, ?_⟩
  cases h
  rfl

theorem advanceX_fields [FloorRing K] (x : Nat) (s : ScanState K) :
    (advanceX x s).indices = s.indices ∧ (advanceX x s).quadIndices = s.quadIndices
      ∧ (advanceX x s).vertices = s.vertices
      ∧ (advanceX x s).hermiteSegments = s.hermiteSegments
      ∧ (advanceX x s).lastIndex = s.lastIndex
      ∧ (advanceX x s).lineIndices = s.lineIndices
      ∧ (advanceX x s).lastLineIndices = s.lastLineIndices
      ∧ (advanceX x s).planeIndices = s.planeIndices
      ∧ (advanceX x s).lastPlaneIndices = s.lastPlaneIndices
      ∧ (advanceX x s).colorX = (if x = 0 then s.colorX else s.colorX + 1)
      ∧ (advanceX x s).colorY = s.colorY ∧ (advanceX x s).colorZ = s.colorZ := by
  unfold advanceX
  by_cases hx : x = 0 <;> simp [hx]

/-- The index array and the multimap after a cell, for every cell that is processed
without a fault. -/
theorem visitCell_quads [FloorRing K] (E : Externals K) (b : Block) (info : MetavoxelInfo K)
    (x y z : Nat) (s s1 : ScanState K) (h : visitCell E b info x y z s = Except.ok s1) :
    s1.indices.length = s.indices.length + 4 * (stitchedAxes b s.colorX x y z).length
      ∧ s1.quadIndices = s.quadIndices
          ++ quadRegistrations s.indices.length x y z (stitchedAxes b s.colorX x y z) := by
  cases hu : (sampleAlphas b s.colorX x y z).uniform with
  | true =>
    have hnone : stitchedAxes b s.colorX x y z = [] := by
      rw [← stitched_eq_spec]
      exact stitched_of_uniform b s.colorX x y z hu
    unfold visitCell at h
    simp only [hu, if_true] at h
    cases h
    obtain ⟨hi, hq, _⟩ := advanceX_fields x s
    rw [hnone, hi, hq]
    simp [quadRegistrations]
  | false =>
    obtain ⟨_, _, s2, hs2, hs1⟩ := visitCell_nonuniform E b info x y z s s1 hu h
    obtain ⟨hi, hq, _⟩ := stitchCell_spec b x y z _ _ _ s2 hs2
    rw [stitched_eq_spec] at hi hq
    obtain ⟨hi1, hq1, _⟩ := advanceX_fields x { s2 with
      lastIndex := some (emitVertices s.vertices
        (cellPoint E b info x y z (extractCrossings E b s.colorX x y z)
          (clusterNormals E (extractCrossings E b s.colorX x y z)))
        (clusterNormals E (extractCrossings E b s.colorX x y z))).1
      lineIndices := s2.lineIndices.set x (emitVertices s.vertices
        (cellPoint E b info x y z (extractCrossings E b s.colorX x y z)
          (clusterNormals E (extractCrossings E b s.colorX x y z)))
        (clusterNormals E (extractCrossings E b s.colorX x y z))).1
      planeIndices := s2.planeIndices.set (y * b.expanded + x) (emitVertices s.vertices
        (cellPoint E b info x y z (extractCrossings E b s.colorX x y z)
          (clusterNormals E (extractCrossings E b s.colorX x y z)))
        (clusterNormals E (extractCrossings E b s.colorX x y z))).1 }
    rw [hs1, hi1, hq1]
    exact ⟨hi, hq⟩

/-- The number of entries that a processed cell appends to the index array, from any scan
state: four for each stitched axis, and the stitched axes counted from the alphas. -/
theorem visitCell_index_count [FloorRing K] (E : Externals K) (b : Block)
    (info : MetavoxelInfo K) (x y z : Nat) (s s1 : ScanState K)
    (h : visitCell E b info x y z s = Except.ok s1) :
    s1.indices.length = s.indices.length + 4 * (stitchedAxes b s.colorX x y z).length
      ∧ (stitchedAxes b s.colorX x y z).length
          = (if x ≠ 0 ∧ y ≠ 0 ∧ z ≠ 0 then
              (if x ≠ b.size
                  ∧ alphaOf (b.colorAt s.colorX 0) ≠ alphaOf (b.colorAt s.colorX 1) then 1 else 0)
              + (if y ≠ b.size
                  ∧ alphaOf (b.colorAt s.colorX 0) ≠ alphaOf (b.colorAt s.colorX b.size)
                  then 1 else 0)
              + (if z ≠ b.size
                  ∧ alphaOf (b.colorAt s.colorX 0) ≠ alphaOf (b.colorAt s.colorX b.area)
                  then 1 else 0)
            else 0)
      ∧ ((x = 0 ∨ y = 0 ∨ z = 0) → s1.indices.length = s.indices.length) := by
  have hquads := (visitCell_quads E b info x y z s s1 h).1
  have hcount : (stitchedAxes b s.colorX x y z).length
      = (if x ≠ 0 ∧ y ≠ 0 ∧ z ≠ 0 then
          (if x ≠ b.size
              ∧ alphaOf (b.colorAt s.colorX 0) ≠ alphaOf (b.colorAt s.colorX 1) then 1 else 0)
          + (if y ≠ b.size
              ∧ alphaOf (b.colorAt s.colorX 0) ≠ alphaOf (b.colorAt s.colorX b.size)
              then 1 else 0)
          + (if z ≠ b.size
              ∧ alphaOf (b.colorAt s.colorX 0) ≠ alphaOf (b.colorAt s.colorX b.area)
              then 1 else 0)
        else 0) := by
    unfold stitchedAxes
    simp only [filter_cons_append, List.filter_nil, List.append_nil, List.length_append,
      axisStitched, axisCoord, neighbourOffset]
    by_cases hx : x = 0
    · simp [hx]
    by_cases hy : y = 0
    · simp [hy]
    by_cases hz : z = 0
    · simp [hz]
    by_cases h1 : x ≠ b.size
        ∧ alphaOf (b.colorAt s.colorX 0) ≠ alphaOf (b.colorAt s.colorX 1) <;>
      by_cases h2 : y ≠ b.size
        ∧ alphaOf (b.colorAt s.colorX 0) ≠ alphaOf (b.colorAt s.colorX b.size) <;>
      by_cases h3 : z ≠ b.size
        ∧ alphaOf (b.colorAt s.colorX 0) ≠ alphaOf (b.colorAt s.colorX b.area) <;>
      simp [hx, hy, hz, h1, h2, h3] <;> simp_all
  refine ⟨hquads, hcount, ?_⟩
  intro hzero
  rw [hquads, hcount]
  have hcond : ¬ (x ≠ 0 ∧ y ≠ 0 ∧ z ≠ 0) := by
    rintro ⟨hx, hy, hz⟩
    rcases hzero with h0 | h0 | h0
    · exact hx h0
    · exact hy h0
    · exact hz h0
  simp [hcond]


/-! ### The ray march -/

theorem march_of_fixed_point {test : TriangleTest K} {buffer : VoxelBuffer K}
    {origin direction : Vec3 (Flt K)} {s : MarchState K}
    (h : marchStep test buffer origin direction s = MarchStep.next s) (fuel : Nat) :
    march test buffer origin direction fuel s = none := by
  induction fuel with
  | zero => rfl
  | succ fuel ih => rw [march, h]; exact ih

theorem marchStep_of_empty (test : TriangleTest K) (buffer : VoxelBuffer K)
    (origin direction : Vec3 (Flt K)) (s : MarchState K) (h : buffer.quadIndices = []) :
    marchStep test buffer origin direction s = marchMove buffer.size direction s := by
  simp [marchStep, VoxelBuffer.visited, h, testQuads, pure, Except.pure]

theorem tiny_step_one :
    marchMove 4 (⟨Flt.finite (1 / 2 ^ 149), Flt.finite (1 / 2 ^ 149), Flt.finite (1 / 2 ^ 149)⟩ : Vec3 (Flt ℚ))
      ⟨0, 0, 0, ⟨Flt.finite 0, Flt.finite 0, Flt.finite 0⟩⟩
      = MarchStep.next ⟨1, 1, 1, ⟨Flt.posInf, Flt.posInf, Flt.posInf⟩⟩ := by
  decide!


theorem march_succ_of_next {test : TriangleTest K} {buffer : VoxelBuffer K}
    {origin direction : Vec3 (Flt K)} {s t : MarchState K}
    (h : marchStep test buffer origin direction s = MarchStep.next t) (fuel : Nat) :
    march test buffer origin direction (fuel + 1) s = march test buffer origin direction fuel t := by
  rw [march, h]

theorem tiny_step_two :
    marchMove 4 (⟨Flt.finite (1 / 2 ^ 149), Flt.finite (1 / 2 ^ 149), Flt.finite (1 / 2 ^ 149)⟩ : Vec3 (Flt ℚ))
      ⟨1, 1, 1, ⟨Flt.posInf, Flt.posInf, Flt.posInf⟩⟩
      = MarchStep.next ⟨2, 2, 2, ⟨Flt.nan, Flt.nan, Flt.nan⟩⟩ := by
  decide!

theorem tiny_step_three :
    marchMove 4 (⟨Flt.finite (1 / 2 ^ 149), Flt.finite (1 / 2 ^ 149), Flt.finite (1 / 2 ^ 149)⟩ : Vec3 (Flt ℚ))
      ⟨2, 2, 2, ⟨Flt.nan, Flt.nan, Flt.nan⟩⟩
      = MarchStep.next ⟨2, 2, 2, ⟨Flt.nan, Flt.nan, Flt.nan⟩⟩ := by
  decide!

theorem tiny_start :
    marchStart (⟨[], [], [], 4⟩ : VoxelBuffer ℚ) ⟨Flt.finite 0, Flt.finite 0, Flt.finite 0⟩
      = ⟨0, 0, 0, ⟨Flt.finite 0, Flt.finite 0, Flt.finite 0⟩⟩ := by
  decide!

/-- C17: on a buffer of size 4 whose multimap holds no quad, the ray that enters at
`(0, 0, 0)` with the direction `(2^-149, 2^-149, 2^-149)` (the smallest positive `float` on
each axis) is never answered: whatever the number of passes allowed to the loop and whatever
the triangle test and the origin, `findFirstRayIntersection` has not returned. -/
theorem ray_march_never_returns (test : TriangleTest ℚ) (origin : Vec3 (Flt ℚ)) (fuel : Nat) :
    VoxelBuffer.findFirstRayIntersection (⟨[], [], [], 4⟩ : VoxelBuffer ℚ) test
      ⟨Flt.finite 0, Flt.finite 0, Flt.finite 0⟩ origin
      ⟨Flt.finite (1 / 2 ^ 149), Flt.finite (1 / 2 ^ 149), Flt.finite (1 / 2 ^ 149)⟩ fuel = none := by
  have e1 := marchStep_of_empty test (⟨[], [], [], 4⟩ : VoxelBuffer ℚ) origin
    ⟨Flt.finite (1 / 2 ^ 149), Flt.finite (1 / 2 ^ 149), Flt.finite (1 / 2 ^ 149)⟩
    ⟨0, 0, 0, ⟨Flt.finite 0, Flt.finite 0, Flt.finite 0⟩⟩ rfl
  have e2 := marchStep_of_empty test (⟨[], [], [], 4⟩ : VoxelBuffer ℚ) origin
    ⟨Flt.finite (1 / 2 ^ 149), Flt.finite (1 / 2 ^ 149), Flt.finite (1 / 2 ^ 149)⟩
    ⟨1, 1, 1, ⟨Flt.posInf, Flt.posInf, Flt.posInf⟩⟩ rfl
  have e3 := marchStep_of_empty test (⟨[], [], [], 4⟩ : VoxelBuffer ℚ) origin
    ⟨Flt.finite (1 / 2 ^ 149), Flt.finite (1 / 2 ^ 149), Flt.finite (1 / 2 ^ 149)⟩
    ⟨2, 2, 2, ⟨Flt.nan, Flt.nan, Flt.nan⟩⟩ rfl
  rw [tiny_step_one] at e1
  rw [tiny_step_two] at e2
  rw [tiny_step_three] at e3
  rw [VoxelBuffer.findFirstRayIntersection, tiny_start]
  cases fuel with
  | zero => rfl
  | succ fuel =>
    rw [march_succ_of_next e1]
    cases fuel with
    | zero => rfl
    | succ fuel =>
      rw [march_succ_of_next e2]
      exact march_of_fixed_point e3 fuel


/-! ### The quads tested at a cell -/

/-- Of two items of the hash with different keys, one comes after the first item of the
key of the other, whatever the order of the items. -/
theorem dropWhile_reaches_other_key (table : List (Nat × Nat)) (k1 k2 q1 q2 : Nat)
    (h1 : (k1, q1) ∈ table) (h2 : (k2, q2) ∈ table) :
    (k2, q2) ∈ table.dropWhile (fun item => item.1 != k1)
      ∨ (k1, q1) ∈ table.dropWhile (fun item => item.1 != k2) := by
  induction table with
  | nil => cases h1
  | cons item rest ih =>
    by_cases e1 : item.1 = k1
    · left
      have : (item :: rest).dropWhile (fun item => item.1 != k1) = item :: rest := by
        simp [List.dropWhile, e1]
      rw [this]
      exact h2
    · by_cases e2 : item.1 = k2
      · right
        have : (item :: rest).dropWhile (fun item => item.1 != k2) = item :: rest := by
          simp [List.dropWhile, e2]
        rw [this]
        exact h1
      · have d1 : (item :: rest).dropWhile (fun item => item.1 != k1)
            = rest.dropWhile (fun item => item.1 != k1) := by
          have t : (item.1 != k1) = true := by simpa using e1
          rw [List.dropWhile, t]
        have d2 : (item :: rest).dropWhile (fun item => item.1 != k2)
            = rest.dropWhile (fun item => item.1 != k2) := by
          have t : (item.1 != k2) = true := by simpa using e2
          rw [List.dropWhile, t]
        rw [d1, d2]
        have r1 : (k1, q1) ∈ rest := by
          rcases List.mem_cons.1 h1 with h | h
          · exact absurd (by rw [← h]) e1
          · exact h
        have r2 : (k2, q2) ∈ rest := by
          rcases List.mem_cons.1 h2 with h | h
          · exact absurd (by rw [← h]) e2
          · exact h
        exact ih r1 r2

/-- When no triangle is hit and every index is in range, the loop of lines 1108-1117 runs
through all the values handed to it. -/
theorem testQuads_of_miss (test : TriangleTest K) (buffer : VoxelBuffer K)
    (origin direction : Vec3 (Flt K)) (starts : List Nat)
    (h : ∀ start ∈ starts, testQuad test buffer origin direction start = Except.ok none) :
    testQuads test buffer origin direction starts = Except.ok none := by
  induction starts with
  | nil => rfl
  | cons start rest ih =>
    have h0 := h start (List.mem_cons_self _ _)
    have hr := ih (fun start hs => h start (List.mem_cons_of_mem _ hs))
    simp only [testQuads, h0, bind, Except.bind]
    exact hr

/-- C16: the quads that the loop of lines 1108-1117 runs through at a cell are not only
those registered under the key of the cell. Whatever the order in which the hash holds its
items: of two quads `q1`, `q2` registered under the keys `k1`, `k2`, with `q1` not
registered under `k2` and `q2` not under `k1`, one is visited at the cell of the key of
the other, where it is not registered. -/
theorem quads_of_other_keys_visited (buffer : VoxelBuffer K) (k1 k2 q1 q2 : Nat)
    (h1 : (k1, q1) ∈ buffer.quadIndices) (h2 : (k2, q2) ∈ buffer.quadIndices)
    (n1 : q1 ∉ buffer.registered k2) (n2 : q2 ∉ buffer.registered k1) :
    (q2 ∈ buffer.visited k1 ∧ q2 ∉ buffer.registered k1)
      ∨ (q1 ∈ buffer.visited k2 ∧ q1 ∉ buffer.registered k2) := by
  rcases dropWhile_reaches_other_key buffer.quadIndices k1 k2 q1 q2 h1 h2 with h | h
  · exact Or.inl ⟨List.mem_map.2 ⟨(k2, q2), h, rfl⟩, n2⟩
  · exact Or.inr ⟨List.mem_map.2 ⟨(k1, q1), h, rfl⟩, n1⟩

theorem quads_of_other_keys_visited_witness :
    ((qRgb 1 1 1, 0) ∈ (⟨[], [], [(qRgb 1 1 1, 0), (qRgb 2 2 1, 4)], 3⟩ : VoxelBuffer ℚ).quadIndices
      ∧ (qRgb 2 2 1, 4) ∈ (⟨[], [], [(qRgb 1 1 1, 0), (qRgb 2 2 1, 4)], 3⟩ : VoxelBuffer ℚ).quadIndices
      ∧ 0 ∉ (⟨[], [], [(qRgb 1 1 1, 0), (qRgb 2 2 1, 4)], 3⟩ : VoxelBuffer ℚ).registered (qRgb 2 2 1)
      ∧ 4 ∉ (⟨[], [], [(qRgb 1 1 1, 0), (qRgb 2 2 1, 4)], 3⟩ : VoxelBuffer ℚ).registered (qRgb 1 1 1))
    ∧ ((4 ∈ (⟨[], [], [(qRgb 1 1 1, 0), (qRgb 2 2 1, 4)], 3⟩ : VoxelBuffer ℚ).visited (qRgb 1 1 1)
        ∧ 4 ∉ (⟨[], [], [(qRgb 1 1 1, 0), (qRgb 2 2 1, 4)], 3⟩ : VoxelBuffer ℚ).registered (qRgb 1 1 1))
      ∨ (0 ∈ (⟨[], [], [(qRgb 1 1 1, 0), (qRgb 2 2 1, 4)], 3⟩ : VoxelBuffer ℚ).visited (qRgb 2 2 1)
        ∧ 0 ∉ (⟨[], [], [(qRgb 1 1 1, 0), (qRgb 2 2 1, 4)], 3⟩ : VoxelBuffer ℚ).registered (qRgb 2 2 1))) :=
  ⟨⟨by decide, by decide, by decide, by decide⟩,
    quads_of_other_keys_visited _ _ _ _ _ (by decide) (by decide) (by decide) (by decide)⟩


/-! ### The multimap entries of a cell -/

/-- A run that has no fault has a result. -/
theorem ok_of_faultOf_none {α : Type} (m : Except Fault α) (h : faultOf m = none) :
    ∃ value, m = Except.ok value := by
  cases m with
  | error fault => cases h
  | ok value => exact ⟨value, rfl⟩

/-- The four keys of a quad are pairwise different. -/
theorem quadKeys_nodup (x y z axis : Nat) (hx : x ≠ 0) (hy : y ≠ 0) (hz : z ≠ 0) :
    (quadKeys x y z axis).Nodup := by
  unfold quadKeys qRgb
  split_ifs <;> simp only [List.nodup_cons, List.mem_cons, List.mem_singleton, List.not_mem_nil,
    not_or, List.nodup_nil, and_true, not_false_eq_true] <;> omega

theorem mem_stitchedAxes (b : Block) (colorX x y z axis : Nat)
    (h : axis ∈ stitchedAxes b colorX x y z) : x ≠ 0 ∧ y ≠ 0 ∧ z ≠ 0 := by
  unfold stitchedAxes at h
  have h2 := (List.mem_filter.1 h).2
  unfold axisStitched at h2
  simp only [Bool.and_eq_true, bne_iff_ne, ne_eq] at h2
  exact ⟨h2.1.1.1.1, h2.1.1.1.2, h2.1.1.2⟩

/-- The items that a processed cell adds to the multimap, from any scan state. -/
theorem visitCell_registrations [FloorRing K] (E : Externals K) (b : Block)
    (info : MetavoxelInfo K) (x y z : Nat) (s s1 : ScanState K)
    (h : visitCell E b info x y z s = Except.ok s1) :
    s1.quadIndices = s.quadIndices
        ++ quadRegistrations s.indices.length x y z (stitchedAxes b s.colorX x y z)
      ∧ s1.indices.length = s.indices.length + 4 * (stitchedAxes b s.colorX x y z).length
      ∧ quadKeys x y z 0 = [qRgb x y z, qRgb x (y - 1) z, qRgb x (y - 1) (z - 1), qRgb x y (z - 1)]
      ∧ quadKeys x y z 1 = [qRgb x y z, qRgb (x - 1) y z, qRgb (x - 1) y (z - 1), qRgb x y (z - 1)]
      ∧ quadKeys x y z 2 = [qRgb x y z, qRgb (x - 1) y z, qRgb (x - 1) (y - 1) z, qRgb x (y - 1) z]
      ∧ ∀ axis ∈ stitchedAxes b s.colorX x y z, (quadKeys x y z axis).Nodup := by
  obtain ⟨hi, hq⟩ := visitCell_quads E b info x y z s s1 h
  refine ⟨hq, hi, rfl, rfl, rfl, ?_⟩
  intro axis haxis
  obtain ⟨hx, hy, hz⟩ := mem_stitchedAxes b s.colorX x y z axis haxis
  exact quadKeys_nodup x y z axis hx hy hz

theorem singleSolidBlock_runs :
    faultOf (stateBefore rationalExternals (singleSolidBlock 0) unitInfo 1 1 1 >>= fun s =>
      visitCell rationalExternals (singleSolidBlock 0) unitInfo 1 1 1 s) = none := by
  decide!

theorem singleSolidBlock_run :
    ∃ s s1, stateBefore rationalExternals (singleSolidBlock 0) unitInfo 1 1 1 = Except.ok s
      ∧ visitCell rationalExternals (singleSolidBlock 0) unitInfo 1 1 1 s = Except.ok s1 := by
  obtain ⟨s1, h1⟩ := ok_of_faultOf_none _ singleSolidBlock_runs
  obtain ⟨s, hs, h⟩ := except_bind_eq_ok _ _ _ h1
  exact ⟨s, s1, hs, h⟩

/-! ### Properties kept by the whole pass -/

/-- A property kept by each step of a loop holds after the loop. -/
theorem foldlM_invariant {σ ι : Type} (f : σ → ι → Except Fault σ) (P : σ → Prop)
    (l : List ι) (hstep : ∀ i ∈ l, ∀ s s1, P s → f s i = Except.ok s1 → P s1)
    (s0 s1 : σ) (h : l.foldlM f s0 = Except.ok s1) (h0 : P s0) : P s1 := by
  induction l generalizing s0 with
  | nil =>
    simp only [List.foldlM, pure, Except.pure] at h
    cases h
    exact h0
  | cons i rest ih =>
    simp only [List.foldlM] at h
    obtain ⟨t, ht, h2⟩ := except_bind_eq_ok _ _ _ h
    exact ih (fun j hj => hstep j (List.mem_cons_of_mem _ hj)) t h2
      (hstep i (List.mem_cons_self _ _) s0 t h0 ht)

/-- A property of the four outputs of the pass (vertices, indices, multimap and Hermite
segments) that holds before the first cell and is kept by every cell holds for the result
of the pass. -/
theorem visit_invariant [FloorRing K] (E : Externals K) (b : Block) (info : MetavoxelInfo K)
    (P : ScanState K → Prop)
    (hframe : ∀ s t : ScanState K, s.vertices = t.vertices → s.indices = t.indices →
      s.quadIndices = t.quadIndices → s.hermiteSegments = t.hermiteSegments → P s → P t)
    (hcell : ∀ x y z s s1, P s → visitCell E b info x y z s = Except.ok s1 → P s1)
    (h0 : P (initialState b)) (s : ScanState K) (h : visit E b info = Except.ok s) : P s := by
  unfold visit at h
  refine foldlM_invariant (visitPlane E b info) P _ ?_ _ s h h0
  intro z _ s s1 hs h
  unfold visitPlane at h
  obtain ⟨t, ht, h2⟩ := except_bind_eq_ok _ _ _ h
  have ht2 : P t := by
    refine foldlM_invariant (visitLine E b info z) P _ ?_ _ t ht
      (hframe s _ rfl rfl rfl rfl hs)
    intro y _ s s1 hs h
    unfold visitLine at h
    obtain ⟨u, hu, h3⟩ := except_bind_eq_ok _ _ _ h
    have hu2 : P u := by
      refine foldlM_invariant (fun st x => visitCell E b info x y z st) P _ ?_ _ u hu
        (hframe s _ rfl rfl rfl rfl hs)
      intro x _ s s1 hs h
      exact hcell x y z s s1 hs h
    simp only [pure, Except.pure, Except.ok.injEq] at h3
    rw [← h3]
    split_ifs
    · exact hframe u _ rfl rfl rfl rfl hu2
    · exact hframe u _ rfl rfl rfl rfl hu2
  simp only [pure, Except.pure, Except.ok.injEq] at h2
  rw [← h2]
  split_ifs
  · exact hframe t _ rfl rfl rfl rfl ht2
  · exact hframe t _ rfl rfl rfl rfl ht2

/-! ### The layout of the index array -/

theorem quadKeys_length (x y z axis : Nat) : (quadKeys x y z axis).length = 4 := by
  unfold quadKeys
  split_ifs <;> rfl

theorem quadRegistrations_length (start x y z : Nat) (axes : List Nat) :
    (quadRegistrations start x y z axes).length = 4 * axes.length := by
  induction axes generalizing start with
  | nil => rfl
  | cons axis rest ih =>
    simp only [quadRegistrations, List.length_append, List.length_map, quadKeys_length, ih,
      List.length_cons]
    omega

theorem quadRegistrations_offsets (start x y z : Nat) (axes : List Nat) (item : Nat × Nat)
    (h : item ∈ quadRegistrations start x y z axes) :
    ∃ k, k < axes.length ∧ item.2 = start + 4 * k := by
  induction axes generalizing start with
  | nil => cases h
  | cons axis rest ih =>
    simp only [quadRegistrations, List.mem_append, List.mem_map] at h
    rcases h with ⟨key, _, hk⟩ | h
    · exact ⟨0, by simp, by rw [← hk]; rfl⟩
    · obtain ⟨k, hk, e⟩ := ih (start + 4) h
      exact ⟨k + 1, by simpa using hk, by rw [e]; omega⟩

/-- The reads of lines 1110-1114 for a quad whose four entries are in the index array:
the two triangles tested are those of the corners `0, 1, 2` and `0, 2, 3`. -/
theorem testQuad_fan (test : TriangleTest K) (buffer : VoxelBuffer K)
    (origin direction : Vec3 (Flt K)) (start : Nat) (v0 v1 v2 v3 : Vec3 K)
    (h0 : buffer.corner start 0 = Except.ok v0) (h1 : buffer.corner start 1 = Except.ok v1)
    (h2 : buffer.corner start 2 = Except.ok v2) (h3 : buffer.corner start 3 = Except.ok v3) :
    testQuad test buffer origin direction start
      = Except.ok (match test origin direction v0 v1 v2 with
          | some distance => some distance
          | none => test origin direction v0 v2 v3) := by
  unfold testQuad
  simp only [h0, h1, h2, h3, bind, Except.bind, pure, Except.pure]
  cases test origin direction v0 v1 v2 <;> rfl

/-- C13 (counterexample). The pass on the block with the single solid sample `(0, 0, 0)`
stitches three quads, registered at the offsets 0, 4 and 8, and its index array has the
twelve entries `5, 0, 2, 9 | 3, 1, 7, 10 | 8, 4, 6, 11`: four for each quad, not the six
of two triangles (the first quad would read `5, 0, 2, 5, 2, 9`). -/
theorem index_array_holds_quadruples :
    (okOf (visit rationalExternals (singleSolidBlock 0) unitInfo)).map
        (fun s => (s.indices, (s.quadIndices.map (fun item => item.2)).dedup))
      = some ([5, 0, 2, 9, 3, 1, 7, 10, 8, 4, 6, 11], [0, 4, 8]) := by
  decide!

theorem singleSolidBlock_visit :
    faultOf (visit rationalExternals (singleSolidBlock 0) unitInfo) = none := by
  decide!

/-! ### The block with a single solid sample -/

/-- C20 (counterexample). The pass on the block of 2x2x2 samples whose only solid sample
is `(1, 1, 1)` produces three quads, at the offsets 0, 4 and 8 of an index array of twelve
entries, not a single one. -/
theorem single_solid_sample_gives_three_quads :
    (okOf (visit rationalExternals (singleSolidBlock 7) unitInfo)).map
        (fun s => (quadOffsets s, s.indices, s.vertices.length))
      = some ([0, 4, 8], [3, 0, 5, 7, 8, 1, 4, 10, 6, 2, 9, 11], 12) := by
  decide!

/-- C20 (amended). For each of the eight manufactured blocks of 2x2x2 samples with a single
solid sample, the pass produces three quads (one for each of the three edges at the solid
sample, at the offsets 0, 4 and 8 of an index array of twelve entries over twelve vertices),
and the normal `(c1 - c0) x (c2 - c0)` of each of them points away from the solid sample. -/
theorem single_solid_sample_quads_face_away :
    (List.range 8).map (fun corner =>
        (okOf (visit rationalExternals (singleSolidBlock corner) unitInfo)).map
          (fun s => (quadOffsets s, s.indices.length, s.vertices.length,
            (quadOffsets s).all (fun start =>
              (s.toBuffer 2).facesAwayFrom start (samplePosition corner)))))
      = List.replicate 8 (some ([0, 4, 8], 12, 12, true)) := by
  decide!


/-! ### The vertices of a cell -/

theorem sumBelow_zero (f : Nat → Nat) : sumBelow f 0 = 0 := rfl

theorem sumBelow_succ (f : Nat → Nat) (n : Nat) : sumBelow f (n + 1) = sumBelow f n + f n := by
  unfold sumBelow
  rw [List.range_succ, List.map_append, List.sum_append]
  simp

theorem sumBelow_mono (f : Nat → Nat) (m n : Nat) (h : m ≤ n) : sumBelow f m ≤ sumBelow f n := by
  induction n with
  | zero =>
    have : m = 0 := by omega
    rw [this]
  | succ n ih =>
    rcases Nat.eq_or_lt_of_le h with e | l
    · rw [e]
    · have := ih (by omega)
      rw [sumBelow_succ]
      omega

theorem sumBelow_add_le (f : Nat → Nat) (m n : Nat) (h : m < n) :
    sumBelow f m + f m ≤ sumBelow f n := by
  have := sumBelow_mono f (m + 1) n h
  rw [sumBelow_succ] at this
  exact this

theorem clamped_succ (x : Nat) : clamped (x + 1) = clamped x + (if x = 0 then 0 else 1) := by
  unfold clamped
  by_cases h : x = 0
  · simp [h]
  · simp only [h, if_false]
    have : x - 1 + 1 = x := by omega
    simp only [Nat.add_sub_cancel, Nat.max_zero] at *
    omega

theorem emitVertices_spec [FloorRing K] (vertices : List (VoxelPoint K)) (point : VoxelPoint K)
    (normals : List (Vec3 K)) (h : normals.length ≤ MAX_NORMALS_PER_VERTEX) :
    (emitVertices vertices point normals).1
        = ⟨(List.range MAX_NORMALS_PER_VERTEX).map (fun i =>
            vertices.length + (if i < normals.length then i else 0))⟩
      ∧ ∃ added, (emitVertices vertices point normals).2 = vertices ++ added
          ∧ added.length = 1 + (normals.length - 1) := by
  unfold MAX_NORMALS_PER_VERTEX at h ⊢
  unfold emitVertices
  rcases Nat.lt_or_ge normals.length 1 with h0 | h0
  · have e : normals.length = 0 := by omega
    rw [e]
    refine ⟨by simp [MAX_NORMALS_PER_VERTEX, List.range'], [point], by simp [List.range'], rfl⟩
  rcases Nat.lt_or_ge normals.length 2 with h1 | h1
  · have e : normals.length = 1 := by omega
    rw [e]
    refine ⟨by simp [MAX_NORMALS_PER_VERTEX, List.range', List.range, List.range.loop],
      [point], by simp [List.range'], rfl⟩
  rcases Nat.lt_or_ge normals.length 3 with h2 | h2
  · have e : normals.length = 2 := by omega
    rw [e]
    refine ⟨by simp [MAX_NORMALS_PER_VERTEX, List.range', List.range, List.range.loop],
      [point, point.setNormal (normals.getD 1 Vec3.zero)], by simp [List.range'], rfl⟩
  rcases Nat.lt_or_ge normals.length 4 with h3 | h3
  · have e : normals.length = 3 := by omega
    rw [e]
    refine ⟨by simp [MAX_NORMALS_PER_VERTEX, List.range', List.range, List.range.loop],
      [point, point.setNormal (normals.getD 1 Vec3.zero),
        point.setNormal (normals.getD 2 Vec3.zero)], by simp [List.range'], rfl⟩
  · have e : normals.length = 4 := by omega
    rw [e]
    refine ⟨by simp [MAX_NORMALS_PER_VERTEX, List.range', List.range, List.range.loop],
      [point, point.setNormal (normals.getD 1 Vec3.zero),
        point.setNormal (normals.getD 2 Vec3.zero),
        point.setNormal (normals.getD 3 Vec3.zero)], by simp [List.range'], rfl⟩


/-! ### Quads over valid entries -/

theorem getD_mem_of_valid (self : NormalIndex) (count : Nat) (h : self.Valid count) :
    self.indices.getD 0 0 ∈ self.indices := by
  obtain ⟨hlen, _⟩ := h
  match hidx : self.indices, hlen with
  | first :: rest, _ => simp

/-- On a `NormalIndex` with valid entries `getClosestIndex` returns one of the entries. -/
theorem getClosestIndex_mem (self : NormalIndex) (normal : Vec3 K)
    (vertices : List (VoxelPoint K)) (h : self.Valid vertices.length) :
    ∃ r, self.getClosestIndex normal vertices = Except.ok r ∧ r ∈ self.indices := by
  have hfirstmem := getD_mem_of_valid self _ h
  have hfirst := h.2 _ hfirstmem
  obtain ⟨vertex, hget, hat⟩ := vertexAt_of_lt vertices _ hfirst
  have hprod : normalProduct normal vertex
      = productAt normal vertices (self.indices.getD 0 0) := by
    unfold productAt
    rw [hget]
  obtain ⟨r, hr, hspec⟩ := closestLoop_spec normal vertices (self.indices.getD 0 0)
    (self.indices.drop 1) (self.indices.getD 0 0)
    (fun i hi => h.2 i (List.mem_of_mem_drop (List.takeWhile_subset _ hi)))
  refine ⟨r, ?_, ?_⟩
  · unfold NormalIndex.getClosestIndex
    simp only [hat, bind, Except.bind, hprod]
    exact hr
  · rcases hspec with ⟨e, _⟩ | ⟨pre, post, e, _⟩
    · rw [e]
      exact hfirstmem
    · have : r ∈ (self.indices.drop 1).takeWhile (fun index => index != self.indices.getD 0 0) := by
        rw [e]
        simp
      exact List.mem_of_mem_drop (List.takeWhile_subset _ this)

/-- A quad over four valid `NormalIndex` values is stitched without a fault; each of its
four corners is an entry of the `NormalIndex` it is resolved from. -/
theorem stitchQuad_total [FloorRing K] (vertices : List (VoxelPoint K)) (indices : List Nat)
    (alpha0 : Nat) (index first second third : NormalIndex)
    (h0 : index.Valid vertices.length) (h1 : first.Valid vertices.length)
    (h2 : second.Valid vertices.length) (h3 : third.Valid vertices.length) :
    ∃ c0 c1 c2 c3,
      stitchQuad vertices indices alpha0 index first second third
        = Except.ok (indices ++ [c0, c1, c2, c3])
      ∧ c0 ∈ (if alpha0 = 0 then third else first).indices
      ∧ c1 ∈ second.indices
      ∧ c2 ∈ (if alpha0 = 0 then first else third).indices
      ∧ c3 ∈ index.indices := by
  obtain ⟨own, _, hown⟩ := vertexAt_of_lt vertices _ (h0.2 _ (getD_mem_of_valid _ _ h0))
  obtain ⟨fv, _, hfv⟩ := vertexAt_of_lt vertices _ (h1.2 _ (getD_mem_of_valid _ _ h1))
  obtain ⟨tv, _, htv⟩ := vertexAt_of_lt vertices _ (h3.2 _ (getD_mem_of_valid _ _ h3))
  unfold stitchQuad
  simp only [hown, hfv, htv, bind, Except.bind]
  by_cases ha : alpha0 = 0
  · simp only [ha, if_true]
    obtain ⟨c0, e0, m0⟩ := getClosestIndex_mem third
      (Vec3.cross (fv.vertex.sub own.vertex) (tv.vertex.sub own.vertex)).neg vertices h3
    obtain ⟨c1, e1, m1⟩ := getClosestIndex_mem second
      (Vec3.cross (fv.vertex.sub own.vertex) (tv.vertex.sub own.vertex)).neg vertices h2
    obtain ⟨c2, e2, m2⟩ := getClosestIndex_mem first
      (Vec3.cross (fv.vertex.sub own.vertex) (tv.vertex.sub own.vertex)).neg vertices h1
    obtain ⟨c3, e3, m3⟩ := getClosestIndex_mem index
      (Vec3.cross (fv.vertex.sub own.vertex) (tv.vertex.sub own.vertex)).neg vertices h0
    refine ⟨c0, c1, c2, c3, ?_, m0, m1, m2, m3⟩
    simp only [e0, e1, e2, e3]
    rfl
  · simp only [ha, if_false]
    obtain ⟨c0, e0, m0⟩ := getClosestIndex_mem first
      (Vec3.cross (fv.vertex.sub own.vertex) (tv.vertex.sub own.vertex)) vertices h1
    obtain ⟨c1, e1, m1⟩ := getClosestIndex_mem second
      (Vec3.cross (fv.vertex.sub own.vertex) (tv.vertex.sub own.vertex)) vertices h2
    obtain ⟨c2, e2, m2⟩ := getClosestIndex_mem third
      (Vec3.cross (fv.vertex.sub own.vertex) (tv.vertex.sub own.vertex)) vertices h3
    obtain ⟨c3, e3, m3⟩ := getClosestIndex_mem index
      (Vec3.cross (fv.vertex.sub own.vertex) (tv.vertex.sub own.vertex)) vertices h0
    refine ⟨c0, c1, c2, c3, ?_, m0, m1, m2, m3⟩
    simp only [e0, e1, e2, e3]
    rfl


theorem except_bind_ok_of {α β : Type} (m : Except Fault α) (f : α → Except Fault β) (a : α)
    (r : β) (hm : m = Except.ok a) (hf : f a = Except.ok r) : (m >>= f) = Except.ok r := by
  rw [hm]
  exact hf

theorem stitch_block_total [FloorRing K] (flag : Bool) (s : ScanState K) (keys : List Nat)
    (quad : Except Fault (List Nat)) (q : List Nat)
    (hq : flag = true → quad = Except.ok (s.indices ++ q)) :
    (if flag then do
        let indices ← quad
        pure { s with
          quadIndices := s.quadIndices ++ keys.map (fun key => (key, s.indices.length))
          indices := indices }
      else pure s : Except Fault (ScanState K))
      = Except.ok (if flag then { s with
          quadIndices := s.quadIndices ++ keys.map (fun key => (key, s.indices.length))
          indices := s.indices ++ q } else s) := by
  cases flag with
  | false => rfl
  | true =>
    rw [hq rfl]
    rfl

theorem stitch_block_last_total [FloorRing K] (flag : Bool) (s : ScanState K) (keys : List Nat)
    (quad : NormalIndex → Except Fault (List Nat)) (q : List Nat) (index1 : NormalIndex)
    (hlast : flag = true → s.lastIndex = some index1)
    (hq : flag = true → quad index1 = Except.ok (s.indices ++ q)) :
    (if flag then do
        let index1 ← readLastIndex s.lastIndex
        let indices ← quad index1
        pure { s with
          quadIndices := s.quadIndices ++ keys.map (fun key => (key, s.indices.length))
          indices := indices }
      else pure s : Except Fault (ScanState K))
      = Except.ok (if flag then { s with
          quadIndices := s.quadIndices ++ keys.map (fun key => (key, s.indices.length))
          indices := s.indices ++ q } else s) := by
  cases flag with
  | false => rfl
  | true =>
    simp only [if_true, hlast rfl, readLastIndex, bind, Except.bind, pure, Except.pure, hq rfl]

theorem getD_of_get? {α : Type} (l : List α) (i : Nat) (d v : α) (h : l.get? i = some v) :
    l.getD i d = v := by
  rw [List.getD_eq_getElem?_getD, ← List.get?_eq_getElem?, h]
  rfl

theorem mem_stitched (a : Alphas) (x y z : Nat) :
    (0 ∈ a.stitched x y z ↔ (x != 0 && y != 0 && z != 0) = true ∧ (a.alpha0 != a.alpha1) = true)
      ∧ (1 ∈ a.stitched x y z
          ↔ (x != 0 && y != 0 && z != 0) = true ∧ (a.alpha0 != a.alpha2) = true)
      ∧ (2 ∈ a.stitched x y z
          ↔ (x != 0 && y != 0 && z != 0) = true ∧ (a.alpha0 != a.alpha4) = true) := by
  unfold Alphas.stitched
  cases x != 0 && y != 0 && z != 0 <;> cases a.alpha0 != a.alpha1 <;>
    cases a.alpha0 != a.alpha2 <;> cases a.alpha0 != a.alpha4 <;> simp

/-- The quads of a cell are stitched without a fault when the entries of the caches that
the cell reads are valid; the corners of each quad are entries of the cell's own
`NormalIndex` and of the three entries read. -/
theorem stitchCell_total [FloorRing K] (b : Block) (x y z : Nat) (a : Alphas)
    (index : NormalIndex) (s : ScanState K) (x1 x2 x3 y1 y2 y3 z1 z2 z3 : NormalIndex)
    (h0 : index.Valid s.vertices.length)
    (hx : 0 ∈ a.stitched x y z → cacheReads b x y z 0 s = [some x1, some x2, some x3]
      ∧ x1.Valid s.vertices.length ∧ x2.Valid s.vertices.length ∧ x3.Valid s.vertices.length)
    (hy : 1 ∈ a.stitched x y z → cacheReads b x y z 1 s = [some y1, some y2, some y3]
      ∧ y1.Valid s.vertices.length ∧ y2.Valid s.vertices.length ∧ y3.Valid s.vertices.length)
    (hz : 2 ∈ a.stitched x y z → cacheReads b x y z 2 s = [some z1, some z2, some z3]
      ∧ z1.Valid s.vertices.length ∧ z2.Valid s.vertices.length ∧ z3.Valid s.vertices.length) :
    ∃ s1 qx qy qz, stitchCell b x y z a index s = Except.ok s1
      ∧ s1.indices = s.indices ++ (if 0 ∈ a.stitched x y z then qx else [])
          ++ (if 1 ∈ a.stitched x y z then qy else [])
          ++ (if 2 ∈ a.stitched x y z then qz else [])
      ∧ (0 ∈ a.stitched x y z → QuadFrom index x1 x2 x3 qx)
      ∧ (1 ∈ a.stitched x y z → QuadFrom index y1 y2 y3 qy)
      ∧ (2 ∈ a.stitched x y z → QuadFrom index z1 z2 z3 qz) := by
  obtain ⟨m0, m1, m2⟩ := mem_stitched a x y z
  by_cases hc : (x != 0 && y != 0 && z != 0) = true
  swap
  · have n0 : ¬ 0 ∈ a.stitched x y z := fun h => hc (m0.1 h).1
    have n1 : ¬ 1 ∈ a.stitched x y z := fun h => hc (m1.1 h).1
    have n2 : ¬ 2 ∈ a.stitched x y z := fun h => hc (m2.1 h).1
    refine ⟨s, [], [], [], ?_, by simp, fun h => absurd h n0, fun h => absurd h n1,
      fun h => absurd h n2⟩
    unfold stitchCell
    simp only [hc]
    rfl
  -- the quad along x
  obtain ⟨qx, hqx, hQx⟩ : ∃ qx, ((a.alpha0 != a.alpha1) = true →
      stitchQuad s.vertices s.indices a.alpha0 index
        (s.lastLineIndices.getD x NormalIndex.zero)
        (s.lastPlaneIndices.getD ((y - 1) * b.expanded + x) NormalIndex.zero)
        (s.lastPlaneIndices.getD (y * b.expanded + x) NormalIndex.zero)
        = Except.ok (s.indices ++ qx))
      ∧ ((a.alpha0 != a.alpha1) = true → QuadFrom index x1 x2 x3 qx) := by
    by_cases f : (a.alpha0 != a.alpha1) = true
    · obtain ⟨hr, v1, v2, v3⟩ := hx (m0.2 ⟨hc, f⟩)
      simp only [cacheReads, if_true, List.cons.injEq, and_true] at hr
      obtain ⟨r1, r2, r3⟩ := hr
      obtain ⟨c0, c1, c2, c3, e, p0, p1, p2, p3⟩ :=
        stitchQuad_total s.vertices s.indices a.alpha0 index x1 x2 x3 h0 v1 v2 v3
      refine ⟨[c0, c1, c2, c3], fun _ => ?_, fun _ => ⟨c0, c1, c2, c3, rfl, p3, p1, ?_⟩⟩
      · rw [getD_of_get? _ _ _ _ r1, getD_of_get? _ _ _ _ r2, getD_of_get? _ _ _ _ r3]
        exact e
      · by_cases ha : a.alpha0 = 0
        · simp only [ha, if_true] at p0 p2
          exact Or.inr ⟨p0, p2⟩
        · simp only [ha, if_false] at p0 p2
          exact Or.inl ⟨p0, p2⟩
    · exact ⟨[], fun h => absurd h f, fun h => absurd h f⟩
  -- the quad along y
  obtain ⟨qy, hqy, hQy⟩ : ∃ qy, ((a.alpha0 != a.alpha2) = true →
      stitchQuad s.vertices
        (s.indices ++ (if (a.alpha0 != a.alpha1) = true then qx else [])) a.alpha0 index
        (s.lastPlaneIndices.getD (y * b.expanded + x) NormalIndex.zero)
        (s.lastPlaneIndices.getD (y * b.expanded + x - 1) NormalIndex.zero) y1
        = Except.ok (s.indices ++ (if (a.alpha0 != a.alpha1) = true then qx else []) ++ qy))
      ∧ ((a.alpha0 != a.alpha2) = true → s.lastIndex = some y1)
      ∧ ((a.alpha0 != a.alpha2) = true → QuadFrom index y1 y2 y3 qy) := by
    by_cases f : (a.alpha0 != a.alpha2) = true
    · obtain ⟨hr, v1, v2, v3⟩ := hy (m1.2 ⟨hc, f⟩)
      rw [cacheReads, if_neg (by decide), if_pos rfl] at hr
      simp only [List.cons.injEq, and_true] at hr
      obtain ⟨r1, r2, r3⟩ := hr
      obtain ⟨c0, c1, c2, c3, e, p0, p1, p2, p3⟩ :=
        stitchQuad_total s.vertices
          (s.indices ++ (if (a.alpha0 != a.alpha1) = true then qx else [])) a.alpha0 index
          y3 y2 y1 h0 v3 v2 v1
      refine ⟨[c0, c1, c2, c3], fun _ => ?_, fun _ => r1,
        fun _ => ⟨c0, c1, c2, c3, rfl, p3, p1, ?_⟩⟩
      · rw [getD_of_get? _ _ _ _ r2, getD_of_get? _ _ _ _ r3]
        exact e
      · by_cases ha : a.alpha0 = 0
        · simp only [ha, if_true] at p0 p2
          exact Or.inl ⟨p0, p2⟩
        · simp only [ha, if_false] at p0 p2
          exact Or.inr ⟨p0, p2⟩
    · exact ⟨[], fun h => absurd h f, fun h => absurd h f, fun h => absurd h f⟩
  -- the quad along z
  obtain ⟨qz, hqz, hlz, hQz⟩ : ∃ qz, ((a.alpha0 != a.alpha4) = true →
      stitchQuad s.vertices
        (s.indices ++ (if (a.alpha0 != a.alpha1) = true then qx else [])
          ++ (if (a.alpha0 != a.alpha2) = true then qy else [])) a.alpha0 index z1
        (s.lastLineIndices.getD (x - 1) NormalIndex.zero)
        (s.lastLineIndices.getD x NormalIndex.zero)
        = Except.ok (s.indices ++ (if (a.alpha0 != a.alpha1) = true then qx else [])
          ++ (if (a.alpha0 != a.alpha2) = true then qy else []) ++ qz))
      ∧ ((a.alpha0 != a.alpha4) = true → s.lastIndex = some z1)
      ∧ ((a.alpha0 != a.alpha4) = true → QuadFrom index z1 z2 z3 qz) := by
    by_cases f : (a.alpha0 != a.alpha4) = true
    · obtain ⟨hr, v1, v2, v3⟩ := hz (m2.2 ⟨hc, f⟩)
      rw [cacheReads, if_neg (by decide), if_neg (by decide)] at hr
      simp only [List.cons.injEq, and_true] at hr
      obtain ⟨r1, r2, r3⟩ := hr
      obtain ⟨c0, c1, c2, c3, e, p0, p1, p2, p3⟩ :=
        stitchQuad_total s.vertices
          (s.indices ++ (if (a.alpha0 != a.alpha1) = true then qx else [])
            ++ (if (a.alpha0 != a.alpha2) = true then qy else [])) a.alpha0 index
          z1 z2 z3 h0 v1 v2 v3
      refine ⟨[c0, c1, c2, c3], fun _ => ?_, fun _ => r1,
        fun _ => ⟨c0, c1, c2, c3, rfl, p3, p1, ?_⟩⟩
      · rw [getD_of_get? _ _ _ _ r2, getD_of_get? _ _ _ _ r3]
        exact e
      · by_cases ha : a.alpha0 = 0
        · simp only [ha, if_true] at p0 p2
          exact Or.inr ⟨p0, p2⟩
        · simp only [ha, if_false] at p0 p2
          exact Or.inl ⟨p0, p2⟩
    · exact ⟨[], fun h => absurd h f, fun h => absurd h f, fun h => absurd h f⟩
  have k0 : (0 ∈ a.stitched x y z) = ((a.alpha0 != a.alpha1) = true) :=
    propext ⟨fun h => (m0.1 h).2, fun h => m0.2 ⟨hc, h⟩⟩
  have k1 : (1 ∈ a.stitched x y z) = ((a.alpha0 != a.alpha2) = true) :=
    propext ⟨fun h => (m1.1 h).2, fun h => m1.2 ⟨hc, h⟩⟩
  have k2 : (2 ∈ a.stitched x y z) = ((a.alpha0 != a.alpha4) = true) :=
    propext ⟨fun h => (m2.1 h).2, fun h => m2.2 ⟨hc, h⟩⟩
  simp only [k0, k1, k2]
  unfold stitchCell
  simp only [hc, if_true]
  generalize (a.alpha0 != a.alpha1) = f1 at *
  generalize (a.alpha0 != a.alpha2) = f2 at *
  generalize (a.alpha0 != a.alpha4) = f3 at *
  refine ⟨_, qx, qy, qz,
    except_bind_ok_of _ _ _ _
      (stitch_block_total f1 s (quadKeys x y z 0) _ qx hqx)
      (except_bind_ok_of _ _ _ _
        (stitch_block_last_total f2 _ (quadKeys x y z 1) _ qy y1 ?_ ?_)
        (stitch_block_last_total f3 _ (quadKeys x y z 2) _ qz z1 ?_ ?_)), ?_, hQx, hQy.2, hQz⟩
  · intro h
    cases f1 <;> exact hQy.1 h
  · intro h
    cases f1 <;> simpa using hqy h
  · intro h
    cases f1 <;> cases f2 <;> exact hlz h
  · intro h
    cases f1 <;> cases f2 <;> simpa using hqz h
  · cases f1 <;> cases f2 <;> cases f3 <;> simp


/-! ### The cells around a crossed edge -/

theorem covers_lower (x size : Nat) : covers x size (x - 1) := by
  left
  unfold clamped
  simp

theorem covers_upper (x size : Nat) (h : x ≠ 0) (hs : x ≠ size) : covers x size x := by
  right
  unfold clamped middle
  refine ⟨by simp [h, hs], ?_⟩
  simp only [Nat.max_zero]
  omega

theorem covers_previous (x size : Nat) (hs : x ≤ size) :
    covers (x - 1) size (x - 1) := by
  by_cases h1 : x - 1 = 0
  · left
    rw [h1]
    rfl
  · right
    unfold clamped middle
    refine ⟨?_, ?_⟩
    · have : x - 1 ≠ size := by omega
      simp [h1, this]
    · simp only [Nat.max_zero]
      omega

theorem cornerAlpha_colorBase (b : Block) (x y z dx dy dz : Nat) :
    cornerAlpha b (colorBase b x y z) dx dy dz
      = sampleAlpha b (clamped x + dx) (clamped y + dy) (clamped z + dz) := by
  unfold cornerAlpha sampleAlpha Block.colorAt colorBase cornerOffset
  congr 2
  ring

/-- The sampled corners of a skipped cell all have the alpha of corner 0. -/
theorem uniform_corners (b : Block) (colorX x y z : Nat)
    (h : (sampleAlphas b colorX x y z).uniform = true) (dx dy dz : Nat)
    (hx : dx = 0 ∨ (middle x b.size = true ∧ dx = 1))
    (hy : dy = 0 ∨ (middle y b.size = true ∧ dy = 1))
    (hz : dz = 0 ∨ (middle z b.size = true ∧ dz = 1)) :
    cornerAlpha b colorX dx dy dz = cornerAlpha b colorX 0 0 0 := by
  have b0 := alphaOf_le (b.colorAt colorX 0)
  have b1 := alphaOf_le (b.colorAt colorX 1)
  have b2 := alphaOf_le (b.colorAt colorX b.size)
  have b3 := alphaOf_le (b.colorAt colorX b.offset3)
  have b4 := alphaOf_le (b.colorAt colorX b.area)
  have b5 := alphaOf_le (b.colorAt colorX b.offset5)
  have b6 := alphaOf_le (b.colorAt colorX b.offset6)
  have b7 := alphaOf_le (b.colorAt colorX b.offset7)
  unfold Alphas.uniform sampleAlphas at h
  unfold cornerAlpha cornerOffset
  simp only [Bool.or_eq_true, beq_iff_eq, EIGHT_BIT_MAXIMUM] at h
  rcases hx with hx | ⟨mx, hx⟩ <;> rcases hy with hy | ⟨my, hy⟩ <;>
    rcases hz with hz | ⟨mz, hz⟩ <;> subst hx <;> subst hy <;> subst hz <;>
    simp only [Nat.zero_mul, Nat.one_mul, Nat.add_zero, Nat.zero_add] <;>
    first
    | rfl
    | (cases hmx : middle x b.size <;> cases hmy : middle y b.size <;>
        cases hmz : middle z b.size <;>
        simp only [hmx, hmy, hmz, Bool.and_true, Bool.and_false, Bool.true_and, if_true,
          Bool.false_eq_true, if_false, Nat.add_zero, Block.offset3, Block.offset5,
          Block.offset6, Block.offset7] at * <;>
        omega)

theorem covers_offset (coord size sample : Nat) (h : covers coord size sample) :
    ∃ d, sample = clamped coord + d ∧ (d = 0 ∨ (middle coord size = true ∧ d = 1)) := by
  rcases h with h | ⟨m, h⟩
  · exact ⟨0, h, Or.inl rfl⟩
  · exact ⟨1, h, Or.inr ⟨m, rfl⟩⟩

/-- The samples that a skipped cell reads all have the same alpha. -/
theorem skipped_samples (b : Block) (x y z sx sy sz : Nat) (h : cellSkipped b x y z = true)
    (hx : covers x b.size sx) (hy : covers y b.size sy) (hz : covers z b.size sz) :
    sampleAlpha b sx sy sz = sampleAlpha b (clamped x) (clamped y) (clamped z) := by
  obtain ⟨dx, ex, hdx⟩ := covers_offset _ _ _ hx
  obtain ⟨dy, ey, hdy⟩ := covers_offset _ _ _ hy
  obtain ⟨dz, ez, hdz⟩ := covers_offset _ _ _ hz
  have := uniform_corners b (colorBase b x y z) x y z h dx dy dz hdx hdy hdz
  rw [cornerAlpha_colorBase, cornerAlpha_colorBase] at this
  rw [ex, ey, ez]
  exact this

/-- A cell that reads two samples of different alpha is not skipped. -/
theorem not_skipped_of_samples (b : Block) (x y z px py pz qx qy qz : Nat)
    (hpx : covers x b.size px) (hpy : covers y b.size py) (hpz : covers z b.size pz)
    (hqx : covers x b.size qx) (hqy : covers y b.size qy) (hqz : covers z b.size qz)
    (h : sampleAlpha b px py pz ≠ sampleAlpha b qx qy qz) : cellSkipped b x y z = false := by
  cases hs : cellSkipped b x y z with
  | false => rfl
  | true =>
    exact absurd ((skipped_samples b x y z px py pz hs hpx hpy hpz).trans
      (skipped_samples b x y z qx qy qz hs hqx hqy hqz).symm) h

theorem clamped_add_one (x : Nat) (h : x ≠ 0) : clamped x + 1 = x := by
  unfold clamped
  simp only [Nat.max_zero]
  omega

theorem clamped_eq (x : Nat) : clamped x = x - 1 := by
  unfold clamped
  simp

/-- The two samples at the ends of the edge along which a quad is stitched. -/
theorem stitched_samples (b : Block) (x y z axis : Nat)
    (h : axis ∈ stitchedAxes b (colorBase b x y z) x y z) :
    x ≠ 0 ∧ y ≠ 0 ∧ z ≠ 0 ∧ axis < 3 ∧ axisCoord x y z axis ≠ b.size
      ∧ sampleAlpha b (x - 1) (y - 1) (z - 1)
          ≠ sampleAlpha b (if axis = 0 then x else x - 1) (if axis = 1 then y else y - 1)
              (if axis = 2 then z else z - 1) := by
  unfold stitchedAxes at h
  obtain ⟨hmem, h2⟩ := List.mem_filter.1 h
  unfold axisStitched at h2
  simp only [Bool.and_eq_true, bne_iff_ne, ne_eq] at h2
  obtain ⟨⟨⟨⟨hx, hy⟩, hz⟩, hs⟩, ha⟩ := h2
  have e0 : alphaOf (b.colorAt (colorBase b x y z) 0) = sampleAlpha b (x - 1) (y - 1) (z - 1) := by
    have := cornerAlpha_colorBase b x y z 0 0 0
    unfold cornerAlpha cornerOffset at this
    simp only [Nat.zero_mul, Nat.add_zero, clamped_eq] at this
    exact this
  rw [e0] at ha
  refine ⟨hx, hy, hz, ?_, hs, ?_⟩
  · simp only [List.mem_cons, List.mem_singleton, List.not_mem_nil, or_false] at hmem
    omega
  simp only [List.mem_cons, List.mem_singleton, List.not_mem_nil, or_false] at hmem
  rcases hmem with e | e | e
  · subst e
    have := cornerAlpha_colorBase b x y z 1 0 0
    unfold cornerAlpha cornerOffset at this
    simp only [Nat.zero_mul, Nat.add_zero, Nat.zero_add, clamped_add_one x hx] at this
    simp only [neighbourOffset, if_true, this] at ha
    simpa [clamped_eq] using ha
  · subst e
    have e1 : alphaOf (b.colorAt (colorBase b x y z) b.size)
        = sampleAlpha b (x - 1) y (z - 1) := by
      have := cornerAlpha_colorBase b x y z 0 1 0
      unfold cornerAlpha cornerOffset at this
      rw [clamped_add_one y hy] at this
      simpa [clamped_eq] using this
    simp only [neighbourOffset] at ha
    simpa [e1] using ha
  · subst e
    have e1 : alphaOf (b.colorAt (colorBase b x y z) b.area)
        = sampleAlpha b (x - 1) (y - 1) z := by
      have := cornerAlpha_colorBase b x y z 0 0 1
      unfold cornerAlpha cornerOffset at this
      rw [clamped_add_one z hz] at this
      simpa [clamped_eq] using this
    simp only [neighbourOffset] at ha
    simpa [e1] using ha

/-- The three cells that share a crossed edge with the cell that stitches its quad are
not skipped. -/
theorem edge_cells_not_skipped (b : Block) (x y z axis : Nat)
    (hx : x ≤ b.size) (hy : y ≤ b.size) (hz : z ≤ b.size)
    (h : axis ∈ stitchedAxes b (colorBase b x y z) x y z) :
    ∀ cell ∈ edgeCells x y z axis, cellSkipped b cell.1 cell.2.1 cell.2.2 = false := by
  obtain ⟨nx, ny, nz, h3, hs, ha⟩ := stitched_samples b x y z axis h
  have lx := covers_lower x b.size
  have ly := covers_lower y b.size
  have lz := covers_lower z b.size
  have px := covers_previous x b.size hx
  have py := covers_previous y b.size hy
  have pz := covers_previous z b.size hz
  intro cell hcell
  unfold edgeCells at hcell
  unfold axisCoord at hs
  by_cases a0 : axis = 0
  · subst a0
    simp only [if_true, List.mem_cons, List.mem_singleton, List.not_mem_nil, or_false] at hcell hs ha
    have ux := covers_upper x b.size nx hs
    simp only [OfNat.zero_ne_ofNat, if_false] at ha
    rcases hcell with e | e | e <;> subst e
    · exact not_skipped_of_samples b _ _ _ _ _ _ _ _ _ lx py lz ux py lz ha
    · exact not_skipped_of_samples b _ _ _ _ _ _ _ _ _ lx py pz ux py pz ha
    · exact not_skipped_of_samples b _ _ _ _ _ _ _ _ _ lx ly pz ux ly pz ha
  by_cases a1 : axis = 1
  · subst a1
    simp only [if_true, List.mem_cons, List.mem_singleton, List.not_mem_nil, or_false,
      OfNat.one_ne_ofNat, one_ne_zero, if_false] at hcell hs ha
    have uy := covers_upper y b.size ny hs
    rcases hcell with e | e | e <;> subst e
    · exact not_skipped_of_samples b _ _ _ _ _ _ _ _ _ px ly lz px uy lz ha
    · exact not_skipped_of_samples b _ _ _ _ _ _ _ _ _ px ly pz px uy pz ha
    · exact not_skipped_of_samples b _ _ _ _ _ _ _ _ _ lx ly pz lx uy pz ha
  · have a2 : axis = 2 := by omega
    subst a2
    simp only [if_true, List.mem_cons, List.mem_singleton, List.not_mem_nil, or_false,
      OfNat.ofNat_ne_zero, OfNat.ofNat_ne_one, if_false] at hcell hs ha
    have uz := covers_upper z b.size nz hs
    rcases hcell with e | e | e <;> subst e
    · exact not_skipped_of_samples b _ _ _ _ _ _ _ _ _ px ly lz px ly uz ha
    · exact not_skipped_of_samples b _ _ _ _ _ _ _ _ _ px py lz px py uz ha
    · exact not_skipped_of_samples b _ _ _ _ _ _ _ _ _ lx py lz lx py uz ha


/-! ### The vertices before a cell -/

theorem vertexBase_succ (E : Externals K) (b : Block) (x y z : Nat) :
    vertexBase E b (x + 1) y z = vertexBase E b x y z + cellCount E b x y z := by
  unfold vertexBase
  rw [sumBelow_succ]
  omega

theorem vertexBase_line (E : Externals K) (b : Block) (y z : Nat) :
    vertexBase E b 0 (y + 1) z = vertexBase E b b.expanded y z := by
  unfold vertexBase
  rw [sumBelow_succ, sumBelow_zero]
  omega

theorem vertexBase_plane (E : Externals K) (b : Block) (z : Nat) :
    vertexBase E b 0 0 (z + 1) = vertexBase E b 0 b.expanded z := by
  unfold vertexBase
  rw [sumBelow_succ, sumBelow_zero, sumBelow_zero, sumBelow_zero]

/-- The vertices of a cell come before those of every cell scanned after it. -/
theorem vertexBase_before (E : Externals K) (b : Block) (qx qy qz px py pz : Nat)
    (hx : qx < b.expanded) (hy : qy < b.expanded)
    (h : scannedBefore (qx, qy, qz) (px, py, pz)) :
    vertexBase E b qx qy qz + cellCount E b qx qy qz ≤ vertexBase E b px py pz := by
  rw [← vertexBase_succ]
  unfold vertexBase
  unfold scannedBefore at h
  simp only at h
  have line := sumBelow_mono (fun cell => cellCount E b cell qy qz) (qx + 1) b.expanded hx
  rcases h with h | ⟨hz, h | ⟨hy2, h⟩⟩
  · have plane := sumBelow_mono (fun line => sumBelow (fun cell =>
      cellCount E b cell line qz) b.expanded) (qy + 1) b.expanded hy
    rw [sumBelow_succ] at plane
    have block := sumBelow_mono (fun plane => sumBelow (fun line => sumBelow (fun cell =>
      cellCount E b cell line plane) b.expanded) b.expanded) (qz + 1) pz h
    rw [sumBelow_succ] at block
    omega
  · subst hz
    have plane := sumBelow_mono (fun line => sumBelow (fun cell =>
      cellCount E b cell line qz) b.expanded) (qy + 1) py h
    rw [sumBelow_succ] at plane
    omega
  · subst hz
    subst hy2
    have := sumBelow_mono (fun cell => cellCount E b cell qy qz) (qx + 1) px h
    omega

theorem cellCount_pos (E : Externals K) (b : Block) (x y z : Nat)
    (h : cellSkipped b x y z = false) :
    cellCount E b x y z = 1 + ((cellNormals E b x y z).length - 1) := by
  unfold cellCount
  simp [h]

theorem cellIndex_mem (E : Externals K) (b : Block) (x y z i : Nat)
    (h : cellSkipped b x y z = false) (hi : i ∈ (cellIndex E b x y z).indices) :
    emittedBy E b x y z i := by
  unfold cellIndex at hi
  simp only [List.mem_map, List.mem_range] at hi
  obtain ⟨k, _, e⟩ := hi
  unfold emittedBy
  rw [cellCount_pos E b x y z h, ← e]
  split_ifs <;> omega

theorem cellIndex_valid (E : Externals K) (b : Block) (x y z count : Nat)
    (h : cellSkipped b x y z = false)
    (hc : vertexBase E b x y z + cellCount E b x y z ≤ count) :
    (cellIndex E b x y z).Valid count := by
  refine ⟨by simp [cellIndex], fun i hi => ?_⟩
  have := cellIndex_mem E b x y z i h hi
  unfold emittedBy at this
  omega

theorem get?_set_self {α : Type} (l : List α) (i : Nat) (v : α) (h : i < l.length) :
    (l.set i v).get? i = some v := by
  simp [List.get?_eq_getElem?, h]

theorem get?_set_other {α : Type} (l : List α) (i j : Nat) (v : α) (h : i ≠ j) :
    (l.set i v).get? j = l.get? j := by
  simp [List.get?_eq_getElem?, List.getElem?_set_ne h]

theorem row_index_lt (n x y : Nat) (hx : x < n) (hy : y < n) : y * n + x < n * n := by
  have : (y + 1) * n ≤ n * n := Nat.mul_le_mul_right n hy
  rw [Nat.add_mul, Nat.one_mul] at this
  omega

theorem row_index_ne (n x y x1 y1 : Nat) (hx : x < n) (hx1 : x1 < n)
    (h : ¬ (x1 = x ∧ y1 = y)) : y * n + x ≠ y1 * n + x1 := by
  intro e
  apply h
  have h1 : (y * n + x) / n = (y1 * n + x1) / n := by rw [e]
  have h2 : (y * n + x) % n = (y1 * n + x1) % n := by rw [e]
  have hn : 0 < n := by omega
  rw [Nat.add_comm, Nat.add_mul_div_right _ _ hn, Nat.div_eq_of_lt hx,
    Nat.add_comm (y1 * n), Nat.add_mul_div_right _ _ hn, Nat.div_eq_of_lt hx1] at h1
  rw [Nat.add_comm, Nat.add_mul_mod_self_right, Nat.mod_eq_of_lt hx,
    Nat.add_comm (y1 * n), Nat.add_mul_mod_self_right, Nat.mod_eq_of_lt hx1] at h2
  omega


/-! ### The entries of the caches that a cell reads -/

/-- The three cells around a stitched edge are scanned before the cell that stitches the
quad, and lie in the block. -/
theorem edge_cells_before (b : Block) (x y z axis : Nat)
    (hx : x ≠ 0) (hy : y ≠ 0) (hz : z ≠ 0)
    (bx : x < b.expanded) (by1 : y < b.expanded) :
    ∀ cell ∈ edgeCells x y z axis,
      scannedBefore cell (x, y, z) ∧ cell.1 < b.expanded ∧ cell.2.1 < b.expanded := by
  intro cell hcell
  unfold edgeCells at hcell
  unfold scannedBefore
  split_ifs at hcell <;>
    simp only [List.mem_cons, List.mem_singleton, List.not_mem_nil, or_false] at hcell <;>
    rcases hcell with e | e | e <;> subst e <;> dsimp only <;> omega

/-- Under the invariant, the entries that a cell reads for a quad are the `NormalIndex`
values of the three other cells around the edge. -/
theorem neighbour_reads (E : Externals K) (b : Block) (x y z axis : Nat) (s : ScanState K)
    (inv : CellInv E b x y z s) (bx : x < b.expanded) (by1 : y < b.expanded)
    (bz : z < b.expanded) (h : axis ∈ stitchedAxes b (colorBase b x y z) x y z) :
    cacheReads b x y z axis s
      = (edgeCells x y z axis).map (fun cell => some (cellIndex E b cell.1 cell.2.1 cell.2.2)) := by
  have hs := edge_cells_not_skipped b x y z axis (by unfold Block.expanded at bx; omega)
    (by unfold Block.expanded at by1; omega) (by unfold Block.expanded at bz; omega) h
  obtain ⟨nx, ny, nz, h3, _, _⟩ := stitched_samples b x y z axis h
  unfold cacheReads edgeCells
  unfold edgeCells at hs
  by_cases a0 : axis = 0
  · subst a0
    simp only [if_true, List.map_cons, List.map_nil, List.cons.injEq, and_true] at hs ⊢
    have s1 := hs (x, y - 1, z) (by simp)
    have s2 := hs (x, y - 1, z - 1) (by simp)
    have s3 := hs (x, y, z - 1) (by simp)
    exact ⟨inv.lastLine x (y - 1) (by omega) bx s1,
      inv.lastPlane x (y - 1) (z - 1) (by omega) bx (by omega) s2,
      inv.lastPlane x y (z - 1) (by omega) bx by1 s3⟩
  by_cases a1 : axis = 1
  · subst a1
    simp only [if_true, List.map_cons, List.map_nil, List.cons.injEq, and_true, one_ne_zero,
      if_false] at hs ⊢
    have s1 := hs (x - 1, y, z) (by simp)
    have s2 := hs (x - 1, y, z - 1) (by simp)
    have s3 := hs (x, y, z - 1) (by simp)
    refine ⟨inv.lastIndex (x - 1) (by omega) s1, ?_,
      inv.lastPlane x y (z - 1) (by omega) bx by1 s3⟩
    have := inv.lastPlane (x - 1) y (z - 1) (by omega) (by omega) by1 s2
    have e : y * b.expanded + x - 1 = y * b.expanded + (x - 1) := by omega
    rw [e]
    exact this
  · have a2 : axis = 2 := by omega
    subst a2
    simp only [if_true, List.map_cons, List.map_nil, List.cons.injEq, and_true,
      OfNat.ofNat_ne_zero, OfNat.ofNat_ne_one, if_false] at hs ⊢
    have s1 := hs (x - 1, y, z) (by simp)
    have s2 := hs (x - 1, y - 1, z) (by simp)
    have s3 := hs (x, y - 1, z) (by simp)
    exact ⟨inv.lastIndex (x - 1) (by omega) s1,
      inv.lastLine (x - 1) (y - 1) (by omega) (by omega) s2,
      inv.lastLine x (y - 1) (by omega) bx s3⟩


/-! ### One cell of the pass -/

theorem visitCell_skipped [FloorRing K] (E : Externals K) (b : Block) (info : MetavoxelInfo K)
    (x y z : Nat) (s : ScanState K) (hu : (sampleAlphas b s.colorX x y z).uniform = true) :
    visitCell E b info x y z s = Except.ok (advanceX x s) := by
  unfold visitCell
  simp only [hu, if_true]
  rfl

theorem visitCell_ok [FloorRing K] (E : Externals K) (b : Block) (info : MetavoxelInfo K)
    (x y z : Nat) (s s2 : ScanState K)
    (hu : (sampleAlphas b s.colorX x y z).uniform = false)
    (hn : (clusterNormals E (extractCrossings E b s.colorX x y z)).length
      ≤ MAX_NORMALS_PER_VERTEX)
    (hc : (extractCrossings E b s.colorX x y z).length ≠ 0)
    (hs2 : stitchCell b x y z (sampleAlphas b s.colorX x y z)
        (emitVertices s.vertices
          (cellPoint E b info x y z (extractCrossings E b s.colorX x y z)
            (clusterNormals E (extractCrossings E b s.colorX x y z)))
          (clusterNormals E (extractCrossings E b s.colorX x y z))).1
        { s with
          vertices := (emitVertices s.vertices
            (cellPoint E b info x y z (extractCrossings E b s.colorX x y z)
              (clusterNormals E (extractCrossings E b s.colorX x y z)))
            (clusterNormals E (extractCrossings E b s.colorX x y z))).2
          hermiteSegments := s.hermiteSegments
            ++ (if E.displayHermite then
                  (extractCrossings E b s.colorX x y z).flatMap (hermiteSegment b info x y z)
                else []) } = Except.ok s2) :
    visitCell E b info x y z s = Except.ok (advanceX x { s2 with
      lastIndex := some (emitVertices s.vertices
        (cellPoint E b info x y z (extractCrossings E b s.colorX x y z)
          (clusterNormals E (extractCrossings E b s.colorX x y z)))
        (clusterNormals E (extractCrossings E b s.colorX x y z))).1
      lineIndices := s2.lineIndices.set x (emitVertices s.vertices
        (cellPoint E b info x y z (extractCrossings E b s.colorX x y z)
          (clusterNormals E (extractCrossings E b s.colorX x y z)))
        (clusterNormals E (extractCrossings E b s.colorX x y z))).1
      planeIndices := s2.planeIndices.set (y * b.expanded + x) (emitVertices s.vertices
        (cellPoint E b info x y z (extractCrossings E b s.colorX x y z)
          (clusterNormals E (extractCrossings E b s.colorX x y z)))
        (clusterNormals E (extractCrossings E b s.colorX x y z))).1 }) := by
  unfold visitCell
  simp only [hu, Bool.false_eq_true, if_false, not_lt.mpr hn, hc]
  exact except_bind_ok_of _ _ _ _ rfl (except_bind_ok_of _ _ _ _ rfl
    (except_bind_ok_of _ _ _ _ hs2 rfl))


/-- A skipped cell leaves the invariant in place for the next cell. -/
theorem cell_step_skipped [FloorRing K] (E : Externals K) (b : Block) (info : MetavoxelInfo K)
    (x y z : Nat) (s : ScanState K) (inv : CellInv E b x y z s)
    (hs : cellSkipped b x y z = true) :
    visitCell E b info x y z s = Except.ok (advanceX x s)
      ∧ CellInv E b (x + 1) y z (advanceX x s) ∧ (advanceX x s).indices = s.indices := by
  have hu : (sampleAlphas b s.colorX x y z).uniform = true := by
    rw [inv.colorX]
    exact hs
  obtain ⟨ai, _, av, _, al, ali, alli, api, alpi, acx, acy, acz⟩ := advanceX_fields x s
  refine ⟨visitCell_skipped E b info x y z s hu, ?_, ai⟩
  have hcount : cellCount E b x y z = 0 := by
    unfold cellCount
    simp [hs]
  refine ⟨?_, ?_, ?_, ?_, ?_, ?_, ?_, ?_, ?_, ?_, ?_, ?_, ?_, ?_⟩
  · rw [av, vertexBase_succ, inv.vertices, hcount]
    rfl
  · rw [acx, inv.colorX]
    unfold colorBase
    rw [clamped_succ]
    split_ifs <;> omega
  · rw [acy]
    exact inv.colorY
  · rw [acz]
    exact inv.colorZ
  · intro x1 e hsk
    have : x1 = x := by omega
    subst this
    rw [hs] at hsk
    cases hsk
  · intro x1 hlt hsk
    rw [ali]
    rcases Nat.lt_succ_iff_lt_or_eq.1 hlt with h | h
    · exact inv.line x1 h hsk
    · subst h
      rw [hs] at hsk
      cases hsk
  · rw [ali]
    exact inv.lineLength
  · rw [alli]
    exact inv.lastLine
  · rw [alli]
    exact inv.lastLineLength
  · intro x1 y1 bx1 h hsk
    rw [api]
    rcases h with h | ⟨h1, h2⟩
    · exact inv.plane x1 y1 bx1 (Or.inl h) hsk
    · rcases Nat.lt_succ_iff_lt_or_eq.1 h2 with h | h
      · exact inv.plane x1 y1 bx1 (Or.inr ⟨h1, h⟩) hsk
      · subst h
        subst h1
        rw [hs] at hsk
        cases hsk
  · rw [api]
    exact inv.planeLength
  · rw [alpi]
    exact inv.lastPlane
  · rw [alpi]
    exact inv.lastPlaneLength
  · rw [ai, av]
    exact inv.indices

/-- The entries that a cell reads for a quad are valid and belong to cells that were not
skipped. -/
theorem cell_reads (E : Externals K) (b : Block) (x y z axis count : Nat) (s : ScanState K)
    (inv : CellInv E b x y z s) (bx : x < b.expanded) (by1 : y < b.expanded)
    (bz : z < b.expanded) (h : axis ∈ stitchedAxes b (colorBase b x y z) x y z)
    (hcount : vertexBase E b x y z ≤ count) :
    cacheReads b x y z axis s
        = (edgeCells x y z axis).map (fun cell => some (cellIndex E b cell.1 cell.2.1 cell.2.2))
      ∧ ∀ cell ∈ edgeCells x y z axis, cellSkipped b cell.1 cell.2.1 cell.2.2 = false
          ∧ (cellIndex E b cell.1 cell.2.1 cell.2.2).Valid count := by
  refine ⟨neighbour_reads E b x y z axis s inv bx by1 bz h, fun cell hcell => ?_⟩
  have hs := edge_cells_not_skipped b x y z axis (by unfold Block.expanded at bx; omega)
    (by unfold Block.expanded at by1; omega) (by unfold Block.expanded at bz; omega) h cell hcell
  obtain ⟨nx, ny, nz, _⟩ := stitched_samples b x y z axis h
  obtain ⟨hb, cx, cy⟩ := edge_cells_before b x y z axis nx ny nz bx by1 cell hcell
  refine ⟨hs, cellIndex_valid E b _ _ _ count hs ?_⟩
  have := vertexBase_before E b cell.1 cell.2.1 cell.2.2 x y z cx cy hb
  omega


theorem quadAround_of_quadFrom (E : Externals K) (b : Block) (x y z axis count : Nat)
    (q1 q2 q3 : Nat × Nat × Nat) (quad : List Nat)
    (hcells : edgeCells x y z axis = [q1, q2, q3])
    (hs : cellSkipped b x y z = false)
    (hq : ∀ cell ∈ edgeCells x y z axis, cellSkipped b cell.1 cell.2.1 cell.2.2 = false
      ∧ (cellIndex E b cell.1 cell.2.1 cell.2.2).Valid count)
    (h : QuadFrom (cellIndex E b x y z) (cellIndex E b q1.1 q1.2.1 q1.2.2)
      (cellIndex E b q2.1 q2.2.1 q2.2.2) (cellIndex E b q3.1 q3.2.1 q3.2.2) quad) :
    QuadAround E b x y z axis quad := by
  obtain ⟨c0, c1, c2, c3, e, p3, p1, p02⟩ := h
  have s1 := (hq q1 (by rw [hcells]; simp)).1
  have s2 := (hq q2 (by rw [hcells]; simp)).1
  have s3 := (hq q3 (by rw [hcells]; simp)).1
  refine ⟨c0, c1, c2, c3, q1, q2, q3, hcells, e, cellIndex_mem E b x y z c3 hs p3,
    cellIndex_mem E b _ _ _ c1 s2 p1, ?_⟩
  rcases p02 with ⟨p0, p2⟩ | ⟨p0, p2⟩
  · exact Or.inl ⟨cellIndex_mem E b _ _ _ c0 s1 p0, cellIndex_mem E b _ _ _ c2 s3 p2⟩
  · exact Or.inr ⟨cellIndex_mem E b _ _ _ c0 s3 p0, cellIndex_mem E b _ _ _ c2 s1 p2⟩

theorem quadAround_lt (E : Externals K) (b : Block) (x y z axis : Nat) (quad : List Nat)
    (hx : x ≠ 0) (hy : y ≠ 0) (hz : z ≠ 0) (bx : x < b.expanded) (by1 : y < b.expanded)
    (h : QuadAround E b x y z axis quad) :
    ∀ i ∈ quad, i < vertexBase E b x y z + cellCount E b x y z := by
  obtain ⟨c0, c1, c2, c3, q1, q2, q3, hcells, e, p3, p1, p02⟩ := h
  have before := edge_cells_before b x y z axis hx hy hz bx by1
  have b1 := before q1 (by rw [hcells]; simp)
  have b2 := before q2 (by rw [hcells]; simp)
  have b3 := before q3 (by rw [hcells]; simp)
  have v1 := vertexBase_before E b q1.1 q1.2.1 q1.2.2 x y z b1.2.1 b1.2.2 b1.1
  have v2 := vertexBase_before E b q2.1 q2.2.1 q2.2.2 x y z b2.2.1 b2.2.2 b2.1
  have v3 := vertexBase_before E b q3.1 q3.2.1 q3.2.2 x y z b3.2.1 b3.2.2 b3.1
  unfold emittedBy at p3 p1 p02
  intro i hi
  rw [e] at hi
  simp only [List.mem_cons, List.mem_singleton, List.not_mem_nil, or_false] at hi
  rcases p02 with ⟨p0, p2⟩ | ⟨p0, p2⟩ <;> rcases hi with h | h | h | h <;> subst h <;> omega


theorem stitchedAxes_append (b : Block) (colorX x y z : Nat) :
    stitchedAxes b colorX x y z
      = (if 0 ∈ stitchedAxes b colorX x y z then [0] else [])
        ++ (if 1 ∈ stitchedAxes b colorX x y z then [1] else [])
        ++ (if 2 ∈ stitchedAxes b colorX x y z then [2] else []) := by
  unfold stitchedAxes
  cases h0 : axisStitched b colorX x y z 0 <;> cases h1 : axisStitched b colorX x y z 1 <;>
    cases h2 : axisStitched b colorX x y z 2 <;> simp [List.filter, *]

theorem forall₂_mem_right {α β : Type} (R : α → β → Prop) (l1 : List α) (l2 : List β)
    (h : List.Forall₂ R l1 l2) : ∀ y ∈ l2, ∃ x ∈ l1, R x y := by
  induction h with
  | nil => intro y hy; cases hy
  | cons hr _ ih =>
    intro y hy
    rcases List.mem_cons.1 hy with e | e
    · exact ⟨_, List.mem_cons_self _ _, e ▸ hr⟩
    · obtain ⟨x, hx, hxy⟩ := ih y e
      exact ⟨x, List.mem_cons_of_mem _ hx, hxy⟩

theorem forall₂_stitched {β : Type} (R : Nat → β → Prop) (axes : List Nat) (m0 m1 m2 : Prop)
    [Decidable m0] [Decidable m1] [Decidable m2]
    (e : axes = (if m0 then [0] else []) ++ (if m1 then [1] else [])
      ++ (if m2 then [2] else []))
    (qx qy qz : β) (r0 : m0 → R 0 qx) (r1 : m1 → R 1 qy) (r2 : m2 → R 2 qz) :
    List.Forall₂ R axes ((if m0 then [qx] else []) ++ (if m1 then [qy] else [])
      ++ (if m2 then [qz] else [])) := by
  rw [e]
  refine List.rel_append (List.rel_append ?_ ?_) ?_
  · by_cases h : m0
    · simp only [h, if_true]
      exact List.Forall₂.cons (r0 h) List.Forall₂.nil
    · simp only [h, if_false]
      exact List.Forall₂.nil
  · by_cases h : m1
    · simp only [h, if_true]
      exact List.Forall₂.cons (r1 h) List.Forall₂.nil
    · simp only [h, if_false]
      exact List.Forall₂.nil
  · by_cases h : m2
    · simp only [h, if_true]
      exact List.Forall₂.cons (r2 h) List.Forall₂.nil
    · simp only [h, if_false]
      exact List.Forall₂.nil

/-- A cell that is not skipped and has between one and four clusters is processed without a
fault: it leaves the invariant in place for the next cell, and the corners of each quad
that it appends are vertices of the four cells around the crossed edge. -/
theorem cell_step_emitting [FloorRing K] (E : Externals K) (b : Block) (info : MetavoxelInfo K)
    (x y z : Nat) (s : ScanState K) (inv : CellInv E b x y z s)
    (bx : x < b.expanded) (by1 : y < b.expanded) (bz : z < b.expanded)
    (hs : cellSkipped b x y z = false)
    (h1 : 1 ≤ (cellNormals E b x y z).length)
    (h4 : (cellNormals E b x y z).length ≤ MAX_NORMALS_PER_VERTEX) :
    ∃ s1 quads, visitCell E b info x y z s = Except.ok s1
      ∧ CellInv E b (x + 1) y z s1
      ∧ s1.indices = s.indices ++ quads.flatten
      ∧ List.Forall₂ (QuadAround E b x y z) (stitchedAxes b (colorBase b x y z) x y z) quads := by
  have hcx := inv.colorX
  have hu : (sampleAlphas b s.colorX x y z).uniform = false := by
    rw [hcx]
    exact hs
  have hn : (clusterNormals E (extractCrossings E b s.colorX x y z)).length
      ≤ MAX_NORMALS_PER_VERTEX := by
    rw [hcx]
    exact h4
  have hc : (extractCrossings E b s.colorX x y z).length ≠ 0 := by
    intro e
    rw [hcx] at e
    have hnil : cellCrossings E b x y z = [] := List.length_eq_zero.1 e
    unfold cellNormals at h1
    rw [hnil] at h1
    simp [clusterNormals] at h1
  obtain ⟨hindex, added, hadded, hlen⟩ := emitVertices_spec s.vertices
    (cellPoint E b info x y z (extractCrossings E b s.colorX x y z)
      (clusterNormals E (extractCrossings E b s.colorX x y z)))
    (clusterNormals E (extractCrossings E b s.colorX x y z)) hn
  have hidx : (emitVertices s.vertices
      (cellPoint E b info x y z (extractCrossings E b s.colorX x y z)
        (clusterNormals E (extractCrossings E b s.colorX x y z)))
      (clusterNormals E (extractCrossings E b s.colorX x y z))).1 = cellIndex E b x y z := by
    rw [hindex, inv.vertices, hcx]
    rfl
  have hcount : cellCount E b x y z
      = 1 + ((clusterNormals E (extractCrossings E b s.colorX x y z)).length - 1) := by
    rw [cellCount_pos E b x y z hs, hcx]
    rfl
  have hv : (emitVertices s.vertices
      (cellPoint E b info x y z (extractCrossings E b s.colorX x y z)
        (clusterNormals E (extractCrossings E b s.colorX x y z)))
      (clusterNormals E (extractCrossings E b s.colorX x y z))).2.length
        = vertexBase E b x y z + cellCount E b x y z := by
    rw [hadded, List.length_append, hlen, inv.vertices, hcount]
  have hstitched : (sampleAlphas b s.colorX x y z).stitched x y z
      = stitchedAxes b (colorBase b x y z) x y z := by
    rw [stitched_eq_spec, hcx]
  -- the entries read
  have reads := fun axis h => cell_reads E b x y z axis
    (vertexBase E b x y z + cellCount E b x y z) s inv bx by1 bz h (Nat.le_add_right _ _)
  have own : (cellIndex E b x y z).Valid (vertexBase E b x y z + cellCount E b x y z) :=
    cellIndex_valid E b x y z _ hs (le_refl _)
  obtain ⟨s2, qx, qy, qz, hs2, hi2, Qx, Qy, Qz⟩ := stitchCell_total b x y z
    (sampleAlphas b s.colorX x y z) (cellIndex E b x y z)
    { s with
      vertices := (emitVertices s.vertices
        (cellPoint E b info x y z (extractCrossings E b s.colorX x y z)
          (clusterNormals E (extractCrossings E b s.colorX x y z)))
        (clusterNormals E (extractCrossings E b s.colorX x y z))).2
      hermiteSegments := s.hermiteSegments
        ++ (if E.displayHermite then
              (extractCrossings E b s.colorX x y z).flatMap (hermiteSegment b info x y z)
            else []) }
    (cellIndex E b x (y - 1) z) (cellIndex E b x (y - 1) (z - 1)) (cellIndex E b x y (z - 1))
    (cellIndex E b (x - 1) y z) (cellIndex E b (x - 1) y (z - 1)) (cellIndex E b x y (z - 1))
    (cellIndex E b (x - 1) y z) (cellIndex E b (x - 1) (y - 1) z) (cellIndex E b x (y - 1) z)
    (by rw [hv]; exact own)
    (fun h => by
      rw [hstitched] at h
      obtain ⟨r, v⟩ := reads 0 h
      rw [hv]
      exact ⟨r, (v (x, y - 1, z) (by simp [edgeCells])).2,
        (v (x, y - 1, z - 1) (by simp [edgeCells])).2, (v (x, y, z - 1) (by simp [edgeCells])).2⟩)
    (fun h => by
      rw [hstitched] at h
      obtain ⟨r, v⟩ := reads 1 h
      rw [hv]
      exact ⟨r, (v (x - 1, y, z) (by simp [edgeCells])).2,
        (v (x - 1, y, z - 1) (by simp [edgeCells])).2, (v (x, y, z - 1) (by simp [edgeCells])).2⟩)
    (fun h => by
      rw [hstitched] at h
      obtain ⟨r, v⟩ := reads 2 h
      rw [hv]
      exact ⟨r, (v (x - 1, y, z) (by simp [edgeCells])).2,
        (v (x - 1, y - 1, z) (by simp [edgeCells])).2, (v (x, y - 1, z) (by simp [edgeCells])).2⟩)
  rw [hstitched] at hi2 Qx Qy Qz
  obtain ⟨_, _, v2, l2, li2, lli2, pi2, lpi2, _, cx2, cy2, cz2⟩ :=
    stitchCell_spec b x y z _ _ _ s2 hs2
  have hvisit := visitCell_ok E b info x y z s s2 hu hn hc (by rw [hidx]; exact hs2)
  rw [hidx] at hvisit
  obtain ⟨ai, _, av, _, al, ali, alli, api, alpi, acx, acy, acz⟩ := advanceX_fields x
    { s2 with
      lastIndex := some (cellIndex E b x y z)
      lineIndices := s2.lineIndices.set x (cellIndex E b x y z)
      planeIndices := s2.planeIndices.set (y * b.expanded + x) (cellIndex E b x y z) }
  have hquads : List.Forall₂ (QuadAround E b x y z) (stitchedAxes b (colorBase b x y z) x y z)
      ((if 0 ∈ stitchedAxes b (colorBase b x y z) x y z then [qx] else [])
        ++ (if 1 ∈ stitchedAxes b (colorBase b x y z) x y z then [qy] else [])
        ++ (if 2 ∈ stitchedAxes b (colorBase b x y z) x y z then [qz] else [])) := by
    have a0 := fun h => quadAround_of_quadFrom E b x y z 0 _ (x, y - 1, z) (x, y - 1, z - 1)
      (x, y, z - 1) qx (by simp [edgeCells]) hs (reads 0 h).2 (Qx h)
    have a1 := fun h => quadAround_of_quadFrom E b x y z 1 _ (x - 1, y, z) (x - 1, y, z - 1)
      (x, y, z - 1) qy (by simp [edgeCells]) hs (reads 1 h).2 (Qy h)
    have a2 := fun h => quadAround_of_quadFrom E b x y z 2 _ (x - 1, y, z) (x - 1, y - 1, z)
      (x, y - 1, z) qz (by simp [edgeCells]) hs (reads 2 h).2 (Qz h)
    exact forall₂_stitched _ _ _ _ _ (stitchedAxes_append b (colorBase b x y z) x y z)
      qx qy qz a0 a1 a2
  have hindices : s2.indices = s.indices
      ++ ((if 0 ∈ stitchedAxes b (colorBase b x y z) x y z then [qx] else [])
        ++ (if 1 ∈ stitchedAxes b (colorBase b x y z) x y z then [qy] else [])
        ++ (if 2 ∈ stitchedAxes b (colorBase b x y z) x y z then [qz] else [])).flatten := by
    rw [hi2]
    by_cases h0 : 0 ∈ stitchedAxes b (colorBase b x y z) x y z <;>
      by_cases h1 : 1 ∈ stitchedAxes b (colorBase b x y z) x y z <;>
      by_cases h2 : 2 ∈ stitchedAxes b (colorBase b x y z) x y z <;>
      simp [h0, h1, h2]
  refine ⟨_, _, hvisit, ?_, by rw [ai]; exact hindices, hquads⟩
  refine ⟨?_, ?_, ?_, ?_, ?_, ?_, ?_, ?_, ?_, ?_, ?_, ?_, ?_, ?_⟩
  · rw [av, vertexBase_succ]
    show s2.vertices.length = _
    rw [v2]
    exact hv
  · rw [acx]
    show (if x = 0 then s2.colorX else s2.colorX + 1) = _
    rw [cx2]
    show (if x = 0 then s.colorX else s.colorX + 1) = _
    rw [hcx]
    unfold colorBase
    rw [clamped_succ]
    split_ifs <;> omega
  · rw [acy]
    show s2.colorY = _
    rw [cy2]
    exact inv.colorY
  · rw [acz]
    show s2.colorZ = _
    rw [cz2]
    exact inv.colorZ
  · intro x1 e _
    have : x1 = x := by omega
    subst this
    rw [al]
  · intro x1 hlt hsk
    rw [ali]
    show (s2.lineIndices.set x (cellIndex E b x y z)).get? x1 = _
    rw [li2]
    rcases Nat.lt_succ_iff_lt_or_eq.1 hlt with h | h
    · rw [get?_set_other _ _ _ _ (by omega)]
      exact inv.line x1 h hsk
    · subst h
      exact get?_set_self _ _ _ (by
        show x1 < s.lineIndices.length
        rw [inv.lineLength]
        exact bx)
  · rw [ali]
    show (s2.lineIndices.set x (cellIndex E b x y z)).length = _
    rw [List.length_set, li2]
    exact inv.lineLength
  · rw [alli]
    show ∀ x1 y1, y = y1 + 1 → x1 < b.expanded → cellSkipped b x1 y1 z = false →
      s2.lastLineIndices.get? x1 = some (cellIndex E b x1 y1 z)
    rw [lli2]
    exact inv.lastLine
  · rw [alli]
    show s2.lastLineIndices.length = _
    rw [lli2]
    exact inv.lastLineLength
  · intro x1 y1 bx1 h hsk
    rw [api]
    show (s2.planeIndices.set (y * b.expanded + x) (cellIndex E b x y z)).get?
      (y1 * b.expanded + x1) = _
    rw [pi2]
    by_cases e : x1 = x ∧ y1 = y
    · obtain ⟨e1, e2⟩ := e
      subst e1
      subst e2
      exact get?_set_self _ _ _ (by
        show y1 * b.expanded + x1 < s.planeIndices.length
        rw [inv.planeLength]
        exact row_index_lt _ _ _ bx by1)
    · rw [get?_set_other _ _ _ _ (row_index_ne _ _ _ _ _ bx bx1 e)]
      refine inv.plane x1 y1 bx1 ?_ hsk
      rcases h with h | ⟨h1, h2⟩
      · exact Or.inl h
      · refine Or.inr ⟨h1, ?_⟩
        rcases Nat.lt_succ_iff_lt_or_eq.1 h2 with h | h
        · exact h
        · exact absurd ⟨h, h1⟩ e
  · rw [api]
    show (s2.planeIndices.set (y * b.expanded + x) (cellIndex E b x y z)).length = _
    rw [List.length_set, pi2]
    exact inv.planeLength
  · rw [alpi]
    show ∀ x1 y1 z1, z = z1 + 1 → x1 < b.expanded → y1 < b.expanded →
      cellSkipped b x1 y1 z1 = false →
      s2.lastPlaneIndices.get? (y1 * b.expanded + x1) = some (cellIndex E b x1 y1 z1)
    rw [lpi2]
    exact inv.lastPlane
  · rw [alpi]
    show s2.lastPlaneIndices.length = _
    rw [lpi2]
    exact inv.lastPlaneLength
  · rw [ai, av]
    show ∀ i ∈ s2.indices, i < s2.vertices.length
    rw [hindices, v2]
    intro i hi
    show i < (emitVertices s.vertices
      (cellPoint E b info x y z (extractCrossings E b s.colorX x y z)
        (clusterNormals E (extractCrossings E b s.colorX x y z)))
      (clusterNormals E (extractCrossings E b s.colorX x y z))).2.length
    rw [hv]
    rcases List.mem_append.1 hi with h | h
    · have := inv.indices i h
      rw [inv.vertices] at this
      omega
    · obtain ⟨quad, hquad, hiq⟩ := List.mem_flatten.1 h
      obtain ⟨axis, haxis, hq⟩ := forall₂_mem_right _ _ _ hquads quad hquad
      obtain ⟨nx, ny, nz, _⟩ := stitched_samples b x y z axis haxis
      exact quadAround_lt E b x y z axis quad nx ny nz bx by1 hq i hiq


/-! ### The loops of the pass -/

/-- A loop whose every step succeeds and carries the property of step `i` to step `i + 1`
succeeds and ends with the property of its last step. -/
theorem foldlM_range_total {σ : Type} (f : σ → Nat → Except Fault σ) (P : Nat → σ → Prop)
    (n : Nat) (hstep : ∀ i, i < n → ∀ s, P i s → ∃ s1, f s i = Except.ok s1 ∧ P (i + 1) s1)
    (s0 : σ) (h0 : P 0 s0) :
    ∃ s1, (List.range n).foldlM f s0 = Except.ok s1 ∧ P n s1 := by
  induction n with
  | zero => exact ⟨s0, rfl, h0⟩
  | succ n ih =>
    obtain ⟨t, ht, hp⟩ := ih (fun i hi => hstep i (by omega))
    obtain ⟨s1, hs1, hp1⟩ := hstep n (by omega) t hp
    refine ⟨s1, ?_, hp1⟩
    rw [List.range_succ, List.foldlM_append, ht]
    simp only [bind, Except.bind, List.foldlM, hs1]
    rfl

theorem visitLine_eq [FloorRing K] (E : Externals K) (b : Block) (info : MetavoxelInfo K)
    (z y : Nat) (s : ScanState K) :
    visitLine E b info z s y
      = (List.range b.expanded).foldlM (fun st x => visitCell E b info x y z st) (lineStart s)
        >>= fun s1 => pure (lineEnd b y s1) := by
  unfold visitLine lineEnd lineStart
  congr 1

theorem visitPlane_eq [FloorRing K] (E : Externals K) (b : Block) (info : MetavoxelInfo K)
    (z : Nat) (s : ScanState K) :
    visitPlane E b info s z
      = (List.range b.expanded).foldlM (visitLine E b info z) (planeStart s)
        >>= fun s1 => pure (planeEnd b z s1) := by
  unfold visitPlane planeEnd planeStart
  congr 1

theorem colorBase_line (b : Block) (y z : Nat) :
    colorBase b 0 (y + 1) z = colorBase b 0 y z + (if y = 0 then 0 else b.size) := by
  unfold colorBase
  rw [clamped_succ]
  split_ifs
  · rfl
  · rw [Nat.add_mul, Nat.one_mul]
    omega

theorem colorBase_plane (b : Block) (z : Nat) :
    colorBase b 0 0 (z + 1) = colorBase b 0 0 z + (if z = 0 then 0 else b.area) := by
  unfold colorBase
  rw [clamped_succ]
  split_ifs
  · rfl
  · rw [Nat.add_mul, Nat.one_mul]
    omega

/-- After the cells of a line the invariant holds for the first cell of the next line. -/
theorem line_end (E : Externals K) (b : Block) (y z : Nat) (s : ScanState K)
    (inv : CellInv E b b.expanded y z s) :
    CellInv E b 0 (y + 1) z (lineStart (lineEnd b y s)) := by
  have hcy : (lineEnd b y s).colorY = colorBase b 0 (y + 1) z := by
    rw [colorBase_line, ← inv.colorY]
    unfold lineEnd
    by_cases h : y = 0 <;> simp [h]
  have hcz : (lineEnd b y s).colorZ = s.colorZ := by
    unfold lineEnd
    split_ifs <;> rfl
  have hv : (lineEnd b y s).vertices = s.vertices := by
    unfold lineEnd
    split_ifs <;> rfl
  have hi : (lineEnd b y s).indices = s.indices := by
    unfold lineEnd
    split_ifs <;> rfl
  have hl : (lineEnd b y s).lineIndices = s.lastLineIndices := by
    unfold lineEnd
    split_ifs <;> rfl
  have hll : (lineEnd b y s).lastLineIndices = s.lineIndices := by
    unfold lineEnd
    split_ifs <;> rfl
  have hp : (lineEnd b y s).planeIndices = s.planeIndices := by
    unfold lineEnd
    split_ifs <;> rfl
  have hlp : (lineEnd b y s).lastPlaneIndices = s.lastPlaneIndices := by
    unfold lineEnd
    split_ifs <;> rfl
  refine ⟨?_, ?_, ?_, ?_, ?_, ?_, ?_, ?_, ?_, ?_, ?_, ?_, ?_, ?_⟩
  · show (lineEnd b y s).vertices.length = _
    rw [hv, vertexBase_line]
    exact inv.vertices
  · exact hcy
  · exact hcy
  · show (lineEnd b y s).colorZ = _
    rw [hcz]
    exact inv.colorZ
  · intro x1 e
    omega
  · intro x1 e
    omega
  · show (lineEnd b y s).lineIndices.length = _
    rw [hl]
    exact inv.lastLineLength
  · intro x1 y1 e bx1 hsk
    show (lineEnd b y s).lastLineIndices.get? x1 = _
    rw [hll]
    have : y1 = y := by omega
    subst this
    exact inv.line x1 bx1 hsk
  · show (lineEnd b y s).lastLineIndices.length = _
    rw [hll]
    exact inv.lineLength
  · intro x1 y1 bx1 h hsk
    show (lineEnd b y s).planeIndices.get? _ = _
    rw [hp]
    refine inv.plane x1 y1 bx1 ?_ hsk
    rcases h with h | ⟨_, h⟩
    · rcases Nat.lt_succ_iff_lt_or_eq.1 h with h | h
      · exact Or.inl h
      · exact Or.inr ⟨h, bx1⟩
    · omega
  · show (lineEnd b y s).planeIndices.length = _
    rw [hp]
    exact inv.planeLength
  · show ∀ x1 y1 z1, z = z1 + 1 → x1 < b.expanded → y1 < b.expanded →
      cellSkipped b x1 y1 z1 = false →
      (lineEnd b y s).lastPlaneIndices.get? (y1 * b.expanded + x1) = some (cellIndex E b x1 y1 z1)
    rw [hlp]
    exact inv.lastPlane
  · show (lineEnd b y s).lastPlaneIndices.length = _
    rw [hlp]
    exact inv.lastPlaneLength
  · show ∀ i ∈ (lineEnd b y s).indices, i < (lineEnd b y s).vertices.length
    rw [hi, hv]
    exact inv.indices

/-- After the lines of a plane the invariant holds for the first cell of the next plane. -/
theorem plane_end (E : Externals K) (b : Block) (z : Nat) (s : ScanState K)
    (inv : CellInv E b 0 b.expanded z (lineStart s)) :
    CellInv E b 0 0 (z + 1) (lineStart (planeStart (planeEnd b z s))) := by
  have hcz : (planeEnd b z s).colorZ = colorBase b 0 0 (z + 1) := by
    rw [colorBase_plane, ← inv.colorZ]
    unfold planeEnd lineStart
    by_cases h : z = 0 <;> simp [h]
  have hv : (planeEnd b z s).vertices = s.vertices := by
    unfold planeEnd
    split_ifs <;> rfl
  have hi : (planeEnd b z s).indices = s.indices := by
    unfold planeEnd
    split_ifs <;> rfl
  have hl : (planeEnd b z s).lineIndices = s.lineIndices := by
    unfold planeEnd
    split_ifs <;> rfl
  have hll : (planeEnd b z s).lastLineIndices = s.lastLineIndices := by
    unfold planeEnd
    split_ifs <;> rfl
  have hp : (planeEnd b z s).planeIndices = s.lastPlaneIndices := by
    unfold planeEnd
    split_ifs <;> rfl
  have hlp : (planeEnd b z s).lastPlaneIndices = s.planeIndices := by
    unfold planeEnd
    split_ifs <;> rfl
  refine ⟨?_, ?_, ?_, ?_, ?_, ?_, ?_, ?_, ?_, ?_, ?_, ?_, ?_, ?_⟩
  · show (planeEnd b z s).vertices.length = _
    rw [hv, vertexBase_plane]
    exact inv.vertices
  · exact hcz
  · exact hcz
  · exact hcz
  · intro x1 e
    omega
  · intro x1 e
    omega
  · show (planeEnd b z s).lineIndices.length = _
    rw [hl]
    exact inv.lineLength
  · intro x1 y1 e
    omega
  · show (planeEnd b z s).lastLineIndices.length = _
    rw [hll]
    exact inv.lastLineLength
  · intro x1 y1 _ h
    omega
  · show (planeEnd b z s).planeIndices.length = _
    rw [hp]
    exact inv.lastPlaneLength
  · intro x1 y1 z1 e bx1 by1 hsk
    show (planeEnd b z s).lastPlaneIndices.get? _ = _
    rw [hlp]
    have : z1 = z := by omega
    subst this
    exact inv.plane x1 y1 bx1 (Or.inl by1) hsk
  · show (planeEnd b z s).lastPlaneIndices.length = _
    rw [hlp]
    exact inv.planeLength
  · show ∀ i ∈ (planeEnd b z s).indices, i < (planeEnd b z s).vertices.length
    rw [hi, hv]
    exact inv.indices

/-- The invariant holds when the pass starts. -/
theorem initial_inv (E : Externals K) (b : Block) :
    CellInv E b 0 0 0 (lineStart (planeStart (initialState b : ScanState K))) := by
  refine ⟨?_, ?_, ?_, ?_, ?_, ?_, ?_, ?_, ?_, ?_, ?_, ?_, ?_, ?_⟩
  · simp [lineStart, planeStart, initialState, vertexBase, sumBelow_zero]
  · simp [lineStart, planeStart, initialState, colorBase, clamped]
  · simp [lineStart, planeStart, initialState, colorBase, clamped]
  · simp [lineStart, planeStart, initialState, colorBase, clamped]
  · intro x1 e
    omega
  · intro x1 e
    omega
  · simp [lineStart, planeStart, initialState]
  · intro x1 y1 e
    omega
  · simp [lineStart, planeStart, initialState]
  · intro x1 y1 _ h
    omega
  · simp [lineStart, planeStart, initialState]
  · intro x1 y1 z1 e
    omega
  · simp [lineStart, planeStart, initialState]
  · intro i hi
    cases hi


/-- Every cell with between one and four clusters, and every skipped cell, is processed
without a fault and leaves the invariant in place for the next cell. -/
theorem cell_step [FloorRing K] (E : Externals K) (b : Block) (info : MetavoxelInfo K)
    (x y z : Nat) (s : ScanState K) (inv : CellInv E b x y z s)
    (bx : x < b.expanded) (by1 : y < b.expanded) (bz : z < b.expanded)
    (H : ClustersBounded E b) :
    ∃ s1 quads, visitCell E b info x y z s = Except.ok s1
      ∧ CellInv E b (x + 1) y z s1
      ∧ s1.indices = s.indices ++ quads.flatten
      ∧ List.Forall₂ (QuadAround E b x y z) (stitchedAxes b (colorBase b x y z) x y z) quads := by
  cases hs : cellSkipped b x y z with
  | false =>
    obtain ⟨h1, h4⟩ := H x bx y by1 z bz hs
    exact cell_step_emitting E b info x y z s inv bx by1 bz hs h1 h4
  | true =>
    obtain ⟨hv, hinv, hi⟩ := cell_step_skipped E b info x y z s inv hs
    have hnone : stitchedAxes b (colorBase b x y z) x y z = [] := by
      rw [← stitched_eq_spec]
      exact stitched_of_uniform b _ x y z hs
    refine ⟨_, [], hv, hinv, by rw [hi]; simp, ?_⟩
    rw [hnone]
    exact List.Forall₂.nil

theorem cells_total [FloorRing K] (E : Externals K) (b : Block) (info : MetavoxelInfo K)
    (H : ClustersBounded E b) (x y z : Nat) (bx : x ≤ b.expanded) (by1 : y < b.expanded)
    (bz : z < b.expanded) (s : ScanState K) (inv : CellInv E b 0 y z s) :
    ∃ t, (List.range x).foldlM (fun st x => visitCell E b info x y z st) s = Except.ok t
      ∧ CellInv E b x y z t :=
  foldlM_range_total (fun st x => visitCell E b info x y z st) (fun x s => CellInv E b x y z s)
    x (fun i hi s hinv => by
      obtain ⟨s1, _, h, hinv1, _⟩ := cell_step E b info i y z s hinv (by omega) by1 bz H
      exact ⟨s1, h, hinv1⟩) s inv

theorem line_step [FloorRing K] (E : Externals K) (b : Block) (info : MetavoxelInfo K)
    (H : ClustersBounded E b) (y z : Nat) (by1 : y < b.expanded) (bz : z < b.expanded)
    (s : ScanState K) (inv : CellInv E b 0 y z (lineStart s)) :
    ∃ s1, visitLine E b info z s y = Except.ok s1
      ∧ CellInv E b 0 (y + 1) z (lineStart s1) := by
  obtain ⟨t, ht, hinv⟩ := cells_total E b info H b.expanded y z (le_refl _) by1 bz _ inv
  refine ⟨lineEnd b y t, ?_, line_end E b y z t hinv⟩
  rw [visitLine_eq]
  exact except_bind_ok_of _ _ _ _ ht rfl

theorem lines_total [FloorRing K] (E : Externals K) (b : Block) (info : MetavoxelInfo K)
    (H : ClustersBounded E b) (y z : Nat) (by1 : y ≤ b.expanded) (bz : z < b.expanded)
    (s : ScanState K) (inv : CellInv E b 0 0 z (lineStart s)) :
    ∃ t, (List.range y).foldlM (visitLine E b info z) s = Except.ok t
      ∧ CellInv E b 0 y z (lineStart t) :=
  foldlM_range_total (visitLine E b info z) (fun y s => CellInv E b 0 y z (lineStart s))
    y (fun i hi s hinv => line_step E b info H i z (by omega) bz s hinv) s inv

theorem plane_step [FloorRing K] (E : Externals K) (b : Block) (info : MetavoxelInfo K)
    (H : ClustersBounded E b) (z : Nat) (bz : z < b.expanded)
    (s : ScanState K) (inv : CellInv E b 0 0 z (lineStart (planeStart s))) :
    ∃ s1, visitPlane E b info s z = Except.ok s1
      ∧ CellInv E b 0 0 (z + 1) (lineStart (planeStart s1)) := by
  obtain ⟨t, ht, hinv⟩ := lines_total E b info H b.expanded z (le_refl _) bz _ inv
  refine ⟨planeEnd b z t, ?_, plane_end E b z t hinv⟩
  rw [visitPlane_eq]
  exact except_bind_ok_of _ _ _ _ ht rfl

theorem planes_total [FloorRing K] (E : Externals K) (b : Block) (info : MetavoxelInfo K)
    (H : ClustersBounded E b) (z : Nat) (bz : z ≤ b.expanded) :
    ∃ t, (List.range z).foldlM (visitPlane E b info) (initialState b) = Except.ok t
      ∧ CellInv E b 0 0 z (lineStart (planeStart t)) :=
  foldlM_range_total (visitPlane E b info)
    (fun z s => CellInv E b 0 0 z (lineStart (planeStart s)))
    z (fun i hi s hinv => plane_step E b info H i (by omega) s hinv) _ (initial_inv E b)

/-- The state in which the pass reaches a cell satisfies the invariant. -/
theorem stateBefore_inv [FloorRing K] (E : Externals K) (b : Block) (info : MetavoxelInfo K)
    (H : ClustersBounded E b) (x y z : Nat) (bx : x ≤ b.expanded) (by1 : y < b.expanded)
    (bz : z < b.expanded) :
    ∃ t, stateBefore E b info x y z = Except.ok t ∧ CellInv E b x y z t := by
  obtain ⟨p, hp, pinv⟩ := planes_total E b info H z (by omega)
  obtain ⟨l, hl, linv⟩ := lines_total E b info H y z (by omega) bz _ pinv
  obtain ⟨t, ht, tinv⟩ := cells_total E b info H x y z bx by1 bz _ linv
  refine ⟨t, ?_, tinv⟩
  unfold stateBefore
  exact except_bind_ok_of _ _ _ _ hp (except_bind_ok_of _ _ _ _ hl ht)


/-- C12. On a block whose every cell that is not skipped has between one and four normal
clusters, the pass ends without a fault and every entry of its index array is a valid
vertex index. For each cell of the block: the pass reaches the cell (in the state
`stateBefore`) and processes it without a fault; the vertices emitted before the cell are
those of the cells scanned before it and the cell adds its own; the index array grows by one
quad of four corners for each stitched axis, each corner a vertex already in the vertex
array and emitted by one of the four cells around the crossed edge, one corner for each of
these cells; and the three entries of `lastIndex`, `lastLineIndices` and `lastPlaneIndices`
read for a quad are the `NormalIndex` values that the three other cells around the edge
wrote, none of these cells having been skipped. -/
theorem quads_join_cells_around_edge [FloorRing K] (E : Externals K) (b : Block)
    (info : MetavoxelInfo K) (H : ClustersBounded E b) :
    (∃ s, visit E b info = Except.ok s ∧ ∀ i ∈ s.indices, i < s.vertices.length)
      ∧ ∀ x y z, x < b.expanded → y < b.expanded → z < b.expanded →
        ∃ t t1 quads, stateBefore E b info x y z = Except.ok t
          ∧ visitCell E b info x y z t = Except.ok t1
          ∧ t.vertices.length = vertexBase E b x y z
          ∧ t1.vertices.length = vertexBase E b x y z + cellCount E b x y z
          ∧ t.colorX = colorBase b x y z
          ∧ t1.indices = t.indices ++ quads.flatten
          ∧ List.Forall₂ (QuadAround E b x y z) (stitchedAxes b (colorBase b x y z) x y z) quads
          ∧ (∀ i ∈ quads.flatten, i < t1.vertices.length)
          ∧ ∀ axis ∈ stitchedAxes b (colorBase b x y z) x y z,
              cacheReads b x y z axis t
                = (edgeCells x y z axis).map
                    (fun cell => some (cellIndex E b cell.1 cell.2.1 cell.2.2))
              ∧ ∀ cell ∈ edgeCells x y z axis,
                  cellSkipped b cell.1 cell.2.1 cell.2.2 = false := by
  refine ⟨?_, ?_⟩
  · obtain ⟨s, hs, inv⟩ := planes_total E b info H b.expanded (le_refl _)
    exact ⟨s, hs, inv.indices⟩
  · intro x y z bx by1 bz
    obtain ⟨t, ht, inv⟩ := stateBefore_inv E b info H x y z (by omega) by1 bz
    obtain ⟨t1, quads, h1, inv1, hi, hq⟩ := cell_step E b info x y z t inv bx by1 bz H
    refine ⟨t, t1, quads, ht, h1, inv.vertices, ?_, inv.colorX, hi, hq, ?_, ?_⟩
    · rw [inv1.vertices, vertexBase_succ]
    · intro i hmem
      exact inv1.indices i (by rw [hi]; exact List.mem_append_right _ hmem)
    · intro axis haxis
      obtain ⟨r, v⟩ := cell_reads E b x y z axis (vertexBase E b x y z) t inv bx by1 bz haxis
        (le_refl _)
      exact ⟨r, fun cell hcell => (v cell hcell).1⟩

theorem singleSolidBlock_clusters : ClustersBounded rationalExternals (singleSolidBlock 0) := by
  unfold ClustersBounded
  decide!

theorem quads_join_cells_around_edge_witness :
    ClustersBounded rationalExternals (singleSolidBlock 0)
      ∧ ∃ s, visit rationalExternals (singleSolidBlock 0) unitInfo = Except.ok s
          ∧ ∀ i ∈ s.indices, i < s.vertices.length :=
  ⟨singleSolidBlock_clusters,
    (quads_join_cells_around_edge rationalExternals (singleSolidBlock 0) unitInfo
      singleSolidBlock_clusters).1⟩


/-! ### The display option -/

theorem extractCrossings_withDisplay (E : Externals K) (flag : Bool) (b : Block)
    (colorX x y z : Nat) :
    extractCrossings (E.withDisplay flag) b colorX x y z = extractCrossings E b colorX x y z :=
  rfl

theorem clusterNormal_withDisplay (E : Externals K) (flag : Bool) (normals : List (Vec3 K))
    (normal : Vec3 K) :
    clusterNormal (E.withDisplay flag) normals normal = clusterNormal E normals normal := by
  induction normals with
  | nil => rfl
  | cons first rest ih =>
    unfold clusterNormal
    rw [ih]
    rfl

theorem clusterNormals_withDisplay (E : Externals K) (flag : Bool)
    (crossings : List (EdgeCrossing K)) :
    clusterNormals (E.withDisplay flag) crossings = clusterNormals E crossings := by
  unfold clusterNormals
  congr 1
  funext normals crossing
  exact clusterNormal_withDisplay E flag normals crossing.normal

theorem givensRotate_withDisplay (E : Externals K) (flag : Bool) :
    givensRotate (E.withDisplay flag) = givensRotate E := rfl

theorem givensQR_withDisplay (E : Externals K) (flag : Bool) (center : Vec3 K)
    (crossings : List (EdgeCrossing K)) :
    givensQR (E.withDisplay flag) center crossings = givensQR E center crossings := by
  unfold givensQR givensAbsorb
  rw [givensRotate_withDisplay]

theorem jacobi_withDisplay (E : Externals K) (flag : Bool) (ata : Mat K) (iterations : Nat)
    (state : Mat K × Quat K) :
    jacobi (E.withDisplay flag) ata iterations state = jacobi E ata iterations state := by
  induction iterations generalizing state with
  | zero => rfl
  | succ n ih =>
    obtain ⟨d, combinedRotation⟩ := state
    unfold jacobi
    simp only [ih]
    rfl

theorem solvePosition_withDisplay (E : Externals K) (flag : Bool)
    (crossings : List (EdgeCrossing K)) :
    solvePosition (E.withDisplay flag) crossings = solvePosition E crossings := by
  unfold solvePosition
  simp only [givensQR_withDisplay, jacobi_withDisplay]

theorem cellPoint_withDisplay [FloorRing K] (E : Externals K) (flag : Bool) (b : Block)
    (info : MetavoxelInfo K) (x y z : Nat) (crossings : List (EdgeCrossing K))
    (normals : List (Vec3 K)) :
    cellPoint (E.withDisplay flag) b info x y z crossings normals
      = cellPoint E b info x y z crossings normals := by
  unfold cellPoint
  simp only [solvePosition_withDisplay]
  rfl


theorem except_bind_map {α β : Type} (e : α → α) (e2 : β → β) (m m2 : Except Fault α)
    (k k2 : α → Except Fault β) (hm : m2 = m.map e) (hk : ∀ a, k2 (e a) = (k a).map e2) :
    (m2 >>= k2) = (m >>= k).map e2 := by
  subst hm
  cases m with
  | error fault => rfl
  | ok a => exact hk a

theorem stitch_block_withoutSegments [FloorRing K] (flag : Bool) (s : ScanState K)
    (items : List (Nat × Nat)) (quad : Except Fault (List Nat)) :
    (if flag then do
        let indices ← quad
        pure { s.withoutSegments with
          quadIndices := s.quadIndices ++ items
          indices := indices }
      else pure s.withoutSegments : Except Fault (ScanState K))
      = (if flag then do
          let indices ← quad
          pure { s with
            quadIndices := s.quadIndices ++ items
            indices := indices }
        else pure s : Except Fault (ScanState K)).map ScanState.withoutSegments := by
  cases flag with
  | false => rfl
  | true =>
    cases quad with
    | error fault => rfl
    | ok indices => rfl

theorem stitch_block_last_withoutSegments [FloorRing K] (flag : Bool) (s : ScanState K)
    (items : List (Nat × Nat)) (quad : NormalIndex → Except Fault (List Nat)) :
    (if flag then do
        let index1 ← readLastIndex s.lastIndex
        let indices ← quad index1
        pure { s.withoutSegments with
          quadIndices := s.quadIndices ++ items
          indices := indices }
      else pure s.withoutSegments : Except Fault (ScanState K))
      = (if flag then do
          let index1 ← readLastIndex s.lastIndex
          let indices ← quad index1
          pure { s with
            quadIndices := s.quadIndices ++ items
            indices := indices }
        else pure s : Except Fault (ScanState K)).map ScanState.withoutSegments := by
  cases flag with
  | false => rfl
  | true =>
    cases h : readLastIndex s.lastIndex with
    | error fault => simp only [if_true, h]; rfl
    | ok index1 =>
      simp only [if_true, h]
      cases h2 : quad index1 with
      | error fault => simp only [bind, Except.bind, h2]; rfl
      | ok indices => simp only [bind, Except.bind, h2]; rfl

/-- The quads of a cell do not depend on the Hermite segments. -/
theorem stitchCell_withoutSegments [FloorRing K] (b : Block) (x y z : Nat) (a : Alphas)
    (index : NormalIndex) (s : ScanState K) :
    stitchCell b x y z a index s.withoutSegments
      = (stitchCell b x y z a index s).map ScanState.withoutSegments := by
  unfold stitchCell
  by_cases hc : (x != 0 && y != 0 && z != 0) = true
  · simp only [hc, if_true]
    refine except_bind_map ScanState.withoutSegments ScanState.withoutSegments _ _ _ _
      (stitch_block_withoutSegments _ s _ _) (fun s1 => ?_)
    refine except_bind_map ScanState.withoutSegments ScanState.withoutSegments _ _ _ _
      (stitch_block_last_withoutSegments _ s1 _ _) (fun s2 => ?_)
    exact stitch_block_last_withoutSegments _ s2 _ _
  · simp only [hc]
    rfl


theorem advanceX_withoutSegments (x : Nat) (s : ScanState K) :
    advanceX x s.withoutSegments = (advanceX x s).withoutSegments := by
  unfold advanceX
  split_ifs <;> rfl

/-- A cell processed with the display option off, from a state without segments, gives
the result of the cell processed with any setting of the option, without its segments. -/
theorem visitCell_withoutSegments [FloorRing K] (E : Externals K) (b : Block)
    (info : MetavoxelInfo K) (x y z : Nat) (s : ScanState K) :
    visitCell (E.withDisplay false) b info x y z s.withoutSegments
      = (visitCell E b info x y z s).map ScanState.withoutSegments := by
  unfold visitCell
  simp only [extractCrossings_withDisplay, clusterNormals_withDisplay, cellPoint_withDisplay]
  have e1 : s.withoutSegments.colorX = s.colorX := rfl
  have e2 : s.withoutSegments.vertices = s.vertices := rfl
  have e3 : (E.withDisplay false).displayHermite = false := rfl
  have e4 : s.withoutSegments.hermiteSegments = [] := rfl
  simp only [e1, e2, e3, e4, Bool.false_eq_true, if_false, List.append_nil]
  by_cases hu : (sampleAlphas b s.colorX x y z).uniform = true
  · simp only [hu, if_true]
    show Except.ok (advanceX x s.withoutSegments) = Except.ok (advanceX x s).withoutSegments
    rw [advanceX_withoutSegments]
  · simp only [hu, if_false]
    by_cases hn : (clusterNormals E (extractCrossings E b s.colorX x y z)).length
        > MAX_NORMALS_PER_VERTEX
    · simp only [hn, if_true]
      rfl
    by_cases hc : (extractCrossings E b s.colorX x y z).length = 0
    · simp only [hn, hc, if_true, if_false]
      rfl
    simp only [hn, hc, if_false]
    generalize (if E.displayHermite = true then
      (extractCrossings E b s.colorX x y z).flatMap (hermiteSegment b info x y z) else [])
      = segments
    generalize emitVertices s.vertices
      (cellPoint E b info x y z (extractCrossings E b s.colorX x y z)
        (clusterNormals E (extractCrossings E b s.colorX x y z)))
      (clusterNormals E (extractCrossings E b s.colorX x y z)) = emitted
    generalize sampleAlphas b s.colorX x y z = a
    refine except_bind_map id ScanState.withoutSegments _ _ _ _ rfl (fun _ => ?_)
    refine except_bind_map id ScanState.withoutSegments _ _ _ _ rfl (fun _ => ?_)
    refine except_bind_map ScanState.withoutSegments ScanState.withoutSegments _ _ _ _
      (stitchCell_withoutSegments b x y z a emitted.1
        { s with vertices := emitted.2, hermiteSegments := s.hermiteSegments ++ segments })
      (fun s2 => ?_)
    show Except.ok (advanceX x _) = Except.ok (advanceX x _).withoutSegments
    rw [← advanceX_withoutSegments]
    rfl


theorem foldlM_map {σ ι : Type} (e : σ → σ) (f f2 : σ → ι → Except Fault σ)
    (h : ∀ s i, f2 (e s) i = (f s i).map e) (l : List ι) (s : σ) :
    l.foldlM f2 (e s) = (l.foldlM f s).map e := by
  induction l generalizing s with
  | nil => rfl
  | cons i rest ih =>
    simp only [List.foldlM]
    exact except_bind_map e e _ _ _ _ (h s i) (fun a => ih a)

theorem visitLine_withoutSegments [FloorRing K] (E : Externals K) (b : Block)
    (info : MetavoxelInfo K) (z y : Nat) (s : ScanState K) :
    visitLine (E.withDisplay false) b info z s.withoutSegments y
      = (visitLine E b info z s y).map ScanState.withoutSegments := by
  unfold visitLine
  refine except_bind_map ScanState.withoutSegments ScanState.withoutSegments _ _ _ _
    (foldlM_map ScanState.withoutSegments (fun st x => visitCell E b info x y z st)
      (fun st x => visitCell (E.withDisplay false) b info x y z st)
      (fun s x => visitCell_withoutSegments E b info x y z s) _
      { s with lastIndex := none, colorX := s.colorY }) (fun s1 => ?_)
  cases y != 0 <;> rfl

theorem visitPlane_withoutSegments [FloorRing K] (E : Externals K) (b : Block)
    (info : MetavoxelInfo K) (z : Nat) (s : ScanState K) :
    visitPlane (E.withDisplay false) b info s.withoutSegments z
      = (visitPlane E b info s z).map ScanState.withoutSegments := by
  unfold visitPlane
  refine except_bind_map ScanState.withoutSegments ScanState.withoutSegments _ _ _ _
    (foldlM_map ScanState.withoutSegments (visitLine E b info z)
      (visitLine (E.withDisplay false) b info z)
      (fun s y => visitLine_withoutSegments E b info z y s) _
      { s with colorY := s.colorZ }) (fun s1 => ?_)
  cases z != 0 <;> rfl

/-- The pass with the display option off gives the result of the pass with any setting of
the option, without its Hermite segments. -/
theorem visit_withoutSegments [FloorRing K] (E : Externals K) (b : Block)
    (info : MetavoxelInfo K) :
    visit (E.withDisplay false) b info = (visit E b info).map ScanState.withoutSegments := by
  unfold visit
  exact foldlM_map ScanState.withoutSegments (visitPlane E b info)
    (visitPlane (E.withDisplay false) b info)
    (fun s z => visitPlane_withoutSegments E b info z s) _ (initialState b)


/-! ### The Hermite segments of the pass -/

theorem flatBelow_zero {α : Type} (f : Nat → List α) : flatBelow f 0 = [] := rfl

theorem flatBelow_succ {α : Type} (f : Nat → List α) (n : Nat) :
    flatBelow f (n + 1) = flatBelow f n ++ f n := by
  unfold flatBelow
  rw [List.range_succ, List.flatMap_append]
  simp

theorem flatBelow_length {α : Type} (f : Nat → List α) (g : Nat → Nat) (k n : Nat)
    (h : ∀ i, (f i).length = k * g i) : (flatBelow f n).length = k * sumBelow g n := by
  induction n with
  | zero => rfl
  | succ n ih => rw [flatBelow_succ, sumBelow_succ, List.length_append, ih, h, Nat.mul_add]

theorem hermiteSegments_length (b : Block) (info : MetavoxelInfo K) (x y z : Nat)
    (crossings : List (EdgeCrossing K)) :
    (crossings.flatMap (hermiteSegment b info x y z)).length = 2 * crossings.length := by
  induction crossings with
  | nil => rfl
  | cons crossing rest ih =>
    rw [List.flatMap_cons, List.length_append, ih, List.length_cons]
    unfold hermiteSegment
    simp only [List.length_cons, List.length_nil]
    omega

/-- With the display option on the pass appends two points for each crossing. -/
theorem passSegments_length (E : Externals K) (b : Block) (info : MetavoxelInfo K) :
    (passSegments E b info).length = 2 * passCrossings E b := by
  unfold passSegments passCrossings
  refine flatBelow_length _ _ 2 _ (fun plane => ?_)
  refine flatBelow_length _ _ 2 _ (fun line => ?_)
  refine flatBelow_length _ _ 2 _ (fun cell => ?_)
  unfold cellSegments
  split_ifs
  · rfl
  · exact hermiteSegments_length b info cell line plane _

/-- A property that each successful step of a loop carries from step `i` to step `i + 1`
holds at the end of a loop that succeeds. -/
theorem foldlM_range_invariant {σ : Type} (f : σ → Nat → Except Fault σ) (P : Nat → σ → Prop)
    (n : Nat) (hstep : ∀ i, i < n → ∀ s s1, P i s → f s i = Except.ok s1 → P (i + 1) s1)
    (s0 s1 : σ) (h : (List.range n).foldlM f s0 = Except.ok s1) (h0 : P 0 s0) : P n s1 := by
  induction n generalizing s1 with
  | zero =>
    simp only [List.range_zero, List.foldlM, pure, Except.pure, Except.ok.injEq] at h
    rw [← h]
    exact h0
  | succ n ih =>
    rw [List.range_succ, List.foldlM_append] at h
    obtain ⟨t, ht, h2⟩ := except_bind_eq_ok _ _ _ h
    have hp := ih (fun i hi => hstep i (by omega)) t ht
    simp only [List.foldlM] at h2
    obtain ⟨u, hu, h3⟩ := except_bind_eq_ok _ _ _ h2
    simp only [pure, Except.pure, Except.ok.injEq] at h3
    rw [← h3]
    exact hstep n (by omega) t u hp hu


theorem segmentsBefore_succ (E : Externals K) (b : Block) (info : MetavoxelInfo K)
    (x y z : Nat) :
    segmentsBefore E b info (x + 1) y z
      = segmentsBefore E b info x y z ++ cellSegments E b info x y z := by
  unfold segmentsBefore
  rw [flatBelow_succ]
  simp only [List.append_assoc]

theorem segmentsBefore_line (E : Externals K) (b : Block) (info : MetavoxelInfo K)
    (y z : Nat) :
    segmentsBefore E b info 0 (y + 1) z = segmentsBefore E b info b.expanded y z := by
  unfold segmentsBefore
  rw [flatBelow_succ, flatBelow_zero]
  simp only [List.append_assoc, List.append_nil]

theorem segmentsBefore_plane (E : Externals K) (b : Block) (info : MetavoxelInfo K)
    (z : Nat) :
    segmentsBefore E b info 0 0 (z + 1) = segmentsBefore E b info 0 b.expanded z := by
  unfold segmentsBefore
  rw [flatBelow_succ, flatBelow_zero, flatBelow_zero, flatBelow_zero]
  simp only [List.append_assoc, List.append_nil]

/-- Each cell that is processed keeps the colour pointers at the cells and appends its
segments when the display option is on. -/
theorem segment_step [FloorRing K] (E : Externals K) (b : Block) (info : MetavoxelInfo K)
    (x y z : Nat) (s s1 : ScanState K) (inv : SegmentInv E b info x y z s)
    (h : visitCell E b info x y z s = Except.ok s1) :
    SegmentInv E b info (x + 1) y z s1 := by
  have hcolor : colorBase b (x + 1) y z
      = (if x = 0 then colorBase b x y z else colorBase b x y z + 1) := by
    unfold colorBase
    rw [clamped_succ]
    split_ifs <;> omega
  cases hu : (sampleAlphas b s.colorX x y z).uniform with
  | true =>
    rw [visitCell_skipped E b info x y z s hu] at h
    cases h
    obtain ⟨_, _, _, ah, _, _, _, _, _, acx, acy, acz⟩ := advanceX_fields x s
    have hs : cellSkipped b x y z = true := by
      unfold cellSkipped
      rw [← inv.colorX]
      exact hu
    refine ⟨by rw [acx, hcolor, inv.colorX], by rw [acy]; exact inv.colorY,
      by rw [acz]; exact inv.colorZ, ?_⟩
    rw [ah, inv.segments, segmentsBefore_succ]
    unfold cellSegments
    simp [hs]
  | false =>
    obtain ⟨_, _, s2, hs2, hs1⟩ := visitCell_nonuniform E b info x y z s s1 hu h
    obtain ⟨_, _, _, _, _, _, _, _, h2, cx2, cy2, cz2⟩ := stitchCell_spec b x y z _ _ _ s2 hs2
    obtain ⟨_, _, _, ah, _, _, _, _, _, acx, acy, acz⟩ := advanceX_fields x { s2 with
      lastIndex := some (emitVertices s.vertices
        (cellPoint E b info x y z (extractCrossings E b s.colorX x y z)
          (clusterNormals E (extractCrossings E b s.colorX x y z)))
        (clusterNormals E (extractCrossings E b s.colorX x y z))).1
      lineIndices := s2.lineIndices.set x (emitVertices s.vertices
        (cellPoint E b info x y z (extractCrossings E b s.colorX x y z)
          (clusterNormals E (extractCrossings E b s.colorX x y z)))
        (clusterNormals E (extractCrossings E b s.colorX x y z))).1
      planeIndices := s2.planeIndices.set (y * b.expanded + x) (emitVertices s.vertices
        (cellPoint E b info x y z (extractCrossings E b s.colorX x y z)
          (clusterNormals E (extractCrossings E b s.colorX x y z)))
        (clusterNormals E (extractCrossings E b s.colorX x y z))).1 }
    have hs : cellSkipped b x y z = false := by
      unfold cellSkipped
      rw [← inv.colorX]
      exact hu
    rw [hs1]
    refine ⟨?_, ?_, ?_, ?_⟩
    · rw [acx, hcolor]
      show (if x = 0 then s2.colorX else s2.colorX + 1) = _
      rw [cx2]
      show (if x = 0 then s.colorX else s.colorX + 1) = _
      rw [inv.colorX]
    · rw [acy]
      show s2.colorY = _
      rw [cy2]
      exact inv.colorY
    · rw [acz]
      show s2.colorZ = _
      rw [cz2]
      exact inv.colorZ
    · rw [ah]
      show s2.hermiteSegments = _
      rw [h2]
      show s.hermiteSegments ++ (if E.displayHermite then
        (extractCrossings E b s.colorX x y z).flatMap (hermiteSegment b info x y z) else []) = _
      rw [inv.segments, segmentsBefore_succ, inv.colorX]
      unfold cellSegments cellCrossings
      cases E.displayHermite <;> simp [hs]

theorem segment_line_end (E : Externals K) (b : Block) (info : MetavoxelInfo K) (y z : Nat)
    (s : ScanState K) (inv : SegmentInv E b info b.expanded y z s) :
    SegmentInv E b info 0 (y + 1) z (lineStart (lineEnd b y s)) := by
  have hcy : (lineEnd b y s).colorY = colorBase b 0 (y + 1) z := by
    rw [colorBase_line, ← inv.colorY]
    unfold lineEnd
    by_cases h : y = 0 <;> simp [h]
  refine ⟨hcy, hcy, ?_, ?_⟩
  · show (lineEnd b y s).colorZ = _
    rw [← inv.colorZ]
    unfold lineEnd
    split_ifs <;> rfl
  · show (lineEnd b y s).hermiteSegments = _
    rw [segmentsBefore_line, ← inv.segments]
    unfold lineEnd
    split_ifs <;> rfl

theorem segment_plane_end (E : Externals K) (b : Block) (info : MetavoxelInfo K) (z : Nat)
    (s : ScanState K) (inv : SegmentInv E b info 0 b.expanded z (lineStart s)) :
    SegmentInv E b info 0 0 (z + 1) (lineStart (planeStart (planeEnd b z s))) := by
  have hcz : (planeEnd b z s).colorZ = colorBase b 0 0 (z + 1) := by
    rw [colorBase_plane, ← inv.colorZ]
    unfold planeEnd lineStart
    by_cases h : z = 0 <;> simp [h]
  refine ⟨hcz, hcz, hcz, ?_⟩
  show (planeEnd b z s).hermiteSegments = _
  rw [segmentsBefore_plane, ← inv.segments]
  unfold planeEnd lineStart
  split_ifs <;> rfl

theorem segment_line_step [FloorRing K] (E : Externals K) (b : Block) (info : MetavoxelInfo K)
    (y z : Nat) (s s1 : ScanState K) (inv : SegmentInv E b info 0 y z (lineStart s))
    (h : visitLine E b info z s y = Except.ok s1) :
    SegmentInv E b info 0 (y + 1) z (lineStart s1) := by
  rw [visitLine_eq] at h
  obtain ⟨t, ht, h2⟩ := except_bind_eq_ok _ _ _ h
  have hinv := foldlM_range_invariant (fun st x => visitCell E b info x y z st)
    (fun x s => SegmentInv E b info x y z s) b.expanded
    (fun i _ s s1 hinv h => segment_step E b info i y z s s1 hinv h) _ t ht inv
  simp only [pure, Except.pure, Except.ok.injEq] at h2
  rw [← h2]
  exact segment_line_end E b info y z t hinv

theorem segment_plane_step [FloorRing K] (E : Externals K) (b : Block)
    (info : MetavoxelInfo K) (z : Nat) (s s1 : ScanState K)
    (inv : SegmentInv E b info 0 0 z (lineStart (planeStart s)))
    (h : visitPlane E b info s z = Except.ok s1) :
    SegmentInv E b info 0 0 (z + 1) (lineStart (planeStart s1)) := by
  rw [visitPlane_eq] at h
  obtain ⟨t, ht, h2⟩ := except_bind_eq_ok _ _ _ h
  have hinv := foldlM_range_invariant (visitLine E b info z)
    (fun y s => SegmentInv E b info 0 y z (lineStart s)) b.expanded
    (fun i _ s s1 hinv h => segment_line_step E b info i z s s1 hinv h) _ t ht inv
  simp only [pure, Except.pure, Except.ok.injEq] at h2
  rw [← h2]
  exact segment_plane_end E b info z t hinv

/-- The Hermite segments of a pass that ends without a fault: those of all the cells when
the display option is on, none when it is off. -/
theorem visit_segments [FloorRing K] (E : Externals K) (b : Block) (info : MetavoxelInfo K)
    (s : ScanState K) (h : visit E b info = Except.ok s) :
    s.hermiteSegments = if E.displayHermite then passSegments E b info else [] := by
  have hinv := foldlM_range_invariant (visitPlane E b info)
    (fun z s => SegmentInv E b info 0 0 z (lineStart (planeStart s))) b.expanded
    (fun i _ s s1 hinv h => segment_plane_step E b info i s s1 hinv h) _ s h
    ⟨by simp [lineStart, planeStart, initialState, colorBase, clamped],
      by simp [lineStart, planeStart, initialState, colorBase, clamped],
      by simp [lineStart, planeStart, initialState, colorBase, clamped],
      by simp [lineStart, planeStart, initialState, segmentsBefore, flatBelow_zero]⟩
  have := hinv.segments
  unfold segmentsBefore at this
  rw [flatBelow_zero, flatBelow_zero, List.append_nil, List.append_nil] at this
  exact this


theorem passSegments_withDisplay (E : Externals K) (flag : Bool) (b : Block)
    (info : MetavoxelInfo K) :
    passSegments (E.withDisplay flag) b info = passSegments E b info := rfl

/-- C18. The pass is a function of the block and of the leaf, and the display option
changes its Hermite segments only: the pass with the option off is the pass with the option
on without its segments (the same fault or, when there is none, the same vertex array, index
array and multimap). With the option off the list of segments is empty; with the option on
it holds, in the order of the scan, the two points of each crossing of each cell that is not
skipped, twice as many points as there are crossings. -/
theorem display_option_changes_segments_only [FloorRing K] (E : Externals K) (b : Block)
    (info : MetavoxelInfo K) :
    visit (E.withDisplay false) b info
        = (visit (E.withDisplay true) b info).map ScanState.withoutSegments
      ∧ faultOf (visit (E.withDisplay false) b info) = faultOf (visit (E.withDisplay true) b info)
      ∧ (∀ plain shown, visit (E.withDisplay false) b info = Except.ok plain →
          visit (E.withDisplay true) b info = Except.ok shown →
          plain.vertices = shown.vertices ∧ plain.indices = shown.indices
            ∧ plain.quadIndices = shown.quadIndices)
      ∧ (∀ plain, visit (E.withDisplay false) b info = Except.ok plain →
          plain.hermiteSegments = [])
      ∧ (∀ shown, visit (E.withDisplay true) b info = Except.ok shown →
          shown.hermiteSegments = passSegments E b info
            ∧ shown.hermiteSegments.length = 2 * passCrossings E b) := by
  have h := visit_withoutSegments (E.withDisplay true) b info
  have e : (E.withDisplay true).withDisplay false = E.withDisplay false := rfl
  rw [e] at h
  refine ⟨h, ?_, ?_, ?_, ?_⟩
  · rw [h]
    cases visit (E.withDisplay true) b info <;> rfl
  · intro plain shown hoff hon
    rw [h, hon] at hoff
    cases hoff
    exact ⟨rfl, rfl, rfl⟩
  · intro plain hoff
    have := visit_segments (E.withDisplay false) b info plain hoff
    rw [this]
    rfl
  · intro shown hon
    have := visit_segments (E.withDisplay true) b info shown hon
    have e2 : shown.hermiteSegments = passSegments E b info := by
      rw [this]
      rfl
    exact ⟨e2, by rw [e2]; exact passSegments_length E b info⟩


/-! ### Two cells that read the same samples -/

theorem filter_map_congr {α β : Type} (p q : α → Bool) (f g : α → β) (l : List α)
    (h : ∀ a ∈ l, p a = q a ∧ (p a = true → f a = g a)) :
    (l.filter p).map f = (l.filter q).map g := by
  induction l with
  | nil => rfl
  | cons a rest ih =>
    obtain ⟨hp, hf⟩ := h a (List.mem_cons_self _ _)
    have hr := ih (fun a ha => h a (List.mem_cons_of_mem _ ha))
    cases hpa : p a with
    | false =>
      have hqa : q a = false := by rw [← hp, hpa]
      simp only [List.filter_cons, hpa, hqa, Bool.false_eq_true, if_false]
      exact hr
    | true =>
      have hqa : q a = true := by rw [← hp, hpa]
      simp only [List.filter_cons, hpa, hqa, if_true, List.map_cons, hf hpa, hr]

theorem cellEdges_bounds : ∀ e ∈ cellEdges,
    e.dx ≤ e.ux ∧ e.dy ≤ e.uy ∧ e.dz ≤ e.uz ∧ e.ux ≤ 1 ∧ e.uy ≤ 1 ∧ e.uz ≤ 1 ∧ e.axis < 3 := by
  decide

theorem cornerSampled_mono (b : Block) (x y z dx dy dz ux uy uz : Nat)
    (hx : dx ≤ ux) (hy : dy ≤ uy) (hz : dz ≤ uz)
    (h : cornerSampled b x y z ux uy uz = true) : cornerSampled b x y z dx dy dz = true := by
  unfold cornerSampled at h ⊢
  simp only [Bool.and_eq_true, Bool.or_eq_true, beq_iff_eq] at h ⊢
  obtain ⟨⟨h1, h2⟩, h3⟩ := h
  refine ⟨⟨?_, ?_⟩, ?_⟩
  · rcases h1 with h | h
    · exact Or.inl (by omega)
    · exact Or.inr h
  · rcases h2 with h | h
    · exact Or.inl (by omega)
    · exact Or.inr h
  · rcases h3 with h | h
    · exact Or.inl (by omega)
    · exact Or.inr h

/-- Two cells, each in its block, whose sampled corners read the same colour words and
material bytes and whose sampled edges read the same Hermite words, have the same
crossings. -/
theorem crossings_congr (E : Externals K) (A B : Block) (ca cb xa ya za xb yb zb : Nat)
    (hflags : ∀ dx dy dz, cornerSampled A xa ya za dx dy dz = cornerSampled B xb yb zb dx dy dz)
    (hcolor : ∀ dx dy dz, dx ≤ 1 → dy ≤ 1 → dz ≤ 1 → cornerSampled A xa ya za dx dy dz = true →
      A.colorAt ca (cornerOffset A dx dy dz) = B.colorAt cb (cornerOffset B dx dy dz))
    (hmaterial : ∀ dx dy dz, dx ≤ 1 → dy ≤ 1 → dz ≤ 1 →
      cornerSampled A xa ya za dx dy dz = true →
      A.materialAt (materialBase A xa ya za) (cornerOffset A dx dy dz)
        = B.materialAt (materialBase B xb yb zb) (cornerOffset B dx dy dz))
    (hhermite : ∀ e ∈ cellEdges, cornerSampled A xa ya za e.ux e.uy e.uz = true →
      A.hermiteContents.getD (specHermiteIndex E.EDGE_COUNT A xa ya za e) 0
        = B.hermiteContents.getD (specHermiteIndex E.EDGE_COUNT B xb yb zb e) 0) :
    extractCrossings E A ca xa ya za = extractCrossings E B cb xb yb zb := by
  rw [extractCrossings_eq_spec, extractCrossings_eq_spec]
  unfold crossedEdges
  refine filter_map_congr _ _ _ _ _ (fun e he => ?_)
  obtain ⟨bx, by1, bz, ux, uy, uz, _⟩ := cellEdges_bounds e he
  unfold edgeCrosses
  rw [← hflags]
  cases hs : cornerSampled A xa ya za e.ux e.uy e.uz with
  | false => simp
  | true =>
    have hl := cornerSampled_mono A xa ya za e.dx e.dy e.dz e.ux e.uy e.uz bx by1 bz hs
    have cu := hcolor e.ux e.uy e.uz ux uy uz hs
    have cl := hcolor e.dx e.dy e.dz (by omega) (by omega) (by omega) hl
    have mu := hmaterial e.ux e.uy e.uz ux uy uz hs
    have ml := hmaterial e.dx e.dy e.dz (by omega) (by omega) (by omega) hl
    have hh := hhermite e he hs
    have al : cornerAlpha A ca e.dx e.dy e.dz = cornerAlpha B cb e.dx e.dy e.dz := by
      unfold cornerAlpha
      rw [cl]
    have au : cornerAlpha A ca e.ux e.uy e.uz = cornerAlpha B cb e.ux e.uy e.uz := by
      unfold cornerAlpha
      rw [cu]
    refine ⟨by rw [al, au], fun _ => ?_⟩
    unfold specCrossing solidOffset
    rw [hh, al]
    by_cases h0 : cornerAlpha B cb e.dx e.dy e.dz = 0
    · simp only [h0, if_true, cu, mu]
    · simp only [h0, if_false, cl, ml]


theorem cornerSampled_congr (A B : Block) (xa ya za xb yb zb : Nat)
    (hx : middle xa A.size = middle xb B.size) (hy : middle ya A.size = middle yb B.size)
    (hz : middle za A.size = middle zb B.size) (dx dy dz : Nat) :
    cornerSampled A xa ya za dx dy dz = cornerSampled B xb yb zb dx dy dz := by
  unfold cornerSampled
  rw [hx, hy, hz]

/-- Two cells whose sampled corners read the same colour words have the same alphas. -/
theorem sampleAlphas_congr (A B : Block) (ca cb xa ya za xb yb zb : Nat)
    (hx : middle xa A.size = middle xb B.size) (hy : middle ya A.size = middle yb B.size)
    (hz : middle za A.size = middle zb B.size)
    (hcolor : ∀ dx dy dz, dx ≤ 1 → dy ≤ 1 → dz ≤ 1 → cornerSampled A xa ya za dx dy dz = true →
      A.colorAt ca (cornerOffset A dx dy dz) = B.colorAt cb (cornerOffset B dx dy dz)) :
    sampleAlphas A ca xa ya za = sampleAlphas B cb xb yb zb := by
  have one : (1 : Nat) ≤ 1 := le_refl 1
  have zero : (0 : Nat) ≤ 1 := Nat.zero_le 1
  have h0 := hcolor 0 0 0 zero zero zero
  have h1 := hcolor 1 0 0 one zero zero
  have h2 := hcolor 0 1 0 zero one zero
  have h3 := hcolor 1 1 0 one one zero
  have h4 := hcolor 0 0 1 zero zero one
  have h5 := hcolor 1 0 1 one zero one
  have h6 := hcolor 0 1 1 zero one one
  have h7 := hcolor 1 1 1 one one one
  unfold sampleAlphas
  rw [← hx, ← hy, ← hz]
  cases mx : middle xa A.size <;> cases my : middle ya A.size <;> cases mz : middle za A.size <;>
    simp [cornerSampled, cornerOffset, mx, my, mz] at h0 h1 h2 h3 h4 h5 h6 h7 <;>
    simp [Block.offset3, Block.offset5, Block.offset6, Block.offset7, *]

theorem emitVertices_append [FloorRing K] (vertices : List (VoxelPoint K)) (point : VoxelPoint K)
    (normals : List (Vec3 K)) :
    (emitVertices vertices point normals).2
      = vertices ++ (emitVertices [] point normals).2 := by
  unfold emitVertices
  generalize List.range' 1 (normals.length - 1) = steps
  have key : ∀ (steps : List Nat) (i1 i2 : NormalIndex) (added : List (VoxelPoint K)),
      (steps.foldl (fun acc i =>
          ((⟨acc.1.indices.set i acc.2.length⟩ : NormalIndex),
            acc.2 ++ [point.setNormal (normals.getD i Vec3.zero)]))
        (i1, vertices ++ added)).2
      = vertices ++ (steps.foldl (fun acc i =>
          ((⟨acc.1.indices.set i acc.2.length⟩ : NormalIndex),
            acc.2 ++ [point.setNormal (normals.getD i Vec3.zero)]))
        (i2, added)).2 := by
    intro steps
    induction steps with
    | nil => intro i1 i2 added; rfl
    | cons i rest ih =>
      intro i1 i2 added
      simp only [List.foldl_cons, List.append_assoc]
      exact ih _ _ _
  have := key steps ⟨List.replicate MAX_NORMALS_PER_VERTEX vertices.length⟩
    ⟨List.replicate MAX_NORMALS_PER_VERTEX ([] : List (VoxelPoint K)).length⟩ [point]
  simpa using this

/-- The vertices that a cell appends in the pass. -/
theorem visitCell_vertices [FloorRing K] (E : Externals K) (b : Block) (info : MetavoxelInfo K)
    (x y z : Nat) (s s1 : ScanState K) (hc : s.colorX = colorBase b x y z)
    (h : visitCell E b info x y z s = Except.ok s1) :
    s1.vertices = s.vertices ++ cellVertices E b info x y z := by
  unfold cellVertices cellSkipped cellNormals cellCrossings
  rw [← hc]
  cases hu : (sampleAlphas b s.colorX x y z).uniform with
  | true =>
    rw [visitCell_skipped E b info x y z s hu] at h
    cases h
    obtain ⟨_, _, av, _⟩ := advanceX_fields x s
    rw [av]
    simp
  | false =>
    obtain ⟨_, _, s2, hs2, hs1⟩ := visitCell_nonuniform E b info x y z s s1 hu h
    obtain ⟨_, _, v2, _⟩ := stitchCell_spec b x y z _ _ _ s2 hs2
    rw [hs1, (advanceX_fields x _).2.2.1]
    simp only [Bool.false_eq_true, if_false]
    rw [← emitVertices_append]
    exact v2


/-! ### Cells on a face of the block -/

theorem middle_face (size : Nat) : middle size size = false ∧ middle 0 size = false := by
  unfold middle
  simp

theorem sampled_index (u size d : Nat) (hu : u ≤ size) (h1 : 1 ≤ size) (hd : d ≤ 1)
    (h : (d == 0 || middle u size) = true) : clamped u + d < size := by
  rw [clamped_eq]
  simp only [Bool.or_eq_true, beq_iff_eq] at h
  rcases h with h | h
  · omega
  · unfold middle at h
    simp only [Bool.and_eq_true, bne_iff_ne, ne_eq] at h
    omega

theorem materialAt_shift (b : Block) (base offset : Nat) :
    b.materialAt base offset = b.materialAt 0 (base + offset) := by
  unfold Block.materialAt
  cases b.materialContents with
  | none => rfl
  | some contents => simp

theorem cast_pred (n : Nat) (h : 2 ≤ n) :
    ((clamped n : Nat) : K) = (n : K) - 1 ∧ (n : K) - 1 ≠ 0 := by
  rw [clamped_eq]
  have h1 : 1 ≤ n := by omega
  refine ⟨by rw [Nat.cast_sub h1]; simp, ?_⟩
  have : (2 : K) ≤ (n : K) := by exact_mod_cast h
  intro e
  linarith

/-- Along x: the cell `(size, u, v)` of `A` and the cell `(0, u, v)` of `B` have the same
alphas and crossings, and the same vertices in exact arithmetic, when layer `size - 1`
of `A` is layer 0 of `B`. -/
theorem face_cells_x [FloorRing K] (E : Externals K) (A B : Block) (infoA infoB : MetavoxelInfo K)
    (u v : Nat) (hsize : B.size = A.size) (h2 : 2 ≤ A.size) (hu : u ≤ A.size) (hv : v ≤ A.size)
    (hinfo : infoB.size = infoA.size)
    (hmin : infoB.minimum = infoA.minimum.add ⟨infoA.size, 0, 0⟩)
    (hl : ∀ i, i < A.size → ∀ j, j < A.size →
      A.colorContents.getD (j * A.area + i * A.size + (A.size - 1)) 0
          = B.colorContents.getD (j * B.area + i * B.size + 0) 0
        ∧ A.materialAt 0 (j * A.area + i * A.size + (A.size - 1))
          = B.materialAt 0 (j * B.area + i * B.size + 0)
        ∧ ∀ a, a < 3 →
          A.hermiteContents.getD (j * A.hermiteArea E.EDGE_COUNT
              + i * A.hermiteStride E.EDGE_COUNT + (A.size - 1) * E.EDGE_COUNT + a) 0
            = B.hermiteContents.getD (j * B.hermiteArea E.EDGE_COUNT
              + i * B.hermiteStride E.EDGE_COUNT + 0 * E.EDGE_COUNT + a) 0) :
    cellSkipped A A.size u v = cellSkipped B 0 u v
      ∧ cellCrossings E A A.size u v = cellCrossings E B 0 u v
      ∧ ((∀ value, E.round value = value) →
          cellVertices E A infoA A.size u v = cellVertices E B infoB 0 u v)
      ∧ ∀ dx dy dz, cornerSampled A A.size u v dx dy dz = true → dx = 0 := by
  obtain ⟨mA, _⟩ := middle_face A.size
  obtain ⟨_, mB⟩ := middle_face B.size
  have mx : middle A.size A.size = middle 0 B.size := by rw [mA, mB]
  have my : middle u A.size = middle u B.size := by rw [hsize]
  have mz : middle v A.size = middle v B.size := by rw [hsize]
  have hs : ∀ dx dy dz, cornerSampled A A.size u v dx dy dz = true →
      dx = 0 ∧ (dy == 0 || middle u A.size) = true ∧ (dz == 0 || middle v A.size) = true := by
    intro dx dy dz h
    unfold cornerSampled at h
    rw [mA] at h
    simp only [Bool.or_false, Bool.and_eq_true, beq_iff_eq] at h
    exact ⟨h.1.1, h.1.2, h.2⟩
  have hcolor : ∀ dx dy dz, dx ≤ 1 → dy ≤ 1 → dz ≤ 1 →
      cornerSampled A A.size u v dx dy dz = true →
      A.colorAt (colorBase A A.size u v) (cornerOffset A dx dy dz)
        = B.colorAt (colorBase B 0 u v) (cornerOffset B dx dy dz) := by
    intro dx dy dz _ hy hz h
    obtain ⟨e, sy, sz⟩ := hs dx dy dz h
    subst e
    have := (hl (clamped u + dy) (sampled_index u _ dy hu (by omega) hy sy)
      (clamped v + dz) (sampled_index v _ dz hv (by omega) hz sz)).1
    unfold Block.colorAt colorBase cornerOffset
    rw [show clamped A.size = A.size - 1 from clamped_eq _, show clamped 0 = 0 from rfl]
    have ea : clamped v * A.area + clamped u * A.size + (A.size - 1)
        + (dz * A.area + dy * A.size + 0)
        = (clamped v + dz) * A.area + (clamped u + dy) * A.size + (A.size - 1) := by ring
    have eb : clamped v * B.area + clamped u * B.size + 0 + (dz * B.area + dy * B.size + 0)
        = (clamped v + dz) * B.area + (clamped u + dy) * B.size + 0 := by ring
    rw [ea, eb]
    exact this
  have hmaterial : ∀ dx dy dz, dx ≤ 1 → dy ≤ 1 → dz ≤ 1 →
      cornerSampled A A.size u v dx dy dz = true →
      A.materialAt (materialBase A A.size u v) (cornerOffset A dx dy dz)
        = B.materialAt (materialBase B 0 u v) (cornerOffset B dx dy dz) := by
    intro dx dy dz _ hy hz h
    obtain ⟨e, sy, sz⟩ := hs dx dy dz h
    subst e
    have := (hl (clamped u + dy) (sampled_index u _ dy hu (by omega) hy sy)
      (clamped v + dz) (sampled_index v _ dz hv (by omega) hz sz)).2.1
    rw [materialAt_shift A, materialAt_shift B]
    unfold materialBase cornerOffset
    rw [show clamped A.size = A.size - 1 from clamped_eq _, show clamped 0 = 0 from rfl]
    have ea : clamped v * A.area + clamped u * A.size + (A.size - 1)
        + (dz * A.area + dy * A.size + 0)
        = (clamped v + dz) * A.area + (clamped u + dy) * A.size + (A.size - 1) := by ring
    have eb : clamped v * B.area + clamped u * B.size + 0 + (dz * B.area + dy * B.size + 0)
        = (clamped v + dz) * B.area + (clamped u + dy) * B.size + 0 := by ring
    rw [ea, eb]
    exact this
  have hhermite : ∀ e ∈ cellEdges, cornerSampled A A.size u v e.ux e.uy e.uz = true →
      A.hermiteContents.getD (specHermiteIndex E.EDGE_COUNT A A.size u v e) 0
        = B.hermiteContents.getD (specHermiteIndex E.EDGE_COUNT B 0 u v e) 0 := by
    intro e he h
    obtain ⟨bx, by1, bz, ux, uy, uz, ha⟩ := cellEdges_bounds e he
    have hlow := cornerSampled_mono A A.size u v e.dx e.dy e.dz e.ux e.uy e.uz bx by1 bz h
    obtain ⟨ex, sy, sz⟩ := hs e.dx e.dy e.dz hlow
    have := (hl (clamped u + e.dy) (sampled_index u _ e.dy hu (by omega) (by omega) sy)
      (clamped v + e.dz) (sampled_index v _ e.dz hv (by omega) (by omega) sz)).2.2 e.axis ha
    unfold specHermiteIndex
    rw [ex]
    simp only [Nat.max_zero, Nat.zero_sub, Nat.zero_mul, Nat.add_zero]
    have ea : (v - 1) * A.hermiteArea E.EDGE_COUNT + (u - 1) * A.hermiteStride E.EDGE_COUNT
        + (A.size - 1) * E.EDGE_COUNT + e.dz * A.hermiteArea E.EDGE_COUNT
        + e.dy * A.hermiteStride E.EDGE_COUNT + e.axis
        = (clamped v + e.dz) * A.hermiteArea E.EDGE_COUNT
          + (clamped u + e.dy) * A.hermiteStride E.EDGE_COUNT
          + (A.size - 1) * E.EDGE_COUNT + e.axis := by
      rw [clamped_eq, clamped_eq]
      ring
    have eb : (v - 1) * B.hermiteArea E.EDGE_COUNT + (u - 1) * B.hermiteStride E.EDGE_COUNT
        + e.dz * B.hermiteArea E.EDGE_COUNT + e.dy * B.hermiteStride E.EDGE_COUNT + e.axis
        = (clamped v + e.dz) * B.hermiteArea E.EDGE_COUNT
          + (clamped u + e.dy) * B.hermiteStride E.EDGE_COUNT + 0 * E.EDGE_COUNT + e.axis := by
      rw [clamped_eq, clamped_eq]
      ring
    rw [ea, eb]
    exact this
  have hcross := crossings_congr E A B (colorBase A A.size u v) (colorBase B 0 u v)
    A.size u v 0 u v (cornerSampled_congr A B _ _ _ _ _ _ mx my mz) hcolor hmaterial hhermite
  have halpha := sampleAlphas_congr A B (colorBase A A.size u v) (colorBase B 0 u v)
    A.size u v 0 u v mx my mz hcolor
  have hskip : cellSkipped A A.size u v = cellSkipped B 0 u v := by
    unfold cellSkipped
    rw [halpha]
  refine ⟨hskip, hcross, fun hround => ?_, fun dx dy dz h => (hs dx dy dz h).1⟩
  unfold cellVertices cellNormals cellCrossings
  rw [hskip, hcross]
  congr 3
  unfold cellPoint
  obtain ⟨c1, c2⟩ := cast_pred (K := K) A.size h2
  simp only [hround]
  rw [hsize, hinfo, hmin, show clamped 0 = 0 from rfl, c1]
  unfold Vec3.add
  simp only [Vec3.mk.injEq, Nat.cast_zero, zero_add, add_zero, and_true, true_and]
  field_simp
  ring

/-- Along y: the cell `(u, size, v)` of `A` and the cell `(u, 0, v)` of `B` have the same
alphas and crossings, and the same vertices in exact arithmetic, when layer `size - 1`
of `A` is layer 0 of `B`. -/
theorem face_cells_y [FloorRing K] (E : Externals K) (A B : Block) (infoA infoB : MetavoxelInfo K)
    (u v : Nat) (hsize : B.size = A.size) (h2 : 2 ≤ A.size) (hu : u ≤ A.size) (hv : v ≤ A.size)
    (hinfo : infoB.size = infoA.size)
    (hmin : infoB.minimum = infoA.minimum.add ⟨0, infoA.size, 0⟩)
    (hl : ∀ i, i < A.size → ∀ j, j < A.size →
      A.colorContents.getD (j * A.area + (A.size - 1) * A.size + i) 0
          = B.colorContents.getD (j * B.area + 0 * B.size + i) 0
        ∧ A.materialAt 0 (j * A.area + (A.size - 1) * A.size + i)
          = B.materialAt 0 (j * B.area + 0 * B.size + i)
        ∧ ∀ a, a < 3 →
          A.hermiteContents.getD (j * A.hermiteArea E.EDGE_COUNT
              + (A.size - 1) * A.hermiteStride E.EDGE_COUNT + i * E.EDGE_COUNT + a) 0
            = B.hermiteContents.getD (j * B.hermiteArea E.EDGE_COUNT
              + 0 * B.hermiteStride E.EDGE_COUNT + i * E.EDGE_COUNT + a) 0) :
    cellSkipped A u A.size v = cellSkipped B u 0 v
      ∧ cellCrossings E A u A.size v = cellCrossings E B u 0 v
      ∧ ((∀ value, E.round value = value) →
          cellVertices E A infoA u A.size v = cellVertices E B infoB u 0 v)
      ∧ ∀ dx dy dz, cornerSampled A u A.size v dx dy dz = true → dy = 0 := by
  obtain ⟨mA, _⟩ := middle_face A.size
  obtain ⟨_, mB⟩ := middle_face B.size
  have mx : middle u A.size = middle u B.size := by rw [hsize]
  have my : middle A.size A.size = middle 0 B.size := by rw [mA, mB]
  have mz : middle v A.size = middle v B.size := by rw [hsize]
  have hs : ∀ dx dy dz, cornerSampled A u A.size v dx dy dz = true →
      dy = 0 ∧ (dx == 0 || middle u A.size) = true ∧ (dz == 0 || middle v A.size) = true := by
    intro dx dy dz h
    unfold cornerSampled at h
    rw [mA] at h
    simp only [Bool.or_false, Bool.and_eq_true, beq_iff_eq] at h
    exact ⟨h.1.2, by simpa using h.1.1, h.2⟩
  have hcolor : ∀ dx dy dz, dx ≤ 1 → dy ≤ 1 → dz ≤ 1 →
      cornerSampled A u A.size v dx dy dz = true →
      A.colorAt (colorBase A u A.size v) (cornerOffset A dx dy dz)
        = B.colorAt (colorBase B u 0 v) (cornerOffset B dx dy dz) := by
    intro dx dy dz hx _ hz h
    obtain ⟨e, sx, sz⟩ := hs dx dy dz h
    subst e
    have := (hl (clamped u + dx) (sampled_index u _ dx hu (by omega) hx sx)
      (clamped v + dz) (sampled_index v _ dz hv (by omega) hz sz)).1
    unfold Block.colorAt colorBase cornerOffset
    rw [show clamped A.size = A.size - 1 from clamped_eq _, show clamped 0 = 0 from rfl]
    have ea : clamped v * A.area + (A.size - 1) * A.size + clamped u
        + (dz * A.area + 0 * A.size + dx)
        = (clamped v + dz) * A.area + (A.size - 1) * A.size + (clamped u + dx) := by ring
    have eb : clamped v * B.area + 0 * B.size + clamped u + (dz * B.area + 0 * B.size + dx)
        = (clamped v + dz) * B.area + 0 * B.size + (clamped u + dx) := by ring
    rw [ea, eb]
    exact this
  have hmaterial : ∀ dx dy dz, dx ≤ 1 → dy ≤ 1 → dz ≤ 1 →
      cornerSampled A u A.size v dx dy dz = true →
      A.materialAt (materialBase A u A.size v) (cornerOffset A dx dy dz)
        = B.materialAt (materialBase B u 0 v) (cornerOffset B dx dy dz) := by
    intro dx dy dz hx _ hz h
    obtain ⟨e, sx, sz⟩ := hs dx dy dz h
    subst e
    have := (hl (clamped u + dx) (sampled_index u _ dx hu (by omega) hx sx)
      (clamped v + dz) (sampled_index v _ dz hv (by omega) hz sz)).2.1
    rw [materialAt_shift A, materialAt_shift B]
    unfold materialBase cornerOffset
    rw [show clamped A.size = A.size - 1 from clamped_eq _, show clamped 0 = 0 from rfl]
    have ea : clamped v * A.area + (A.size - 1) * A.size + clamped u
        + (dz * A.area + 0 * A.size + dx)
        = (clamped v + dz) * A.area + (A.size - 1) * A.size + (clamped u + dx) := by ring
    have eb : clamped v * B.area + 0 * B.size + clamped u + (dz * B.area + 0 * B.size + dx)
        = (clamped v + dz) * B.area + 0 * B.size + (clamped u + dx) := by ring
    rw [ea, eb]
    exact this
  have hhermite : ∀ e ∈ cellEdges, cornerSampled A u A.size v e.ux e.uy e.uz = true →
      A.hermiteContents.getD (specHermiteIndex E.EDGE_COUNT A u A.size v e) 0
        = B.hermiteContents.getD (specHermiteIndex E.EDGE_COUNT B u 0 v e) 0 := by
    intro e he h
    obtain ⟨bx, by1, bz, ux, uy, uz, ha⟩ := cellEdges_bounds e he
    have hlow := cornerSampled_mono A u A.size v e.dx e.dy e.dz e.ux e.uy e.uz bx by1 bz h
    obtain ⟨ex, sx, sz⟩ := hs e.dx e.dy e.dz hlow
    have := (hl (clamped u + e.dx) (sampled_index u _ e.dx hu (by omega) (by omega) sx)
      (clamped v + e.dz) (sampled_index v _ e.dz hv (by omega) (by omega) sz)).2.2 e.axis ha
    unfold specHermiteIndex
    rw [ex]
    simp only [Nat.max_zero, Nat.zero_sub, Nat.zero_mul, Nat.add_zero]
    have ea : (v - 1) * A.hermiteArea E.EDGE_COUNT
        + (A.size - 1) * A.hermiteStride E.EDGE_COUNT
        + (u - 1) * E.EDGE_COUNT + e.dz * A.hermiteArea E.EDGE_COUNT
        + e.dx * E.EDGE_COUNT + e.axis
        = (clamped v + e.dz) * A.hermiteArea E.EDGE_COUNT
          + (A.size - 1) * A.hermiteStride E.EDGE_COUNT
          + (clamped u + e.dx) * E.EDGE_COUNT + e.axis := by
      rw [clamped_eq, clamped_eq]
      ring
    have eb : (v - 1) * B.hermiteArea E.EDGE_COUNT + (u - 1) * E.EDGE_COUNT
        + e.dz * B.hermiteArea E.EDGE_COUNT + e.dx * E.EDGE_COUNT + e.axis
        = (clamped v + e.dz) * B.hermiteArea E.EDGE_COUNT
          + 0 * B.hermiteStride E.EDGE_COUNT + (clamped u + e.dx) * E.EDGE_COUNT + e.axis := by
      rw [clamped_eq, clamped_eq]
      ring
    rw [ea, eb]
    exact this
  have hcross := crossings_congr E A B (colorBase A u A.size v) (colorBase B u 0 v)
    u A.size v u 0 v (cornerSampled_congr A B _ _ _ _ _ _ mx my mz) hcolor hmaterial hhermite
  have halpha := sampleAlphas_congr A B (colorBase A u A.size v) (colorBase B u 0 v)
    u A.size v u 0 v mx my mz hcolor
  have hskip : cellSkipped A u A.size v = cellSkipped B u 0 v := by
    unfold cellSkipped
    rw [halpha]
  refine ⟨hskip, hcross, fun hround => ?_, fun dx dy dz h => (hs dx dy dz h).1⟩
  unfold cellVertices cellNormals cellCrossings
  rw [hskip, hcross]
  congr 3
  unfold cellPoint
  obtain ⟨c1, c2⟩ := cast_pred (K := K) A.size h2
  simp only [hround]
  rw [hsize, hinfo, hmin, show clamped 0 = 0 from rfl, c1]
  unfold Vec3.add
  simp only [Vec3.mk.injEq, Nat.cast_zero, zero_add, add_zero, and_true, true_and]
  field_simp
  ring

/-- Along z: the cell `(u, v, size)` of `A` and the cell `(u, v, 0)` of `B` have the same
alphas and crossings, and the same vertices in exact arithmetic, when layer `size - 1`
of `A` is layer 0 of `B`. -/
theorem face_cells_z [FloorRing K] (E : Externals K) (A B : Block) (infoA infoB : MetavoxelInfo K)
    (u v : Nat) (hsize : B.size = A.size) (h2 : 2 ≤ A.size) (hu : u ≤ A.size) (hv : v ≤ A.size)
    (hinfo : infoB.size = infoA.size)
    (hmin : infoB.minimum = infoA.minimum.add ⟨0, 0, infoA.size⟩)
    (hl : ∀ i, i < A.size → ∀ j, j < A.size →
      A.colorContents.getD ((A.size - 1) * A.area + j * A.size + i) 0
          = B.colorContents.getD (0 * B.area + j * B.size + i) 0
        ∧ A.materialAt 0 ((A.size - 1) * A.area + j * A.size + i)
          = B.materialAt 0 (0 * B.area + j * B.size + i)
        ∧ ∀ a, a < 3 →
          A.hermiteContents.getD ((A.size - 1) * A.hermiteArea E.EDGE_COUNT
              + j * A.hermiteStride E.EDGE_COUNT + i * E.EDGE_COUNT + a) 0
            = B.hermiteContents.getD (0 * B.hermiteArea E.EDGE_COUNT
              + j * B.hermiteStride E.EDGE_COUNT + i * E.EDGE_COUNT + a) 0) :
    cellSkipped A u v A.size = cellSkipped B u v 0
      ∧ cellCrossings E A u v A.size = cellCrossings E B u v 0
      ∧ ((∀ value, E.round value = value) →
          cellVertices E A infoA u v A.size = cellVertices E B infoB u v 0)
      ∧ ∀ dx dy dz, cornerSampled A u v A.size dx dy dz = true → dz = 0 := by
  obtain ⟨mA, _⟩ := middle_face A.size
  obtain ⟨_, mB⟩ := middle_face B.size
  have mx : middle u A.size = middle u B.size := by rw [hsize]
  have my : middle v A.size = middle v B.size := by rw [hsize]
  have mz : middle A.size A.size = middle 0 B.size := by rw [mA, mB]
  have hs : ∀ dx dy dz, cornerSampled A u v A.size dx dy dz = true →
      dz = 0 ∧ (dx == 0 || middle u A.size) = true ∧ (dy == 0 || middle v A.size) = true := by
    intro dx dy dz h
    unfold cornerSampled at h
    rw [mA] at h
    simp only [Bool.or_false, Bool.and_eq_true, beq_iff_eq] at h
    exact ⟨h.2, by simpa using h.1.1, by simpa using h.1.2⟩
  have hcolor : ∀ dx dy dz, dx ≤ 1 → dy ≤ 1 → dz ≤ 1 →
      cornerSampled A u v A.size dx dy dz = true →
      A.colorAt (colorBase A u v A.size) (cornerOffset A dx dy dz)
        = B.colorAt (colorBase B u v 0) (cornerOffset B dx dy dz) := by
    intro dx dy dz hx hy _ h
    obtain ⟨e, sx, sy⟩ := hs dx dy dz h
    subst e
    have := (hl (clamped u + dx) (sampled_index u _ dx hu (by omega) hx sx)
      (clamped v + dy) (sampled_index v _ dy hv (by omega) hy sy)).1
    unfold Block.colorAt colorBase cornerOffset
    rw [show clamped A.size = A.size - 1 from clamped_eq _, show clamped 0 = 0 from rfl]
    have ea : (A.size - 1) * A.area + clamped v * A.size + clamped u
        + (0 * A.area + dy * A.size + dx)
        = (A.size - 1) * A.area + (clamped v + dy) * A.size + (clamped u + dx) := by ring
    have eb : 0 * B.area + clamped v * B.size + clamped u + (0 * B.area + dy * B.size + dx)
        = 0 * B.area + (clamped v + dy) * B.size + (clamped u + dx) := by ring
    rw [ea, eb]
    exact this
  have hmaterial : ∀ dx dy dz, dx ≤ 1 → dy ≤ 1 → dz ≤ 1 →
      cornerSampled A u v A.size dx dy dz = true →
      A.materialAt (materialBase A u v A.size) (cornerOffset A dx dy dz)
        = B.materialAt (materialBase B u v 0) (cornerOffset B dx dy dz) := by
    intro dx dy dz hx hy _ h
    obtain ⟨e, sx, sy⟩ := hs dx dy dz h
    subst e
    have := (hl (clamped u + dx) (sampled_index u _ dx hu (by omega) hx sx)
      (clamped v + dy) (sampled_index v _ dy hv (by omega) hy sy)).2.1
    rw [materialAt_shift A, materialAt_shift B]
    unfold materialBase cornerOffset
    rw [show clamped A.size = A.size - 1 from clamped_eq _, show clamped 0 = 0 from rfl]
    have ea : (A.size - 1) * A.area + clamped v * A.size + clamped u
        + (0 * A.area + dy * A.size + dx)
        = (A.size - 1) * A.area + (clamped v + dy) * A.size + (clamped u + dx) := by ring
    have eb : 0 * B.area + clamped v * B.size + clamped u + (0 * B.area + dy * B.size + dx)
        = 0 * B.area + (clamped v + dy) * B.size + (clamped u + dx) := by ring
    rw [ea, eb]
    exact this
  have hhermite : ∀ e ∈ cellEdges, cornerSampled A u v A.size e.ux e.uy e.uz = true →
      A.hermiteContents.getD (specHermiteIndex E.EDGE_COUNT A u v A.size e) 0
        = B.hermiteContents.getD (specHermiteIndex E.EDGE_COUNT B u v 0 e) 0 := by
    intro e he h
    obtain ⟨bx, by1, bz, ux, uy, uz, ha⟩ := cellEdges_bounds e he
    have hlow := cornerSampled_mono A u v A.size e.dx e.dy e.dz e.ux e.uy e.uz bx by1 bz h
    obtain ⟨ex, sx, sy⟩ := hs e.dx e.dy e.dz hlow
    have := (hl (clamped u + e.dx) (sampled_index u _ e.dx hu (by omega) (by omega) sx)
      (clamped v + e.dy) (sampled_index v _ e.dy hv (by omega) (by omega) sy)).2.2 e.axis ha
    unfold specHermiteIndex
    rw [ex]
    convert this using 2 <;> simp only [clamped_eq, Nat.max_zero, Nat.zero_sub] <;> ring
  have hcross := crossings_congr E A B (colorBase A u v A.size) (colorBase B u v 0)
    u v A.size u v 0 (cornerSampled_congr A B _ _ _ _ _ _ mx my mz) hcolor hmaterial hhermite
  have halpha := sampleAlphas_congr A B (colorBase A u v A.size) (colorBase B u v 0)
    u v A.size u v 0 mx my mz hcolor
  have hskip : cellSkipped A u v A.size = cellSkipped B u v 0 := by
    unfold cellSkipped
    rw [halpha]
  refine ⟨hskip, hcross, fun hround => ?_, fun dx dy dz h => (hs dx dy dz h).1⟩
  unfold cellVertices cellNormals cellCrossings
  rw [hskip, hcross]
  congr 3
  unfold cellPoint
  obtain ⟨c1, c2⟩ := cast_pred (K := K) A.size h2
  simp only [hround]
  rw [hsize, hinfo, hmin, show clamped 0 = 0 from rfl, c1]
  unfold Vec3.add
  simp only [Vec3.mk.injEq, Nat.cast_zero, zero_add, add_zero, and_true, true_and]
  field_simp
  ring


theorem sampled_on_face (b : Block) (x y z dx dy dz : Nat)
    (h : cornerSampled b x y z dx dy dz = true) :
    (middle x b.size = false → dx = 0) ∧ (middle y b.size = false → dy = 0)
      ∧ (middle z b.size = false → dz = 0) := by
  unfold cornerSampled at h
  simp only [Bool.and_eq_true, Bool.or_eq_true, beq_iff_eq] at h
  obtain ⟨⟨h1, h2⟩, h3⟩ := h
  refine ⟨fun m => ?_, fun m => ?_, fun m => ?_⟩
  · rcases h1 with h | h
    · exact h
    · rw [m] at h
      cases h
  · rcases h2 with h | h
    · exact h
    · rw [m] at h
      cases h
  · rcases h3 with h | h
    · exact h
    · rw [m] at h
      cases h

theorem floorBlock_layers : LayersAgree 3 floorBlock floorBlock 0 := by
  unfold LayersAgree
  decide

theorem floorBlock_face_cell :
    cellSkipped floorBlock 2 1 1 = false
      ∧ (cellVertices rationalExternals floorBlock unitInfo 2 1 1).length = 1 := by
  decide!

/-! ### The quads of each cell of the pass -/

/-- C11. A cell that is processed appends to the index array four entries for each axis
along which it stitches a quad, that is for each axis on which the alphas of its corner 0
and of its neighbour along the axis (corner 1 for x, corner 2 for y, corner 4 for z)
differ, provided that no coordinate of the cell is zero and that the cell is not on the
upper block boundary along that axis; a cell with a zero coordinate appends nothing. This
holds from every scan state; and on a block whose cells have between one and four clusters
the pass reaches every cell with its colour pointer at the cell and processes it. -/
theorem indices_appended_by_cell [FloorRing K] (E : Externals K) (b : Block)
    (info : MetavoxelInfo K) :
    (∀ x y z (s s1 : ScanState K), visitCell E b info x y z s = Except.ok s1 →
        s1.indices.length = s.indices.length + 4 * (stitchedAxes b s.colorX x y z).length
          ∧ (stitchedAxes b s.colorX x y z).length
              = (if x ≠ 0 ∧ y ≠ 0 ∧ z ≠ 0 then
                  (if x ≠ b.size
                      ∧ alphaOf (b.colorAt s.colorX 0) ≠ alphaOf (b.colorAt s.colorX 1)
                      then 1 else 0)
                  + (if y ≠ b.size
                      ∧ alphaOf (b.colorAt s.colorX 0) ≠ alphaOf (b.colorAt s.colorX b.size)
                      then 1 else 0)
                  + (if z ≠ b.size
                      ∧ alphaOf (b.colorAt s.colorX 0) ≠ alphaOf (b.colorAt s.colorX b.area)
                      then 1 else 0)
                else 0)
          ∧ ((x = 0 ∨ y = 0 ∨ z = 0) → s1.indices.length = s.indices.length))
      ∧ (ClustersBounded E b →
          ∀ x y z, x < b.expanded → y < b.expanded → z < b.expanded →
            ∃ s s1, stateBefore E b info x y z = Except.ok s
              ∧ visitCell E b info x y z s = Except.ok s1
              ∧ s.colorX = colorBase b x y z
              ∧ s1.indices.length = s.indices.length
                  + 4 * (stitchedAxes b (colorBase b x y z) x y z).length) := by
  refine ⟨fun x y z s s1 h => visitCell_index_count E b info x y z s s1 h,
    fun H x y z bx by1 bz => ?_⟩
  obtain ⟨s, hs, inv⟩ := stateBefore_inv E b info H x y z (by omega) by1 bz
  obtain ⟨s1, _, h1, _⟩ := cell_step E b info x y z s inv bx by1 bz H
  have hcount := (visitCell_index_count E b info x y z s s1 h1).1
  rw [inv.colorX] at hcount
  exact ⟨s, s1, hs, h1, inv.colorX, hcount⟩

theorem indices_appended_by_cell_witness :
    ∃ s s1, stateBefore rationalExternals (singleSolidBlock 0) unitInfo 1 1 1 = Except.ok s
      ∧ visitCell rationalExternals (singleSolidBlock 0) unitInfo 1 1 1 s = Except.ok s1
      ∧ s1.indices.length
          = s.indices.length + 4 * (stitchedAxes (singleSolidBlock 0) s.colorX 1 1 1).length := by
  obtain ⟨s, s1, hs, h⟩ := singleSolidBlock_run
  exact ⟨s, s1, hs, h,
    ((indices_appended_by_cell rationalExternals (singleSolidBlock 0) unitInfo).1
      1 1 1 s s1 h).1⟩

/-- C14. A cell that is processed adds to the multimap, for each quad it stitches, four
items whose value is the offset of the quad in the index array (the index count before the
corners of the quad are appended, the quads following one another four entries apart) and
whose keys are the four cells that share the crossed edge; the four keys are pairwise
different. This holds from every scan state; and on a block whose cells have between one
and four clusters the pass reaches every cell with its colour pointer at the cell and
processes it. -/
theorem quad_registered_under_four_keys [FloorRing K] (E : Externals K) (b : Block)
    (info : MetavoxelInfo K) :
    (∀ x y z (s s1 : ScanState K), visitCell E b info x y z s = Except.ok s1 →
        s1.quadIndices = s.quadIndices
            ++ quadRegistrations s.indices.length x y z (stitchedAxes b s.colorX x y z)
          ∧ s1.indices.length = s.indices.length + 4 * (stitchedAxes b s.colorX x y z).length
          ∧ quadKeys x y z 0
              = [qRgb x y z, qRgb x (y - 1) z, qRgb x (y - 1) (z - 1), qRgb x y (z - 1)]
          ∧ quadKeys x y z 1
              = [qRgb x y z, qRgb (x - 1) y z, qRgb (x - 1) y (z - 1), qRgb x y (z - 1)]
          ∧ quadKeys x y z 2
              = [qRgb x y z, qRgb (x - 1) y z, qRgb (x - 1) (y - 1) z, qRgb x (y - 1) z]
          ∧ ∀ axis ∈ stitchedAxes b s.colorX x y z, (quadKeys x y z axis).Nodup)
      ∧ (ClustersBounded E b →
          ∀ x y z, x < b.expanded → y < b.expanded → z < b.expanded →
            ∃ s s1, stateBefore E b info x y z = Except.ok s
              ∧ visitCell E b info x y z s = Except.ok s1
              ∧ s.colorX = colorBase b x y z
              ∧ s1.quadIndices = s.quadIndices
                  ++ quadRegistrations s.indices.length x y z
                      (stitchedAxes b (colorBase b x y z) x y z)) := by
  refine ⟨fun x y z s s1 h => visitCell_registrations E b info x y z s s1 h,
    fun H x y z bx by1 bz => ?_⟩
  obtain ⟨s, hs, inv⟩ := stateBefore_inv E b info H x y z (by omega) by1 bz
  obtain ⟨s1, _, h1, _⟩ := cell_step E b info x y z s inv bx by1 bz H
  have hitems := (visitCell_registrations E b info x y z s s1 h1).1
  rw [inv.colorX] at hitems
  exact ⟨s, s1, hs, h1, inv.colorX, hitems⟩

theorem quad_registered_under_four_keys_witness :
    ∃ s s1, stateBefore rationalExternals (singleSolidBlock 0) unitInfo 1 1 1 = Except.ok s
      ∧ visitCell rationalExternals (singleSolidBlock 0) unitInfo 1 1 1 s = Except.ok s1
      ∧ s1.quadIndices = s.quadIndices
          ++ quadRegistrations s.indices.length 1 1 1
              (stitchedAxes (singleSolidBlock 0) s.colorX 1 1 1) := by
  obtain ⟨s, s1, hs, h⟩ := singleSolidBlock_run
  exact ⟨s, s1, hs, h,
    ((quad_registered_under_four_keys rationalExternals (singleSolidBlock 0) unitInfo).1
      1 1 1 s s1 h).1⟩


/-! ### The motion type of an entity -/

/-- C21. `computeMotionType` returns `MOTION_TYPE_DYNAMIC` exactly when the entity's
`getCollisionsWillMove ()` is true and `MOTION_TYPE_STATIC` otherwise, never
`MOTION_TYPE_KINEMATIC`, and leaves the entity as it was. -/
theorem computeMotionType_dynamic_iff_collisions_move (self : EntityMotionState K) :
    ((self.computeMotionType).1 = MotionType.MOTION_TYPE_DYNAMIC
        ↔ self.entity.collisionsWillMove = true)
      ∧ ((self.computeMotionType).1 = MotionType.MOTION_TYPE_STATIC
        ↔ ¬ self.entity.collisionsWillMove = true)
      ∧ (self.computeMotionType).1 ≠ MotionType.MOTION_TYPE_KINEMATIC
      ∧ (self.computeMotionType).2 = self.entity := by
  unfold EntityMotionState.computeMotionType
  cases self.entity.collisionsWillMove <;> simp

/-! ### The throttle -/

theorem bytesHeld_cons (first : Int × Int) (rest : List (Int × Int)) :
    Throttle.bytesHeld (first :: rest) = first.2 + Throttle.bytesHeld rest := by
  simp [Throttle.bytesHeld]

theorem bytesHeld_append (front back : List (Int × Int)) :
    Throttle.bytesHeld (front ++ back) = Throttle.bytesHeld front + Throttle.bytesHeld back := by
  simp [Throttle.bytesHeld]

theorem bytesHeld_nonneg (buckets : List (Int × Int))
    (hpos : ∀ bucket ∈ buckets, 0 ≤ bucket.2) : 0 ≤ Throttle.bytesHeld buckets := by
  induction buckets with
  | nil => simp [Throttle.bytesHeld]
  | cons first rest ih =>
    rw [bytesHeld_cons]
    have h1 := hpos first (List.mem_cons_self _ _)
    have h2 := ih (fun bucket hb => hpos bucket (List.mem_cons_of_mem _ hb))
    omega

theorem checkedInt_of_range (value : Int) (lo : 0 ≤ value) (hi : value ≤ INT_MAX) :
    checkedInt value = Except.ok value := by
  unfold checkedInt
  rw [if_pos]
  exact ⟨by omega, hi⟩

/-- The loop that clears the expired buckets stops at the first bucket that has not expired:
it returns the buckets from that one on, and their byte count. -/
theorem clearExpired_spec (now : Int) (buckets : List (Int × Int)) :
    ∀ total, total = Throttle.bytesHeld buckets → total ≤ INT_MAX →
      (∀ bucket ∈ buckets, 0 ≤ bucket.2) →
      Throttle.clearExpired now total buckets
        = Except.ok (Throttle.bytesHeld (buckets.dropWhile (fun bucket => decide (now ≥ bucket.1))),
            buckets.dropWhile (fun bucket => decide (now ≥ bucket.1))) := by
  induction buckets with
  | nil =>
    intro total ht _ _
    simp [Throttle.clearExpired, ht]
  | cons first rest ih =>
    intro total ht hmax hpos
    have h1 := hpos first (List.mem_cons_self _ _)
    have hrest : ∀ bucket ∈ rest, 0 ≤ bucket.2 :=
      fun bucket hb => hpos bucket (List.mem_cons_of_mem _ hb)
    have h2 := bytesHeld_nonneg rest hrest
    rw [bytesHeld_cons] at ht
    by_cases hnow : now ≥ first.1
    · rw [Throttle.clearExpired, if_pos hnow, List.dropWhile_cons_of_pos (by simpa using hnow),
        checkedInt_of_range (total - first.2) (by omega) (by omega)]
      exact ih (total - first.2) (by omega) (by omega) hrest
    · rw [Throttle.clearExpired, if_neg hnow, List.dropWhile_cons_of_neg (by simpa using hnow),
        bytesHeld_cons, ht]

theorem dropWhile_suffix_total (now : Int) (buckets : List (Int × Int))
    (hpos : ∀ bucket ∈ buckets, 0 ≤ bucket.2) :
    Throttle.bytesHeld (buckets.dropWhile (fun bucket => decide (now ≥ bucket.1)))
      ≤ Throttle.bytesHeld buckets := by
  induction buckets with
  | nil => simp
  | cons first rest ih =>
    have h1 := hpos first (List.mem_cons_self _ _)
    have h2 := ih (fun bucket hb => hpos bucket (List.mem_cons_of_mem _ hb))
    by_cases hnow : now ≥ first.1
    · rw [List.dropWhile_cons_of_pos (by simpa using hnow), bytesHeld_cons]
      omega
    · rw [List.dropWhile_cons_of_neg (by simpa using hnow)]

/-- On buckets in the order of their expiry times, the buckets left by the loop are all
the buckets that have not expired. -/
theorem dropWhile_eq_filter_of_sorted (now : Int) (buckets : List (Int × Int))
    (hsorted : buckets.Pairwise (fun a b => a.1 ≤ b.1)) :
    buckets.dropWhile (fun bucket => decide (now ≥ bucket.1))
      = buckets.filter (fun bucket => decide (now < bucket.1)) := by
  induction buckets with
  | nil => rfl
  | cons first rest ih =>
    rw [List.pairwise_cons] at hsorted
    by_cases hnow : now ≥ first.1
    · rw [List.dropWhile_cons_of_pos (by simpa using hnow),
        List.filter_cons_of_neg (by simpa using hnow)]
      exact ih hsorted.2
    · rw [List.dropWhile_cons_of_neg (by simpa using hnow),
        List.filter_cons_of_pos (by simpa using hnow)]
      congr 1
      symm
      rw [List.filter_eq_self]
      intro bucket hb
      have := hsorted.1 bucket hb
      simp only [decide_eq_true_eq]
      omega


/-- A call of `shouldThrottle` returns when the total is the byte count of the buckets
held, the byte counts are not negative and the sums fit their integer types; the buckets
and the total after the call. -/
theorem shouldThrottle_returns (self : Throttle) (now bytes : Int)
    (hsum : self.total = Throttle.bytesHeld self.buckets)
    (hpos : ∀ bucket ∈ self.buckets, 0 ≤ bucket.2)
    (hbytes : 0 ≤ bytes) (hfit : self.total + bytes ≤ INT_MAX)
    (hnow : -2 ^ 63 ≤ now + 1000 ∧ now + 1000 < 2 ^ 63) :
    ∃ result after, self.shouldThrottle now bytes = Except.ok (result, after)
      ∧ after.total = Throttle.bytesHeld after.buckets
      ∧ (∀ bucket ∈ after.buckets, 0 ≤ bucket.2)
      ∧ after.limit = self.limit
      ∧ (result = true
          ↔ Throttle.bytesHeld (self.buckets.dropWhile (fun bucket => decide (now ≥ bucket.1)))
              + bytes > self.limit)
      ∧ (result = true →
          after.buckets = self.buckets.dropWhile (fun bucket => decide (now ≥ bucket.1)))
      ∧ (result = false →
          after.buckets = self.buckets.dropWhile (fun bucket => decide (now ≥ bucket.1))
              ++ [(now + 1000, bytes)]
            ∧ after.total
                = Throttle.bytesHeld
                    (self.buckets.dropWhile (fun bucket => decide (now ≥ bucket.1))) + bytes
            ∧ after.total ≤ after.limit)
      ∧ (self.buckets.Pairwise (fun a b => a.1 ≤ b.1) →
          self.buckets.dropWhile (fun bucket => decide (now ≥ bucket.1))
              = self.buckets.filter (fun bucket => decide (now < bucket.1))
            ∧ ((∀ bucket ∈ self.buckets, bucket.1 ≤ now + 1000) →
                after.buckets.Pairwise (fun a b => a.1 ≤ b.1))) := by
  have hmax : self.total ≤ INT_MAX := by omega
  have hclear := clearExpired_spec now self.buckets self.total hsum hmax hpos
  have hle := dropWhile_suffix_total now self.buckets hpos
  have hkept : ∀ bucket ∈ self.buckets.dropWhile (fun bucket => decide (now ≥ bucket.1)),
      0 ≤ bucket.2 :=
    fun bucket hb => hpos bucket ((List.dropWhile_sublist _).subset hb)
  have h0 := bytesHeld_nonneg _ hkept
  have hsorted : ∀ (extra : List (Int × Int)),
      self.buckets.Pairwise (fun a b => a.1 ≤ b.1) →
      (∀ bucket ∈ extra, ∀ other ∈ self.buckets, other.1 ≤ bucket.1) →
      extra.Pairwise (fun a b => a.1 ≤ b.1) →
      (self.buckets.dropWhile (fun bucket => decide (now ≥ bucket.1)) ++ extra).Pairwise
        (fun a b => a.1 ≤ b.1) := by
    intro extra hs hx he
    rw [List.pairwise_append]
    exact ⟨hs.sublist (List.dropWhile_sublist _), he,
      fun a ha b hb => hx b hb a ((List.dropWhile_sublist _).subset ha)⟩
  unfold Throttle.shouldThrottle
  rw [hclear]
  simp only [Except.bind, bind]
  rw [checkedInt_of_range _ (by omega) (by omega)]
  simp only []
  by_cases hlimit : Throttle.bytesHeld
      (self.buckets.dropWhile (fun bucket => decide (now ≥ bucket.1))) + bytes > self.limit
  · rw [if_pos hlimit]
    refine ⟨true, _, rfl, rfl, hkept, rfl, ?_, fun _ => rfl, (fun h => by cases h), ?_⟩
    · simp [hlimit]
    · intro hs
      refine ⟨dropWhile_eq_filter_of_sorted now _ hs, fun _ => ?_⟩
      simpa using hsorted [] hs (by simp) (by simp)
  · rw [if_neg hlimit]
    have h64 : checkedInt64 (now + Throttle.BUCKET_DURATION) = Except.ok (now + 1000) := by
      unfold checkedInt64 Throttle.BUCKET_DURATION
      rw [if_pos hnow]
    rw [h64]
    refine ⟨false, _, rfl, ?_, ?_, rfl, ?_, (fun h => by cases h), fun _ => ⟨rfl, rfl, ?_⟩, ?_⟩
    · show _ = Throttle.bytesHeld (_ ++ _)
      rw [bytesHeld_append, bytesHeld_cons]
      simp [Throttle.bytesHeld]
    · intro bucket hb
      rcases List.mem_append.1 hb with hb | hb
      · exact hkept bucket hb
      · rw [List.mem_singleton.1 hb]
        exact hbytes
    · simp [hlimit]
    · show Throttle.bytesHeld _ + bytes ≤ self.limit
      omega
    · intro hs
      refine ⟨dropWhile_eq_filter_of_sorted now _ hs, fun hfresh => ?_⟩
      refine hsorted [(now + 1000, bytes)] hs ?_ (List.pairwise_singleton _ _)
      intro bucket hb other ho
      rw [List.mem_singleton.1 hb]
      exact hfresh other ho

/-! ### The updates of an entity at rest -/

theorem sendPosition_keeps (C : PhysicsConstants K) (self : EntityMotionState K)
    (properties : EntityItemProperties K) :
    (self.sendPosition C properties).1.entity = self.entity
      ∧ (self.sendPosition C properties).1.numNonMovingUpdates = self.numNonMovingUpdates := by
  unfold EntityMotionState.sendPosition
  split_ifs <;> exact ⟨rfl, rfl⟩

theorem sendVelocity_keeps (C : PhysicsConstants K) (self : EntityMotionState K)
    (properties : EntityItemProperties K) :
    (self.sendVelocity C properties).1.entity = self.entity
      ∧ (self.sendVelocity C properties).1.numNonMovingUpdates = self.numNonMovingUpdates := by
  unfold EntityMotionState.sendVelocity
  split_ifs <;> exact ⟨rfl, rfl⟩

/-- The counter and the time of the last edit after lines 149-163. -/
theorem sendLastEdited_spec (self : EntityMotionState K) (properties : EntityItemProperties K) :
    (self.sendLastEdited properties).1.sentMoving = self.sentMoving
      ∧ (self.sendLastEdited properties).1.numNonMovingUpdates
          = (if self.sentMoving = true then 0 else self.numNonMovingUpdates + 1)
      ∧ (self.sendLastEdited properties).1.entity.lastEdited
          = (if (self.sendLastEdited properties).1.numNonMovingUpdates ≤ 1
              then self.entity.lastSimulated else self.entity.lastEdited)
      ∧ (self.sendLastEdited properties).1.entity.lastSimulated = self.entity.lastSimulated
      ∧ (self.sendLastEdited properties).2.lastEdited
          = (self.sendLastEdited properties).1.entity.lastEdited
      ∧ (self.sendLastEdited properties).1.entity.id = self.entity.id := by
  unfold EntityMotionState.sendLastEdited
  cases hmoving : self.sentMoving
  · by_cases hzero : self.numNonMovingUpdates = 0
    · simp [hzero]
    · have : ¬ self.numNonMovingUpdates + 1 ≤ 1 := by omega
      simp [this]
  · simp

/-- C27. With outgoing flags set, `sendUpdate` resets the counter of the updates at rest to
zero when the state sent is moving and adds one to it otherwise; it sets the entity's
`lastEdited` to its `lastSimulated` exactly when the counter is at most one afterwards,
which is when the state sent is moving or the counter was zero before, and else leaves
`lastEdited` as it was; the message queued carries the entity's `lastEdited` after the
call. With no outgoing flag the call changes nothing and queues nothing. -/
theorem sendUpdate_counts_updates_at_rest (C : PhysicsConstants K)
    (self : EntityMotionState K) (queue : List (EditMessage K)) (frame : Nat) :
    (self.outgoingPacketFlags ≠ 0 →
        ∃ message,
          (self.sendUpdate C queue frame).2 = queue ++ [message]
          ∧ (self.sendUpdate C queue frame).1.numNonMovingUpdates
              = (if (self.sendUpdate C queue frame).1.sentMoving = true then 0
                  else self.numNonMovingUpdates + 1)
          ∧ ((self.sendUpdate C queue frame).1.numNonMovingUpdates ≤ 1
              ↔ ((self.sendUpdate C queue frame).1.sentMoving = true
                  ∨ self.numNonMovingUpdates = 0))
          ∧ (self.sendUpdate C queue frame).1.entity.lastEdited
              = (if (self.sendUpdate C queue frame).1.numNonMovingUpdates ≤ 1
                  then self.entity.lastSimulated else self.entity.lastEdited)
          ∧ (self.sendUpdate C queue frame).1.entity.lastSimulated = self.entity.lastSimulated
          ∧ message.properties.lastEdited
              = (self.sendUpdate C queue frame).1.entity.lastEdited
          ∧ message.id = self.entity.id)
      ∧ (self.outgoingPacketFlags = 0 → self.sendUpdate C queue frame = (self, queue)) := by
  constructor
  · intro hflags
    have hp := sendPosition_keeps C self self.entity.properties
    have hv := sendVelocity_keeps C (self.sendPosition C self.entity.properties).1
      (self.sendPosition C self.entity.properties).2
    obtain ⟨e1, e2, e3, e4, e5, e6⟩ := sendLastEdited_spec
      ((self.sendPosition C self.entity.properties).1.sendVelocity C
        (self.sendPosition C self.entity.properties).2).1
      ((self.sendPosition C self.entity.properties).1.sendVelocity C
        (self.sendPosition C self.entity.properties).2).2
    rw [hv.1, hp.1] at e3 e4 e6
    rw [hv.2, hp.2] at e2
    unfold EntityMotionState.sendUpdate
    rw [if_pos hflags]
    refine ⟨_, rfl, ?_, ?_, e3, e4, e5, e6⟩
    · show _ = if (EntityMotionState.sendLastEdited _ _).1.sentMoving = true then _ else _
      rw [e1]
      exact e2
    · show (EntityMotionState.sendLastEdited _ _).1.numNonMovingUpdates ≤ 1
        ↔ ((EntityMotionState.sendLastEdited _ _).1.sentMoving = true ∨ _)
      rw [e1, e2]
      split_ifs with hmoving
      · simp [hmoving]
      · simp [hmoving]
  · intro hflags
    unfold EntityMotionState.sendUpdate
    rw [if_neg (by simpa using hflags)]


/-- In a cell that the sampler skips, the sampled corners all have the same alpha. -/
theorem corners_of_uniform (b : Block) (colorX x y z : Nat)
    (h : (sampleAlphas b colorX x y z).uniform = true) :
    ∃ c, ∀ dx dy dz, dx ≤ 1 → dy ≤ 1 → dz ≤ 1 → cornerSampled b x y z dx dy dz = true →
      cornerAlpha b colorX dx dy dz = c := by
  have b0 := alphaOf_le (b.colorAt colorX 0)
  have b1 := alphaOf_le (b.colorAt colorX 1)
  have b2 := alphaOf_le (b.colorAt colorX b.size)
  have b3 := alphaOf_le (b.colorAt colorX b.offset3)
  have b4 := alphaOf_le (b.colorAt colorX b.area)
  have b5 := alphaOf_le (b.colorAt colorX b.offset5)
  have b6 := alphaOf_le (b.colorAt colorX b.offset6)
  have b7 := alphaOf_le (b.colorAt colorX b.offset7)
  unfold Alphas.uniform sampleAlphas at h
  simp only [Bool.or_eq_true, beq_iff_eq, EIGHT_BIT_MAXIMUM] at h
  unfold cornerSampled cornerAlpha cornerOffset
  unfold Block.offset3 at b3
  unfold Block.offset5 at b5
  unfold Block.offset6 at b6
  unfold Block.offset7 at b7
  simp only [Block.offset3, Block.offset5, Block.offset6, Block.offset7] at h
  cases hx : middle x b.size <;> cases hy : middle y b.size <;> cases hz : middle z b.size <;>
    simp only [hx, hy, hz, Bool.false_eq_true, if_false, if_true, Bool.and_true, Bool.and_false,
      Bool.or_false, Bool.or_true, Bool.and_self, add_zero] at h ⊢ <;>
    rcases h with h | h
  all_goals
    first
    | (refine ⟨0, fun dx dy dz hdx hdy hdz hs => ?_⟩
       interval_cases dx <;> interval_cases dy <;> interval_cases dz <;>
         simp at hs ⊢ <;> omega)
    | (refine ⟨255, fun dx dy dz hdx hdy hdz hs => ?_⟩
       interval_cases dx <;> interval_cases dy <;> interval_cases dz <;>
         simp at hs ⊢ <;> omega)


/-! ### The number of crossings of a cell -/

/-- The number of edges of a cell whose upper endpoint is sampled: nine less three for each
axis on which the cell is not a middle cell, and no less than the cells on a face, an edge
or a corner of the block allow. -/
theorem sampled_edges_count (b : Block) (x y z : Nat) :
    (cellEdges.filter (fun e => cornerSampled b x y z e.ux e.uy e.uz)).length
      = (if middle x b.size then
          (if middle y b.size then (if middle z b.size then 12 else 4)
            else (if middle z b.size then 4 else 1))
        else
          (if middle y b.size then (if middle z b.size then 4 else 1)
            else (if middle z b.size then 1 else 0))) := by
  unfold cornerSampled
  cases middle x b.size <;> cases middle y b.size <;> cases middle z b.size <;> decide

/-- C22. The number of crossings recorded for a cell is the number of cell edges whose two
endpoints are both sampled and have different alphas, a corner being sampled when the cell
is a middle cell on each axis on which the corner is the upper one; the number is at most
twelve, at most four for a cell that is not a middle cell on some axis, at most one for a
cell that is not a middle cell on two axes, and zero for a cell that is a middle cell on no
axis; for a cell that the sampler skips, for which nothing is recorded, that number of edges
is zero as well. -/
theorem crossings_counted_by_sampled_edges (E : Externals K) (b : Block)
    (colorX x y z : Nat) :
    (extractCrossings E b colorX x y z).length
        = (cellEdges.filter (fun e =>
            cornerSampled b x y z e.dx e.dy e.dz && cornerSampled b x y z e.ux e.uy e.uz
              && cornerAlpha b colorX e.dx e.dy e.dz
                  != cornerAlpha b colorX e.ux e.uy e.uz)).length
      ∧ (extractCrossings E b colorX x y z).length ≤ EDGES_PER_CUBE
      ∧ ((middle x b.size = false ∨ middle y b.size = false ∨ middle z b.size = false) →
          (extractCrossings E b colorX x y z).length ≤ 4)
      ∧ (((middle x b.size = false ∧ middle y b.size = false)
            ∨ (middle x b.size = false ∧ middle z b.size = false)
            ∨ (middle y b.size = false ∧ middle z b.size = false)) →
          (extractCrossings E b colorX x y z).length ≤ 1)
      ∧ ((middle x b.size = false ∧ middle y b.size = false ∧ middle z b.size = false) →
          (extractCrossings E b colorX x y z).length = 0)
      ∧ ((sampleAlphas b colorX x y z).uniform = true →
          (extractCrossings E b colorX x y z).length = 0) := by
  have hlen : (extractCrossings E b colorX x y z).length
      = (cellEdges.filter (edgeCrosses b colorX x y z)).length := by
    rw [extractCrossings_eq_spec, List.length_map, crossedEdges]
  have hle : (cellEdges.filter (edgeCrosses b colorX x y z)).length
      ≤ (cellEdges.filter (fun e => cornerSampled b x y z e.ux e.uy e.uz)).length := by
    refine (List.monotone_filter_right _ (fun e he => ?_)).length_le
    unfold edgeCrosses at he
    simp only [Bool.and_eq_true] at he
    exact he.1
  rw [sampled_edges_count] at hle
  refine ⟨?_, ?_, ?_, ?_, ?_, ?_⟩
  · rw [hlen]
    congr 1
    refine List.filter_congr (fun e he => ?_)
    obtain ⟨h1, h2, h3, -⟩ := cellEdges_bounds e he
    unfold edgeCrosses
    cases hu : cornerSampled b x y z e.ux e.uy e.uz
    · simp
    · rw [cornerSampled_mono b x y z _ _ _ _ _ _ h1 h2 h3 hu]
      simp
  · rw [hlen]
    refine le_trans hle ?_
    unfold EDGES_PER_CUBE
    split_ifs <;> omega
  · rintro (h | h | h) <;> rw [hlen] <;> rw [h] at hle <;> refine le_trans hle ?_ <;>
      simp only [Bool.false_eq_true, if_false] <;> split_ifs <;> omega
  · rintro (⟨h, h2⟩ | ⟨h, h2⟩ | ⟨h, h2⟩) <;> rw [hlen] <;> rw [h, h2] at hle <;>
      refine le_trans hle ?_ <;> simp only [Bool.false_eq_true, if_false] <;> split_ifs <;> omega
  · rintro ⟨h, h2, h3⟩
    rw [hlen]
    rw [h, h2, h3] at hle
    simpa using hle
  · intro hu
    obtain ⟨c, hc⟩ := corners_of_uniform b colorX x y z hu
    rw [hlen, List.length_eq_zero, List.filter_eq_nil_iff]
    intro e he
    obtain ⟨h1, h2, h3, h4, h5, h6, -⟩ := cellEdges_bounds e he
    unfold edgeCrosses
    cases hs : cornerSampled b x y z e.ux e.uy e.uz
    · simp
    · have hl := cornerSampled_mono b x y z _ _ _ _ _ _ h1 h2 h3 hs
      rw [hc _ _ _ h4 h5 h6 hs, hc _ _ _ (by omega) (by omega) (by omega) hl]
      simp


/-! ### The winding of a quad -/

/-- The entries that a quad appends do not depend on the entries before them. -/
theorem stitchQuad_append [FloorRing K] (vertices : List (VoxelPoint K)) (indices : List Nat)
    (alpha0 : Nat) (index first second third : NormalIndex) (r : List Nat)
    (h : stitchQuad vertices indices alpha0 index first second third = Except.ok r) :
    ∃ quad, r = indices ++ quad
      ∧ stitchQuad vertices [] alpha0 index first second third = Except.ok quad := by
  obtain ⟨own, fv, tv, c0, c1, c2, c3, hown, hfv, htv, hr, h0, h1, h2, h3⟩ :=
    stitchQuad_spec vertices indices alpha0 index first second third r h
  refine ⟨[c0, c1, c2, c3], hr, ?_⟩
  unfold stitchQuad
  rw [hown, hfv, htv]
  by_cases ha : alpha0 = 0
  · simp only [ha, if_true] at h0 h1 h2 h3 ⊢
    simp only [bind, Except.bind, h0, h1, h2, h3]
    rfl
  · simp only [ha, if_false] at h0 h1 h2 h3 ⊢
    simp only [bind, Except.bind, h0, h1, h2, h3]
    rfl

theorem cellIndex_first (E : Externals K) (b : Block) (x y z : Nat) :
    (cellIndex E b x y z).indices.getD 0 0 = vertexBase E b x y z := by
  unfold cellIndex MAX_NORMALS_PER_VERTEX
  simp [List.range_succ_eq_map]

/-- A quad stitched from the `NormalIndex` values of the cells around an edge is the quad
of the specification. -/
theorem stitchQuad_eq_winding [FloorRing K] (E : Externals K) (b : Block) (x y z axis : Nat)
    (alpha0 : Nat) (vertices : List (VoxelPoint K)) (f0 f1 f2 : Nat × Nat × Nat)
    (hf : forwardCells x y z axis = [f0, f1, f2]) :
    stitchQuad vertices [] alpha0 (cellIndex E b x y z) (cellIndex E b f0.1 f0.2.1 f0.2.2)
        (cellIndex E b f1.1 f1.2.1 f1.2.2) (cellIndex E b f2.1 f2.2.1 f2.2.2)
      = windingQuad E b x y z axis alpha0 vertices := by
  unfold stitchQuad windingQuad windingNormal windingCells
  rw [hf]
  simp only [cellIndex_first, List.getD_cons_zero, List.getD_cons_succ]
  cases vertexAt vertices (vertexBase E b x y z) with
  | error e => rfl
  | ok own =>
    cases vertexAt vertices (vertexBase E b f0.1 f0.2.1 f0.2.2) with
    | error e => rfl
    | ok fv =>
      cases vertexAt vertices (vertexBase E b f2.1 f2.2.1 f2.2.2) with
      | error e => rfl
      | ok tv =>
        by_cases ha : alpha0 = 0
        · simp only [ha, if_true, bind, Except.bind, pure, Except.pure, List.reverse_cons,
            List.reverse_nil, List.nil_append, List.cons_append, List.mapM_cons, List.mapM_nil]
          generalize (cellIndex E b f2.1 f2.2.1 f2.2.2).getClosestIndex _ vertices = r2
          generalize (cellIndex E b f1.1 f1.2.1 f1.2.2).getClosestIndex _ vertices = r1
          generalize (cellIndex E b f0.1 f0.2.1 f0.2.2).getClosestIndex _ vertices = r0
          generalize (cellIndex E b x y z).getClosestIndex _ vertices = r
          cases r2 <;> cases r1 <;> cases r0 <;> cases r <;> rfl
        · simp only [ha, if_false, bind, Except.bind, pure, Except.pure, List.nil_append,
            List.cons_append, List.mapM_cons, List.mapM_nil]
          generalize (cellIndex E b f2.1 f2.2.1 f2.2.2).getClosestIndex _ vertices = r2
          generalize (cellIndex E b f1.1 f1.2.1 f1.2.2).getClosestIndex _ vertices = r1
          generalize (cellIndex E b f0.1 f0.2.1 f0.2.2).getClosestIndex _ vertices = r0
          generalize (cellIndex E b x y z).getClosestIndex _ vertices = r
          cases r2 <;> cases r1 <;> cases r0 <;> cases r <;> rfl

/-- The quads that lines 1766-1844 append for a cell: along each stitched axis, the quad
stitched from the entries that the cell reads in the rolling caches. -/
theorem stitchCell_quads [FloorRing K] (b : Block) (x y z : Nat) (a : Alphas)
    (index : NormalIndex) (s s1 : ScanState K)
    (h : stitchCell b x y z a index s = Except.ok s1) :
    ∃ qx qy qz, s1.indices = s.indices ++ (if 0 ∈ a.stitched x y z then qx else [])
          ++ (if 1 ∈ a.stitched x y z then qy else [])
          ++ (if 2 ∈ a.stitched x y z then qz else [])
      ∧ (0 ∈ a.stitched x y z →
          stitchQuad s.vertices [] a.alpha0 index (s.lastLineIndices.getD x NormalIndex.zero)
            (s.lastPlaneIndices.getD ((y - 1) * b.expanded + x) NormalIndex.zero)
            (s.lastPlaneIndices.getD (y * b.expanded + x) NormalIndex.zero) = Except.ok qx)
      ∧ (1 ∈ a.stitched x y z → ∃ index1, s.lastIndex = some index1
          ∧ stitchQuad s.vertices [] a.alpha0 index
            (s.lastPlaneIndices.getD (y * b.expanded + x) NormalIndex.zero)
            (s.lastPlaneIndices.getD (y * b.expanded + x - 1) NormalIndex.zero) index1
              = Except.ok qy)
      ∧ (2 ∈ a.stitched x y z → ∃ index1, s.lastIndex = some index1
          ∧ stitchQuad s.vertices [] a.alpha0 index index1
            (s.lastLineIndices.getD (x - 1) NormalIndex.zero)
            (s.lastLineIndices.getD x NormalIndex.zero) = Except.ok qz) := by
  obtain ⟨m0, m1, m2⟩ := mem_stitched a x y z
  by_cases hc : (x != 0 && y != 0 && z != 0) = true
  swap
  · have n0 : ¬ 0 ∈ a.stitched x y z := fun h => hc (m0.1 h).1
    have n1 : ¬ 1 ∈ a.stitched x y z := fun h => hc (m1.1 h).1
    have n2 : ¬ 2 ∈ a.stitched x y z := fun h => hc (m2.1 h).1
    unfold stitchCell at h
    simp only [hc] at h
    cases h
    exact ⟨[], [], [], by simp, fun h => absurd h n0, fun h => absurd h n1,
      fun h => absurd h n2⟩
  have k0 : (0 ∈ a.stitched x y z) = ((a.alpha0 != a.alpha1) = true) :=
    propext ⟨fun h => (m0.1 h).2, fun h => m0.2 ⟨hc, h⟩⟩
  have k1 : (1 ∈ a.stitched x y z) = ((a.alpha0 != a.alpha2) = true) :=
    propext ⟨fun h => (m1.1 h).2, fun h => m1.2 ⟨hc, h⟩⟩
  have k2 : (2 ∈ a.stitched x y z) = ((a.alpha0 != a.alpha4) = true) :=
    propext ⟨fun h => (m2.1 h).2, fun h => m2.2 ⟨hc, h⟩⟩
  simp only [k0, k1, k2]
  unfold stitchCell at h
  simp only [hc, if_true] at h
  obtain ⟨t1, h1, h⟩ := except_bind_eq_ok _ _ _ h
  obtain ⟨t2, h2, h3⟩ := except_bind_eq_ok _ _ _ h
  -- the block along x
  have bx : ∃ qx, t1.indices = s.indices ++ (if (a.alpha0 != a.alpha1) = true then qx else [])
      ∧ t1.vertices = s.vertices ∧ t1.lastIndex = s.lastIndex
      ∧ t1.lastLineIndices = s.lastLineIndices ∧ t1.lastPlaneIndices = s.lastPlaneIndices
      ∧ ((a.alpha0 != a.alpha1) = true →
          stitchQuad s.vertices [] a.alpha0 index (s.lastLineIndices.getD x NormalIndex.zero)
            (s.lastPlaneIndices.getD ((y - 1) * b.expanded + x) NormalIndex.zero)
            (s.lastPlaneIndices.getD (y * b.expanded + x) NormalIndex.zero) = Except.ok qx) := by
    by_cases f : (a.alpha0 != a.alpha1) = true
    · simp only [f, if_true] at h1 ⊢
      obtain ⟨r, hr, h1⟩ := except_bind_eq_ok _ _ _ h1
      obtain ⟨quad, e, hq⟩ := stitchQuad_append _ _ _ _ _ _ _ r hr
      cases h1
      exact ⟨quad, e, rfl, rfl, rfl, rfl, fun _ => hq⟩
    · simp only [f] at h1 ⊢
      cases h1
      exact ⟨[], by simp, rfl, rfl, rfl, rfl, fun h => by cases h⟩
  obtain ⟨qx, i1, v1, l1, ll1, lp1, hqx⟩ := bx
  -- the block along y
  have by2 : ∃ qy, t2.indices = t1.indices ++ (if (a.alpha0 != a.alpha2) = true then qy else [])
      ∧ t2.vertices = t1.vertices ∧ t2.lastIndex = t1.lastIndex
      ∧ t2.lastLineIndices = t1.lastLineIndices ∧ t2.lastPlaneIndices = t1.lastPlaneIndices
      ∧ ((a.alpha0 != a.alpha2) = true → ∃ index1, t1.lastIndex = some index1
          ∧ stitchQuad t1.vertices [] a.alpha0 index
            (t1.lastPlaneIndices.getD (y * b.expanded + x) NormalIndex.zero)
            (t1.lastPlaneIndices.getD (y * b.expanded + x - 1) NormalIndex.zero) index1
              = Except.ok qy) := by
    by_cases f : (a.alpha0 != a.alpha2) = true
    · simp only [f, if_true] at h2 ⊢
      obtain ⟨index1, hl, h2⟩ := except_bind_eq_ok _ _ _ h2
      obtain ⟨r, hr, h2⟩ := except_bind_eq_ok _ _ _ h2
      obtain ⟨quad, e, hq⟩ := stitchQuad_append _ _ _ _ _ _ _ r hr
      cases h2
      refine ⟨quad, e, rfl, rfl, rfl, rfl, fun _ => ⟨index1, ?_, hq⟩⟩
      unfold readLastIndex at hl
      cases hlast : t1.lastIndex with
      | none => rw [hlast] at hl; cases hl
      | some v => rw [hlast] at hl; cases hl; rfl
    · simp only [f] at h2 ⊢
      cases h2
      exact ⟨[], by simp, rfl, rfl, rfl, rfl, fun h => by cases h⟩
  obtain ⟨qy, i2, v2, l2, ll2, lp2, hqy⟩ := by2
  -- the block along z
  have bz : ∃ qz, s1.indices = t2.indices ++ (if (a.alpha0 != a.alpha4) = true then qz else [])
      ∧ ((a.alpha0 != a.alpha4) = true → ∃ index1, t2.lastIndex = some index1
          ∧ stitchQuad t2.vertices [] a.alpha0 index index1
            (t2.lastLineIndices.getD (x - 1) NormalIndex.zero)
            (t2.lastLineIndices.getD x NormalIndex.zero) = Except.ok qz) := by
    by_cases f : (a.alpha0 != a.alpha4) = true
    · simp only [f, if_true] at h3 ⊢
      obtain ⟨index1, hl, h3⟩ := except_bind_eq_ok _ _ _ h3
      obtain ⟨r, hr, h3⟩ := except_bind_eq_ok _ _ _ h3
      obtain ⟨quad, e, hq⟩ := stitchQuad_append _ _ _ _ _ _ _ r hr
      cases h3
      refine ⟨quad, e, fun _ => ⟨index1, ?_, hq⟩⟩
      unfold readLastIndex at hl
      cases hlast : t2.lastIndex with
      | none => rw [hlast] at hl; cases hl
      | some v => rw [hlast] at hl; cases hl; rfl
    · simp only [f] at h3 ⊢
      cases h3
      exact ⟨[], by simp, fun h => by cases h⟩
  obtain ⟨qz, i3, hqz⟩ := bz
  rw [v1, l1, lp1] at hqy
  rw [v2, v1, l2, l1, ll2, ll1] at hqz
  exact ⟨qx, qy, qz, by rw [i3, i2, i1], hqx, hqy, hqz⟩

/-- The quads of a cell of the pass: along each stitched axis, the four corners resolved
for the cells of `windingCells` against the reference normal. -/
theorem cell_quads_winding [FloorRing K] (E : Externals K) (b : Block)
    (info : MetavoxelInfo K) (H : ClustersBounded E b) (x y z : Nat)
    (bx : x < b.expanded) (by1 : y < b.expanded) (bz : z < b.expanded) :
    ∃ s s1 quads, stateBefore E b info x y z = Except.ok s
      ∧ visitCell E b info x y z s = Except.ok s1
      ∧ s1.indices = s.indices ++ quads.flatten
      ∧ List.Forall₂ (fun axis quad =>
          windingQuad E b x y z axis (alphaOf (b.colorAt (colorBase b x y z) 0)) s1.vertices
            = Except.ok quad) (stitchedAxes b (colorBase b x y z) x y z) quads := by
  obtain ⟨s, hs, inv⟩ := stateBefore_inv E b info H x y z (by omega) by1 bz
  have hcx := inv.colorX
  by_cases hsk : cellSkipped b x y z = true
  · obtain ⟨h1, _, hi⟩ := cell_step_skipped E b info x y z s inv hsk
    refine ⟨s, _, [], hs, h1, by simp [hi], ?_⟩
    have : stitchedAxes b (colorBase b x y z) x y z = [] := by
      rw [← stitched_eq_spec]
      exact stitched_of_uniform b _ x y z hsk
    rw [this]
    exact List.Forall₂.nil
  have hsk2 : cellSkipped b x y z = false := by simpa using hsk
  obtain ⟨s1, _, h1, -, -, -⟩ := cell_step E b info x y z s inv bx by1 bz H
  have hu : (sampleAlphas b s.colorX x y z).uniform = false := by
    rw [hcx]
    exact hsk2
  obtain ⟨hn, hc, s2, hs2, e1⟩ := visitCell_nonuniform E b info x y z s s1 hu h1
  obtain ⟨hindex, -⟩ := emitVertices_spec s.vertices
    (cellPoint E b info x y z (extractCrossings E b s.colorX x y z)
      (clusterNormals E (extractCrossings E b s.colorX x y z)))
    (clusterNormals E (extractCrossings E b s.colorX x y z)) hn
  have hidx : (emitVertices s.vertices
      (cellPoint E b info x y z (extractCrossings E b s.colorX x y z)
        (clusterNormals E (extractCrossings E b s.colorX x y z)))
      (clusterNormals E (extractCrossings E b s.colorX x y z))).1 = cellIndex E b x y z := by
    rw [hindex, inv.vertices, hcx]
    rfl
  have hstitched : (sampleAlphas b s.colorX x y z).stitched x y z
      = stitchedAxes b (colorBase b x y z) x y z := by
    rw [stitched_eq_spec, hcx]
  have halpha : (sampleAlphas b s.colorX x y z).alpha0
      = alphaOf (b.colorAt (colorBase b x y z) 0) := by
    rw [hcx]
    rfl
  rw [hidx] at hs2
  obtain ⟨qx, qy, qz, hi2, Qx, Qy, Qz⟩ := stitchCell_quads b x y z _ _ _ s2 hs2
  obtain ⟨-, -, v2, -⟩ := stitchCell_spec b x y z _ _ _ s2 hs2
  rw [hstitched] at hi2 Qx Qy Qz
  rw [halpha] at Qx Qy Qz
  have reads := fun axis h => neighbour_reads E b x y z axis s inv bx by1 bz h
  obtain ⟨ai, -, av, -⟩ := advanceX_fields x
    { s2 with
      lastIndex := some (emitVertices s.vertices
        (cellPoint E b info x y z (extractCrossings E b s.colorX x y z)
          (clusterNormals E (extractCrossings E b s.colorX x y z)))
        (clusterNormals E (extractCrossings E b s.colorX x y z))).1
      lineIndices := s2.lineIndices.set x (emitVertices s.vertices
        (cellPoint E b info x y z (extractCrossings E b s.colorX x y z)
          (clusterNormals E (extractCrossings E b s.colorX x y z)))
        (clusterNormals E (extractCrossings E b s.colorX x y z))).1
      planeIndices := s2.planeIndices.set (y * b.expanded + x) (emitVertices s.vertices
        (cellPoint E b info x y z (extractCrossings E b s.colorX x y z)
          (clusterNormals E (extractCrossings E b s.colorX x y z)))
        (clusterNormals E (extractCrossings E b s.colorX x y z))).1 }
  rw [← e1] at ai av
  have hv1 : s1.vertices = (emitVertices s.vertices
      (cellPoint E b info x y z (extractCrossings E b s.colorX x y z)
        (clusterNormals E (extractCrossings E b s.colorX x y z)))
      (clusterNormals E (extractCrossings E b s.colorX x y z))).2 := by
    rw [av]
    exact v2
  rw [← hv1] at Qx Qy Qz
  refine ⟨s, s1, (if 0 ∈ stitchedAxes b (colorBase b x y z) x y z then [qx] else [])
        ++ (if 1 ∈ stitchedAxes b (colorBase b x y z) x y z then [qy] else [])
        ++ (if 2 ∈ stitchedAxes b (colorBase b x y z) x y z then [qz] else []),
      hs, h1, ?_, ?_⟩
  · rw [ai]
    show s2.indices = _
    rw [hi2]
    by_cases h0 : 0 ∈ stitchedAxes b (colorBase b x y z) x y z <;>
      by_cases h1 : 1 ∈ stitchedAxes b (colorBase b x y z) x y z <;>
      by_cases h2 : 2 ∈ stitchedAxes b (colorBase b x y z) x y z <;>
      simp [h0, h1, h2]
  · refine forall₂_stitched _ _ _ _ _ (stitchedAxes_append b (colorBase b x y z) x y z)
      qx qy qz (fun h => ?_) (fun h => ?_) (fun h => ?_)
    · have r := reads 0 h
      simp only [cacheReads, edgeCells, if_true, List.map_cons, List.map_nil,
        List.cons.injEq, and_true] at r
      obtain ⟨r1, r2, r3⟩ := r
      have q := Qx h
      rw [show ({ s with
          vertices := (emitVertices s.vertices
            (cellPoint E b info x y z (extractCrossings E b s.colorX x y z)
              (clusterNormals E (extractCrossings E b s.colorX x y z)))
            (clusterNormals E (extractCrossings E b s.colorX x y z))).2
          hermiteSegments := s.hermiteSegments
            ++ (if E.displayHermite then
                  (extractCrossings E b s.colorX x y z).flatMap (hermiteSegment b info x y z)
                else []) } : ScanState K).lastLineIndices = s.lastLineIndices from rfl,
        show ({ s with
          vertices := (emitVertices s.vertices
            (cellPoint E b info x y z (extractCrossings E b s.colorX x y z)
              (clusterNormals E (extractCrossings E b s.colorX x y z)))
            (clusterNormals E (extractCrossings E b s.colorX x y z))).2
          hermiteSegments := s.hermiteSegments
            ++ (if E.displayHermite then
                  (extractCrossings E b s.colorX x y z).flatMap (hermiteSegment b info x y z)
                else []) } : ScanState K).lastPlaneIndices = s.lastPlaneIndices from rfl,
        getD_of_get? _ _ _ _ r1, getD_of_get? _ _ _ _ r2, getD_of_get? _ _ _ _ r3] at q
      rw [← stitchQuad_eq_winding E b x y z 0 _ _ (x, y - 1, z) (x, y - 1, z - 1)
        (x, y, z - 1) (by simp [forwardCells])]
      exact q
    · have r := reads 1 h
      rw [cacheReads, if_neg (by decide), if_pos rfl, edgeCells, if_neg (by decide),
        if_pos rfl] at r
      simp only [List.map_cons, List.map_nil, List.cons.injEq, and_true] at r
      obtain ⟨r1, r2, r3⟩ := r
      obtain ⟨index1, hl, q⟩ := Qy h
      have hl2 : index1 = cellIndex E b (x - 1) y z := by
        have e : s.lastIndex = some index1 := hl
        rw [r1] at e
        exact (Option.some.inj e).symm
      rw [show ({ s with
          vertices := (emitVertices s.vertices
            (cellPoint E b info x y z (extractCrossings E b s.colorX x y z)
              (clusterNormals E (extractCrossings E b s.colorX x y z)))
            (clusterNormals E (extractCrossings E b s.colorX x y z))).2
          hermiteSegments := s.hermiteSegments
            ++ (if E.displayHermite then
                  (extractCrossings E b s.colorX x y z).flatMap (hermiteSegment b info x y z)
                else []) } : ScanState K).lastPlaneIndices = s.lastPlaneIndices from rfl,
        getD_of_get? _ _ _ _ r2, getD_of_get? _ _ _ _ r3, hl2] at q
      rw [← stitchQuad_eq_winding E b x y z 1 _ _ (x, y, z - 1) (x - 1, y, z - 1)
        (x - 1, y, z) (by simp [forwardCells])]
      exact q
    · have r := reads 2 h
      rw [cacheReads, if_neg (by decide), if_neg (by decide), edgeCells, if_neg (by decide),
        if_neg (by decide)] at r
      simp only [List.map_cons, List.map_nil, List.cons.injEq, and_true] at r
      obtain ⟨r1, r2, r3⟩ := r
      obtain ⟨index1, hl, q⟩ := Qz h
      have hl2 : index1 = cellIndex E b (x - 1) y z := by
        have e : s.lastIndex = some index1 := hl
        rw [r1] at e
        exact (Option.some.inj e).symm
      rw [show ({ s with
          vertices := (emitVertices s.vertices
            (cellPoint E b info x y z (extractCrossings E b s.colorX x y z)
              (clusterNormals E (extractCrossings E b s.colorX x y z)))
            (clusterNormals E (extractCrossings E b s.colorX x y z))).2
          hermiteSegments := s.hermiteSegments
            ++ (if E.displayHermite then
                  (extractCrossings E b s.colorX x y z).flatMap (hermiteSegment b info x y z)
                else []) } : ScanState K).lastLineIndices = s.lastLineIndices from rfl,
        getD_of_get? _ _ _ _ r2, getD_of_get? _ _ _ _ r3, hl2] at q
      rw [← stitchQuad_eq_winding E b x y z 2 _ _ (x - 1, y, z) (x - 1, y - 1, z)
        (x, y - 1, z) (by simp [forwardCells])]
      exact q

/-- C23. Along each axis the winding of a stitched quad is decided by whether the alpha of
corner 0 of the cell is zero. On a block whose cells have between one and four clusters
the pass processes every cell, and the quads that the cell appends are, along each stitched
axis, the four corners resolved for the cells of `windingCells` against the reference
normal: the three other cells around the edge in the order of the source when `alpha0` is
not zero, the same three cells in the reverse order and the normal negated when `alpha0`
is zero, and the cell itself as the fourth corner in both cases. Along x the three cells
are `(x, y, z - 1), (x, y - 1, z - 1), (x, y - 1, z)` when `alpha0` is zero and
`(x, y - 1, z), (x, y - 1, z - 1), (x, y, z - 1)` otherwise. -/
theorem quad_winding_by_corner_alpha [FloorRing K] (E : Externals K) (b : Block)
    (info : MetavoxelInfo K) (H : ClustersBounded E b) (x y z : Nat)
    (bx : x < b.expanded) (by1 : y < b.expanded) (bz : z < b.expanded) :
    (∃ s s1 quads, stateBefore E b info x y z = Except.ok s
        ∧ visitCell E b info x y z s = Except.ok s1
        ∧ s1.indices = s.indices ++ quads.flatten
        ∧ List.Forall₂ (fun axis quad =>
            windingQuad E b x y z axis (alphaOf (b.colorAt (colorBase b x y z) 0)) s1.vertices
              = Except.ok quad) (stitchedAxes b (colorBase b x y z) x y z) quads)
      ∧ (∀ axis alpha0, alpha0 ≠ 0 →
          windingCells x y z axis 0
            = ((windingCells x y z axis alpha0).take 3).reverse ++ [(x, y, z)])
      ∧ windingCells x y z 0 0 = [(x, y, z - 1), (x, y - 1, z - 1), (x, y - 1, z), (x, y, z)]
      ∧ (∀ alpha0, alpha0 ≠ 0 →
          windingCells x y z 0 alpha0
            = [(x, y - 1, z), (x, y - 1, z - 1), (x, y, z - 1), (x, y, z)]) := by
  refine ⟨cell_quads_winding E b info H x y z bx by1 bz, ?_,
    by simp [windingCells, forwardCells], ?_⟩
  · intro axis alpha0 ha
    unfold windingCells forwardCells
    simp only [ha, if_false, if_true]
    split_ifs <;> rfl
  · intro alpha0 ha
    simp [windingCells, forwardCells, ha]

theorem quad_winding_by_corner_alpha_witness :
    ClustersBounded rationalExternals (singleSolidBlock 0)
      ∧ ∃ s s1 quads,
          stateBefore rationalExternals (singleSolidBlock 0) unitInfo 1 1 1 = Except.ok s
          ∧ visitCell rationalExternals (singleSolidBlock 0) unitInfo 1 1 1 s = Except.ok s1
          ∧ s1.indices = s.indices ++ quads.flatten
          ∧ List.Forall₂ (fun axis quad =>
              windingQuad rationalExternals (singleSolidBlock 0) 1 1 1 axis
                (alphaOf ((singleSolidBlock 0).colorAt (colorBase (singleSolidBlock 0) 1 1 1) 0))
                s1.vertices = Except.ok quad)
              (stitchedAxes (singleSolidBlock 0) (colorBase (singleSolidBlock 0) 1 1 1) 1 1 1)
              quads :=
  ⟨singleSolidBlock_clusters,
    (quad_winding_by_corner_alpha rationalExternals (singleSolidBlock 0) unitInfo
      singleSolidBlock_clusters 1 1 1 (by decide) (by decide) (by decide)).1⟩


/-! ### The vertices and the `NormalIndex` of a cell -/

/-- The vertices appended for a cell with between one and four clusters: the vertex of the
cell with the normal of each cluster in turn. -/
theorem emitVertices_map [FloorRing K] (vertices : List (VoxelPoint K)) (point : VoxelPoint K)
    (normals : List (Vec3 K)) (h1 : 1 ≤ normals.length)
    (h4 : normals.length ≤ MAX_NORMALS_PER_VERTEX)
    (hp : point.setNormal (normals.getD 0 Vec3.zero) = point) :
    (emitVertices vertices point normals).2
      = vertices ++ normals.map (fun normal => point.setNormal normal) := by
  unfold MAX_NORMALS_PER_VERTEX at h4
  match normals, h1, h4, hp with
  | [n0], _, _, hp =>
    simp only [List.getD_cons_zero] at hp
    simp [emitVertices, List.range', hp]
  | [n0, n1], _, _, hp =>
    simp only [List.getD_cons_zero] at hp
    simp [emitVertices, List.range', hp]
  | [n0, n1, n2], _, _, hp =>
    simp only [List.getD_cons_zero] at hp
    simp [emitVertices, List.range', hp]
  | [n0, n1, n2, n3], _, _, hp =>
    simp only [List.getD_cons_zero] at hp
    simp [emitVertices, List.range', hp]

theorem colorSums_le (crossings : List (EdgeCrossing K)) :
    (colorSums crossings).1 ≤ 255 * crossings.length
      ∧ (colorSums crossings).2.1 ≤ 255 * crossings.length
      ∧ (colorSums crossings).2.2 ≤ 255 * crossings.length := by
  have hgen : ∀ (cs : List (EdgeCrossing K)) (start : Nat × Nat × Nat),
      (cs.foldl (fun sums crossing =>
        (sums.1 + qRed crossing.color, sums.2.1 + qGreen crossing.color,
          sums.2.2 + qBlue crossing.color)) start).1 ≤ start.1 + 255 * cs.length
      ∧ (cs.foldl (fun sums crossing =>
        (sums.1 + qRed crossing.color, sums.2.1 + qGreen crossing.color,
          sums.2.2 + qBlue crossing.color)) start).2.1 ≤ start.2.1 + 255 * cs.length
      ∧ (cs.foldl (fun sums crossing =>
        (sums.1 + qRed crossing.color, sums.2.1 + qGreen crossing.color,
          sums.2.2 + qBlue crossing.color)) start).2.2 ≤ start.2.2 + 255 * cs.length := by
    intro cs
    induction cs with
    | nil => intro start; simp
    | cons c rest ih =>
      intro start
      have h := ih (start.1 + qRed c.color, start.2.1 + qGreen c.color,
        start.2.2 + qBlue c.color)
      have r : qRed c.color ≤ 255 := by unfold qRed; omega
      have g : qGreen c.color ≤ 255 := by unfold qGreen; omega
      have bl : qBlue c.color ≤ 255 := by unfold qBlue; omega
      simp only [List.foldl_cons, List.length_cons]
      dsimp only at h
      refine ⟨by omega, by omega, by omega⟩
  have h := hgen crossings (0, 0, 0)
  unfold colorSums
  simpa using h

/-- The colour of the vertex of a cell: each channel is the sum of the channel over the
crossings divided by their number, rounded down, and fits in a byte. -/
theorem cellPoint_color [FloorRing K] (E : Externals K) (b : Block) (info : MetavoxelInfo K)
    (x y z : Nat) (crossings : List (EdgeCrossing K)) (normals : List (Vec3 K)) :
    (cellPoint E b info x y z crossings normals).color
        = [(colorSums crossings).1 / crossings.length,
            (colorSums crossings).2.1 / crossings.length,
            (colorSums crossings).2.2 / crossings.length]
      ∧ ∀ channel ∈ (cellPoint E b info x y z crossings normals).color, channel ≤ 255 := by
  obtain ⟨hr, hg, hb⟩ := colorSums_le crossings
  have dr : (colorSums crossings).1 / crossings.length ≤ 255 :=
    Nat.div_le_of_le_mul (by rw [Nat.mul_comm]; exact hr)
  have dg : (colorSums crossings).2.1 / crossings.length ≤ 255 :=
    Nat.div_le_of_le_mul (by rw [Nat.mul_comm]; exact hg)
  have db : (colorSums crossings).2.2 / crossings.length ≤ 255 :=
    Nat.div_le_of_le_mul (by rw [Nat.mul_comm]; exact hb)
  have e : (cellPoint E b info x y z crossings normals).color
      = [(colorSums crossings).1 / crossings.length,
          (colorSums crossings).2.1 / crossings.length,
          (colorSums crossings).2.2 / crossings.length] := by
    unfold cellPoint
    simp only []
    rw [Nat.mod_eq_of_lt (by omega), Nat.mod_eq_of_lt (by omega), Nat.mod_eq_of_lt (by omega)]
  refine ⟨e, ?_⟩
  rw [e]
  intro channel hc
  simp only [List.mem_cons, List.mem_singleton, List.not_mem_nil, or_false] at hc
  rcases hc with h | h | h <;> rw [h] <;> assumption


/-- A cell that is not skipped and is processed appends the vertex built for the cell
once for each normal cluster, with the normal of the cluster set by `setNormal`, and keeps
its `NormalIndex` in `lastIndex`, `lineIndices[x]` and `planeIndices[y * expanded + x]`. -/
theorem cell_vertices_appended [FloorRing K] (E : Externals K) (b : Block)
    (info : MetavoxelInfo K) :
    (∀ x y z (s s1 : ScanState K) crossings normals point,
        visitCell E b info x y z s = Except.ok s1 →
        (sampleAlphas b s.colorX x y z).uniform = false →
        crossings = extractCrossings E b s.colorX x y z →
        normals = clusterNormals E crossings →
        point = cellPoint E b info x y z crossings normals →
        1 ≤ normals.length ∧ normals.length ≤ MAX_NORMALS_PER_VERTEX
          ∧ s1.vertices = s.vertices ++ normals.map (fun normal => point.setNormal normal)
          ∧ (∀ normal, (point.setNormal normal).vertex = point.vertex
              ∧ (point.setNormal normal).color = point.color
              ∧ (point.setNormal normal).materials = point.materials
              ∧ (point.setNormal normal).materialWeights = point.materialWeights
              ∧ (point.setNormal normal).normal = packNormal normal)
          ∧ point.color = [(colorSums crossings).1 / crossings.length,
              (colorSums crossings).2.1 / crossings.length,
              (colorSums crossings).2.2 / crossings.length]
          ∧ (∀ channel ∈ point.color, channel ≤ 255)
          ∧ s1.lastIndex = some ⟨(List.range MAX_NORMALS_PER_VERTEX).map (fun i =>
              s.vertices.length + (if i < normals.length then i else 0))⟩
          ∧ s1.lineIndices = s.lineIndices.set x ⟨(List.range MAX_NORMALS_PER_VERTEX).map
              (fun i => s.vertices.length + (if i < normals.length then i else 0))⟩
          ∧ s1.planeIndices = s.planeIndices.set (y * b.expanded + x)
              ⟨(List.range MAX_NORMALS_PER_VERTEX).map
                (fun i => s.vertices.length + (if i < normals.length then i else 0))⟩)
      ∧ (ClustersBounded E b →
          ∀ x y z, x < b.expanded → y < b.expanded → z < b.expanded →
            ∃ s s1, stateBefore E b info x y z = Except.ok s
              ∧ visitCell E b info x y z s = Except.ok s1
              ∧ s.colorX = colorBase b x y z
              ∧ s.vertices.length = vertexBase E b x y z) := by
  constructor
  · intro x y z s s1 crossings normals point h hu hcross hnormals hpoint
    obtain ⟨hn, hc, s2, hs2, e1⟩ := visitCell_nonuniform E b info x y z s s1 hu h
    rw [← hcross] at hn hc hs2 e1
    rw [← hnormals] at hn hs2 e1
    rw [← hpoint] at hs2 e1
    have h1 : 1 ≤ normals.length := by
      rw [hnormals]
      exact (clusterNormals_length E crossings).2 (fun e => hc (by rw [e]; rfl))
    have hp : point.setNormal (normals.getD 0 Vec3.zero) = point := by
      rw [hpoint]
      rfl
    have hvert := emitVertices_map s.vertices point normals h1 hn hp
    obtain ⟨hindex, -⟩ := emitVertices_spec s.vertices point normals hn
    obtain ⟨-, -, v2, -, li2, -, pi2, -⟩ := stitchCell_spec b x y z _ _ _ s2 hs2
    obtain ⟨-, -, av, -, al, ali, -, api, -⟩ := advanceX_fields x
      { s2 with
        lastIndex := some (emitVertices s.vertices point normals).1
        lineIndices := s2.lineIndices.set x (emitVertices s.vertices point normals).1
        planeIndices := s2.planeIndices.set (y * b.expanded + x)
          (emitVertices s.vertices point normals).1 }
    rw [← e1] at av al ali api
    obtain ⟨hcolor, hbound⟩ := cellPoint_color E b info x y z crossings normals
    rw [← hpoint] at hcolor hbound
    refine ⟨h1, hn, ?_, fun normal => ⟨rfl, rfl, rfl, rfl, rfl⟩, hcolor, hbound, ?_, ?_, ?_⟩
    · rw [av]
      show s2.vertices = _
      rw [v2]
      exact hvert
    · rw [al, ← hindex]
    · rw [ali, ← hindex]
      show s2.lineIndices.set x _ = _
      rw [li2]
    · rw [api, ← hindex]
      show s2.planeIndices.set _ _ = _
      rw [pi2]
  · intro H x y z bx by1 bz
    obtain ⟨s, hs, inv⟩ := stateBefore_inv E b info H x y z (by omega) by1 bz
    obtain ⟨s1, _, h1, _⟩ := cell_step E b info x y z s inv bx by1 bz H
    exact ⟨s, s1, hs, h1, inv.colorX, inv.vertices⟩


/-! ### The cells that a pass without a fault goes through -/

/-- A loop that succeeds has succeeded at each of its steps. -/
theorem foldlM_range_reaches {σ : Type} (f : σ → Nat → Except Fault σ) (n : Nat) (s0 s1 : σ)
    (h : (List.range n).foldlM f s0 = Except.ok s1) (i : Nat) (hi : i < n) :
    ∃ t t1, (List.range i).foldlM f s0 = Except.ok t ∧ f t i = Except.ok t1 := by
  induction n generalizing s1 with
  | zero => omega
  | succ n ih =>
    rw [List.range_succ, List.foldlM_append] at h
    obtain ⟨t, ht, h2⟩ := except_bind_eq_ok _ _ _ h
    rcases Nat.lt_succ_iff_lt_or_eq.1 hi with hlt | heq
    · exact ih t ht hlt
    · subst heq
      simp only [List.foldlM, bind, Except.bind, pure, Except.pure] at h2
      cases hf : f t i with
      | error e => rw [hf] at h2; cases h2
      | ok t1 => exact ⟨t, t1, ht, hf⟩

/-- A pass that ends without a fault has reached every cell and processed it without a
fault. -/
theorem visit_reaches_cells [FloorRing K] (E : Externals K) (b : Block)
    (info : MetavoxelInfo K) (s : ScanState K) (h : visit E b info = Except.ok s)
    (x y z : Nat) (bx : x < b.expanded) (by1 : y < b.expanded) (bz : z < b.expanded) :
    ∃ t t1, stateBefore E b info x y z = Except.ok t
      ∧ visitCell E b info x y z t = Except.ok t1 := by
  obtain ⟨p, p1, hp, hp1⟩ := foldlM_range_reaches (visitPlane E b info) b.expanded _ s h z bz
  rw [visitPlane_eq] at hp1
  obtain ⟨pl, hpl, -⟩ := except_bind_eq_ok _ _ _ hp1
  obtain ⟨l, l1, hl, hl1⟩ := foldlM_range_reaches (visitLine E b info z) b.expanded _ pl hpl
    y by1
  rw [visitLine_eq] at hl1
  obtain ⟨ln, hln, -⟩ := except_bind_eq_ok _ _ _ hl1
  obtain ⟨t, t1, ht, ht1⟩ := foldlM_range_reaches (fun st x => visitCell E b info x y z st)
    b.expanded _ ln hln x bx
  refine ⟨t, t1, ?_, ht1⟩
  unfold stateBefore
  exact except_bind_ok_of _ _ _ _ hp (except_bind_ok_of _ _ _ _ hl ht)

/-- The colour pointers stand at the cell in every state in which the pass reaches a
cell. -/
theorem stateBefore_pointers [FloorRing K] (E : Externals K) (b : Block)
    (info : MetavoxelInfo K) (x y z : Nat) (s : ScanState K)
    (h : stateBefore E b info x y z = Except.ok s) : SegmentInv E b info x y z s := by
  unfold stateBefore at h
  obtain ⟨p, hp, h⟩ := except_bind_eq_ok _ _ _ h
  obtain ⟨l, hl, h⟩ := except_bind_eq_ok _ _ _ h
  have pinv := foldlM_range_invariant (visitPlane E b info)
    (fun z s => SegmentInv E b info 0 0 z (lineStart (planeStart s))) z
    (fun i _ s s1 hinv h => segment_plane_step E b info i s s1 hinv h) _ p hp
    ⟨by simp [lineStart, planeStart, initialState, colorBase, clamped],
      by simp [lineStart, planeStart, initialState, colorBase, clamped],
      by simp [lineStart, planeStart, initialState, colorBase, clamped],
      by simp [lineStart, planeStart, initialState, segmentsBefore, flatBelow_zero]⟩
  have linv := foldlM_range_invariant (visitLine E b info z)
    (fun y s => SegmentInv E b info 0 y z (lineStart s)) y
    (fun i _ s s1 hinv h => segment_line_step E b info i z s s1 hinv h) _ l hl pinv
  exact foldlM_range_invariant (fun st x => visitCell E b info x y z st)
    (fun x s => SegmentInv E b info x y z s) x
    (fun i _ s s1 hinv h => segment_step E b info i y z s s1 hinv h) _ s h linv

/-- A pass that ends without a fault ran on a block whose cells have between one and four
normal clusters. -/
theorem clusters_of_visit [FloorRing K] (E : Externals K) (b : Block) (info : MetavoxelInfo K)
    (s : ScanState K) (h : visit E b info = Except.ok s) : ClustersBounded E b := by
  intro x bx y by1 z bz hsk
  obtain ⟨t, t1, ht, ht1⟩ := visit_reaches_cells E b info s h x y z bx by1 bz
  have hcx := (stateBefore_pointers E b info x y z t ht).colorX
  have hu : (sampleAlphas b t.colorX x y z).uniform = false := by
    rw [hcx]
    exact hsk
  obtain ⟨hn, hc, -⟩ := visitCell_nonuniform E b info x y z t t1 hu ht1
  rw [hcx] at hn hc
  refine ⟨?_, hn⟩
  exact (clusterNormals_length E _).2 (fun e => hc (by unfold cellCrossings at e; rw [e]; rfl))


/-! ### The reads of the ray query in the buffer of a pass -/

/-- C29. In the buffer of a pass that ends without a fault the index count is a multiple of
four, every value of the corner multimap is a multiple of four with its three successors
below the index count, and every entry of the index array is below the vertex count; so the
reads `indices[v + k]`, `k < 4`, and the reads of the vertices they name, which the ray
query makes for a value `v` of the multimap, are all in bounds. -/
theorem multimap_values_address_quads [FloorRing K] (E : Externals K) (b : Block)
    (info : MetavoxelInfo K) (s : ScanState K) (h : visit E b info = Except.ok s) :
    s.indices.length % 4 = 0
      ∧ (∀ item ∈ s.quadIndices, item.2 % 4 = 0 ∧ item.2 + 3 < s.indices.length)
      ∧ (∀ i ∈ s.indices, i < s.vertices.length)
      ∧ ∀ item ∈ s.quadIndices, ∀ k, k < 4 →
          ∃ index vertex, s.indices.get? (item.2 + k) = some index
            ∧ s.vertices.get? index = some vertex
            ∧ (s.toBuffer b.size).corner item.2 k = Except.ok vertex.vertex := by
  have hinv := visit_invariant E b info
    (fun s => s.indices.length % 4 = 0 ∧ s.quadIndices.length = s.indices.length
      ∧ ∀ item ∈ s.quadIndices, item.2 % 4 = 0 ∧ item.2 + 4 ≤ s.indices.length)
    (fun s t _ hi hq _ hs => by
      show t.indices.length % 4 = 0 ∧ t.quadIndices.length = t.indices.length
        ∧ ∀ item ∈ t.quadIndices, item.2 % 4 = 0 ∧ item.2 + 4 ≤ t.indices.length
      rw [← hi, ← hq]
      exact hs)
    (fun x y z s s1 hs hcell => by
      obtain ⟨hi, hq⟩ := visitCell_quads E b info x y z s s1 hcell
      obtain ⟨p1, p2, p3⟩ := hs
      refine ⟨by rw [hi]; omega, ?_, ?_⟩
      · rw [hq, hi, List.length_append, quadRegistrations_length, p2]
      · intro item hitem
        rw [hq] at hitem
        rcases List.mem_append.1 hitem with hold | hnew
        · have := p3 item hold
          rw [hi]
          omega
        · obtain ⟨k, hk, e⟩ := quadRegistrations_offsets _ _ _ _ _ _ hnew
          rw [hi, e]
          omega)
    (by simp [initialState]) s h
  have hvalid : ∀ i ∈ s.indices, i < s.vertices.length := by
    have H := clusters_of_visit E b info s h
    obtain ⟨t, ht, inv⟩ := planes_total E b info H b.expanded (le_refl _)
    have e : t = s := by
      unfold visit at h
      rw [ht] at h
      exact Except.ok.inj h
    rw [e] at inv
    exact inv.indices
  have hitems : ∀ item ∈ s.quadIndices, item.2 % 4 = 0 ∧ item.2 + 3 < s.indices.length := by
    intro item hitem
    have := hinv.2.2 item hitem
    exact ⟨this.1, by omega⟩
  refine ⟨hinv.1, hitems, hvalid, ?_⟩
  intro item hitem k hk
  have hlt : item.2 + k < s.indices.length := by
    have := (hitems item hitem).2
    omega
  have hget : s.indices.get? (item.2 + k) = some (s.indices.get ⟨item.2 + k, hlt⟩) :=
    List.get?_eq_get hlt
  have hmem : s.indices.get ⟨item.2 + k, hlt⟩ ∈ s.indices := List.get_mem _ _ _
  have hv := hvalid _ hmem
  have hvget : s.vertices.get? (s.indices.get ⟨item.2 + k, hlt⟩)
      = some (s.vertices.get ⟨s.indices.get ⟨item.2 + k, hlt⟩, hv⟩) := List.get?_eq_get hv
  refine ⟨_, _, hget, hvget, ?_⟩
  unfold VoxelBuffer.corner ScanState.toBuffer
  simp only [hget, hvget]
  rfl

theorem multimap_values_address_quads_witness :
    ∃ s, visit rationalExternals (singleSolidBlock 0) unitInfo = Except.ok s
      ∧ s.indices.length % 4 = 0 ∧ ∀ i ∈ s.indices, i < s.vertices.length := by
  obtain ⟨s, hs⟩ := ok_of_faultOf_none _ singleSolidBlock_visit
  have h := multimap_values_address_quads rationalExternals (singleSolidBlock 0) unitInfo s hs
  exact ⟨s, hs, h.1, h.2.2.1⟩


/-! ### The reads of the grids -/

theorem grid_index_lt (size a c d : Nat) (ha : a < size) (hc : c < size) (hd : d < size) :
    d * (size * size) + c * size + a < size ^ 3 := by
  have h1 : c * size + a < size * size := by
    calc c * size + a < c * size + size := by omega
      _ = (c + 1) * size := by ring
      _ ≤ size * size := Nat.mul_le_mul_right _ hc
  calc d * (size * size) + c * size + a < d * (size * size) + size * size := by omega
    _ = (d + 1) * (size * size) := by ring
    _ ≤ size * (size * size) := Nat.mul_le_mul_right _ hd
    _ = size ^ 3 := by ring

/-- The index of a sampled corner of a cell in the colour grid is below `size ^ 3`. -/
theorem sampled_corner_lt (b : Block) (x y z dx dy dz : Nat) (hsize : 1 ≤ b.size)
    (bx : x < b.expanded) (by1 : y < b.expanded) (bz : z < b.expanded)
    (hdx : dx ≤ 1) (hdy : dy ≤ 1) (hdz : dz ≤ 1)
    (h : cornerSampled b x y z dx dy dz = true) :
    colorBase b x y z + cornerOffset b dx dy dz < b.size ^ 3 := by
  unfold cornerSampled at h
  simp only [Bool.and_eq_true] at h
  unfold Block.expanded at bx by1 bz
  have px := sampled_index x b.size dx (by omega) hsize hdx h.1.1
  have py := sampled_index y b.size dy (by omega) hsize hdy h.1.2
  have pz := sampled_index z b.size dz (by omega) hsize hdz h.2
  have e : colorBase b x y z + cornerOffset b dx dy dz
      = (clamped z + dz) * (b.size * b.size) + (clamped y + dy) * b.size + (clamped x + dx) := by
    unfold colorBase cornerOffset Block.area
    ring
  rw [e]
  exact grid_index_lt b.size _ _ _ px py pz

/-- The Hermite slot of a sampled edge of a cell is below `size ^ 3 * EDGE_COUNT`. -/
theorem sampled_edge_lt (EDGE_COUNT : Nat) (b : Block) (x y z : Nat) (e : CellEdge)
    (hsize : 1 ≤ b.size) (hhermite : b.hermiteSize = b.size) (hedges : 3 ≤ EDGE_COUNT)
    (bx : x < b.expanded) (by1 : y < b.expanded) (bz : z < b.expanded)
    (he : e ∈ cellEdges) (h : cornerSampled b x y z e.ux e.uy e.uz = true) :
    specHermiteIndex EDGE_COUNT b x y z e < b.size ^ 3 * EDGE_COUNT := by
  obtain ⟨h1, h2, h3, h4, h5, h6, h7⟩ := cellEdges_bounds e he
  have hl := cornerSampled_mono b x y z _ _ _ _ _ _ h1 h2 h3 h
  have hlt := sampled_corner_lt b x y z e.dx e.dy e.dz hsize bx by1 bz (by omega) (by omega)
    (by omega) hl
  have e1 : specHermiteIndex EDGE_COUNT b x y z e
      = (colorBase b x y z + cornerOffset b e.dx e.dy e.dz) * EDGE_COUNT + e.axis := by
    unfold specHermiteIndex colorBase cornerOffset Block.hermiteArea Block.hermiteStride
      Block.area clamped
    rw [hhermite]
    ring
  rw [e1]
  calc (colorBase b x y z + cornerOffset b e.dx e.dy e.dz) * EDGE_COUNT + e.axis
      < (colorBase b x y z + cornerOffset b e.dx e.dy e.dz) * EDGE_COUNT + EDGE_COUNT := by
        omega
    _ = (colorBase b x y z + cornerOffset b e.dx e.dy e.dz + 1) * EDGE_COUNT := by ring
    _ ≤ b.size ^ 3 * EDGE_COUNT := Nat.mul_le_mul_right _ hlt


/-- C28. On a block of `size >= 1` whose colour grid has `size ^ 3` entries, whose material
grid, when there is one, has `size ^ 3` entries and whose Hermite grid has
`size ^ 3 * EDGE_COUNT` entries, at every cell `(x, y, z)` of the lattice: the colour
pointer with which the pass reaches the cell, after processed and skipped cells alike, is
the grid index `max (z - 1, 0) * size ^ 2 + max (y - 1, 0) * size + max (x - 1, 0)`, which
is also the base of the material reads and, times `EDGE_COUNT`, of the Hermite reads; every
sampled corner has its colour and material index inside the grid and takes an offset of one
along an axis only when the cell is a middle cell on that axis; every sampled edge has its
Hermite slot inside the grid; and the alphas and the crossings of the cell do not depend on
what lies outside the three grids. A pass that ends without a fault has reached the cell. -/
theorem grid_reads_in_bounds [FloorRing K] (E : Externals K) (b : Block)
    (info : MetavoxelInfo K) (hsize : 1 ≤ b.size)
    (hcolor : b.colorContents.length = b.size ^ 3)
    (hmaterial : ∀ contents, b.materialContents = some contents → contents.length = b.size ^ 3)
    (hhermite : b.hermiteSize = b.size)
    (hwords : b.hermiteContents.length = b.size ^ 3 * E.EDGE_COUNT)
    (hedges : 3 ≤ E.EDGE_COUNT)
    (x y z : Nat) (bx : x < b.expanded) (by1 : y < b.expanded) (bz : z < b.expanded) :
    (∀ s, stateBefore E b info x y z = Except.ok s → s.colorX = colorBase b x y z)
      ∧ (∀ s, visit E b info = Except.ok s →
          ∃ t, stateBefore E b info x y z = Except.ok t ∧ t.colorX = colorBase b x y z)
      ∧ colorBase b x y z = max (z - 1) 0 * b.size ^ 2 + max (y - 1) 0 * b.size + max (x - 1) 0
      ∧ materialBase b x y z = colorBase b x y z
      ∧ hermiteBase E.EDGE_COUNT b x y z = colorBase b x y z * E.EDGE_COUNT
      ∧ (∀ dx dy dz, dx ≤ 1 → dy ≤ 1 → dz ≤ 1 → cornerSampled b x y z dx dy dz = true →
          colorBase b x y z + cornerOffset b dx dy dz < b.colorContents.length
            ∧ (∀ contents, b.materialContents = some contents →
                materialBase b x y z + cornerOffset b dx dy dz < contents.length)
            ∧ (dx = 1 → middle x b.size = true) ∧ (dy = 1 → middle y b.size = true)
            ∧ (dz = 1 → middle z b.size = true))
      ∧ (∀ e ∈ cellEdges, cornerSampled b x y z e.ux e.uy e.uz = true →
          specHermiteIndex E.EDGE_COUNT b x y z e < b.hermiteContents.length)
      ∧ (∀ B : Block, B.size = b.size → B.hermiteSize = b.hermiteSize →
          (∀ i, i < b.size ^ 3 → B.colorContents.getD i 0 = b.colorContents.getD i 0) →
          (∀ i, i < b.size ^ 3 → B.materialAt 0 i = b.materialAt 0 i) →
          (∀ i, i < b.size ^ 3 * E.EDGE_COUNT →
            B.hermiteContents.getD i 0 = b.hermiteContents.getD i 0) →
          sampleAlphas B (colorBase b x y z) x y z = sampleAlphas b (colorBase b x y z) x y z
            ∧ extractCrossings E B (colorBase b x y z) x y z
                = extractCrossings E b (colorBase b x y z) x y z) := by
  refine ⟨fun s hs => (stateBefore_pointers E b info x y z s hs).colorX, ?_, ?_, rfl, ?_, ?_,
    ?_, ?_⟩
  · intro s hs
    obtain ⟨t, t1, ht, -⟩ := visit_reaches_cells E b info s hs x y z bx by1 bz
    exact ⟨t, ht, (stateBefore_pointers E b info x y z t ht).colorX⟩
  · unfold colorBase clamped Block.area
    ring
  · unfold hermiteBase colorBase Block.hermiteArea Block.hermiteStride Block.area
    rw [hhermite]
    ring
  · intro dx dy dz hdx hdy hdz h
    have hlt := sampled_corner_lt b x y z dx dy dz hsize bx by1 bz hdx hdy hdz h
    refine ⟨by rw [hcolor]; exact hlt, fun contents hc => ?_, ?_, ?_, ?_⟩
    · rw [hmaterial contents hc]
      exact hlt
    all_goals
      intro e
      subst e
      unfold cornerSampled at h
      simp only [Bool.and_eq_true, Bool.or_eq_true, beq_iff_eq, one_ne_zero, false_or] at h
      first | exact h.1.1 | exact h.1.2 | exact h.2
  · intro e he h
    rw [hwords]
    exact sampled_edge_lt E.EDGE_COUNT b x y z e hsize hhermite hedges bx by1 bz he h
  · intro B hs hh hc hm hw
    have hflags : ∀ dx dy dz, cornerSampled B x y z dx dy dz = cornerSampled b x y z dx dy dz := by
      intro dx dy dz
      unfold cornerSampled
      rw [hs]
    have hoff : ∀ dx dy dz, cornerOffset B dx dy dz = cornerOffset b dx dy dz := by
      intro dx dy dz
      unfold cornerOffset Block.area
      rw [hs]
    have hcol : ∀ dx dy dz, dx ≤ 1 → dy ≤ 1 → dz ≤ 1 → cornerSampled B x y z dx dy dz = true →
        B.colorAt (colorBase b x y z) (cornerOffset B dx dy dz)
          = b.colorAt (colorBase b x y z) (cornerOffset b dx dy dz) := by
      intro dx dy dz hdx hdy hdz h
      rw [hflags] at h
      rw [hoff]
      unfold Block.colorAt
      exact hc _ (sampled_corner_lt b x y z dx dy dz hsize bx by1 bz hdx hdy hdz h)
    refine ⟨sampleAlphas_congr B b _ _ x y z x y z (by rw [hs]) (by rw [hs]) (by rw [hs]) hcol,
      crossings_congr E B b _ _ x y z x y z hflags hcol ?_ ?_⟩
    · intro dx dy dz hdx hdy hdz h
      rw [hflags] at h
      rw [hoff, materialAt_shift B, materialAt_shift b]
      have e : materialBase B x y z = materialBase b x y z := by
        unfold materialBase Block.area
        rw [hs]
      rw [e]
      exact hm _ (sampled_corner_lt b x y z dx dy dz hsize bx by1 bz hdx hdy hdz h)
    · intro e he h
      rw [hflags] at h
      have e1 : specHermiteIndex E.EDGE_COUNT B x y z e = specHermiteIndex E.EDGE_COUNT b x y z e := by
        unfold specHermiteIndex Block.hermiteArea Block.hermiteStride
        rw [hh]
      rw [e1]
      exact hw _ (sampled_edge_lt E.EDGE_COUNT b x y z e hsize hhermite hedges bx by1 bz he h)

theorem grid_reads_in_bounds_witness :
    ∃ s, stateBefore rationalExternals (singleSolidBlock 0) unitInfo 1 1 1 = Except.ok s
      ∧ s.colorX = colorBase (singleSolidBlock 0) 1 1 1 := by
  obtain ⟨s, _, hs, _⟩ := singleSolidBlock_run
  exact ⟨s, hs,
    (grid_reads_in_bounds rationalExternals (singleSolidBlock 0) unitInfo (by decide)
      (by decide) (fun contents h => by cases h) rfl (by decide) (by decide) 1 1 1
      (by decide) (by decide) (by decide)).1 s hs⟩


/-! ### The cells of the ray march -/

theorem axisMove_step (max cell moved : Int) (minimumDistance distance direction : Flt K)
    (h : axisMove max cell minimumDistance distance direction = some moved) :
    moved = cell + axisStep minimumDistance distance direction
      ∧ (0 ≤ cell → cell ≤ max → 0 ≤ moved ∧ moved ≤ max) := by
  unfold axisMove at h
  unfold axisStep
  split_ifs at h ⊢ <;> simp only [Option.some.injEq, reduceCtorEq] at h <;> subst h <;>
    refine ⟨by ring, fun h0 h1 => by omega⟩

/-- A pass of the loop that does not return moves each coordinate by its step. -/
theorem marchMove_next (size : Nat) (direction : Vec3 (Flt K)) (s t : MarchState K)
    (h : marchMove size direction s = MarchStep.next t) :
    (t.x = s.x + axisStep
        (Flt.qMin (axisDistance s.x s.position.x direction.x)
          (Flt.qMin (axisDistance s.y s.position.y direction.y)
            (axisDistance s.z s.position.z direction.z)))
        (axisDistance s.x s.position.x direction.x) direction.x
      ∧ t.y = s.y + axisStep
        (Flt.qMin (axisDistance s.x s.position.x direction.x)
          (Flt.qMin (axisDistance s.y s.position.y direction.y)
            (axisDistance s.z s.position.z direction.z)))
        (axisDistance s.y s.position.y direction.y) direction.y
      ∧ t.z = s.z + axisStep
        (Flt.qMin (axisDistance s.x s.position.x direction.x)
          (Flt.qMin (axisDistance s.y s.position.y direction.y)
            (axisDistance s.z s.position.z direction.z)))
        (axisDistance s.z s.position.z direction.z) direction.z)
      ∧ ((0 ≤ s.x ∧ s.x ≤ (size : Int) - 2 ∧ 0 ≤ s.y ∧ s.y ≤ (size : Int) - 2
          ∧ 0 ≤ s.z ∧ s.z ≤ (size : Int) - 2) →
        (0 ≤ t.x ∧ t.x ≤ (size : Int) - 2 ∧ 0 ≤ t.y ∧ t.y ≤ (size : Int) - 2
          ∧ 0 ≤ t.z ∧ t.z ≤ (size : Int) - 2)) := by
  unfold marchMove at h
  simp only [] at h
  cases hx : axisMove ((size : Int) - 2) s.x
      (Flt.qMin (axisDistance s.x s.position.x direction.x)
        (Flt.qMin (axisDistance s.y s.position.y direction.y)
          (axisDistance s.z s.position.z direction.z)))
      (axisDistance s.x s.position.x direction.x) direction.x with
  | none => rw [hx] at h; cases h
  | some x1 =>
    rw [hx] at h
    simp only [] at h
    cases hy : axisMove ((size : Int) - 2) s.y
        (Flt.qMin (axisDistance s.x s.position.x direction.x)
          (Flt.qMin (axisDistance s.y s.position.y direction.y)
            (axisDistance s.z s.position.z direction.z)))
        (axisDistance s.y s.position.y direction.y) direction.y with
    | none => rw [hy] at h; cases h
    | some y1 =>
      rw [hy] at h
      simp only [] at h
      cases hz : axisMove ((size : Int) - 2) s.z
          (Flt.qMin (axisDistance s.x s.position.x direction.x)
            (Flt.qMin (axisDistance s.y s.position.y direction.y)
              (axisDistance s.z s.position.z direction.z)))
          (axisDistance s.z s.position.z direction.z) direction.z with
      | none => rw [hz] at h; cases h
      | some z1 =>
        rw [hz] at h
        simp only [MarchStep.next.injEq] at h
        subst h
        obtain ⟨ex, bx⟩ := axisMove_step _ _ _ _ _ _ hx
        obtain ⟨ey, by1⟩ := axisMove_step _ _ _ _ _ _ hy
        obtain ⟨ez, bz⟩ := axisMove_step _ _ _ _ _ _ hz
        refine ⟨⟨ex, ey, ez⟩, fun hb => ?_⟩
        obtain ⟨a1, a2, a3, a4, a5, a6⟩ := hb
        exact ⟨(bx a1 a2).1, (bx a1 a2).2, (by1 a3 a4).1, (by1 a3 a4).2, (bz a5 a6).1,
          (bz a5 a6).2⟩

theorem marchStep_next (test : TriangleTest K) (buffer : VoxelBuffer K)
    (origin direction : Vec3 (Flt K)) (s t : MarchState K)
    (h : marchStep test buffer origin direction s = MarchStep.next t) :
    marchMove buffer.size direction s = MarchStep.next t := by
  unfold marchStep at h
  cases hq : testQuads test buffer origin direction (buffer.visited (cellKey s)) with
  | error e => rw [hq] at h; cases h
  | ok r =>
    rw [hq] at h
    cases r with
    | none => exact h
    | some d => cases h

theorem round_of_range (v : K) (h0 : -Flt.FLT_MAX ≤ v) (h1 : v ≤ Flt.FLT_MAX) :
    Flt.round v = Flt.finite v := by
  unfold Flt.round
  rw [if_neg (not_lt.2 h1), if_neg (not_lt.2 h0)]

/-- The march starts in a cell of the buffer when the entry point lies in the unit cube. -/
theorem marchStart_in_buffer [FloorRing K] (buffer : VoxelBuffer K) (entry : Vec3 K)
    (hsize : 2 ≤ buffer.size) (hint : buffer.size < 2 ^ 31) (hentry : entry.InUnitCube) :
    0 ≤ (marchStart buffer ⟨Flt.finite entry.x, Flt.finite entry.y, Flt.finite entry.z⟩).x
      ∧ (marchStart buffer ⟨Flt.finite entry.x, Flt.finite entry.y, Flt.finite entry.z⟩).x
          ≤ (buffer.size : Int) - 2
      ∧ 0 ≤ (marchStart buffer ⟨Flt.finite entry.x, Flt.finite entry.y, Flt.finite entry.z⟩).y
      ∧ (marchStart buffer ⟨Flt.finite entry.x, Flt.finite entry.y, Flt.finite entry.z⟩).y
          ≤ (buffer.size : Int) - 2
      ∧ 0 ≤ (marchStart buffer ⟨Flt.finite entry.x, Flt.finite entry.y, Flt.finite entry.z⟩).z
      ∧ (marchStart buffer ⟨Flt.finite entry.x, Flt.finite entry.y, Flt.finite entry.z⟩).z
          ≤ (buffer.size : Int) - 2 := by
  obtain ⟨⟨x0, x1⟩, ⟨y0, y1⟩, ⟨z0, z1⟩⟩ := hentry
  have hs : (2 : K) ≤ (buffer.size : K) := by exact_mod_cast hsize
  have hi : (buffer.size : K) ≤ 2 ^ 31 := by exact_mod_cast hint.le
  have hmax : (2 : K) ^ 31 ≤ Flt.FLT_MAX := by
    unfold Flt.FLT_MAX
    norm_num
  have hpos : (0 : K) ≤ Flt.FLT_MAX := le_trans (by norm_num) hmax
  have hhighest : Flt.sub (Flt.finite (buffer.size : K)) (Flt.finite 1)
      = Flt.finite ((buffer.size : K) + -1) := by
    simp only [Flt.sub, Flt.neg, Flt.add]
    exact round_of_range _ (by linarith) (by linarith)
  have hmul : ∀ e : K, 0 ≤ e → e ≤ 1 →
      Flt.mul (Flt.finite e) (Flt.finite ((buffer.size : K) + -1))
        = Flt.finite (e * ((buffer.size : K) + -1)) := by
    intro e e0 e1
    have h0 : 0 ≤ e * ((buffer.size : K) + -1) := mul_nonneg e0 (by linarith)
    have h1 : e * ((buffer.size : K) + -1) ≤ (buffer.size : K) + -1 :=
      mul_le_of_le_one_left (by linarith) e1
    simp only [Flt.mul]
    exact round_of_range _ (by linarith) (by linarith)
  have hfloor : ∀ e : K, 0 ≤ e → e ≤ 1 →
      0 ≤ min (Flt.toInt (Flt.finite (e * ((buffer.size : K) + -1)) : Flt K))
            ((buffer.size : Int) - 2)
        ∧ min (Flt.toInt (Flt.finite (e * ((buffer.size : K) + -1)) : Flt K))
            ((buffer.size : Int) - 2) ≤ (buffer.size : Int) - 2 := by
    intro e e0 e1
    have h0 : 0 ≤ e * ((buffer.size : K) + -1) := mul_nonneg e0 (by linarith)
    have hf : 0 ≤ Int.floor (e * ((buffer.size : K) + -1)) := Int.floor_nonneg.2 h0
    have h2 : (0 : Int) ≤ (buffer.size : Int) - 2 := by omega
    exact ⟨le_min hf h2, min_le_right _ _⟩
  unfold marchStart
  simp only [hhighest, hmul _ x0 x1, hmul _ y0 y1, hmul _ z0 z1]
  exact ⟨(hfloor _ x0 x1).1, (hfloor _ x0 x1).2, (hfloor _ y0 y1).1, (hfloor _ y0 y1).2,
    (hfloor _ z0 z1).1, (hfloor _ z0 z1).2⟩

/-- The states of the march stay in the cells of the buffer. -/
theorem marchState_in_buffer (test : TriangleTest K) (buffer : VoxelBuffer K)
    (origin direction : Vec3 (Flt K)) (n : Nat) :
    ∀ s t, marchState test buffer origin direction n s = some t →
      (0 ≤ s.x ∧ s.x ≤ (buffer.size : Int) - 2 ∧ 0 ≤ s.y ∧ s.y ≤ (buffer.size : Int) - 2
        ∧ 0 ≤ s.z ∧ s.z ≤ (buffer.size : Int) - 2) →
      (0 ≤ t.x ∧ t.x ≤ (buffer.size : Int) - 2 ∧ 0 ≤ t.y ∧ t.y ≤ (buffer.size : Int) - 2
        ∧ 0 ≤ t.z ∧ t.z ≤ (buffer.size : Int) - 2) := by
  induction n with
  | zero =>
    intro s t h hs
    simp only [marchState, Option.some.injEq] at h
    rw [← h]
    exact hs
  | succ n ih =>
    intro s t h hs
    rw [marchState] at h
    cases hstep : marchStep test buffer origin direction s with
    | next state =>
      rw [hstep] at h
      exact ih state t h
        ((marchMove_next buffer.size direction s state
          (marchStep_next test buffer origin direction s state hstep)).2 hs)
    | hit d => rw [hstep] at h; cases h
    | miss => rw [hstep] at h; cases h
    | fault f => rw [hstep] at h; cases h

/-- C24 (counterexample). On a buffer of size 4 without quads, the ray that enters at
`(1/2, 1/2, 1/2)` with the direction `(0, 0, 0)` starts in cell `(1, 1, 1)` and its first
march step leads to cell `(0, 0, 0)`: one cell down along each axis, whose distance
`FLT_MAX` is the minimum, although the direction has no sign on any axis. -/
theorem march_moves_down_without_direction :
    marchState (fun _ _ _ _ _ => none) (⟨[], [], [], 4⟩ : VoxelBuffer ℚ)
        ⟨Flt.finite 0, Flt.finite 0, Flt.finite 0⟩ ⟨Flt.finite 0, Flt.finite 0, Flt.finite 0⟩ 0
        (marchStart (⟨[], [], [], 4⟩ : VoxelBuffer ℚ)
          ⟨Flt.finite (1 / 2), Flt.finite (1 / 2), Flt.finite (1 / 2)⟩)
        = some ⟨1, 1, 1, ⟨Flt.finite (3 / 2), Flt.finite (3 / 2), Flt.finite (3 / 2)⟩⟩
      ∧ marchState (fun _ _ _ _ _ => none) (⟨[], [], [], 4⟩ : VoxelBuffer ℚ)
        ⟨Flt.finite 0, Flt.finite 0, Flt.finite 0⟩ ⟨Flt.finite 0, Flt.finite 0, Flt.finite 0⟩ 1
        (marchStart (⟨[], [], [], 4⟩ : VoxelBuffer ℚ)
          ⟨Flt.finite (1 / 2), Flt.finite (1 / 2), Flt.finite (1 / 2)⟩)
        = some ⟨0, 0, 0, ⟨Flt.finite (3 / 2), Flt.finite (3 / 2), Flt.finite (3 / 2)⟩⟩
      ∧ Flt.sign (Flt.finite 0 : Flt ℚ) = 0 := by
  decide!

/-- C24 (amended). With `size >= 2` and the entry point in the unit cube, every cell whose
key the ray query looks up has its three coordinates between `0` and `size - 2`; and each
march step moves, along exactly those axes whose distance to the next cell boundary
compares equal to the minimum of the three distances, by one cell: one cell up when the
direction component is positive and one cell down otherwise, and leaves the other axes
unchanged. An axis whose direction component is zero has the distance `FLT_MAX`. -/
theorem march_moves_along_nearest_axes [FloorRing K] (test : TriangleTest K)
    (buffer : VoxelBuffer K) (entry : Vec3 K) (origin direction : Vec3 (Flt K))
    (hsize : 2 ≤ buffer.size) (hint : buffer.size < 2 ^ 31) (hentry : entry.InUnitCube) :
    (∀ n t, marchState test buffer origin direction n
          (marchStart buffer ⟨Flt.finite entry.x, Flt.finite entry.y, Flt.finite entry.z⟩)
          = some t →
        0 ≤ t.x ∧ t.x ≤ (buffer.size : Int) - 2 ∧ 0 ≤ t.y ∧ t.y ≤ (buffer.size : Int) - 2
          ∧ 0 ≤ t.z ∧ t.z ≤ (buffer.size : Int) - 2)
      ∧ (∀ s t, marchStep test buffer origin direction s = MarchStep.next t →
          t.x = s.x + axisStep
              (Flt.qMin (axisDistance s.x s.position.x direction.x)
                (Flt.qMin (axisDistance s.y s.position.y direction.y)
                  (axisDistance s.z s.position.z direction.z)))
              (axisDistance s.x s.position.x direction.x) direction.x
            ∧ t.y = s.y + axisStep
              (Flt.qMin (axisDistance s.x s.position.x direction.x)
                (Flt.qMin (axisDistance s.y s.position.y direction.y)
                  (axisDistance s.z s.position.z direction.z)))
              (axisDistance s.y s.position.y direction.y) direction.y
            ∧ t.z = s.z + axisStep
              (Flt.qMin (axisDistance s.x s.position.x direction.x)
                (Flt.qMin (axisDistance s.y s.position.y direction.y)
                  (axisDistance s.z s.position.z direction.z)))
              (axisDistance s.z s.position.z direction.z) direction.z)
      ∧ (∀ minimumDistance distance component : Flt K,
          (Flt.eq minimumDistance distance = true → Flt.lt (Flt.finite 0) component = true →
            axisStep minimumDistance distance component = 1)
          ∧ (Flt.eq minimumDistance distance = true →
              Flt.lt (Flt.finite 0) component = false →
              axisStep minimumDistance distance component = -1)
          ∧ (Flt.eq minimumDistance distance = false →
              axisStep minimumDistance distance component = 0))
      ∧ ∀ cell position,
          axisDistance cell position (Flt.finite (0 : K)) = Flt.finite Flt.FLT_MAX := by
  refine ⟨fun n t h => ?_, fun s t h => ?_, fun m d c => ?_, fun cell position => ?_⟩
  · exact marchState_in_buffer test buffer origin direction n _ t h
      (marchStart_in_buffer buffer entry hsize hint hentry)
  · exact (marchMove_next buffer.size direction s t
      (marchStep_next test buffer origin direction s t h)).1
  · unfold axisStep
    refine ⟨fun h1 h2 => by simp [h1, h2], fun h1 h2 => by simp [h1, h2],
      fun h1 => by simp [h1]⟩
  · unfold axisDistance
    simp [Flt.lt]

theorem march_moves_along_nearest_axes_witness :
    (2 ≤ (⟨[], [], [], 4⟩ : VoxelBuffer ℚ).size ∧ (⟨1 / 2, 1 / 2, 1 / 2⟩ : Vec3 ℚ).InUnitCube)
      ∧ ∀ n t, marchState (fun _ _ _ _ _ => none) (⟨[], [], [], 4⟩ : VoxelBuffer ℚ)
          ⟨Flt.finite 0, Flt.finite 0, Flt.finite 0⟩
          ⟨Flt.finite 1, Flt.finite 0, Flt.finite 0⟩ n
          (marchStart (⟨[], [], [], 4⟩ : VoxelBuffer ℚ)
            ⟨Flt.finite (1 / 2), Flt.finite (1 / 2), Flt.finite (1 / 2)⟩) = some t →
        0 ≤ t.x ∧ t.x ≤ 2 ∧ 0 ≤ t.y ∧ t.y ≤ 2 ∧ 0 ≤ t.z ∧ t.z ≤ 2 :=
  ⟨⟨by decide, by norm_num [Vec3.InUnitCube]⟩,
    (march_moves_along_nearest_axes (fun _ _ _ _ _ => none) (⟨[], [], [], 4⟩ : VoxelBuffer ℚ)
      ⟨1 / 2, 1 / 2, 1 / 2⟩ ⟨Flt.finite 0, Flt.finite 0, Flt.finite 0⟩
      ⟨Flt.finite 1, Flt.finite 0, Flt.finite 0⟩ (by decide) (by decide)
      (by norm_num [Vec3.InUnitCube])).1⟩


/-! ### The Givens rotations -/

theorem halfAngle_rotations_result :
    (List.range 4).map (fun row => (List.range 4).map (fun column =>
        givensQR halfAngleExternals ⟨0, 0, 0⟩
          [({ point := ⟨1, 0, 0⟩, normal := ⟨3, 0, 0⟩, color := 0, material := 0,
              hermite := 0 } : EdgeCrossing ℚ),
            { point := ⟨-1 / 4, 0, 0⟩, normal := ⟨4, 0, 0⟩, color := 0, material := 0,
              hermite := 0 }] column row))
      = [[5, 0, 0, 1], [0, 0, 0, 0], [0, 0, 0, 0], [0, 0, 0, 3]] := by
  decide!


theorem checkedInt_eq (value result : Int) (h : checkedInt value = Except.ok result) :
    result = value := by
  unfold checkedInt at h
  split_ifs at h
  exact (Except.ok.inj h).symm

theorem checkedInt64_eq (value result : Int) (h : checkedInt64 value = Except.ok result) :
    result = value := by
  unfold checkedInt64 at h
  split_ifs at h
  exact (Except.ok.inj h).symm

/-- When the loop that clears the expired buckets ends, it has taken the expired buckets
from the head of the list, up to the first bucket that has not expired, and their bytes
from the total. -/
theorem clearExpired_ok (now : Int) (buckets : List (Int × Int)) :
    ∀ total cleared, Throttle.clearExpired now total buckets = Except.ok cleared →
      cleared.2 = buckets.dropWhile (fun bucket => decide (now ≥ bucket.1))
        ∧ cleared.1 + Throttle.bytesHeld buckets
          = total + Throttle.bytesHeld
              (buckets.dropWhile (fun bucket => decide (now ≥ bucket.1))) := by
  induction buckets with
  | nil =>
    intro total cleared h
    simp only [Throttle.clearExpired, Except.ok.injEq] at h
    rw [← h]
    simp
  | cons first rest ih =>
    intro total cleared h
    rw [Throttle.clearExpired] at h
    by_cases hnow : now ≥ first.1
    · rw [if_pos hnow] at h
      obtain ⟨t, ht, h⟩ := except_bind_eq_ok _ _ _ h
      obtain ⟨e1, e2⟩ := ih t cleared h
      have et := checkedInt_eq _ _ ht
      rw [List.dropWhile_cons_of_pos (by simpa using hnow), bytesHeld_cons]
      exact ⟨e1, by omega⟩
    · rw [if_neg hnow] at h
      simp only [Except.ok.injEq] at h
      rw [← h, List.dropWhile_cons_of_neg (by simpa using hnow)]
      exact ⟨rfl, by ring⟩


/-! ### The invariant of the throttle -/

/-- C30 (amended). `shouldThrottle` keeps `_total` equal to the byte count of the buckets
held. From a throttle where that holds, a call that returns has first taken from the head
of the list the buckets whose expiry time is at most `now`, up to the first bucket that has
not expired (all the expired buckets when the buckets are in the order of their expiry
times, an order that a call at a time not before the earlier calls keeps) and subtracted
their bytes; it has returned true and left the
buckets and the total there when the total with `bytes` exceeds the limit, and else it has
appended the bucket of `now + 1000` and `bytes`, added `bytes` to the total and returned
false, the total then being at most the limit. The call does return when the byte counts
are not negative and the sums fit their integer types. -/
theorem shouldThrottle_keeps_total (self : Throttle) (now bytes : Int)
    (hsum : self.total = Throttle.bytesHeld self.buckets) :
    (∀ result after, self.shouldThrottle now bytes = Except.ok (result, after) →
        after.total = Throttle.bytesHeld after.buckets
          ∧ after.limit = self.limit
          ∧ (result = true
              ↔ Throttle.bytesHeld
                  (self.buckets.dropWhile (fun bucket => decide (now ≥ bucket.1)))
                  + bytes > self.limit)
          ∧ (result = true →
              after.buckets = self.buckets.dropWhile (fun bucket => decide (now ≥ bucket.1)))
          ∧ (result = false →
              after.buckets = self.buckets.dropWhile (fun bucket => decide (now ≥ bucket.1))
                  ++ [(now + 1000, bytes)]
                ∧ after.total
                    = Throttle.bytesHeld
                        (self.buckets.dropWhile (fun bucket => decide (now ≥ bucket.1)))
                      + bytes
                ∧ after.total ≤ after.limit)
          ∧ (self.buckets.Pairwise (fun a b => a.1 ≤ b.1) →
              self.buckets.dropWhile (fun bucket => decide (now ≥ bucket.1))
                  = self.buckets.filter (fun bucket => decide (now < bucket.1))
                ∧ ((∀ bucket ∈ self.buckets, bucket.1 ≤ now + 1000) →
                    after.buckets.Pairwise (fun a b => a.1 ≤ b.1))))
      ∧ ((∀ bucket ∈ self.buckets, 0 ≤ bucket.2) → 0 ≤ bytes →
          self.total + bytes ≤ INT_MAX → -2 ^ 63 ≤ now + 1000 ∧ now + 1000 < 2 ^ 63 →
          ∃ result after, self.shouldThrottle now bytes = Except.ok (result, after)
            ∧ ∀ bucket ∈ after.buckets, 0 ≤ bucket.2) := by
  constructor
  · intro result after h
    have hsorted : ∀ (extra : List (Int × Int)),
        self.buckets.Pairwise (fun a b => a.1 ≤ b.1) →
        (∀ bucket ∈ extra, ∀ other ∈ self.buckets, other.1 ≤ bucket.1) →
        extra.Pairwise (fun a b => a.1 ≤ b.1) →
        (self.buckets.dropWhile (fun bucket => decide (now ≥ bucket.1)) ++ extra).Pairwise
          (fun a b => a.1 ≤ b.1) := by
      intro extra hs hx he
      rw [List.pairwise_append]
      exact ⟨hs.sublist (List.dropWhile_sublist _), he,
        fun a ha b hb => hx b hb a ((List.dropWhile_sublist _).subset ha)⟩
    unfold Throttle.shouldThrottle at h
    obtain ⟨cleared, hc, h⟩ := except_bind_eq_ok _ _ _ h
    obtain ⟨sum, hs, h⟩ := except_bind_eq_ok _ _ _ h
    obtain ⟨e1, e2⟩ := clearExpired_ok now self.buckets self.total cleared hc
    have e3 : cleared.1
        = Throttle.bytesHeld (self.buckets.dropWhile (fun bucket => decide (now ≥ bucket.1))) := by
      omega
    have e4 := checkedInt_eq _ _ hs
    rw [e3] at e4
    by_cases hlimit : sum > self.limit
    · rw [if_pos hlimit] at h
      simp only [Except.ok.injEq, Prod.mk.injEq] at h
      obtain ⟨hr, ha⟩ := h
      subst hr
      subst ha
      refine ⟨?_, rfl, ?_, fun _ => e1, (fun h => by cases h), fun hs => ?_⟩
      · show cleared.1 = Throttle.bytesHeld cleared.2
        rw [e1, e3]
      · rw [← e4]
        simp [hlimit]
      · refine ⟨dropWhile_eq_filter_of_sorted now _ hs, fun _ => ?_⟩
        show cleared.2.Pairwise _
        rw [e1]
        simpa using hsorted [] hs (by simp) (by simp)
    · rw [if_neg hlimit] at h
      obtain ⟨expiry, he, h⟩ := except_bind_eq_ok _ _ _ h
      have e5 := checkedInt64_eq _ _ he
      unfold Throttle.BUCKET_DURATION at e5
      simp only [Except.ok.injEq, Prod.mk.injEq] at h
      obtain ⟨hr, ha⟩ := h
      subst hr
      subst ha
      refine ⟨?_, rfl, ?_, (fun h => by cases h), fun _ => ⟨?_, e4, ?_⟩, fun hs => ?_⟩
      · show sum = Throttle.bytesHeld (cleared.2 ++ [(expiry, bytes)])
        rw [bytesHeld_append, bytesHeld_cons, e1, e4]
        simp [Throttle.bytesHeld]
      · rw [← e4]
        simp [hlimit]
      · show cleared.2 ++ [(expiry, bytes)] = _
        rw [e1, e5]
      · show sum ≤ self.limit
        omega
      · refine ⟨dropWhile_eq_filter_of_sorted now _ hs, fun hfresh => ?_⟩
        show (cleared.2 ++ [(expiry, bytes)]).Pairwise _
        rw [e1, e5]
        refine hsorted [(now + 1000, bytes)] hs ?_ (List.pairwise_singleton _ _)
        intro bucket hb other ho
        rw [List.mem_singleton.1 hb]
        exact hfresh other ho
  · intro hpos hbytes hfit hnow
    obtain ⟨result, after, h, -, hp, -⟩ :=
      shouldThrottle_returns self now bytes hsum hpos hbytes hfit hnow
    exact ⟨result, after, h, hp⟩

theorem shouldThrottle_keeps_total_witness :
    ∃ result after,
      Throttle.shouldThrottle ⟨100, 30, [(500, 10), (2000, 20)]⟩ 1000 50
        = Except.ok (result, after)
      ∧ after.total = Throttle.bytesHeld after.buckets
      ∧ after.buckets = [(2000, 20), (2000, 50)] := by
  have hclaim := shouldThrottle_keeps_total ⟨100, 30, [(500, 10), (2000, 20)]⟩ 1000 50 (by decide)
  obtain ⟨result, after, h, -⟩ := hclaim.2 (by decide) (by decide) (by decide) (by decide)
  obtain ⟨h1, -, hr, -, hf, -⟩ := hclaim.1 result after h
  refine ⟨result, after, h, h1, ?_⟩
  have hfalse : result = false := by
    cases result
    · rfl
    · exact absurd (hr.1 rfl) (by decide)
  exact (hf hfalse).1


/-- C30 (counterexample). Three calls on a new throttle, at the times 5000, 1000 and 3000
with 5, 7 and 1 bytes, all return false; the second appends the bucket `(2000, 7)` behind
the bucket `(6000, 5)`, and the third, at the time 3000, stops at the head bucket
`(6000, 5)`, which has not expired, so that the bucket `(2000, 7)`, whose expiry time is
at most `now`, is still held and its 7 bytes are still counted in `_total`. -/
theorem shouldThrottle_keeps_expired_bucket :
    Throttle.shouldThrottle Throttle.new 5000 5
        = Except.ok (false, ⟨INT_MAX, 5, [(6000, 5)]⟩)
      ∧ Throttle.shouldThrottle ⟨INT_MAX, 5, [(6000, 5)]⟩ 1000 7
        = Except.ok (false, ⟨INT_MAX, 12, [(6000, 5), (2000, 7)]⟩)
      ∧ Throttle.shouldThrottle ⟨INT_MAX, 12, [(6000, 5), (2000, 7)]⟩ 3000 1
        = Except.ok (false, ⟨INT_MAX, 13, [(6000, 5), (2000, 7), (4000, 1)]⟩)
      ∧ ((2000, 7) : Int × Int) ∈ [((6000 : Int), (5 : Int)), (2000, 7), (4000, 1)]
      ∧ (2000 : Int) ≤ 3000 := by
  refine ⟨rfl, rfl, rfl, by decide, by decide⟩


/-- The sums of lines 1649-1651 are the sums of the three bytes of the colours of the
crossings. -/
theorem colorSums_eq (crossings : List (EdgeCrossing K)) :
    colorSums crossings
      = ((crossings.map (fun crossing => crossing.color / 2 ^ 16 % 256)).sum,
          (crossings.map (fun crossing => crossing.color / 2 ^ 8 % 256)).sum,
          (crossings.map (fun crossing => crossing.color % 256)).sum) := by
  have hgen : ∀ (cs : List (EdgeCrossing K)) (start : Nat × Nat × Nat),
      cs.foldl (fun sums crossing =>
        (sums.1 + qRed crossing.color, sums.2.1 + qGreen crossing.color,
          sums.2.2 + qBlue crossing.color)) start
      = (start.1 + (cs.map (fun crossing => crossing.color / 2 ^ 16 % 256)).sum,
          start.2.1 + (cs.map (fun crossing => crossing.color / 2 ^ 8 % 256)).sum,
          start.2.2 + (cs.map (fun crossing => crossing.color % 256)).sum) := by
    intro cs
    induction cs with
    | nil => intro start; simp
    | cons c rest ih =>
      intro start
      simp only [List.foldl_cons, List.map_cons, List.sum_cons]
      rw [ih]
      simp only [qRed, qGreen, qBlue, Nat.add_assoc]
  have h := hgen crossings (0, 0, 0)
  unfold colorSums
  simpa using h

/-- C26. A cell that is not skipped and is processed has at least one crossing and between
one and four normal clusters, and with `k` clusters it appends `k` vertices in a row. The
`i`-th of them has the position, the materials and the weights of the vertex built for the
cell, the colour whose three channels are the sums of the red, green and blue bytes of the
colours of the crossings of the cell, each divided by the number of crossings and rounded
down (so at most 255), and the packed normal whose three entries are the components of the
normal of cluster `i` times 127, truncated toward zero: the vertices share position, colour,
materials and weights and differ in the normal only. The `NormalIndex` of the cell, kept
in `lastIndex`, `lineIndices[x]` and `planeIndices[y * expanded + x]`, holds `base + i` in
entry `i` for `i < k` and `base` in the entries from `k` on, `base` being the number of
vertices before the cell. On a block whose cells have between one and four clusters the
pass reaches and processes every cell. -/
theorem cell_vertices_differ_in_normal_only [FloorRing K] (E : Externals K) (b : Block)
    (info : MetavoxelInfo K) :
    (∀ x y z (s s1 : ScanState K) crossings normals,
        visitCell E b info x y z s = Except.ok s1 →
        (sampleAlphas b s.colorX x y z).uniform = false →
        crossings = extractCrossings E b s.colorX x y z →
        normals = clusterNormals E crossings →
        1 ≤ crossings.length
          ∧ 1 ≤ normals.length ∧ normals.length ≤ MAX_NORMALS_PER_VERTEX
          ∧ (∃ appended, s1.vertices = s.vertices ++ appended
              ∧ appended.length = normals.length
              ∧ (∀ i, i < normals.length →
                  ∃ p normal, appended.get? i = some p ∧ normals.get? i = some normal
                    ∧ p.vertex = (cellPoint E b info x y z crossings normals).vertex
                    ∧ p.materials = (cellPoint E b info x y z crossings normals).materials
                    ∧ p.materialWeights
                        = (cellPoint E b info x y z crossings normals).materialWeights
                    ∧ p.color
                        = [(crossings.map (fun crossing => crossing.color / 2 ^ 16 % 256)).sum
                              / crossings.length,
                            (crossings.map (fun crossing => crossing.color / 2 ^ 8 % 256)).sum
                              / crossings.length,
                            (crossings.map (fun crossing => crossing.color % 256)).sum
                              / crossings.length]
                    ∧ (∀ channel ∈ p.color, channel ≤ 255)
                    ∧ p.normal
                        = [if 0 ≤ normal.x * 127 then Int.floor (normal.x * 127)
                              else Int.ceil (normal.x * 127),
                            if 0 ≤ normal.y * 127 then Int.floor (normal.y * 127)
                              else Int.ceil (normal.y * 127),
                            if 0 ≤ normal.z * 127 then Int.floor (normal.z * 127)
                              else Int.ceil (normal.z * 127)])
              ∧ (∀ p ∈ appended, ∀ q ∈ appended, p.vertex = q.vertex ∧ p.color = q.color
                  ∧ p.materials = q.materials ∧ p.materialWeights = q.materialWeights))
          ∧ s1.lastIndex = some ⟨(List.range MAX_NORMALS_PER_VERTEX).map (fun i =>
              s.vertices.length + (if i < normals.length then i else 0))⟩
          ∧ s1.lineIndices = s.lineIndices.set x ⟨(List.range MAX_NORMALS_PER_VERTEX).map
              (fun i => s.vertices.length + (if i < normals.length then i else 0))⟩
          ∧ s1.planeIndices = s.planeIndices.set (y * b.expanded + x)
              ⟨(List.range MAX_NORMALS_PER_VERTEX).map
                (fun i => s.vertices.length + (if i < normals.length then i else 0))⟩)
      ∧ (ClustersBounded E b →
          ∀ x y z, x < b.expanded → y < b.expanded → z < b.expanded →
            ∃ s s1, stateBefore E b info x y z = Except.ok s
              ∧ visitCell E b info x y z s = Except.ok s1
              ∧ s.colorX = colorBase b x y z
              ∧ s.vertices.length = vertexBase E b x y z) := by
  obtain ⟨hcell, hpass⟩ := cell_vertices_appended E b info
  refine ⟨?_, hpass⟩
  intro x y z s s1 crossings normals h hu hcross hnormals
  obtain ⟨h1, hn, hvert, -, hcolor, hbound, hlast, hline, hplane⟩ :=
    hcell x y z s s1 crossings normals _ h hu hcross hnormals rfl
  obtain ⟨-, hc, -⟩ := visitCell_nonuniform E b info x y z s s1 hu h
  rw [← hcross] at hc
  have hcount : 1 ≤ crossings.length := by
    cases crossings with
    | nil => exact absurd rfl hc
    | cons c rest => simp
  rw [colorSums_eq] at hcolor
  refine ⟨hcount, h1, hn, ⟨_, hvert, List.length_map _ _, ?_, ?_⟩, hlast, hline, hplane⟩
  · intro i hi
    refine ⟨(cellPoint E b info x y z crossings normals).setNormal (normals.get ⟨i, hi⟩),
      normals.get ⟨i, hi⟩, ?_, List.get?_eq_get hi, rfl, rfl, rfl, hcolor, hbound, rfl⟩
    rw [List.get?_eq_getElem?, List.getElem?_map, ← List.get?_eq_getElem?, List.get?_eq_get hi]
    rfl
  · intro p hp q hq
    obtain ⟨n1, -, e1⟩ := List.mem_map.1 hp
    obtain ⟨n2, -, e2⟩ := List.mem_map.1 hq
    rw [← e1, ← e2]
    exact ⟨rfl, rfl, rfl, rfl⟩


/-- The vertices appended for a cell: the vertex of the cell, and after it the vertex with
the normal of each further cluster. -/
theorem emitVertices_points [FloorRing K] (vertices : List (VoxelPoint K))
    (point : VoxelPoint K) (normals : List (Vec3 K)) :
    (emitVertices vertices point normals).2
      = vertices ++ point :: (List.range' 1 (normals.length - 1)).map
          (fun i => point.setNormal (normals.getD i Vec3.zero)) := by
  have hgen : ∀ (l : List Nat) (acc : NormalIndex × List (VoxelPoint K)),
      (l.foldl (fun acc i =>
        ((⟨acc.1.indices.set i acc.2.length⟩ : NormalIndex),
          acc.2 ++ [point.setNormal (normals.getD i Vec3.zero)])) acc).2
      = acc.2 ++ l.map (fun i => point.setNormal (normals.getD i Vec3.zero)) := by
    intro l
    induction l with
    | nil => intro acc; simp
    | cons i rest ih =>
      intro acc
      simp only [List.foldl_cons, List.map_cons]
      rw [ih]
      simp
  unfold emitVertices
  rw [hgen]
  simp

/-- The vertices of two cells with the same crossings agree on every attribute on which
the vertices built for the two cells agree and which `setNormal` keeps. -/
theorem cellVertices_map_congr [FloorRing K] {β : Type} (E : Externals K) (A B : Block)
    (infoA infoB : MetavoxelInfo K) (x y z x1 y1 z1 : Nat) (f : VoxelPoint K → β)
    (hskip : cellSkipped A x y z = cellSkipped B x1 y1 z1)
    (hcross : cellCrossings E A x y z = cellCrossings E B x1 y1 z1)
    (hpoint : ∀ crossings normals, f (cellPoint E A infoA x y z crossings normals)
      = f (cellPoint E B infoB x1 y1 z1 crossings normals))
    (hset : ∀ p q normal, f p = f q → f (p.setNormal normal) = f (q.setNormal normal)) :
    (cellVertices E A infoA x y z).map f = (cellVertices E B infoB x1 y1 z1).map f := by
  unfold cellVertices cellNormals
  rw [hskip, hcross]
  split_ifs
  · rfl
  · rw [emitVertices_points, emitVertices_points]
    simp only [List.nil_append, List.map_cons, List.map_map]
    rw [hpoint]
    congr 1
    apply List.map_congr_left
    intro i _
    exact hset _ _ _ (hpoint _ _)

/-- Every vertex of a cell has the position of the vertex built for the cell. -/
theorem cellVertices_position [FloorRing K] (E : Externals K) (b : Block)
    (info : MetavoxelInfo K) (x y z : Nat) (p : VoxelPoint K)
    (hp : p ∈ cellVertices E b info x y z) :
    p.vertex = (cellPoint E b info x y z (cellCrossings E b x y z)
      (clusterNormals E (cellCrossings E b x y z))).vertex := by
  unfold cellVertices cellNormals at hp
  split_ifs at hp
  · cases hp
  · rw [emitVertices_points] at hp
    simp only [List.nil_append, List.mem_cons, List.mem_map] at hp
    rcases hp with e | ⟨i, _, e⟩
    · rw [e]
    · rw [← e]
      rfl

theorem deepFloorBlock_layers : LayersAgree 3 deepFloorBlock deepFloorBlock 0 := by
  unfold LayersAgree
  decide

/-- C19 (counterexample). Two leaves of edge length `0.1f`, the first at the origin and the
second next to it along x, hold the same block of 4x4x4 samples, whose layers 0 and 3 along
x are equal. The cell `(4, 1, 1)` of the first and the cell `(0, 1, 1)` of the second emit
one vertex each, with a centre whose x is 0; in binary32 the scale is `0.1f / 3.0f`, and
the x of the first vertex, `0 + (3 + 0) * scale`, rounds to `13421774 * 2 ^ -27`, while the
x of the second, `0.1f + (0 + 0) * scale`, is `0.1f`, that is `13421773 * 2 ^ -27`: the
world positions differ. -/
theorem boundary_positions_differ_in_binary32 :
    (deepFloorBlock.size = 4 ∧ tenthLeafNext.size = tenthLeaf.size
        ∧ tenthLeafNext.minimum = tenthLeaf.minimum.add ⟨tenthLeaf.size, 0, 0⟩
        ∧ binary32Externals.round (tenthLeaf.minimum.x + tenthLeaf.size)
            = tenthLeafNext.minimum.x
        ∧ LayersAgree binary32Externals.EDGE_COUNT deepFloorBlock deepFloorBlock 0)
      ∧ binary32Externals.round (tenthLeaf.size / 3) = 8947849 / 268435456
      ∧ (solvePosition binary32Externals (cellCrossings binary32Externals deepFloorBlock 4 1 1)).x
          = 0
      ∧ (cellVertices binary32Externals deepFloorBlock tenthLeaf 4 1 1).map
            (fun p => p.vertex.x) = [13421774 / 134217728]
      ∧ (cellVertices binary32Externals deepFloorBlock tenthLeafNext 0 1 1).map
            (fun p => p.vertex.x) = [13421773 / 134217728] := by
  refine ⟨⟨rfl, rfl, by decide!, by decide!, deepFloorBlock_layers⟩, by decide!, by decide!,
    by decide!, by decide!⟩

/-- C19 (amended). A cell on a face of the block reads only the samples of the layer of
the face: its pointers stand at layer `size - 1` (at layer 0 for the coordinate 0) and no
sampled corner has an offset along the axis of the face. So for two blocks `A` and `B` of
the same size (at least 2), with `B` one leaf further along an axis and the last layer of
`A` along that axis equal to the first layer of `B` in the three grids, the cell of `A` at
the coordinate `size` and the cell of `B` at the coordinate 0 (same coordinates `u`, `v` on
the two other axes) are skipped together and emit the same number of vertices, with the
same colours, normals, materials and weights and the same coordinates on the two other
axes. Along the axis the two coordinates come from the same centre and the same scale:
`minimum + ((size - 1) + center) * scale` for `A` and
`(minimum + info.size) + (0 + center) * scale` for `B`, each operation rounded; they are
equal, and so are the vertices, when no operation rounds. -/
theorem boundary_cells_agree [FloorRing K] (E : Externals K) (A B : Block)
    (infoA infoB : MetavoxelInfo K) (u v : Nat) (hsize : B.size = A.size) (h2 : 2 ≤ A.size)
    (hu : u ≤ A.size) (hv : v ≤ A.size) (hinfo : infoB.size = infoA.size) :
    (infoB.minimum = infoA.minimum.add ⟨infoA.size, 0, 0⟩ → LayersAgree E.EDGE_COUNT A B 0 →
        cellSkipped A A.size u v = cellSkipped B 0 u v
          ∧ (cellVertices E A infoA A.size u v).map
              (fun p => (p.vertex.y, p.vertex.z, p.color, p.normal, p.materials,
                p.materialWeights))
            = (cellVertices E B infoB 0 u v).map
              (fun p => (p.vertex.y, p.vertex.z, p.color, p.normal, p.materials,
                p.materialWeights))
          ∧ (∃ center : Vec3 K,
              (∀ p ∈ cellVertices E A infoA A.size u v,
                p.vertex.x = E.round (infoA.minimum.x
                  + E.round (E.round (((A.size - 1 : Nat) : K) + center.x)
                      * E.round (infoA.size / E.round ((A.size : K) - 1)))))
              ∧ (∀ q ∈ cellVertices E B infoB 0 u v,
                q.vertex.x = E.round (infoA.minimum.x + infoA.size
                  + E.round (E.round (0 + center.x)
                      * E.round (infoA.size / E.round ((A.size : K) - 1))))))
          ∧ ((∀ value, E.round value = value) →
              cellVertices E A infoA A.size u v = cellVertices E B infoB 0 u v)
          ∧ clamped A.size = A.size - 1 ∧ clamped 0 = 0
          ∧ (∀ dx dy dz, cornerSampled A A.size u v dx dy dz = true → dx = 0)
          ∧ (∀ dx dy dz, cornerSampled B 0 u v dx dy dz = true → dx = 0))
      ∧ (infoB.minimum = infoA.minimum.add ⟨0, infoA.size, 0⟩ → LayersAgree E.EDGE_COUNT A B 1 →
        cellSkipped A u A.size v = cellSkipped B u 0 v
          ∧ (cellVertices E A infoA u A.size v).map
              (fun p => (p.vertex.x, p.vertex.z, p.color, p.normal, p.materials,
                p.materialWeights))
            = (cellVertices E B infoB u 0 v).map
              (fun p => (p.vertex.x, p.vertex.z, p.color, p.normal, p.materials,
                p.materialWeights))
          ∧ (∃ center : Vec3 K,
              (∀ p ∈ cellVertices E A infoA u A.size v,
                p.vertex.y = E.round (infoA.minimum.y
                  + E.round (E.round (((A.size - 1 : Nat) : K) + center.y)
                      * E.round (infoA.size / E.round ((A.size : K) - 1)))))
              ∧ (∀ q ∈ cellVertices E B infoB u 0 v,
                q.vertex.y = E.round (infoA.minimum.y + infoA.size
                  + E.round (E.round (0 + center.y)
                      * E.round (infoA.size / E.round ((A.size : K) - 1))))))
          ∧ ((∀ value, E.round value = value) →
              cellVertices E A infoA u A.size v = cellVertices E B infoB u 0 v)
          ∧ clamped A.size = A.size - 1 ∧ clamped 0 = 0
          ∧ (∀ dx dy dz, cornerSampled A u A.size v dx dy dz = true → dy = 0)
          ∧ (∀ dx dy dz, cornerSampled B u 0 v dx dy dz = true → dy = 0))
      ∧ (infoB.minimum = infoA.minimum.add ⟨0, 0, infoA.size⟩ → LayersAgree E.EDGE_COUNT A B 2 →
        cellSkipped A u v A.size = cellSkipped B u v 0
          ∧ (cellVertices E A infoA u v A.size).map
              (fun p => (p.vertex.x, p.vertex.y, p.color, p.normal, p.materials,
                p.materialWeights))
            = (cellVertices E B infoB u v 0).map
              (fun p => (p.vertex.x, p.vertex.y, p.color, p.normal, p.materials,
                p.materialWeights))
          ∧ (∃ center : Vec3 K,
              (∀ p ∈ cellVertices E A infoA u v A.size,
                p.vertex.z = E.round (infoA.minimum.z
                  + E.round (E.round (((A.size - 1 : Nat) : K) + center.z)
                      * E.round (infoA.size / E.round ((A.size : K) - 1)))))
              ∧ (∀ q ∈ cellVertices E B infoB u v 0,
                q.vertex.z = E.round (infoA.minimum.z + infoA.size
                  + E.round (E.round (0 + center.z)
                      * E.round (infoA.size / E.round ((A.size : K) - 1))))))
          ∧ ((∀ value, E.round value = value) →
              cellVertices E A infoA u v A.size = cellVertices E B infoB u v 0)
          ∧ clamped A.size = A.size - 1 ∧ clamped 0 = 0
          ∧ (∀ dx dy dz, cornerSampled A u v A.size dx dy dz = true → dz = 0)
          ∧ (∀ dx dy dz, cornerSampled B u v 0 dx dy dz = true → dz = 0)) := by
  have mB := (middle_face B.size).2
  refine ⟨fun hmin hl => ?_, fun hmin hl => ?_, fun hmin hl => ?_⟩
  · obtain ⟨h1, hcross, hexact, h4⟩ :=
      face_cells_x E A B infoA infoB u v hsize h2 hu hv hinfo hmin hl
    refine ⟨h1, ?_, ⟨solvePosition E (cellCrossings E A A.size u v), ?_, ?_⟩, hexact,
      clamped_eq _, rfl, h4,
      fun dx dy dz h => (sampled_on_face B 0 u v dx dy dz h).1 mB⟩
    · refine cellVertices_map_congr E A B infoA infoB _ _ _ _ _ _ _ h1 hcross ?_ ?_
      · intro crossings normals
        unfold cellPoint
        simp only [hsize, hinfo, hmin, Vec3.add, add_zero]
      · intro p q normal hpq
        simp only [Prod.mk.injEq] at hpq ⊢
        exact ⟨hpq.1, hpq.2.1, hpq.2.2.1, rfl, hpq.2.2.2.2⟩
    · intro p hp
      rw [cellVertices_position E A infoA _ _ _ p hp]
      unfold cellPoint
      simp only [clamped_eq]
    · intro q hq
      rw [cellVertices_position E B infoB _ _ _ q hq, ← hcross]
      unfold cellPoint
      simp only [hsize, hinfo, hmin, Vec3.add, show clamped 0 = 0 from rfl, Nat.cast_zero]
  · obtain ⟨h1, hcross, hexact, h4⟩ :=
      face_cells_y E A B infoA infoB u v hsize h2 hu hv hinfo hmin hl
    refine ⟨h1, ?_, ⟨solvePosition E (cellCrossings E A u A.size v), ?_, ?_⟩, hexact,
      clamped_eq _, rfl, h4,
      fun dx dy dz h => (sampled_on_face B u 0 v dx dy dz h).2.1 mB⟩
    · refine cellVertices_map_congr E A B infoA infoB _ _ _ _ _ _ _ h1 hcross ?_ ?_
      · intro crossings normals
        unfold cellPoint
        simp only [hsize, hinfo, hmin, Vec3.add, add_zero]
      · intro p q normal hpq
        simp only [Prod.mk.injEq] at hpq ⊢
        exact ⟨hpq.1, hpq.2.1, hpq.2.2.1, rfl, hpq.2.2.2.2⟩
    · intro p hp
      rw [cellVertices_position E A infoA _ _ _ p hp]
      unfold cellPoint
      simp only [clamped_eq]
    · intro q hq
      rw [cellVertices_position E B infoB _ _ _ q hq, ← hcross]
      unfold cellPoint
      simp only [hsize, hinfo, hmin, Vec3.add, show clamped 0 = 0 from rfl, Nat.cast_zero]
  · obtain ⟨h1, hcross, hexact, h4⟩ :=
      face_cells_z E A B infoA infoB u v hsize h2 hu hv hinfo hmin hl
    refine ⟨h1, ?_, ⟨solvePosition E (cellCrossings E A u v A.size), ?_, ?_⟩, hexact,
      clamped_eq _, rfl, h4,
      fun dx dy dz h => (sampled_on_face B u v 0 dx dy dz h).2.2 mB⟩
    · refine cellVertices_map_congr E A B infoA infoB _ _ _ _ _ _ _ h1 hcross ?_ ?_
      · intro crossings normals
        unfold cellPoint
        simp only [hsize, hinfo, hmin, Vec3.add, add_zero]
      · intro p q normal hpq
        simp only [Prod.mk.injEq] at hpq ⊢
        exact ⟨hpq.1, hpq.2.1, hpq.2.2.1, rfl, hpq.2.2.2.2⟩
    · intro p hp
      rw [cellVertices_position E A infoA _ _ _ p hp]
      unfold cellPoint
      simp only [clamped_eq]
    · intro q hq
      rw [cellVertices_position E B infoB _ _ _ q hq, ← hcross]
      unfold cellPoint
      simp only [hsize, hinfo, hmin, Vec3.add, show clamped 0 = 0 from rfl, Nat.cast_zero]

/-- C19 (amended), on the block `floorBlock` in the leaf `unitInfo` and the leaf next to it
along x, in exact arithmetic. -/
theorem boundary_cells_agree_witness :
    (floorBlock.size = floorBlock.size ∧ 2 ≤ floorBlock.size ∧ 1 ≤ floorBlock.size
        ∧ LayersAgree rationalExternals.EDGE_COUNT floorBlock floorBlock 0)
      ∧ (cellVertices rationalExternals floorBlock unitInfo floorBlock.size 1 1).map
            (fun p => (p.vertex.y, p.vertex.z, p.color, p.normal, p.materials,
              p.materialWeights))
          = (cellVertices rationalExternals floorBlock
              ⟨unitInfo.minimum.add ⟨unitInfo.size, 0, 0⟩, unitInfo.size⟩ 0 1 1).map
            (fun p => (p.vertex.y, p.vertex.z, p.color, p.normal, p.materials,
              p.materialWeights))
      ∧ cellVertices rationalExternals floorBlock unitInfo floorBlock.size 1 1
        = cellVertices rationalExternals floorBlock
            ⟨unitInfo.minimum.add ⟨unitInfo.size, 0, 0⟩, unitInfo.size⟩ 0 1 1 :=
  ⟨⟨rfl, by decide, by decide, floorBlock_layers⟩,
    ((boundary_cells_agree rationalExternals floorBlock floorBlock unitInfo
      ⟨unitInfo.minimum.add ⟨unitInfo.size, 0, 0⟩, unitInfo.size⟩ 1 1 rfl (by decide)
      (by decide) (by decide) rfl).1 rfl floorBlock_layers).2.1,
    ((boundary_cells_agree rationalExternals floorBlock floorBlock unitInfo
      ⟨unitInfo.minimum.add ⟨unitInfo.size, 0, 0⟩, unitInfo.size⟩ 1 1 rfl (by decide)
      (by decide) (by decide) rfl).1 rfl floorBlock_layers).2.2.2.1 (fun _ => rfl)⟩


/-! ### The quads of the pass in the index array of its result -/

/-- In a loop that succeeds, what a relation kept by every step says of a state and the
next holds between the state after step `i` and the last state. -/
theorem foldlM_range_after {σ : Type} (f : σ → Nat → Except Fault σ) (R : σ → σ → Prop)
    (hrefl : ∀ s, R s s) (htrans : ∀ a b c, R a b → R b c → R a c)
    (hstep : ∀ s i s1, f s i = Except.ok s1 → R s s1) (n : Nat) (s0 s1 : σ)
    (h : (List.range n).foldlM f s0 = Except.ok s1) (i : Nat) (hi : i < n) (t t1 : σ)
    (ht : (List.range i).foldlM f s0 = Except.ok t) (ht1 : f t i = Except.ok t1) :
    R t1 s1 := by
  induction n generalizing s1 with
  | zero => omega
  | succ n ih =>
    rw [List.range_succ, List.foldlM_append] at h
    obtain ⟨u, hu, h2⟩ := except_bind_eq_ok _ _ _ h
    simp only [List.foldlM, bind, Except.bind, pure, Except.pure] at h2
    cases hf : f u n with
    | error e => rw [hf] at h2; cases h2
    | ok w =>
      rw [hf] at h2
      have e : w = s1 := Except.ok.inj h2
      rcases Nat.lt_succ_iff_lt_or_eq.1 hi with hlt | heq
      · have := ih u hu hlt
        exact htrans _ _ _ this (by rw [← e]; exact hstep u n w hf)
      · subst heq
        rw [hu] at ht
        have e2 : u = t := Except.ok.inj ht
        rw [← e2, hf] at ht1
        have e3 : w = t1 := Except.ok.inj ht1
        rw [← e3, e]
        exact hrefl _

/-- A property that each step of a loop keeps, when the step is taken from the state that
the loop has reached, holds at the end of a loop that succeeds. -/
theorem foldlM_range_history {σ : Type} (f : σ → Nat → Except Fault σ) (Q : σ → Prop)
    (n : Nat) (s0 s1 : σ) (h : (List.range n).foldlM f s0 = Except.ok s1)
    (hstep : ∀ i, i < n → ∀ t t1, (List.range i).foldlM f s0 = Except.ok t →
      f t i = Except.ok t1 → Q t → Q t1)
    (h0 : Q s0) : Q s1 :=
  (foldlM_range_invariant f (fun i s => (List.range i).foldlM f s0 = Except.ok s ∧ Q s) n
    (fun i hi s s1 hs hf => ⟨by
        rw [List.range_succ, List.foldlM_append, hs.1]
        simp only [bind, Except.bind, List.foldlM, hf]
        rfl, hstep i hi s s1 hs.1 hf hs.2⟩) s0 s1 h ⟨rfl, h0⟩).2

/-- A cell appends to the vertices, to the index array and to the multimap. -/
theorem visitCell_grows [FloorRing K] (E : Externals K) (b : Block) (info : MetavoxelInfo K)
    (x y z : Nat) (s s1 : ScanState K) (h : visitCell E b info x y z s = Except.ok s1) :
    s.Grows s1 := by
  unfold ScanState.Grows
  cases hu : (sampleAlphas b s.colorX x y z).uniform with
  | true =>
    unfold visitCell at h
    simp only [hu, if_true] at h
    cases h
    obtain ⟨ai, aq, av, -⟩ := advanceX_fields x s
    rw [ai, aq, av]
    exact ⟨List.prefix_refl _, List.prefix_refl _, List.prefix_refl _⟩
  | false =>
    obtain ⟨hn, -, s2, hs2, e1⟩ := visitCell_nonuniform E b info x y z s s1 hu h
    obtain ⟨-, added, hadd, -⟩ := emitVertices_spec s.vertices
      (cellPoint E b info x y z (extractCrossings E b s.colorX x y z)
        (clusterNormals E (extractCrossings E b s.colorX x y z)))
      (clusterNormals E (extractCrossings E b s.colorX x y z)) hn
    obtain ⟨qx, qy, qz, hi2, -⟩ := stitchCell_quads b x y z _ _ _ s2 hs2
    obtain ⟨-, q2, v2, -⟩ := stitchCell_spec b x y z _ _ _ s2 hs2
    obtain ⟨ai, aq, av, -⟩ := advanceX_fields x
      { s2 with
        lastIndex := some (emitVertices s.vertices
          (cellPoint E b info x y z (extractCrossings E b s.colorX x y z)
            (clusterNormals E (extractCrossings E b s.colorX x y z)))
          (clusterNormals E (extractCrossings E b s.colorX x y z))).1
        lineIndices := s2.lineIndices.set x (emitVertices s.vertices
          (cellPoint E b info x y z (extractCrossings E b s.colorX x y z)
            (clusterNormals E (extractCrossings E b s.colorX x y z)))
          (clusterNormals E (extractCrossings E b s.colorX x y z))).1
        planeIndices := s2.planeIndices.set (y * b.expanded + x) (emitVertices s.vertices
          (cellPoint E b info x y z (extractCrossings E b s.colorX x y z)
            (clusterNormals E (extractCrossings E b s.colorX x y z)))
          (clusterNormals E (extractCrossings E b s.colorX x y z))).1 }
    rw [← e1] at ai aq av
    refine ⟨?_, ?_, ?_⟩
    · rw [av]
      show s.vertices <+: s2.vertices
      rw [v2]
      exact ⟨added, hadd.symm⟩
    · rw [ai]
      show s.indices <+: s2.indices
      rw [hi2, List.append_assoc, List.append_assoc]
      exact List.prefix_append _ _
    · rw [aq]
      show s.quadIndices <+: s2.quadIndices
      rw [q2]
      exact List.prefix_append _ _

theorem grows_refl (s : ScanState K) : s.Grows s :=
  ⟨List.prefix_refl _, List.prefix_refl _, List.prefix_refl _⟩

theorem grows_trans (a b c : ScanState K) (h1 : a.Grows b) (h2 : b.Grows c) : a.Grows c :=
  ⟨h1.1.trans h2.1, h1.2.1.trans h2.2.1, h1.2.2.trans h2.2.2⟩

theorem grows_of_eq (s t : ScanState K) (hv : t.vertices = s.vertices)
    (hi : t.indices = s.indices) (hq : t.quadIndices = s.quadIndices) : s.Grows t := by
  unfold ScanState.Grows
  rw [hv, hi, hq]
  exact ⟨List.prefix_refl _, List.prefix_refl _, List.prefix_refl _⟩

theorem lineEnd_grows (b : Block) (y : Nat) (s : ScanState K) : s.Grows (lineEnd b y s) := by
  apply grows_of_eq <;> (unfold lineEnd; split_ifs <;> rfl)

theorem planeEnd_grows (b : Block) (z : Nat) (s : ScanState K) :
    s.Grows (planeEnd b z s) := by
  apply grows_of_eq <;> (unfold planeEnd; split_ifs <;> rfl)

/-- A loop whose steps append to the outputs appends to the outputs. -/
theorem foldlM_grows {ι : Type} (f : ScanState K → ι → Except Fault (ScanState K))
    (hstep : ∀ s i s1, f s i = Except.ok s1 → s.Grows s1) (l : List ι)
    (s0 s1 : ScanState K) (h : l.foldlM f s0 = Except.ok s1) : s0.Grows s1 :=
  foldlM_invariant f (fun t => s0.Grows t) l
    (fun i _ s t hs hf => grows_trans _ _ _ hs (hstep s i t hf)) s0 s1 h (grows_refl s0)

theorem visitLine_grows [FloorRing K] (E : Externals K) (b : Block) (info : MetavoxelInfo K)
    (z : Nat) (s : ScanState K) (y : Nat) (s1 : ScanState K)
    (h : visitLine E b info z s y = Except.ok s1) : s.Grows s1 := by
  rw [visitLine_eq] at h
  obtain ⟨ln, hln, e⟩ := except_bind_eq_ok _ _ _ h
  have e1 : lineEnd b y ln = s1 := Except.ok.inj e
  have g := foldlM_grows (fun st x => visitCell E b info x y z st)
    (fun s i s1 hf => visitCell_grows E b info i y z s s1 hf) _ _ ln hln
  rw [← e1]
  exact grows_trans _ _ _ (grows_trans _ _ _ (grows_of_eq _ _ rfl rfl rfl) g)
    (lineEnd_grows b y ln)

theorem visitPlane_grows [FloorRing K] (E : Externals K) (b : Block)
    (info : MetavoxelInfo K) (s : ScanState K) (z : Nat) (s1 : ScanState K)
    (h : visitPlane E b info s z = Except.ok s1) : s.Grows s1 := by
  rw [visitPlane_eq] at h
  obtain ⟨pl, hpl, e⟩ := except_bind_eq_ok _ _ _ h
  have e1 : planeEnd b z pl = s1 := Except.ok.inj e
  have g := foldlM_grows (visitLine E b info z)
    (fun s i s1 hf => visitLine_grows E b info z s i s1 hf) _ _ pl hpl
  rw [← e1]
  exact grows_trans _ _ _ (grows_trans _ _ _ (grows_of_eq _ _ rfl rfl rfl) g)
    (planeEnd_grows b z pl)

/-- A pass that ends without a fault has reached every cell and processed it without a
fault, and its result extends the outputs in the state after the cell. -/
theorem visit_cell_grows [FloorRing K] (E : Externals K) (b : Block)
    (info : MetavoxelInfo K) (s : ScanState K) (h : visit E b info = Except.ok s)
    (x y z : Nat) (bx : x < b.expanded) (by1 : y < b.expanded) (bz : z < b.expanded) :
    ∃ t t1, stateBefore E b info x y z = Except.ok t
      ∧ visitCell E b info x y z t = Except.ok t1 ∧ t1.Grows s := by
  obtain ⟨p, p1, hp, hp1⟩ := foldlM_range_reaches (visitPlane E b info) b.expanded _ s h z bz
  have rp : p1.Grows s := foldlM_range_after (visitPlane E b info) ScanState.Grows
    grows_refl grows_trans (fun s i s1 hf => visitPlane_grows E b info s i s1 hf)
    b.expanded _ s h z bz p p1 hp hp1
  rw [visitPlane_eq] at hp1
  obtain ⟨pl, hpl, e⟩ := except_bind_eq_ok _ _ _ hp1
  have e1 : planeEnd b z pl = p1 := Except.ok.inj e
  obtain ⟨l, l1, hl, hl1⟩ := foldlM_range_reaches (visitLine E b info z) b.expanded _ pl hpl
    y by1
  have rl : l1.Grows pl := foldlM_range_after (visitLine E b info z) ScanState.Grows
    grows_refl grows_trans (fun s i s1 hf => visitLine_grows E b info z s i s1 hf)
    b.expanded _ pl hpl y by1 l l1 hl hl1
  rw [visitLine_eq] at hl1
  obtain ⟨ln, hln, e2⟩ := except_bind_eq_ok _ _ _ hl1
  have e3 : lineEnd b y ln = l1 := Except.ok.inj e2
  obtain ⟨t, t1, ht, ht1⟩ := foldlM_range_reaches (fun st x => visitCell E b info x y z st)
    b.expanded _ ln hln x bx
  have rc : t1.Grows ln := foldlM_range_after (fun st x => visitCell E b info x y z st)
    ScanState.Grows grows_refl grows_trans
    (fun s i s1 hf => visitCell_grows E b info i y z s s1 hf)
    b.expanded _ ln hln x bx t t1 ht ht1
  refine ⟨t, t1, ?_, ht1, ?_⟩
  · unfold stateBefore
    exact except_bind_ok_of _ _ _ _ hp (except_bind_ok_of _ _ _ _ hl ht)
  · have g1 : ln.Grows l1 := by rw [← e3]; exact lineEnd_grows b y ln
    have g2 : pl.Grows p1 := by rw [← e1]; exact planeEnd_grows b z pl
    exact grows_trans _ _ _ rc (grows_trans _ _ _ g1 (grows_trans _ _ _ rl
      (grows_trans _ _ _ g2 rp)))

/-- A read of a vertex that succeeds reads the same vertex in a longer array. -/
theorem vertexAt_in_longer (vertices more : List (VoxelPoint K)) (index : Nat)
    (vertex : VoxelPoint K) (hpre : vertices <+: more)
    (h : vertexAt vertices index = Except.ok vertex) :
    vertexAt more index = Except.ok vertex := by
  obtain ⟨rest, rfl⟩ := hpre
  unfold vertexAt at h ⊢
  cases hget : vertices.get? index with
  | none => rw [hget] at h; cases h
  | some found =>
    rw [hget] at h
    have hlt : index < vertices.length := by
      rw [List.get?_eq_getElem?] at hget
      exact (List.getElem?_eq_some_iff.1 hget).1
    have e : (vertices ++ rest).get? index = some found := by
      rw [List.get?_eq_getElem?, List.getElem?_append_left hlt, ← List.get?_eq_getElem?]
      exact hget
    rw [e]
    exact h

theorem closestLoop_in_longer (normal : Vec3 K) (vertices more : List (VoxelPoint K))
    (hpre : vertices <+: more) (firstIndex : Nat) :
    ∀ (rest : List Nat) (closest : K) (closestIndex r : Nat),
      closestLoop normal vertices firstIndex rest closest closestIndex = Except.ok r →
      closestLoop normal more firstIndex rest closest closestIndex = Except.ok r := by
  intro rest
  induction rest with
  | nil => intro closest closestIndex r h; exact h
  | cons index rest ih =>
    intro closest closestIndex r h
    unfold closestLoop at h ⊢
    by_cases hi : index = firstIndex
    · rw [if_pos hi] at h ⊢
      exact h
    · rw [if_neg hi] at h ⊢
      obtain ⟨vertex, hv, h⟩ := except_bind_eq_ok _ _ _ h
      rw [vertexAt_in_longer vertices more index vertex hpre hv]
      show (if normalProduct normal vertex > closest then _ else _) = _
      have h2 : (if normalProduct normal vertex > closest then
          closestLoop normal vertices firstIndex rest (normalProduct normal vertex) index
        else closestLoop normal vertices firstIndex rest closest closestIndex) = Except.ok r := h
      by_cases hp : normalProduct normal vertex > closest
      · rw [if_pos hp] at h2 ⊢
        exact ih _ _ _ h2
      · rw [if_neg hp] at h2 ⊢
        exact ih _ _ _ h2

/-- A corner resolved in a vertex array is resolved to the same vertex in a longer
array. -/
theorem getClosestIndex_in_longer (self : NormalIndex) (normal : Vec3 K)
    (vertices more : List (VoxelPoint K)) (hpre : vertices <+: more) (r : Nat)
    (h : self.getClosestIndex normal vertices = Except.ok r) :
    self.getClosestIndex normal more = Except.ok r := by
  unfold NormalIndex.getClosestIndex at h ⊢
  obtain ⟨vertex, hv, h⟩ := except_bind_eq_ok _ _ _ h
  exact except_bind_ok_of _ _ _ _ (vertexAt_in_longer vertices more _ vertex hpre hv)
    (closestLoop_in_longer normal vertices more hpre _ _ _ _ _ h)

theorem mapM_ok_congr {α β : Type} (f g : α → Except Fault β) :
    ∀ (l : List α) (r : List β), (∀ a ∈ l, ∀ v, f a = Except.ok v → g a = Except.ok v) →
      l.mapM f = Except.ok r → l.mapM g = Except.ok r ∧ r.length = l.length := by
  intro l
  induction l with
  | nil =>
    intro r _ h
    simp only [List.mapM_nil, pure, Except.pure, Except.ok.injEq] at h ⊢
    exact ⟨h, by rw [← h]; rfl⟩
  | cons a rest ih =>
    intro r hfg h
    rw [List.mapM_cons] at h ⊢
    obtain ⟨v, hv, h⟩ := except_bind_eq_ok _ _ _ h
    obtain ⟨vs, hvs, h⟩ := except_bind_eq_ok _ _ _ h
    have e : v :: vs = r := Except.ok.inj h
    obtain ⟨i1, i2⟩ := ih vs (fun a ha => hfg a (List.mem_cons_of_mem _ ha)) hvs
    refine ⟨except_bind_ok_of _ _ _ _ (hfg a (List.mem_cons_self _ _) v hv)
      (except_bind_ok_of _ _ _ _ i1 (by rw [← e]; rfl)), ?_⟩
    rw [← e, List.length_cons, List.length_cons, i2]

theorem windingCells_length (x y z axis alpha0 : Nat) :
    (windingCells x y z axis alpha0).length = 4 := by
  unfold windingCells forwardCells
  split_ifs <;> rfl

/-- The four corners of a quad resolved in a vertex array are the same in a longer
array, and they are four. -/
theorem windingQuad_in_longer [FloorRing K] (E : Externals K) (b : Block)
    (x y z axis alpha0 : Nat) (vertices more : List (VoxelPoint K))
    (hpre : vertices <+: more) (quad : List Nat)
    (h : windingQuad E b x y z axis alpha0 vertices = Except.ok quad) :
    windingQuad E b x y z axis alpha0 more = Except.ok quad ∧ quad.length = 4 := by
  unfold windingQuad at h ⊢
  obtain ⟨normal, hn, h⟩ := except_bind_eq_ok _ _ _ h
  have hn2 : windingNormal E b x y z axis alpha0 more = Except.ok normal := by
    unfold windingNormal at hn ⊢
    obtain ⟨own, h1, hn⟩ := except_bind_eq_ok _ _ _ hn
    obtain ⟨firstVertex, h2, hn⟩ := except_bind_eq_ok _ _ _ hn
    obtain ⟨thirdVertex, h3, hn⟩ := except_bind_eq_ok _ _ _ hn
    exact except_bind_ok_of _ _ _ _ (vertexAt_in_longer _ _ _ _ hpre h1)
      (except_bind_ok_of _ _ _ _ (vertexAt_in_longer _ _ _ _ hpre h2)
        (except_bind_ok_of _ _ _ _ (vertexAt_in_longer _ _ _ _ hpre h3) hn))
  have h1 : (windingCells x y z axis alpha0).mapM (fun cell =>
      (cellIndex E b cell.1 cell.2.1 cell.2.2).getClosestIndex normal vertices)
      = Except.ok quad := h
  obtain ⟨m1, m2⟩ := mapM_ok_congr
    (fun cell : Nat × Nat × Nat =>
      (cellIndex E b cell.1 cell.2.1 cell.2.2).getClosestIndex normal vertices)
    (fun cell => (cellIndex E b cell.1 cell.2.1 cell.2.2).getClosestIndex normal more)
    (windingCells x y z axis alpha0) quad
    (fun cell _ v hv => getClosestIndex_in_longer _ normal vertices more hpre v hv) h1
  refine ⟨except_bind_ok_of _ _ _ _ hn2 m1, ?_⟩
  rw [m2]
  exact windingCells_length x y z axis alpha0

/-- The items registered for the quads of a cell: for the quad number `i`, along the axis
number `i` of the stitched axes, the four keys of the quad with the offset `start + 4 * i`. -/
theorem quadRegistrations_mem (x y z : Nat) (axes : List Nat) :
    ∀ (start : Nat) (item : Nat × Nat), item ∈ quadRegistrations start x y z axes
      ↔ ∃ i axis, axes.get? i = some axis ∧ item.1 ∈ quadKeys x y z axis
          ∧ item.2 = start + 4 * i := by
  induction axes with
  | nil =>
    intro start item
    simp [quadRegistrations]
  | cons axis rest ih =>
    intro start item
    simp only [quadRegistrations, List.mem_append, List.mem_map]
    constructor
    · rintro (⟨key, hkey, e⟩ | h)
      · exact ⟨0, axis, rfl, by rw [← e]; exact hkey, by rw [← e]; rfl⟩
      · obtain ⟨i, a, hget, hk, e⟩ := (ih (start + 4) item).1 h
        exact ⟨i + 1, a, hget, hk, by rw [e]; omega⟩
    · rintro ⟨i, a, hget, hk, e⟩
      cases i with
      | zero =>
        simp only [List.get?_cons_zero, Option.some.injEq] at hget
        subst hget
        exact Or.inl ⟨item.1, hk, by
          obtain ⟨k1, k2⟩ := item
          simp only at e
          rw [e]
          rfl⟩
      | succ i =>
        exact Or.inr ((ih (start + 4) item).2 ⟨i, a, hget, hk, by rw [e]; omega⟩)

theorem forall₂_get? {α β : Type} (R : α → β → Prop) :
    ∀ (l1 : List α) (l2 : List β), List.Forall₂ R l1 l2 → ∀ i a, l1.get? i = some a →
      ∃ c, l2.get? i = some c ∧ R a c := by
  intro l1 l2 h
  induction h with
  | nil => intro i a h; cases h
  | cons hr _ ih =>
    intro i a h
    cases i with
    | zero =>
      simp only [List.get?_cons_zero, Option.some.injEq] at h
      subst h
      exact ⟨_, rfl, hr⟩
    | succ i => exact ih i a h

/-- The entries of a list of quads laid end to end: entry `k` of quad `i` is at `4 * i + k`. -/
theorem flatten_quads_get? : ∀ (quads : List (List Nat)), (∀ quad ∈ quads, quad.length = 4) →
    ∀ i quad k, quads.get? i = some quad → k < 4 →
      quads.flatten.get? (4 * i + k) = quad.get? k := by
  intro quads
  induction quads with
  | nil => intro _ i quad k h; cases h
  | cons q rest ih =>
    intro hlen i quad k h hk
    have hq : q.length = 4 := hlen q (List.mem_cons_self _ _)
    cases i with
    | zero =>
      simp only [List.get?_cons_zero, Option.some.injEq] at h
      subst h
      simp only [List.flatten_cons, Nat.mul_zero, Nat.zero_add]
      rw [List.get?_eq_getElem?, List.getElem?_append_left (by omega), List.get?_eq_getElem?]
    | succ i =>
      simp only [List.flatten_cons]
      rw [List.get?_eq_getElem?, List.getElem?_append_right (by omega)]
      have e : 4 * (i + 1) + k - q.length = 4 * i + k := by omega
      rw [e, ← List.get?_eq_getElem?]
      exact ih (fun quad hquad => hlen quad (List.mem_cons_of_mem _ hquad)) i quad k h hk

/-- Every item of the multimap of a pass was registered by a cell of the pass, for one of
its quads, in the state in which the pass reached the cell. -/
theorem visit_items_registered [FloorRing K] (E : Externals K) (b : Block)
    (info : MetavoxelInfo K) (s : ScanState K) (h : visit E b info = Except.ok s) :
    ∀ item ∈ s.quadIndices, ∃ x y z t, x < b.expanded ∧ y < b.expanded ∧ z < b.expanded
      ∧ stateBefore E b info x y z = Except.ok t
      ∧ item ∈ quadRegistrations t.indices.length x y z (stitchedAxes b t.colorX x y z) := by
  unfold visit at h
  refine foldlM_range_history (visitPlane E b info)
    (fun s => ∀ item ∈ s.quadIndices, ∃ x y z t, x < b.expanded ∧ y < b.expanded
      ∧ z < b.expanded ∧ stateBefore E b info x y z = Except.ok t
      ∧ item ∈ quadRegistrations t.indices.length x y z (stitchedAxes b t.colorX x y z))
    b.expanded _ s h ?_ (by simp [initialState])
  intro z bz p p1 hp hp1 Qp
  rw [visitPlane_eq] at hp1
  obtain ⟨pl, hpl, e⟩ := except_bind_eq_ok _ _ _ hp1
  have e1 : planeEnd b z pl = p1 := Except.ok.inj e
  have hq1 : p1.quadIndices = pl.quadIndices := by
    rw [← e1]
    unfold planeEnd
    split_ifs <;> rfl
  rw [hq1]
  refine foldlM_range_history (visitLine E b info z)
    (fun s => ∀ item ∈ s.quadIndices, ∃ x y z t, x < b.expanded ∧ y < b.expanded
      ∧ z < b.expanded ∧ stateBefore E b info x y z = Except.ok t
      ∧ item ∈ quadRegistrations t.indices.length x y z (stitchedAxes b t.colorX x y z))
    b.expanded _ pl hpl ?_ Qp
  intro y by1 l l1 hl hl1 Ql
  rw [visitLine_eq] at hl1
  obtain ⟨ln, hln, e2⟩ := except_bind_eq_ok _ _ _ hl1
  have e3 : lineEnd b y ln = l1 := Except.ok.inj e2
  have hq2 : l1.quadIndices = ln.quadIndices := by
    rw [← e3]
    unfold lineEnd
    split_ifs <;> rfl
  show ∀ item ∈ l1.quadIndices, _
  rw [hq2]
  refine foldlM_range_history (fun st x => visitCell E b info x y z st)
    (fun s => ∀ item ∈ s.quadIndices, ∃ x y z t, x < b.expanded ∧ y < b.expanded
      ∧ z < b.expanded ∧ stateBefore E b info x y z = Except.ok t
      ∧ item ∈ quadRegistrations t.indices.length x y z (stitchedAxes b t.colorX x y z))
    b.expanded _ ln hln ?_ Ql
  intro x bx t t1 ht ht1 Qt
  have hstate : stateBefore E b info x y z = Except.ok t := by
    unfold stateBefore
    exact except_bind_ok_of _ _ _ _ hp (except_bind_ok_of _ _ _ _ hl ht)
  obtain ⟨-, hq⟩ := visitCell_quads E b info x y z t t1 ht1
  intro item hitem
  rw [hq] at hitem
  rcases List.mem_append.1 hitem with hold | hnew
  · exact Qt item hold
  · exact ⟨x, y, z, t, bx, by1, bz, hstate, hnew⟩

/-- The quads of a cell in the result of the pass. With `t` the state in which the pass
reaches the cell, quad number `i` of the cell, along the axis number `i` of its stitched
axes, is made of the four corners resolved for the cells of `windingCells`; they are the
entries `t.indices.length + 4 * i + k`, `k < 4`, of the index array of the result, and the
items registered for the quads of the cell are in the multimap of the result. -/
theorem cell_quads_in_result [FloorRing K] (E : Externals K) (b : Block)
    (info : MetavoxelInfo K) (s : ScanState K) (h : visit E b info = Except.ok s)
    (x y z : Nat) (bx : x < b.expanded) (by1 : y < b.expanded) (bz : z < b.expanded) :
    ∃ t, stateBefore E b info x y z = Except.ok t ∧ t.colorX = colorBase b x y z
      ∧ (∀ item ∈ quadRegistrations t.indices.length x y z
            (stitchedAxes b (colorBase b x y z) x y z), item ∈ s.quadIndices)
      ∧ ∀ i axis, (stitchedAxes b (colorBase b x y z) x y z).get? i = some axis →
          ∃ quad, windingQuad E b x y z axis (alphaOf (b.colorAt (colorBase b x y z) 0))
                s.vertices = Except.ok quad
            ∧ quad.length = 4
            ∧ ∀ k, k < 4 → s.indices.get? (t.indices.length + 4 * i + k) = quad.get? k := by
  have H := clusters_of_visit E b info s h
  obtain ⟨t, t1, ht, ht1, hgrow⟩ := visit_cell_grows E b info s h x y z bx by1 bz
  obtain ⟨t2, t3, quads, ht2, ht3, hidx, hquads⟩ :=
    cell_quads_winding E b info H x y z bx by1 bz
  rw [ht] at ht2
  have e : t = t2 := Except.ok.inj ht2
  subst e
  rw [ht1] at ht3
  have e : t1 = t3 := Except.ok.inj ht3
  subst e
  have hcx := (stateBefore_pointers E b info x y z t ht).colorX
  obtain ⟨-, hq⟩ := visitCell_quads E b info x y z t t1 ht1
  rw [hcx] at hq
  obtain ⟨hgv, hgi, hgq⟩ := hgrow
  refine ⟨t, ht, hcx, ?_, ?_⟩
  · intro item hitem
    apply hgq.subset
    rw [hq]
    exact List.mem_append_right _ hitem
  · have hlen : ∀ quad ∈ quads, quad.length = 4 := by
      intro quad hquad
      obtain ⟨i, hi⟩ := List.mem_iff_get?.1 hquad
      obtain ⟨axis, -, hw⟩ := forall₂_get? _ _ _ hquads.flip i quad hi
      exact (windingQuad_in_longer E b x y z axis _ _ _ (List.prefix_refl _) quad hw).2
    intro i axis haxis
    obtain ⟨quad, hquad, hw⟩ := forall₂_get? _ _ _ hquads i axis haxis
    obtain ⟨w1, w2⟩ := windingQuad_in_longer E b x y z axis _ _ _ hgv quad hw
    refine ⟨quad, w1, w2, ?_⟩
    intro k hk
    obtain ⟨rest, hrest⟩ := hgi
    have hkq : k < quad.length := by omega
    have hflat := flatten_quads_get? quads hlen i quad k hquad hk
    have hlt : 4 * i + k < quads.flatten.length := by
      have : quads.flatten.get? (4 * i + k) = some (quad.get ⟨k, hkq⟩) := by
        rw [hflat]
        exact List.get?_eq_get hkq
      rw [List.get?_eq_getElem?] at this
      exact (List.getElem?_eq_some_iff.1 this).1
    rw [← hrest, hidx, ← hflat, List.get?_eq_getElem?, List.get?_eq_getElem?,
      List.getElem?_append_left (by rw [List.length_append]; omega),
      List.getElem?_append_right (by omega)]
    congr 1
    omega

theorem quad_of_length_four (quad : List Nat) (h : quad.length = 4) :
    ∃ c0 c1 c2 c3, quad = [c0, c1, c2, c3] := by
  match quad, h with
  | [c0, c1, c2, c3], _ => exact ⟨c0, c1, c2, c3, rfl⟩

/-- C13 (amended). The index array that the pass produces is a sequence of quadruples: it
has four entries for each quad (as many entries as the multimap has items, each quad being
registered four times) and every registered offset is a multiple of four with its four
entries inside the array. Every stitched quad, that is every stitched axis of every cell,
is in the array as the four entries `c0, c1, c2, c3` of its corners (the corners resolved
for the cells of `windingCells`, in that order), at one offset under which the four keys of
the quad are registered; conversely the four entries at the offset of every item of the
multimap are the corners `c0, c1, c2, c3` of a stitched quad with the key of the item, and
the ray query reads them as the two triangles `(c0, c1, c2)` and `(c0, c2, c3)`, fanned
from corner 0. -/
theorem index_array_of_quads_read_as_fans [FloorRing K] (E : Externals K) (b : Block)
    (info : MetavoxelInfo K) (s : ScanState K) (h : visit E b info = Except.ok s) :
    s.indices.length % 4 = 0
      ∧ s.quadIndices.length = s.indices.length
      ∧ (∀ item ∈ s.quadIndices, item.2 % 4 = 0 ∧ item.2 + 4 ≤ s.indices.length)
      ∧ (∀ x y z, x < b.expanded → y < b.expanded → z < b.expanded →
          ∀ axis ∈ stitchedAxes b (colorBase b x y z) x y z,
            ∃ start c0 c1 c2 c3,
              windingQuad E b x y z axis (alphaOf (b.colorAt (colorBase b x y z) 0))
                  s.vertices = Except.ok [c0, c1, c2, c3]
              ∧ (∀ key ∈ quadKeys x y z axis, (key, start) ∈ s.quadIndices)
              ∧ s.indices.get? start = some c0 ∧ s.indices.get? (start + 1) = some c1
              ∧ s.indices.get? (start + 2) = some c2
              ∧ s.indices.get? (start + 3) = some c3)
      ∧ (∀ item ∈ s.quadIndices, ∃ x y z axis c0 c1 c2 c3 p0 p1 p2 p3,
          x < b.expanded ∧ y < b.expanded ∧ z < b.expanded
            ∧ axis ∈ stitchedAxes b (colorBase b x y z) x y z
            ∧ item.1 ∈ quadKeys x y z axis
            ∧ windingQuad E b x y z axis (alphaOf (b.colorAt (colorBase b x y z) 0))
                s.vertices = Except.ok [c0, c1, c2, c3]
            ∧ s.indices.get? item.2 = some c0 ∧ s.indices.get? (item.2 + 1) = some c1
            ∧ s.indices.get? (item.2 + 2) = some c2
            ∧ s.indices.get? (item.2 + 3) = some c3
            ∧ s.vertices.get? c0 = some p0 ∧ s.vertices.get? c1 = some p1
            ∧ s.vertices.get? c2 = some p2 ∧ s.vertices.get? c3 = some p3
            ∧ ∀ (test : TriangleTest K) (origin direction : Vec3 (Flt K)),
                testQuad test ⟨s.vertices, s.indices, s.quadIndices, b.size⟩ origin direction
                    item.2
                  = Except.ok (match test origin direction p0.vertex p1.vertex p2.vertex with
                      | some distance => some distance
                      | none => test origin direction p0.vertex p2.vertex p3.vertex))
      ∧ ∀ (test : TriangleTest K) (origin direction : Vec3 (Flt K)) (start : Nat)
          (v0 v1 v2 v3 : Vec3 K),
          (⟨s.vertices, s.indices, s.quadIndices, b.size⟩ : VoxelBuffer K).corner start 0
              = Except.ok v0 →
          (⟨s.vertices, s.indices, s.quadIndices, b.size⟩ : VoxelBuffer K).corner start 1
              = Except.ok v1 →
          (⟨s.vertices, s.indices, s.quadIndices, b.size⟩ : VoxelBuffer K).corner start 2
              = Except.ok v2 →
          (⟨s.vertices, s.indices, s.quadIndices, b.size⟩ : VoxelBuffer K).corner start 3
              = Except.ok v3 →
          testQuad test ⟨s.vertices, s.indices, s.quadIndices, b.size⟩ origin direction start
            = Except.ok (match test origin direction v0 v1 v2 with
                | some distance => some distance
                | none => test origin direction v0 v2 v3) := by
  have hinv := visit_invariant E b info
    (fun s => s.indices.length % 4 = 0 ∧ s.quadIndices.length = s.indices.length
      ∧ ∀ item ∈ s.quadIndices, item.2 % 4 = 0 ∧ item.2 + 4 ≤ s.indices.length)
    (fun s t _ hi hq _ hs => by
      show t.indices.length % 4 = 0 ∧ t.quadIndices.length = t.indices.length
        ∧ ∀ item ∈ t.quadIndices, item.2 % 4 = 0 ∧ item.2 + 4 ≤ t.indices.length
      rw [← hi, ← hq]
      exact hs)
    (fun x y z s s1 hs hcell => by
      obtain ⟨hi, hq⟩ := visitCell_quads E b info x y z s s1 hcell
      obtain ⟨p1, p2, p3⟩ := hs
      refine ⟨by rw [hi]; omega, ?_, ?_⟩
      · rw [hq, hi, List.length_append, quadRegistrations_length, p2]
      · intro item hitem
        rw [hq] at hitem
        rcases List.mem_append.1 hitem with hold | hnew
        · have := p3 item hold
          rw [hi]
          omega
        · obtain ⟨k, hk, e⟩ := quadRegistrations_offsets _ _ _ _ _ _ hnew
          rw [hi, e]
          omega)
    (by simp [initialState]) s h
  have hvalid : ∀ i ∈ s.indices, i < s.vertices.length := by
    have H := clusters_of_visit E b info s h
    obtain ⟨t, ht, inv⟩ := planes_total E b info H b.expanded (le_refl _)
    have e : t = s := by
      unfold visit at h
      rw [ht] at h
      exact Except.ok.inj h
    rw [e] at inv
    exact inv.indices
  have hcorner : ∀ start k c p, s.indices.get? (start + k) = some c →
      s.vertices.get? c = some p →
      (⟨s.vertices, s.indices, s.quadIndices, b.size⟩ : VoxelBuffer K).corner start k
        = Except.ok p.vertex := by
    intro start k c p hc hp
    unfold VoxelBuffer.corner
    simp only [hc, hp]
    rfl
  refine ⟨hinv.1, hinv.2.1, hinv.2.2, ?_, ?_, ?_⟩
  · intro x y z bx by1 bz axis haxis
    obtain ⟨t, -, -, hreg, hq⟩ := cell_quads_in_result E b info s h x y z bx by1 bz
    obtain ⟨i, hi⟩ := List.mem_iff_get?.1 haxis
    obtain ⟨quad, hw, hlen, hent⟩ := hq i axis hi
    obtain ⟨c0, c1, c2, c3, rfl⟩ := quad_of_length_four quad hlen
    refine ⟨t.indices.length + 4 * i, c0, c1, c2, c3, hw, ?_, hent 0 (by omega),
      hent 1 (by omega), hent 2 (by omega), hent 3 (by omega)⟩
    intro key hkey
    exact hreg _ ((quadRegistrations_mem x y z _ _ _).2 ⟨i, axis, hi, hkey, rfl⟩)
  · intro item hitem
    obtain ⟨x, y, z, t1, bx, by1, bz, hst, hmem⟩ :=
      visit_items_registered E b info s h item hitem
    obtain ⟨t, ht, hcx, -, hq⟩ := cell_quads_in_result E b info s h x y z bx by1 bz
    rw [ht] at hst
    have e : t = t1 := Except.ok.inj hst
    subst e
    rw [hcx] at hmem
    obtain ⟨i, axis, hi, hkey, hoff⟩ := (quadRegistrations_mem x y z _ _ _).1 hmem
    obtain ⟨quad, hw, hlen, hent⟩ := hq i axis hi
    obtain ⟨c0, c1, c2, c3, rfl⟩ := quad_of_length_four quad hlen
    rw [← hoff] at hent
    have h0 : s.indices.get? item.2 = some c0 := hent 0 (by omega)
    have h1 : s.indices.get? (item.2 + 1) = some c1 := hent 1 (by omega)
    have h2 : s.indices.get? (item.2 + 2) = some c2 := hent 2 (by omega)
    have h3 : s.indices.get? (item.2 + 3) = some c3 := hent 3 (by omega)
    obtain ⟨p0, hp0, -⟩ := vertexAt_of_lt s.vertices c0 (hvalid c0 (List.get?_mem h0))
    obtain ⟨p1, hp1, -⟩ := vertexAt_of_lt s.vertices c1 (hvalid c1 (List.get?_mem h1))
    obtain ⟨p2, hp2, -⟩ := vertexAt_of_lt s.vertices c2 (hvalid c2 (List.get?_mem h2))
    obtain ⟨p3, hp3, -⟩ := vertexAt_of_lt s.vertices c3 (hvalid c3 (List.get?_mem h3))
    refine ⟨x, y, z, axis, c0, c1, c2, c3, p0, p1, p2, p3, bx, by1, bz,
      List.get?_mem hi, hkey, hw, h0, h1, h2, h3, hp0, hp1, hp2, hp3, ?_⟩
    intro test origin direction
    exact testQuad_fan test _ origin direction item.2 _ _ _ _
      (hcorner item.2 0 c0 p0 h0 hp0) (hcorner item.2 1 c1 p1 h1 hp1)
      (hcorner item.2 2 c2 p2 h2 hp2) (hcorner item.2 3 c3 p3 h3 hp3)
  · intro test origin direction start v0 v1 v2 v3 h0 h1 h2 h3
    exact testQuad_fan test _ origin direction start v0 v1 v2 v3 h0 h1 h2 h3

theorem index_array_of_quads_read_as_fans_witness :
    ∃ s, visit rationalExternals (singleSolidBlock 0) unitInfo = Except.ok s
      ∧ s.indices.length % 4 = 0 ∧ s.quadIndices.length = s.indices.length
      ∧ ∃ start c0 c1 c2 c3,
          windingQuad rationalExternals (singleSolidBlock 0) 1 1 1 0
              (alphaOf ((singleSolidBlock 0).colorAt (colorBase (singleSolidBlock 0) 1 1 1) 0))
              s.vertices = Except.ok [c0, c1, c2, c3]
            ∧ (∀ key ∈ quadKeys 1 1 1 0, (key, start) ∈ s.quadIndices)
            ∧ s.indices.get? start = some c0 ∧ s.indices.get? (start + 1) = some c1
            ∧ s.indices.get? (start + 2) = some c2
            ∧ s.indices.get? (start + 3) = some c3 := by
  obtain ⟨s, hs⟩ := ok_of_faultOf_none _ singleSolidBlock_visit
  have h := index_array_of_quads_read_as_fans rationalExternals (singleSolidBlock 0)
    unitInfo s hs
  exact ⟨s, hs, h.1, h.2.1, h.2.2.2.1 1 1 1 (by decide) (by decide) (by decide) 0 (by decide)⟩

end Theorems

end MetavoxelSystem
